import Mathlib

/-!
# ParmParser: a shallow embedding of `parmparser.c`

The development follows the C source function by function.

* Bytes are natural numbers below 256; a C string is the list of its bytes
  before the terminating NUL.
* The input file is the list of its bytes; `fgets` is modelled on that list.
* Pointers into the pool of anchors and nodes are indices into two lists;
  `none` is the NULL pointer.  Allocation (`parmGtms`, a `calloc`) appends a
  zeroed record and is assumed to succeed.
* Loops are unrolled by a fuel argument; `none` is returned only when the
  fuel runs out, never as a result of the program.
* `parmParseNode` runs off its end without a `return` after a level is closed
  by a right brace; the value its caller then reads is not determined by the
  source, and is carried as the parameter `fall`.
* In the cursor functions a dereference of a NULL (or dangling) pointer is a
  fault, modelled by `none`.
-/

namespace ParmParser

/-! ## Constants of `parmparser.h` and `parmparser.c` -/

def PRMP_END : Nat := 0
def PRMP_STRING : Nat := 1
def PRMP_NEXTLEVEL : Nat := 2

def PRMP_MAX_LEVELS : Nat := 5
def PRMP_STRING_WORK_SIZE : Nat := 512

/-! ## Data model -/

/-- The record `struct _node`.  The C union of `value` and `nextlevel` is kept
as two fields, of which the code only reads the one selected by `type`. -/
structure PRMP_NODE where
  next : Option Nat := none
  key : Option (List Nat) := none
  type : Nat := 0
  value : Option (List Nat) := none
  nextlevel : Option Nat := none
  deriving DecidableEq, Repr

/-- The record `struct _anchor`: one level of the tree. -/
structure PRMP_ANCHOR where
  up : Option Nat := none
  first : Option Nat := none
  last : Option Nat := none
  deriving DecidableEq, Repr

/-- The record `PARSE_BLOCK`, without the fields used for messages only
(`linenbr`, `offset`).  `buf` is the text from the `buf` pointer to the end of
the line buffer, `str_wrk` holds the `str_len` bytes collected so far, and
`anchors`/`nodes` are the pool behind `gtms`. -/
structure PARSE_BLOCK where
  fs : List Nat := []
  buf : List Nat := []
  len : Nat := 0
  is_eof : Bool := false
  have_line : Bool := false
  str_wrk : List Nat := []
  str_wrk_len : Nat := 0
  anchors : List PRMP_ANCHOR := []
  nodes : List PRMP_NODE := []
  top_anchor : Nat := 0
  current_anchor : Option Nat := none
  deriving DecidableEq, Repr

/-- The record `PRMP_HANDLE` (the cursor).  The tree it walks is the pool
`anchors`/`nodes`, which no cursor function changes. -/
structure PRMP_HANDLE where
  anchor : Option Nat := none
  cur_anchor : Option Nat := none
  cur_node : Option Nat := none
  node_stack : List (Option Nat) := List.replicate 5 none
  node_stack_index : Nat := 0
  deriving DecidableEq, Repr

/-- The pool of a finished parse. -/
structure Pool where
  anchors : List PRMP_ANCHOR := []
  nodes : List PRMP_NODE := []
  deriving DecidableEq, Repr

/-! ## Reading lines -/

/-- The library call `fgets(buf, n + 1, fs)` on a stream that is not at its
end: at most `n` bytes are taken, stopping after a newline.  The third
component is the end-of-file indicator, set when the stream ran dry before a
newline was seen and before the buffer was full. -/
def fgets : Nat → List Nat → List Nat × List Nat × Bool
  | 0, fs => ([], fs, false)
  | _ + 1, [] => ([], [], true)
  | k + 1, c :: fs =>
    if c = 10 then ([c], fs, false)
    else
      let r := fgets k fs
      (c :: r.1, r.2.1, r.2.2)

/-- The library call `strlen`, as the text before the first NUL. -/
def strlen (s : List Nat) : List Nat := s.takeWhile (fun c => c ≠ 0)

/-- The `do ... while (len == 0)` loop of `callbackIo`.  Result: return code,
the line left in `next_buf`, the unread rest of the file. -/
def callbackIoLoop : Nat → List Nat → Int × List Nat × List Nat
  | 0, fs => (-4, [], fs)
  | k + 1, fs =>
    if fs = [] then (-4, [], fs)
    else
      let r := fgets (PRMP_STRING_WORK_SIZE - 1) fs
      if r.2.2 then (-4, r.1, r.2.1)
      else
        let s0 := strlen r.1
        if s0.length ≥ PRMP_STRING_WORK_SIZE then (-2, s0, r.2.1)
        else
          let s1 := if s0.getLast? = some 10 then s0.dropLast else s0
          let s2 := if s1.getLast? = some 13 then s1.dropLast else s1
          if s2.length = 0 then callbackIoLoop k r.2.1
          else ((s2.length : Int), s2, r.2.1)

/-- The function `callbackIo`: every turn of its loop takes at least one byte
from the file, so the length of the file plus one bounds the turns. -/
def callbackIo (p : PARSE_BLOCK) : Int × List Nat × List Nat :=
  callbackIoLoop (p.fs.length + 1) p.fs

/-! ## Scanner -/

/-- Lines 259-279 of `next_char`: deliver from the current line. -/
def next_char_line (p : PARSE_BLOCK) (lookahead in_quotes : Bool) : Nat × PARSE_BLOCK :=
  if p.len = 0 ∨ (p.buf.headD 0 = 35 ∧ in_quotes = false) then
    (32, { p with have_line := false, len := if lookahead then 1 else p.len })
  else
    (p.buf.headD 0,
      if lookahead then p else { p with buf := p.buf.tail, len := p.len - 1 })

/-- The function `next_char`.  Every path through the body of its `while(1)`
returns, so there is no loop to unroll. -/
def next_char (p : PARSE_BLOCK) (lookahead in_quotes : Bool) : Nat × PARSE_BLOCK :=
  if p.have_line = false then
    if p.len = 1 then
      (32, if lookahead then p else { p with len := 0 })
    else if p.is_eof then
      (255, p)
    else
      let r := callbackIo p
      if r.1 < 0 then
        (255, { p with fs := r.2.2, is_eof := true })
      else if r.1 = 0 then
        (255, { p with fs := r.2.2, is_eof := true })
      else
        next_char_line
          { p with fs := r.2.2, have_line := true, buf := r.2.1, len := r.1.toNat }
          lookahead in_quotes
  else
    next_char_line p lookahead in_quotes

/-! ## Lexer -/

/-- How a loop of `next_string` is left: by `return rc`, by `break` with the
character in `c`, or (main loop only) on to storing the character. -/
inductive Scan where
  | ret (rc : Int) (p : PARSE_BLOCK)
  | brk (c : Nat) (p : PARSE_BLOCK)
  | go (c : Nat) (in_quotes : Bool) (quote_char : Nat) (p : PARSE_BLOCK)
  deriving DecidableEq, Repr

/-- The loop of lines 297-299: gobble leading spaces. -/
def next_string_lead : Nat → PARSE_BLOCK → Option (Nat × PARSE_BLOCK)
  | 0, _ => none
  | k + 1, p =>
    let r := next_char p false false
    if r.1 ≠ 255 ∧ (r.1 = 32 ∨ r.1 = 0) then next_string_lead k r.2
    else some r

/-- Lines 303-327: the tests at the head of one turn of the main loop. -/
def next_string_test (p : PARSE_BLOCK) (c : Nat) (in_quotes : Bool) (quote_char : Nat) : Scan :=
  if p.is_eof = true then
    if in_quotes then .ret (-2) p else .brk c p
  else if in_quotes then
    if c = quote_char then .brk c p else .go c in_quotes quote_char p
  else if c = 34 ∨ c = 39 then
    if p.str_wrk.length > 0 then .ret (-2) p
    else
      let r := next_char p false true
      if r.1 = 255 then .ret 255 r.2 else .go r.1 true c r.2
  else if c = 32 ∨ c = 58 ∨ c = 123 ∨ c = 125 then .brk c p
  else .go c in_quotes quote_char p

/-- The main loop of lines 301-336. -/
def next_string_main : Nat → PARSE_BLOCK → Nat → Bool → Nat → Option Scan
  | 0, _, _, _, _ => none
  | k + 1, p, c, in_quotes, quote_char =>
    match next_string_test p c in_quotes quote_char with
    | .go c1 iq qc p1 =>
      if p1.str_wrk.length ≥ p1.str_wrk_len - 1 then some (.ret (-1) p1)
      else
        let p2 := { p1 with str_wrk := p1.str_wrk ++ [c1] }
        let r := next_char p2 false iq
        next_string_main k r.2 r.1 iq qc
    | s => some s

/-- The loop of lines 343-356: gobble trailing spaces by looking ahead. -/
def next_string_trail : Nat → PARSE_BLOCK → Nat → Option Scan
  | 0, _, _ => none
  | k + 1, p, c =>
    if c = 32 ∧ p.is_eof = false then
      let r := next_char p true false
      if r.1 = 255 then some (.ret 255 r.2)
      else if r.1 = 58 ∨ r.1 = 123 ∨ r.1 = 125 then
        let r2 := next_char r.2 false false
        if r2.1 = 255 then some (.ret 255 r2.2) else some (.brk r2.1 r2.2)
      else if r.1 ≠ 32 then some (.brk r.1 r.2)
      else
        let r3 := next_char r.2 false false
        if r3.1 = 255 then some (.ret 255 r3.2) else next_string_trail k r3.2 r3.1
    else some (.brk c p)

/-- The function `next_string`; `sf` is the fuel of each of its loops.  The
flag `isLookingForKey` is not read by the C code either. -/
def next_string (sf : Nat) (p : PARSE_BLOCK) (_isLookingForKey : Bool) : Option (Int × PARSE_BLOCK) :=
  match next_string_lead sf { p with str_wrk := [] } with
  | none => none
  | some (c, p1) =>
    match next_string_main sf p1 c false 0 with
    | none => none
    | some (.ret rc p2) => some (rc, p2)
    | some (.go _ _ _ _) => none
    | some (.brk c2 p2) =>
      match next_string_trail sf p2 c2 with
      | none => none
      | some (.ret rc p3) => some (rc, p3)
      | some (.go _ _ _ _) => none
      | some (.brk c3 p3) =>
        if c3 = 58 ∨ c3 = 123 ∨ c3 = 125 ∨ c3 = 255 then some ((c3 : Int), p3)
        else some (32, p3)

/-! ## Tree builder -/

/-- Conversion of an `int` to `unsigned char`. -/
def toUChar (i : Int) : Nat := (i % 256).toNat

/-- Update of the node behind a pointer. -/
def setNode (nodes : List PRMP_NODE) (i : Nat) (f : PRMP_NODE → PRMP_NODE) : List PRMP_NODE :=
  match nodes[i]? with
  | some n => nodes.set i (f n)
  | none => nodes

/-- Update of the anchor behind a pointer. -/
def setAnchor (anchors : List PRMP_ANCHOR) (i : Nat) (f : PRMP_ANCHOR → PRMP_ANCHOR) :
    List PRMP_ANCHOR :=
  match anchors[i]? with
  | some a => anchors.set i (f a)
  | none => anchors

/-- Lines 390-394 of `parse_key`: the collected string becomes the key of the
node. -/
def storeKey (p : PARSE_BLOCK) (node : Nat) : PARSE_BLOCK :=
  let nodes1 := setNode p.nodes node (fun n => { n with key := some p.str_wrk })
  { p with nodes := nodes1 }

/-- The function `parse_key`.  The result of `next_string` is stored in an
`unsigned char`, so the test `term_char < 0` never holds. -/
def parse_key (sf : Nat) (p : PARSE_BLOCK) (node : Nat) : Option (Int × PARSE_BLOCK) :=
  match next_string sf p true with
  | none => none
  | some (rc, p1) =>
    let term_char := toUChar rc
    if (term_char : Int) < 0 then some ((term_char : Int), p1)
    else if term_char = 255 then some ((term_char : Int), p1)
    else if term_char ≠ 58 then some (-2, p1)
    else if p1.str_wrk.length = 0 then some ((term_char : Int), p1)
    else some (0, storeKey p1 node)

/-- Lines 485-491 of `parmParseNode`: chain a finished node to its anchor. -/
def linkNode (p : PARSE_BLOCK) (anchor node : Nat) : PARSE_BLOCK :=
  match p.anchors[anchor]? with
  | none => p
  | some a =>
    if a.first = none then
      { p with anchors := p.anchors.set anchor { a with first := some node, last := some node } }
    else
      let nodes1 := match a.last with
        | some l => setNode p.nodes l (fun n => { n with next := some node })
        | none => p.nodes
      { p with nodes := nodes1, anchors := p.anchors.set anchor { a with last := some node } }

/-- Line 466 of `parmParseNode`: a zeroed node from the pool. -/
def allocNode (p : PARSE_BLOCK) : PARSE_BLOCK :=
  { p with nodes := p.nodes ++ [{}] }

/-- Lines 422-426 of `parse_value`: a zeroed anchor from the pool becomes the
next level of the node, with the current anchor as its `up`. -/
def newLevel (p : PARSE_BLOCK) (node : Nat) : PARSE_BLOCK :=
  let lvl := p.anchors.length
  let nodes1 := setNode p.nodes node
    (fun n => { n with nextlevel := some lvl, type := PRMP_NEXTLEVEL })
  { p with anchors := p.anchors ++ [{ up := p.current_anchor }], nodes := nodes1 }

/-- Lines 437-442 of `parse_value`: the collected string becomes the value of
the node. -/
def storeString (p : PARSE_BLOCK) (node : Nat) : PARSE_BLOCK :=
  let nodes1 := setNode p.nodes node
    (fun n => { n with type := PRMP_STRING, value := some p.str_wrk })
  { p with nodes := nodes1 }

mutual

/-- The function `parse_value`. -/
def parse_value : Nat → Int → Nat → PARSE_BLOCK → Nat → Option (Int × PARSE_BLOCK)
  | 0, _, _, _, _ => none
  | k + 1, fall, sf, p, node =>
    match next_string sf p false with
    | none => none
    | some (rc0, p1) =>
      let term_char := toUChar rc0
      if (term_char : Int) < 0 then some ((term_char : Int), p1)
      else if term_char = 255 then some ((term_char : Int), p1)
      else if term_char = 123 then
        if p1.str_wrk.length > 0 then some (-2, p1)
        else
          match parmParseNode k fall sf (newLevel p1 node) p1.anchors.length with
          | none => none
          | some (rc, p3) => if rc < 0 then some (rc, p3) else some (0, p3)
      else
        if p1.str_wrk.length ≤ 0 then some (-2, p1)
        else if term_char = 125 then some (1, storeString p1 node)
        else some (0, storeString p1 node)
termination_by structural fuel => fuel

/-- The `while(1)` loop of `parmParseNode`, with the two lines that follow a
`break`. -/
def parmParseNodeLoop : Nat → Int → Nat → PARSE_BLOCK → Nat → Option (Int × PARSE_BLOCK)
  | 0, _, _, _, _ => none
  | k + 1, fall, sf, p, anchor =>
    let node := p.nodes.length
    match parse_key sf (allocNode p) node with
    | none => none
    | some (rc1, p1) =>
      if rc1 < 0 then some (rc1, p1)
      else if p1.is_eof then some (0, p1)
      else
        match parse_value k fall sf p1 node with
        | none => none
        | some (rc, p2) =>
          if rc < 0 then some (rc, p2)
          else if p2.is_eof then some (-2, p2)
          else
            let p3 := linkNode p2 anchor node
            if rc > 0 then
              let up := (p3.anchors[anchor]?).bind (fun a => a.up)
              some (fall, { p3 with current_anchor := up })
            else parmParseNodeLoop k fall sf p3 anchor
termination_by structural fuel => fuel

/-- The function `parmParseNode`. -/
def parmParseNode : Nat → Int → Nat → PARSE_BLOCK → Nat → Option (Int × PARSE_BLOCK)
  | 0, _, _, _, _ => none
  | k + 1, fall, sf, p, anchor =>
    parmParseNodeLoop k fall sf { p with current_anchor := some anchor } anchor
termination_by structural fuel => fuel

end

/-- The block built by `initParseBlock`, with the file opened on it. -/
def initParseBlock (file : List Nat) : PARSE_BLOCK :=
  { fs := file, str_wrk_len := PRMP_STRING_WORK_SIZE, anchors := [{}], top_anchor := 0 }

/-- The function `parmParse`: on success the handle is a zeroed record whose
`anchor` is the top anchor. -/
def parmParse (fuel : Nat) (fall : Int) (p : PARSE_BLOCK) :
    Option (Int × Option (Pool × PRMP_HANDLE)) :=
  match parmParseNode fuel fall fuel p p.top_anchor with
  | none => none
  | some (rc, p1) =>
    if rc < 0 then some (rc, none)
    else some (0, some ({ anchors := p1.anchors, nodes := p1.nodes },
                        { anchor := some p1.top_anchor }))

/-- The function `parmParseFile` on a file that can be opened, given by its
bytes.  The result is the return code and, when a handle was stored, the tree
and the handle. -/
def parmParseFile (fuel : Nat) (fall : Int) (file : List Nat) :
    Option (Int × Option (Pool × PRMP_HANDLE)) :=
  parmParse fuel fall (initParseBlock file)

/-! ## Cursor -/

/-- Outcome of a cursor call: it returns, or it faults on a NULL (or dangling)
pointer. -/
inductive Outcome (α : Type) where
  | done (a : α)
  | fault
  deriving DecidableEq, Repr

/-- What a call of `parmGetNext`, `parmFindKey` or `parmFindNextKey` leaves
behind: the return code, the cursor, and the strings stored through the `key`
and `value` pointers (`none` when the call stored nothing there, or stored the
NULL pointer of a node without that string). -/
structure Answer where
  rc : Int
  h : PRMP_HANDLE
  key : Option (List Nat) := none
  value : Option (List Nat) := none
  deriving DecidableEq, Repr

/-- The function `parmSetBegin`. -/
def parmSetBegin (h : PRMP_HANDLE) : PRMP_HANDLE :=
  { h with cur_anchor := none, cur_node := none, node_stack_index := 0 }

/-- The guard shared by `parmGetNext`, `parmFindKey` and `parmFindNextKey`:
a cursor without a level starts at the top level. -/
def startAtTop (h : PRMP_HANDLE) : PRMP_HANDLE :=
  if h.cur_anchor = none then { h with cur_anchor := h.anchor, cur_node := none } else h

/-- Lines 599-605, 669-674 and 706-711: report the node the cursor is on. -/
def report (h : PRMP_HANDLE) (n : PRMP_NODE) (withKey : Bool) : Answer :=
  if n.type = PRMP_STRING then
    { rc := (PRMP_STRING : Int), h := h, key := if withKey then n.key else none, value := n.value }
  else
    { rc := (n.type : Int), h := h, key := if withKey then n.key else none }

/-- The function `parmGetNext`. -/
def parmGetNext (m : Pool) (h : PRMP_HANDLE) : Outcome Answer :=
  let h1 := startAtTop h
  let step : Outcome (Option Nat) :=
    match h1.cur_node with
    | none =>
      match h1.cur_anchor.bind (fun a => m.anchors[a]?) with
      | none => .fault
      | some a => .done a.first
    | some i =>
      match m.nodes[i]? with
      | none => .fault
      | some n => .done n.next
  match step with
  | .fault => .fault
  | .done none => .done { rc := (PRMP_END : Int), h := { h1 with cur_node := none } }
  | .done (some j) =>
    match m.nodes[j]? with
    | none => .fault
    | some n => .done (report { h1 with cur_node := some j } n true)

/-- The function `parmLevelDown`. -/
def parmLevelDown (m : Pool) (h : PRMP_HANDLE) : Outcome (Int × PRMP_HANDLE) :=
  match h.cur_node with
  | none => .done (-1, h)
  | some i =>
    match m.nodes[i]? with
    | none => .fault
    | some n =>
      if n.type = PRMP_NEXTLEVEL ∧ h.node_stack_index < PRMP_MAX_LEVELS then
        .done (0, { h with
          cur_anchor := n.nextlevel
          node_stack := h.node_stack.set h.node_stack_index (some i)
          node_stack_index := h.node_stack_index + 1
          cur_node := none })
      else .done (-1, h)

/-- The function `parmLevelUp`. -/
def parmLevelUp (m : Pool) (h : PRMP_HANDLE) : Outcome (Int × PRMP_HANDLE) :=
  match h.cur_anchor.bind (fun a => m.anchors[a]?) with
  | none => .fault
  | some a =>
    if a.up ≠ none ∧ h.node_stack_index > 0 then
      match h.node_stack[h.node_stack_index - 1]? with
      | none => .fault
      | some top =>
        .done (0, { h with
          cur_anchor := a.up
          node_stack_index := h.node_stack_index - 1
          cur_node := top })
    else .done (-1, h)

/-- The search loop of lines 666-677 and 704-714 (the same text in both
functions); `strcmp` faults on the NULL key of a node. -/
def findLoop : Nat → Pool → PRMP_HANDLE → List Nat → Option (Outcome Answer)
  | 0, _, _, _ => none
  | k + 1, m, h, key =>
    match h.cur_node with
    | none => some (.done { rc := (PRMP_END : Int), h := h })
    | some i =>
      match m.nodes[i]? with
      | none => some .fault
      | some n =>
        match n.key with
        | none => some .fault
        | some nk =>
          if nk = key then some (.done (report h n false))
          else findLoop k m { h with cur_node := n.next } key

/-- The function `parmFindKey`. -/
def parmFindKey (fuel : Nat) (m : Pool) (h : PRMP_HANDLE) (key : List Nat) :
    Option (Outcome Answer) :=
  let h1 := startAtTop h
  match h1.cur_anchor.bind (fun a => m.anchors[a]?) with
  | none => some .fault
  | some a => findLoop fuel m { h1 with cur_node := a.first } key

/-- The function `parmFindNextKey`. -/
def parmFindNextKey (fuel : Nat) (m : Pool) (h : PRMP_HANDLE) (key : List Nat) :
    Option (Outcome Answer) :=
  let h1 := startAtTop h
  match h1.cur_node with
  | none =>
    match h1.cur_anchor.bind (fun a => m.anchors[a]?) with
    | none => some .fault
    | some a => findLoop fuel m { h1 with cur_node := a.first } key
  | some i =>
    match m.nodes[i]? with
    | none => some .fault
    | some n => findLoop fuel m { h1 with cur_node := n.next } key

/-! ## Vocabulary of the statements -/

/-- Two runs that differ only in the value read after a run off the end of
`parmParseNode`: the same state, and the same return code unless both codes
are that value. -/
def FallRel {α : Type} (fall fall' : Int) (x y : Option (Int × α)) : Prop :=
  match x, y with
  | none, none => True
  | some (rc, p), some (rc', p') => p = p' ∧ (rc = rc' ∨ (rc = fall ∧ rc' = fall'))
  | _, _ => False

/-- The bytes of a text. -/
def bytes (s : String) : List Nat := s.toList.map Char.toNat

/-- The end-to-end example document of the specification. -/
def exampleDoc : List Nat :=
  bytes "email: a@b.com\ndownload: \x7b\n   from: \"x/y.pdf\"\n   to:   \"z/\"\n\x7d\ndownload: \x7b\n   from: \"p/q.docx\"\n\x7d\n"

/-- The `next` pointer of the node behind a pointer. -/
def nextOf (nodes : List PRMP_NODE) (i : Nat) : Option Nat := (nodes[i]?).bind (fun n => n.next)

/-- The nodes `l`, in this order, are the chain that starts at the pointer `p`
and ends with a NULL `next`. -/
def IsChain (nodes : List PRMP_NODE) : Option Nat → List Nat → Prop
  | p, [] => p = none
  | p, i :: l => p = some i ∧ i < nodes.length ∧ IsChain nodes (nextOf nodes i) l

instance decIsChain (nodes : List PRMP_NODE) :
    (p : Option Nat) → (l : List Nat) → Decidable (IsChain nodes p l)
  | p, [] => inferInstanceAs (Decidable (p = none))
  | p, i :: l =>
    have := decIsChain nodes (nextOf nodes i) l
    inferInstanceAs (Decidable (p = some i ∧ i < nodes.length ∧ IsChain nodes (nextOf nodes i) l))

/-- The node behind a pointer of the pool. -/
def nodeAt (m : Pool) (i : Nat) : PRMP_NODE := m.nodes.getD i {}

/-- What a call reports of an entry: its type, its key and, for a string
entry, its value. -/
def entry (n : PRMP_NODE) : Int × Option (List Nat) × Option (List Nat) :=
  if n.type = PRMP_STRING then ((PRMP_STRING : Int), n.key, n.value)
  else ((n.type : Int), n.key, none)

/-- The return code and the strings of an answer. -/
def view (a : Answer) : Int × Option (List Nat) × Option (List Nat) := (a.rc, a.key, a.value)

/-- The answer of a call that found the level exhausted. -/
def endAnswer (h : PRMP_HANDLE) : Answer :=
  { rc := (PRMP_END : Int), h := { h with cur_node := none } }

/-- The cursor stands in level `A` with the entries `l` still ahead. -/
def Ahead (m : Pool) (h : PRMP_HANDLE) (A : Nat) (l : List Nat) : Prop :=
  h.cur_anchor = some A ∧
  match h.cur_node with
  | none => IsChain m.nodes ((m.anchors[A]?).bind (fun a => a.first)) l ∧ A < m.anchors.length
  | some i => i < m.nodes.length ∧ IsChain m.nodes (nextOf m.nodes i) l

/-- The answers of `n` successive calls of `parmGetNext`. -/
def getNextCalls (m : Pool) : Nat → PRMP_HANDLE → Outcome (List Answer)
  | 0, _ => .done []
  | n + 1, h =>
    match parmGetNext m h with
    | .fault => .fault
    | .done a =>
      match getNextCalls m n a.h with
      | .fault => .fault
      | .done as => .done (a :: as)

/-- The level behind the pointer `A` exists and its entries are `l`, in this order. -/
def IsLevel (m : Pool) (A : Nat) (l : List Nat) : Prop :=
  A < m.anchors.length ∧ IsChain m.nodes ((m.anchors[A]?).bind (fun a => a.first)) l

instance decIsLevel (m : Pool) (A : Nat) (l : List Nat) : Decidable (IsLevel m A l) :=
  inferInstanceAs (Decidable (_ ∧ _))

/-- Where an answer leaves the cursor, with its return code and value. -/
def place (a : Answer) : Option Nat × Int × Option (List Nat) := (a.h.cur_node, a.rc, a.value)

/-- Calls of `parmGetNext` repeated until one returns `PRMP_END`: the answers
before that one. -/
def getNextUntilEnd : Nat → Pool → PRMP_HANDLE → Option (Outcome (List Answer))
  | 0, _, _ => none
  | k + 1, m, h =>
    match parmGetNext m h with
    | .fault => some .fault
    | .done a =>
      if a.rc = (PRMP_END : Int) then some (.done [])
      else
        match getNextUntilEnd k m a.h with
        | none => none
        | some .fault => some .fault
        | some (.done as) => some (.done (a :: as))

/-- Calls of `parmFindNextKey` repeated until one returns `PRMP_END`: the
answers before that one. -/
def findNextUntilEnd : Nat → Pool → PRMP_HANDLE → List Nat → Option (Outcome (List Answer))
  | 0, _, _, _ => none
  | k + 1, m, h, key =>
    match parmFindNextKey (k + 1) m h key with
    | none => none
    | some .fault => some .fault
    | some (.done a) =>
      if a.rc = (PRMP_END : Int) then some (.done [])
      else
        match findNextUntilEnd k m a.h key with
        | none => none
        | some .fault => some .fault
        | some (.done as) => some (.done (a :: as))

/-- One call of `parmFindKey`, then calls of `parmFindNextKey`, until
`PRMP_END` is returned: the answers before that one. -/
def findUntilEnd (fuel : Nat) (m : Pool) (h : PRMP_HANDLE) (key : List Nat) :
    Option (Outcome (List Answer)) :=
  match parmFindKey fuel m h key with
  | none => none
  | some .fault => some .fault
  | some (.done a) =>
    if a.rc = (PRMP_END : Int) then some (.done [])
    else
      match findNextUntilEnd fuel m a.h key with
      | none => none
      | some .fault => some .fault
      | some (.done as) => some (.done (a :: as))

/-- The entry behind `j` is a string or a nested level and has a key. -/
def Sound (m : Pool) (j : Nat) : Prop :=
  (nodeAt m j).key ≠ none ∧ ((nodeAt m j).type = PRMP_STRING ∨ (nodeAt m j).type = PRMP_NEXTLEVEL)

instance decSound (m : Pool) (j : Nat) : Decidable (Sound m j) :=
  inferInstanceAs (Decidable (_ ∧ _))

/-- The key of the entry behind `j` is byte for byte the string `key`. -/
def hit (m : Pool) (key : List Nat) (j : Nat) : Bool := decide ((nodeAt m j).key = some key)

/-- A document whose last entry has a bare value. -/
def bareDoc : List Nat := bytes "a: b\nc: d\n"

/-- A document nested six levels deep below the root. -/
def deepDoc : List Nat :=
  bytes "a: \x7b\n b: \x7b\n  c: \x7b\n   d: \x7b\n    e: \x7b\n     f: \x7b\n      g: h \x7d\n     x: y \x7d\n    x: y \x7d\n   x: y \x7d\n  x: y \x7d\n x: y \x7d\n"

/-- Calls of `parmGetNext` each followed by `parmLevelDown`, `n` times: the
two return codes of each round. -/
def descents (m : Pool) : Nat → PRMP_HANDLE → Outcome (List (Int × Int))
  | 0, _ => .done []
  | n + 1, h =>
    match parmGetNext m h with
    | .fault => .fault
    | .done a =>
      match parmLevelDown m a.h with
      | .fault => .fault
      | .done (rc, h1) =>
        match descents m n h1 with
        | .fault => .fault
        | .done rest => .done ((a.rc, rc) :: rest)

/-- The six descents into the tree of a parse. -/
def sixDescents (r : Option (Int × Option (Pool × PRMP_HANDLE))) : Option (Int × Outcome (List (Int × Int))) :=
  match r with
  | some (rc, some (m, h)) => some (rc, descents m 6 (parmSetBegin h))
  | _ => none

/-- A document with a scalar, two nested levels under the same key, and a
quoted scalar at the end. -/
def sampleDoc : List Nat :=
  bytes "email: a@b.com\ndownload: \x7b\n from: \"x/y.pdf\"\n to: z/ \x7d\ndownload: \x7b\n from: \"p/q.docx\"\n to: w \x7d\nlast: 'v'\n"

/-- The tree of a parse (empty when the parse stored no handle). -/
def treeOf (r : Option (Int × Option (Pool × PRMP_HANDLE))) : Pool :=
  match r with
  | some (_, some (m, _)) => m
  | _ => {}

/-- The handle of a parse (zeroed when the parse stored no handle). -/
def handleOf (r : Option (Int × Option (Pool × PRMP_HANDLE))) : PRMP_HANDLE :=
  match r with
  | some (_, some (_, h)) => h
  | _ => {}

/-- The tree of the sample document. -/
def sampleTree : Pool := treeOf (parmParseFile 40 0 sampleDoc)

/-- The handle of the sample document. -/
def sampleHandle : PRMP_HANDLE := handleOf (parmParseFile 40 0 sampleDoc)

/-- The run `parmParseNodeLoop k fall sf p a` arrives at the head of the entry
loop as `parmParseNodeLoop k' fall sf q a'`: at once, after an entry was
completed and chained, or inside the level that the value of an entry opens. -/
inductive Reaches (fall : Int) (sf : Nat) :
    Nat → PARSE_BLOCK → Nat → Nat → PARSE_BLOCK → Nat → Prop where
  | here (k : Nat) (p : PARSE_BLOCK) (a : Nat) : Reaches fall sf k p a k p a
  | next (k : Nat) (p : PARSE_BLOCK) (a : Nat) (rc1 : Int) (p1 p2 : PARSE_BLOCK)
      (k' : Nat) (q : PARSE_BLOCK) (a' : Nat) :
      parse_key sf (allocNode p) p.nodes.length = some (rc1, p1) → 0 ≤ rc1 →
      p1.is_eof = false →
      parse_value k fall sf p1 p.nodes.length = some (0, p2) → p2.is_eof = false →
      Reaches fall sf k (linkNode p2 a p.nodes.length) a k' q a' →
      Reaches fall sf (k + 1) p a k' q a'
  | down (k : Nat) (p : PARSE_BLOCK) (a : Nat) (rc1 rc0 : Int) (p1 p2 : PARSE_BLOCK)
      (k' : Nat) (q : PARSE_BLOCK) (a' : Nat) :
      parse_key sf (allocNode p) p.nodes.length = some (rc1, p1) → 0 ≤ rc1 →
      p1.is_eof = false →
      next_string sf p1 false = some (rc0, p2) → toUChar rc0 = 123 → p2.str_wrk.length = 0 →
      Reaches fall sf k { newLevel p2 p.nodes.length with current_anchor := some p2.anchors.length }
        p2.anchors.length k' q a' →
      Reaches fall sf (k + 3) p a k' q a'

/-- The state in which `parmParseFile` enters the entry loop of the top level. -/
def rootStart (file : List Nat) : PARSE_BLOCK :=
  { initParseBlock file with current_anchor := some 0 }

/-- During `parmParseFile fuel fall file` the entry loop of `parmParseNode`
is entered in state `q` for the level `a`, with fuel `k` left. -/
def AtKey (fuel : Nat) (fall : Int) (file : List Nat) (k : Nat) (q : PARSE_BLOCK) (a : Nat) : Prop :=
  ∃ j, fuel = j + 1 ∧
    Reaches fall fuel j (rootStart file) 0 k q a

/-- The result of a call that returned, for use where the result is named. -/
def got (r : Option (Int × PARSE_BLOCK)) : Int × PARSE_BLOCK := r.getD (0, {})

/-- A key followed by a second token instead of a colon. -/
def keyValueDoc : List Nat := bytes "key value\n"

/-- A key followed by the end of input. -/
def keyOnlyDoc : List Nat := bytes "key\n"

/-- A level opened inside another level, neither of them closed. -/
def openLevelsDoc : List Nat := bytes "a: \x7b\n b: \x7b\n"

/-- The state after the first key of a file. -/
def afterFirstKey (fuel : Nat) (file : List Nat) : Int × PARSE_BLOCK :=
  got (parse_key fuel (allocNode (rootStart file)) 0)

/-- The state after the token that follows the first key of a file. -/
def afterFirstValueToken (fuel : Nat) (file : List Nat) : Int × PARSE_BLOCK :=
  got (next_string fuel (afterFirstKey fuel file).2 false)

/-- The state in which the entry loop is entered for the level that the first
value of a file opens. -/
def firstLevelStart (fuel : Nat) (file : List Nat) : PARSE_BLOCK :=
  { newLevel (afterFirstValueToken fuel file).2 0 with
    current_anchor := some (afterFirstValueToken fuel file).2.anchors.length }

/-- The scanner inside a line: `buf` is the unread text of the line, `rest`
the unread lines. -/
def inLine (p : PARSE_BLOCK) (buf rest : List Nat) : PARSE_BLOCK :=
  { p with fs := rest, buf := buf, len := buf.length, is_eof := false, have_line := true }

/-- The scanner between two lines: the last line is used up, `rest` are the
unread lines. -/
def offLine (p : PARSE_BLOCK) (rest : List Nat) : PARSE_BLOCK :=
  { p with fs := rest, len := 0, is_eof := false, have_line := false }

/-- A line that `callbackIo` delivers unchanged: not empty, at most 510
bytes, without NUL and newline, not ending in a carriage return. -/
def GoodLine (line : List Nat) : Prop :=
  line ≠ [] ∧ line.length ≤ 510 ∧ (∀ c ∈ line, c ≠ 0 ∧ c ≠ 10) ∧ line.getLast? ≠ some 13

/-- A byte that the main loop of `next_string` stores outside quotes. -/
def Plain (c : Nat) : Prop :=
  c ≠ 32 ∧ c ≠ 34 ∧ c ≠ 39 ∧ c ≠ 58 ∧ c ≠ 123 ∧ c ≠ 125

/-- A byte of a bare token: not white space, a quote, a structural character,
the comment character, NUL or newline. -/
def BareByte (c : Nat) : Prop :=
  c ≠ 0 ∧ c ≠ 10 ∧ c ≠ 32 ∧ c ≠ 34 ∧ c ≠ 35 ∧ c ≠ 39 ∧ c ≠ 58 ∧ c ≠ 123 ∧ c ≠ 125

instance decBareByte (c : Nat) : Decidable (BareByte c) := inferInstanceAs (Decidable (_ ∧ _))

/-- A byte of a string in double quotes, as the claims delimit it: no double
quote, no line terminator, no NUL and no 0xFF. -/
def QuotedByte (c : Nat) : Prop :=
  c ≠ 34 ∧ c ≠ 10 ∧ c ≠ 13 ∧ c ≠ 0 ∧ c ≠ 255

instance decQuotedByte (c : Nat) : Decidable (QuotedByte c) := inferInstanceAs (Decidable (_ ∧ _))

/-- The scanner where a new line is due: at the end of a used-up line
(`true`) or between lines (`false`). -/
def boundary (b : Bool) (p : PARSE_BLOCK) (fs : List Nat) : PARSE_BLOCK :=
  if b then inLine p [] fs else offLine p fs

/-- The parse block after a scalar entry `key: value` was read and chained to
the top anchor: lines 466, 390-394, 437-442 and 485-491 on the pool. -/
def entryDone (p : PARSE_BLOCK) (key value : List Nat) : PARSE_BLOCK :=
  let j := p.nodes.length
  let p1 := storeKey { allocNode p with str_wrk := key } j
  linkNode (storeString { p1 with str_wrk := value } j) 0 j

/-- The string node of an entry `key: value`, before it is chained. -/
def freshScalar (k v : List Nat) : PRMP_NODE :=
  { key := some k, type := PRMP_STRING, value := some v }

/-- The file whose lines are `key: "value"` for the given pairs, each line
ended by a newline. -/
def quotedDoc : List (List Nat × List Nat) → List Nat
  | [] => []
  | kv :: rest => kv.1 ++ 58 :: 32 :: 34 :: kv.2 ++ 34 :: 10 :: quotedDoc rest

/-- A pair that makes a line `key: "value"` of at most 510 bytes: the key a
bare token, the value a string of quoted bytes, neither empty. -/
def GoodPair (kv : List Nat × List Nat) : Prop :=
  kv.1 ≠ [] ∧ (∀ x ∈ kv.1, BareByte x) ∧ kv.2 ≠ [] ∧ (∀ x ∈ kv.2, QuotedByte x) ∧
    kv.1.length + kv.2.length + 4 ≤ 510

instance decGoodPair (kv : List Nat × List Nat) : Decidable (GoodPair kv) :=
  inferInstanceAs (Decidable (_ ∧ _))

/-- The anchor of a level of `n` nodes that were allocated one after the
other from node 0 on. -/
def levelAnchor (n : Nat) : PRMP_ANCHOR :=
  { up := none, first := if n = 0 then none else some 0, last := if n = 0 then none else some (n - 1) }

/-- The `i`-th of `n` string nodes chained in the order of their allocation. -/
def scalarNode (n i : Nat) (kv : List Nat × List Nat) : PRMP_NODE :=
  { next := if i + 1 < n then some (i + 1) else none, key := some kv.1, type := PRMP_STRING,
    value := some kv.2 }

/-- The nodes of a level of string entries, chained in their order. -/
def scalarNodes (pairs : List (List Nat × List Nat)) : List PRMP_NODE :=
  pairs.mapIdx (fun i kv => scalarNode pairs.length i kv)

/-- The pool that a parse of `quotedDoc pairs` leaves: one level of string
nodes in file order, and the node allocated for the turn that met the end of
the file. -/
def quotedPool (pairs : List (List Nat × List Nat)) : Pool :=
  { anchors := [levelAnchor pairs.length], nodes := scalarNodes pairs ++ [{}] }

/-- A level with no entry: `k: { }`. -/
def emptyBlockDoc : List Nat := bytes "k: \x7b \x7d\n"

/-- A level whose last entry has a quoted value, closed on the next line. -/
def quotedLastDoc : List Nat := bytes "a: \x7b\n b: \"c\"\n\x7d\n"

/-- A key in double quotes, with a space before the colon. -/
def quotedKeyDoc : List Nat := bytes "\"my key\" : \"v\"\n"

/-- A key in single quotes. -/
def singleQuotedKeyDoc : List Nat := bytes "'k': \"v\"\n"

/-- A key in double quotes of 602 bytes over three lines, then a value. -/
def oversizedKeyDoc : List Nat :=
  [34] ++ List.replicate 200 97 ++ [10] ++ List.replicate 200 97 ++ [10]
    ++ List.replicate 200 97 ++ bytes "\": \"v\"\n"

/-- A value in double quotes of 602 bytes over three lines. -/
def oversizedValueDoc : List Nat :=
  bytes "k: \"" ++ List.replicate 200 97 ++ [10] ++ List.replicate 200 97 ++ [10]
    ++ List.replicate 200 97 ++ bytes "\"\n"

/-- A double quote that is never closed, followed by more than 511 bytes. -/
def unterminatedDoc : List Nat :=
  [34] ++ List.replicate 200 97 ++ [10] ++ List.replicate 200 97 ++ [10]
    ++ List.replicate 200 97 ++ bytes "\nb: 'y'\n"

/-- An empty string in double quotes as the value, followed by a blank and a
third double quote. -/
def emptyQuotedDoc : List Nat := bytes "k: \"\" \"\n"

/-- A colon that no key precedes. -/
def noKeyDoc : List Nat := bytes ": \"v\"\n"

/-- One line of 607 bytes: an entry followed by 600 blanks. -/
def longLineDoc : List Nat := bytes "k: \"v\"" ++ List.replicate 600 32 ++ [10]

/-- The first 511 bytes of the long line of `longLineDoc`. -/
def longLinePiece : List Nat := bytes "k: \"v\"" ++ List.replicate 505 32

/-- The 511 bytes in the work buffer when a quoted token of three lines of
200 letters `a` outgrows it: the line ends are stored as blanks. -/
def overflowed : List Nat :=
  List.replicate 200 97 ++ 32 :: (List.replicate 200 97 ++ 32 :: List.replicate 109 97)

/-- The tree of `oversizedKeyDoc`: two string entries without a key (and the
node that was taken from the pool before the end of input was seen). -/
def oversizedKeyPool : Pool :=
  { anchors := [{ first := some 0, last := some 1 }],
    nodes := [{ next := some 1, type := 1, value := some (List.replicate 90 97) },
      { type := 1, value := some [118] }, {}] }

/-- The tree of `unterminatedDoc`. -/
def unterminatedPool : Pool :=
  { anchors := [{ first := some 0, last := some 1 }],
    nodes := [{ next := some 1, type := 1, value := some (List.replicate 90 97) },
      { key := some [98], type := 1, value := some [121] }, {}] }

/-- The scanner after the key token of a file outgrew the work buffer in the
third line: `buf` is the unread text of that line, `rest` the unread lines. -/
def afterOverflow (file buf rest : List Nat) : PARSE_BLOCK :=
  inLine { allocNode (rootStart file) with str_wrk := overflowed } buf rest

/-- What `parmParse` makes of the result of the entry loop of the top level. -/
def parmParseResult (r : Option (Int × PARSE_BLOCK)) : Option (Int × Option (Pool × PRMP_HANDLE)) :=
  match r with
  | none => none
  | some (rc, p1) =>
    if rc < 0 then some (rc, none)
    else some (0, some ({ anchors := p1.anchors, nodes := p1.nodes },
                        { anchor := some p1.top_anchor }))

/-- The tree of `oversizedValueDoc` when the value read after the run off the
end of `parmParseNode` is not negative: one entry of type 0 with the key `k`. -/
def oversizedValuePool : Pool :=
  { anchors := [{ first := some 0, last := some 0 }], nodes := [{ key := some [107] }] }

/-- The `up` pointer of the anchor behind a pointer. -/
def upOf (anchors : List PRMP_ANCHOR) (A : Nat) : Option Nat := (anchors[A]?).bind (fun a => a.up)

/-- Two parse blocks with the same pool and the same place in the tree: what
the scanner and the lexer leave untouched. -/
def SamePool (p q : PARSE_BLOCK) : Prop :=
  q.anchors = p.anchors ∧ q.nodes = p.nodes ∧ q.current_anchor = p.current_anchor ∧
    q.top_anchor = p.top_anchor

/-- The pool of `q` continues the pool of `p`: no anchor is lost and no `up`
pointer or top anchor changes. -/
def Stable (p q : PARSE_BLOCK) : Prop :=
  p.anchors.length ≤ q.anchors.length ∧
    (∀ A, A < p.anchors.length → upOf q.anchors A = upOf p.anchors A) ∧
    q.top_anchor = p.top_anchor

/-- The shape of the tree under construction: `own` lists, for every node of
the pool, the level for which it was taken from the pool.  The first and the
last node of a level belong to it, `next` stays inside a level, and the level
that a nested entry opens has the level of the entry as its `up`. -/
def Owned (anchors : List PRMP_ANCHOR) (nodes : List PRMP_NODE) (own : List Nat) : Prop :=
  own.length = nodes.length ∧
  (∀ (A : Nat) (a : PRMP_ANCHOR), anchors[A]? = some a →
    (∀ j, a.first = some j → own[j]? = some A) ∧ (∀ j, a.last = some j → own[j]? = some A)) ∧
  (∀ (i : Nat) (n : PRMP_NODE), nodes[i]? = some n →
    (∀ j, n.next = some j → own[j]? = own[i]?) ∧
    (n.type = PRMP_NEXTLEVEL →
      ∃ L, n.nextlevel = some L ∧ L < anchors.length ∧ upOf anchors L = own[i]?))

/-- The parse block of a scan result. -/
def Scan.block : Scan → PARSE_BLOCK
  | .ret _ q => q
  | .brk _ q => q
  | .go _ _ _ q => q

/-- What `parmGetNext` reports when `after` are the entries that follow the
current entry in its level: the first of them, or `PRMP_END`. -/
def following (m : Pool) (after : List Nat) : Int × Option (List Nat) × Option (List Nat) :=
  match after with
  | [] => ((PRMP_END : Int), none, none)
  | j :: _ => entry (nodeAt m j)

/-- A cursor on the first nested entry of the top level of the sample tree. -/
def nestedCursor : PRMP_HANDLE := { sampleHandle with cur_anchor := some 0, cur_node := some 1 }

/-- A file made of lines, each ended by a newline. -/
def joinLines (ls : List (List Nat)) : List Nat := ls.flatMap (fun l => l ++ [10])

/-- A line of the claim: at most 510 bytes, none of them a newline. -/
def IsLine (l : List Nat) : Prop := l.length ≤ 510 ∧ ∀ c ∈ l, c ≠ 10

/-- What `callbackIo` leaves of a line: the text before the first NUL, without
the newline and without a carriage return before it (lines 147-164). -/
def cook (l : List Nat) : List Nat :=
  let s0 := strlen (l ++ [10])
  let s1 := if s0.getLast? = some 10 then s0.dropLast else s0
  if s1.getLast? = some 13 then s1.dropLast else s1

/-- The first line that `callbackIo` delivers, and the lines after it. -/
def nextLine : List (List Nat) → Option (List Nat × List (List Nat))
  | [] => none
  | l :: ls => if cook l = [] then nextLine ls else some (cook l, ls)

/-- The result of `callbackIo` on a file of lines. -/
def deliver (ls : List (List Nat)) : Int × List Nat × List Nat :=
  match nextLine ls with
  | none => (-4, [], [])
  | some (c, rest) => ((c.length : Int), c, joinLines rest)

/-- The scanner between two lines, with `n` left in `len` (0 after a used-up
line, 1 after a look ahead to the end of a line, the length of the rest of the
line after a comment). -/
def offL (p : PARSE_BLOCK) (n : Nat) (rest : List Nat) : PARSE_BLOCK :=
  { p with fs := rest, len := n, is_eof := false, have_line := false }

/-- Where the lexer stands in a line: between tokens, inside a bare token, or
inside a token in quotes `q`. -/
inductive QState where
  | out
  | bare
  | inq (q : Nat)
  deriving DecidableEq, Repr

/-- Does the lexer, reading the rest of a line from the given place, reach the
end of the line outside quotes?  The cases follow `next_string`: blanks and NUL
are skipped between tokens, `#` outside quotes ends the line, the byte after an
opening quote is stored untested (the byte 255 ends the call there), a quote
after bare bytes ends the call, and a token in quotes ends at its quote. -/
def scanQ : QState → List Nat → Bool
  | .out, [] => true
  | .bare, [] => true
  | .inq _, [] => false
  | .out, c :: cs =>
    if c = 35 then true
    else if c = 34 ∨ c = 39 then
      match cs with
      | [] => false
      | d :: ds => if d = 255 then scanQ .out ds else scanQ (.inq c) ds
    else if c = 32 ∨ c = 0 ∨ c = 58 ∨ c = 123 ∨ c = 125 then scanQ .out cs
    else scanQ .bare cs
  | .bare, c :: cs =>
    if c = 35 then true
    else if c = 34 ∨ c = 39 ∨ c = 32 ∨ c = 58 ∨ c = 123 ∨ c = 125 then scanQ .out cs
    else scanQ .bare cs
  | .inq q, c :: cs => if c = q then scanQ .out cs else scanQ (.inq q) cs

/-- No token in quotes is left open at the end of the line, as `next_string`
reads it. -/
def ClosedLine (l : List Nat) : Prop := scanQ .out (cook l) = true

/-- Lines before the place where the comment goes in: lines of the claim in
which no token in quotes is left open. -/
def GoodLines (s : List (List Nat)) : Prop := ∀ l ∈ s, IsLine l ∧ ClosedLine l

/-- A comment line: a line of the claim whose first byte is `#`. -/
def IsComment (cmt : List Nat) : Prop := IsLine cmt ∧ cmt.head? = some 35

/-- Two runs of the scanner, on a file and on the file with the comment line
before the lines `post`: the second run has not read the comment yet, and the
rest of the current line leaves no quote open. -/
inductive Near (post : List (List Nat)) (cmt : List Nat) : PARSE_BLOCK → PARSE_BLOCK → Prop where
  | mid (p : PARSE_BLOCK) (s : List (List Nat)) (b : List Nat) :
      GoodLines s → p.str_wrk_len = PRMP_STRING_WORK_SIZE → b.length ≤ 510 →
      scanQ .out b = true →
      Near post cmt (inLine p b (joinLines (s ++ post)))
        (inLine p b (joinLines (s ++ cmt :: post)))
  | off (p : PARSE_BLOCK) (s : List (List Nat)) (n : Nat) :
      GoodLines s → p.str_wrk_len = PRMP_STRING_WORK_SIZE →
      Near post cmt (offL p n (joinLines (s ++ post)))
        (offL p n (joinLines (s ++ cmt :: post)))

/-- The states of the two runs after a call: the comment not yet read, the
same state, or the end of the file reached with different leftovers in the
line buffer. -/
inductive Rel (post : List (List Nat)) (cmt : List Nat) : PARSE_BLOCK → PARSE_BLOCK → Prop where
  | near (q r : PARSE_BLOCK) : Near post cmt q r → Rel post cmt q r
  | same (q : PARSE_BLOCK) : Rel post cmt q q
  | eof (q : PARSE_BLOCK) (B : List Nat) (n : Nat) :
      q.is_eof = true → Rel post cmt q { q with buf := B, len := n }

/-- The two runs after the loop over leading blanks delivered the byte `c`:
both inside the same line (the work buffer holding `w`), or in the same state,
or both at the end of the file. -/
inductive LeadOut (post : List (List Nat)) (cmt : List Nat) (w : List Nat) (c : Nat) :
    PARSE_BLOCK → PARSE_BLOCK → Prop where
  | near (p : PARSE_BLOCK) (s : List (List Nat)) (b : List Nat) :
      GoodLines s → p.str_wrk_len = PRMP_STRING_WORK_SIZE → p.str_wrk = w →
      (c :: b).length ≤ 510 → scanQ .out (c :: b) = true → c ≠ 35 → c ≠ 32 → c ≠ 0 →
      LeadOut post cmt w c (inLine p b (joinLines (s ++ post)))
        (inLine p b (joinLines (s ++ cmt :: post)))
  | same (q : PARSE_BLOCK) : LeadOut post cmt w c q q
  | eof (q : PARSE_BLOCK) (B : List Nat) (n : Nat) :
      c = 255 → q.is_eof = true → LeadOut post cmt w c q { q with buf := B, len := n }

/-- The place of the lexer in the line while the main loop of `next_string`
holds the byte it is about to test. -/
def placeOf (iq : Bool) (qc : Nat) (w : List Nat) : QState :=
  if iq then .inq qc else if w = [] then .out else .bare

/-- Two results of a loop of `next_string` that agree, the comment not yet
read. -/
inductive ScanNear (post : List (List Nat)) (cmt : List Nat) : Scan → Scan → Prop where
  | ret (rc : Int) (q r : PARSE_BLOCK) : Near post cmt q r →
      ScanNear post cmt (.ret rc q) (.ret rc r)
  | brk (c : Nat) (q r : PARSE_BLOCK) : Near post cmt q r →
      ScanNear post cmt (.brk c q) (.brk c r)

/-- Two results of a loop of `next_string` that agree up to the relation
`Rel` of their states. -/
inductive ScanRel (post : List (List Nat)) (cmt : List Nat) : Scan → Scan → Prop where
  | ret (rc : Int) (q r : PARSE_BLOCK) : Near post cmt q r →
      ScanRel post cmt (.ret rc q) (.ret rc r)
  | brk (c : Nat) (q r : PARSE_BLOCK) : Near post cmt q r →
      ScanRel post cmt (.brk c q) (.brk c r)
  | same (x : Scan) : ScanRel post cmt x x
  | eof (q : PARSE_BLOCK) (B : List Nat) (n : Nat) : q.is_eof = true →
      ScanRel post cmt (.ret 255 q) (.ret 255 { q with buf := B, len := n })

/-- The states of the two runs after a call of `next_string` that returned
`rc`: the states differ at the end of the file only, where `rc` is 255. -/
inductive StrOut (post : List (List Nat)) (cmt : List Nat) : Int → PARSE_BLOCK → PARSE_BLOCK →
    Prop where
  | near (rc : Int) (q r : PARSE_BLOCK) : Near post cmt q r → StrOut post cmt rc q r
  | same (rc : Int) (q : PARSE_BLOCK) : StrOut post cmt rc q q
  | eof (q : PARSE_BLOCK) (B : List Nat) (n : Nat) :
      q.is_eof = true → StrOut post cmt 255 q { q with buf := B, len := n }

/-- An update of the parse block that touches neither the file nor the line
buffer: the tree building steps are of this kind. -/
def PoolOp (f : PARSE_BLOCK → PARSE_BLOCK) : Prop :=
  (∀ p b fs, f (inLine p b fs) = inLine (f p) b fs) ∧
  (∀ p n fs, f (offL p n fs) = offL (f p) n fs) ∧
  (∀ p, (f p).str_wrk_len = p.str_wrk_len) ∧
  (∀ (p : PARSE_BLOCK) (B : List Nat) (n : Nat),
    f { p with buf := B, len := n } = { f p with buf := B, len := n }) ∧
  (∀ p, (f p).is_eof = p.is_eof)

/-- The line `k: "v"`, without its newline. -/
def oneEntryLine : List Nat := bytes "k: \"v\""

/-- A comment line of 600 bytes: `#` and 599 letters `a`. -/
def longCommentLine : List Nat := 35 :: List.replicate 599 97

/-- The lines `a: "x"` and `b: "y"` and the comment line `# c` that goes in
between them. -/
def firstLine : List Nat := bytes "a: \"x\""

/-- The second line of the example for comment lines. -/
def secondLine : List Nat := bytes "b: \"y\""

/-- The comment line of the example for comment lines. -/
def shortCommentLine : List Nat := bytes "# c"

/-- The cursor stands in the level with the entries `l`: before the first
entry, with all of `l` ahead, or on an entry of `l`, with the entries `rest`
after it ahead. -/
def InLevel (h : PRMP_HANDLE) (l rest : List Nat) : Prop :=
  (h.cur_node = none ∧ rest = l) ∨ ∃ i before, h.cur_node = some i ∧ l = before ++ i :: rest

/-- A cursor on the last entry of the top level of the sample tree. -/
def lastCursor : PRMP_HANDLE := { sampleHandle with cur_anchor := some 0, cur_node := some 7 }

/-- A call of the cursor interface. -/
inductive CursorOp where
  | setBegin
  | getNext
  | levelDown
  | levelUp
  | findKey (key : List Nat)
  | findNextKey (key : List Nat)
  deriving DecidableEq, Repr

/-- The cursor that a call leaves behind. -/
def cursorAfter {α : Type} (f : α → PRMP_HANDLE) : Outcome α → Outcome PRMP_HANDLE
  | .fault => .fault
  | .done a => .done (f a)

/-- One call of the cursor interface, as far as the cursor goes. -/
def applyOp (fuel : Nat) (m : Pool) (h : PRMP_HANDLE) : CursorOp → Option (Outcome PRMP_HANDLE)
  | .setBegin => some (.done (parmSetBegin h))
  | .getNext => some (cursorAfter (fun a => a.h) (parmGetNext m h))
  | .levelDown => some (cursorAfter (fun r => r.2) (parmLevelDown m h))
  | .levelUp => some (cursorAfter (fun r => r.2) (parmLevelUp m h))
  | .findKey key => (parmFindKey fuel m h key).map (cursorAfter (fun a => a.h))
  | .findNextKey key => (parmFindNextKey fuel m h key).map (cursorAfter (fun a => a.h))

/-- A sequence of calls of the cursor interface, one after the other; a fault
ends the run. -/
def runOps (fuel : Nat) (m : Pool) : List CursorOp → PRMP_HANDLE → Option (Outcome PRMP_HANDLE)
  | [], h => some (.done h)
  | op :: ops, h =>
    match applyOp fuel m h op with
    | none => none
    | some .fault => some .fault
    | some (.done h1) => runOps fuel m ops h1

/-- The index at which a call touches `node_stack` in the state `h`, if it
does: `parmLevelDown` stores at `node_stack_index` when its guard holds
(`node_stack[prmp->node_stack_index++]`), `parmLevelUp` reads at
`node_stack_index - 1` when its guard holds (`node_stack[--prmp->node_stack_index]`);
no other function names the stack. -/
def stackAccess (m : Pool) (h : PRMP_HANDLE) : CursorOp → Option Int
  | .levelDown =>
    match h.cur_node.bind (fun i => m.nodes[i]?) with
    | none => none
    | some n =>
      if n.type = PRMP_NEXTLEVEL ∧ h.node_stack_index < PRMP_MAX_LEVELS then
        some (h.node_stack_index : Int)
      else none
  | .levelUp =>
    match h.cur_anchor.bind (fun a => m.anchors[a]?) with
    | none => none
    | some a =>
      if a.up ≠ none ∧ h.node_stack_index > 0 then some ((h.node_stack_index : Int) - 1)
      else none
  | _ => none

/-- The level `A` lies `d` levels below the root: `d` steps along `up` lead
from it to a level whose `up` is NULL. -/
def atDepth (anchors : List PRMP_ANCHOR) : Nat → Nat → Bool
  | 0, A => decide (A < anchors.length) && decide (upOf anchors A = none)
  | d + 1, A =>
    match upOf anchors A with
    | none => false
    | some U => atDepth anchors d U

/-- The first `d` slots of the stack hold the way from the root down to the
level `A`: slot `d - 1` holds an entry of the level above `A`, and so on up to
the root. -/
def StackOK (m : Pool) (own : List Nat) (stack : List (Option Nat)) : Nat → Nat → Prop
  | 0, A => A < m.anchors.length ∧ upOf m.anchors A = none
  | d + 1, A =>
    A < m.anchors.length ∧
      ∃ U i, upOf m.anchors A = some U ∧ stack[d]? = some (some i) ∧ own[i]? = some U ∧
        StackOK m own stack d U

/-- The shape of the tree of a parse that the cursor relies on. -/
def TreeOK (m : Pool) (own : List Nat) : Prop :=
  Owned m.anchors m.nodes own ∧ upOf m.anchors 0 = none ∧ 0 < m.anchors.length

/-- A cursor in working order: the stack has its slots, the index is within
them, and either no level is current (then no entry is current and the stack
is empty) or the stack leads to the current level and the current entry, if
any, is an entry of that level. -/
def CursorOK (m : Pool) (own : List Nat) (h : PRMP_HANDLE) : Prop :=
  h.anchor = some 0 ∧ h.node_stack.length = PRMP_MAX_LEVELS ∧
    h.node_stack_index ≤ PRMP_MAX_LEVELS ∧
    match h.cur_anchor with
    | none => h.cur_node = none ∧ h.node_stack_index = 0
    | some A =>
      StackOK m own h.node_stack h.node_stack_index A ∧
        ∀ i, h.cur_node = some i → own[i]? = some A

/-- The cursor of a run that returned (zeroed otherwise). -/
def cursorOf (r : Option (Outcome PRMP_HANDLE)) : PRMP_HANDLE :=
  match r with
  | some (.done h) => h
  | _ => {}

/-- A walk over the sample tree: to the first nested entry, down, two entries
on, back up, to the second nested entry by its key, and down again. -/
def sampleOps : List CursorOp :=
  [.getNext, .getNext, .levelDown, .getNext, .getNext, .levelUp, .levelUp,
    .findNextKey (bytes "download"), .levelDown, .levelDown, .findKey (bytes "to")]

/-- The cursor after the walk `sampleOps`. -/
def walkedCursor : PRMP_HANDLE :=
  cursorOf (runOps 10 sampleTree sampleOps (parmSetBegin sampleHandle))

/-- The total weight of a run of bytes, for a weight `w` on bytes. -/
def weigh (w : Nat → Nat) (l : List Nat) : Nat := (l.map w).sum

/-- The weight of the input that the scanner has not delivered yet: the
unread bytes of the file and, while a line is held, the rest of that line.
With the weight 1 on every byte this is the number of unread bytes. -/
def unread (w : Nat → Nat) (p : PARSE_BLOCK) : Nat :=
  weigh w p.fs + (if p.have_line = true then weigh w p.buf else 0)

/-- The weight that counts the left braces. -/
def braceWeight (c : Nat) : Nat := if c = 123 then 1 else 0

/-- A bound on the calls of `next_char` that can still deliver something:
three for every unread byte of the file, and for a line that is held its
length and its end (two calls), or the one pending blank after a look ahead. -/
def budget (p : PARSE_BLOCK) : Nat :=
  3 * p.fs.length + (if p.have_line = true then p.len + 2 else if p.len = 1 then 1 else 0)

/-- The scanner can get from `p` to `q`: the budget and every weight of the
unread input do not grow, and the end of the input is not forgotten. -/
def Steps (p q : PARSE_BLOCK) : Prop :=
  budget q ≤ budget p ∧ (∀ w, unread w q ≤ unread w p) ∧ (p.is_eof = true → q.is_eof = true)

/-- What a loop of `next_string` that was entered in the state `p` with the
byte `c` in hand leaves behind: a return code of `next_string`, or a byte in
hand; a left brace in hand is one that was taken from the input. -/
def ScanOut (p : PARSE_BLOCK) (c : Nat) : Scan → Prop
  | .ret rc q => Steps p q ∧ (rc = -2 ∨ rc = -1 ∨ rc = 255)
  | .brk c2 q =>
    Steps p q ∧ unread braceWeight q + braceWeight c2 ≤ unread braceWeight p + braceWeight c
  | .go _ _ _ _ => False

/-- Two parse blocks with the same scanner state: what the tree builder
leaves untouched. -/
def SameInput (p q : PARSE_BLOCK) : Prop :=
  q.fs = p.fs ∧ q.buf = p.buf ∧ q.len = p.len ∧ q.have_line = p.have_line ∧ q.is_eof = p.is_eof

/-- The cursor after `parmLevelDown` on the first nested entry of the top level
of the sample tree. -/
def descendedCursor : PRMP_HANDLE :=
  match parmLevelDown sampleTree nestedCursor with
  | .done r => r.2
  | .fault => {}

/-- Is the rest of a line white space up to its end or up to a comment? -/
def blankOrComment : List Nat → Bool
  | [] => true
  | c :: l => if c = 32 then blankOrComment l else decide (c = 35)

/-- A line that holds no token: a line of at most 510 bytes of which
`callbackIo` leaves only blanks, or blanks followed by a comment. -/
def SkipLine (l : List Nat) : Prop := IsLine l ∧ blankOrComment (cook l) = true

instance decSkipLine (l : List Nat) : Decidable (SkipLine l) :=
  inferInstanceAs (Decidable ((l.length ≤ 510 ∧ ∀ c ∈ l, c ≠ 10) ∧ blankOrComment (cook l) = true))

instance decGoodLine (line : List Nat) : Decidable (GoodLine line) :=
  inferInstanceAs (Decidable (_ ∧ _))

/-- A key in double quotes followed by the end of input. -/
def quotedKeyOnlyDoc : List Nat := bytes "\"key\"\n"

/-- A key followed by the end of input, inside a nested level. -/
def nestedKeyOnlyDoc : List Nat := bytes "a: \x7b\n key\n"

/-- The value of an item: a string in double quotes, a bare token, the
opening brace of a nested level, or a bare token that the closing brace of its
level follows: behind the lines `sk` and `i` blanks, with `t` behind the brace
on its line. -/
inductive Value where
  | quoted (v : List Nat)
  | bare (v : List Nat)
  | level
  | closing (v : List Nat) (sk : List (List Nat)) (i : Nat) (t : List Nat)
  deriving DecidableEq, Repr

/-- A line of a document that completes or opens something: an entry
`key: "value"` or `key: value`, or the opening `key: {` of a nested level,
with the blank and comment lines before it, the blanks before the key and
behind the colon, and what follows on the line; an entry with a bare value
may carry the closing brace of its level, on a later line. -/
structure Item where
  before : List (List Nat) := []
  indent : Nat := 0
  key : List Nat
  gap : Nat := 1
  value : Value
  trailing : List Nat := []
  deriving DecidableEq, Repr

/-- The text of a value on the line of its key. -/
def valueText : Value → List Nat
  | .quoted v => 34 :: (v ++ [34])
  | .bare v => v
  | .level => [123]
  | .closing v _ _ _ => v

/-- The line of an item, without its newline. -/
def itemLine (x : Item) : List Nat :=
  List.replicate x.indent 32
    ++ (x.key ++ 58 :: (List.replicate x.gap 32 ++ (valueText x.value ++ x.trailing)))

/-- A value as the claims delimit it: a string of quoted bytes or of bare
bytes that is not empty, or the opening brace; before a closing brace only
blank and comment lines and blanks, behind it only blanks or a comment, in a
line of at most 510 bytes. -/
def GoodValue : Value → Prop
  | .quoted v => v ≠ [] ∧ ∀ c ∈ v, QuotedByte c
  | .bare v => v ≠ [] ∧ ∀ c ∈ v, BareByte c
  | .level => True
  | .closing v sk i t => (v ≠ [] ∧ ∀ c ∈ v, BareByte c) ∧ (∀ l ∈ sk, SkipLine l) ∧
      blankOrComment t = true ∧ GoodLine (List.replicate i 32 ++ 125 :: t)

instance decGoodValue : (v : Value) → Decidable (GoodValue v)
  | .quoted v => inferInstanceAs (Decidable (v ≠ [] ∧ ∀ c ∈ v, QuotedByte c))
  | .bare v => inferInstanceAs (Decidable (v ≠ [] ∧ ∀ c ∈ v, BareByte c))
  | .level => inferInstanceAs (Decidable True)
  | .closing v sk i t => inferInstanceAs (Decidable ((v ≠ [] ∧ ∀ c ∈ v, BareByte c) ∧
      (∀ l ∈ sk, SkipLine l) ∧ blankOrComment t = true ∧
      GoodLine (List.replicate i 32 ++ 125 :: t)))

/-- An item as the claims delimit it: only blank and comment lines before it,
the key a bare token that is not empty and does not start with the byte 0xFF,
the value a string in double quotes, a bare token (with or without the closing
brace of its level on a later line) or the opening brace, only blanks or a
comment behind the value, and a line of at most 510 bytes without NUL that
does not end in a carriage return. -/
def GoodItem (x : Item) : Prop :=
  (∀ l ∈ x.before, SkipLine l) ∧ x.key ≠ [] ∧ (∀ c ∈ x.key, BareByte c) ∧
    x.key.head? ≠ some 255 ∧ GoodValue x.value ∧ blankOrComment x.trailing = true ∧
    GoodLine (itemLine x)

instance decGoodItem (x : Item) : Decidable (GoodItem x) :=
  inferInstanceAs (Decidable (_ ∧ _))

theorem next_string_lead_mono : ∀ (k : Nat) (p : PARSE_BLOCK) (r : Nat × PARSE_BLOCK),
    next_string_lead k p = some r → ∀ k', k ≤ k' → next_string_lead k' p = some r := by
  intro k
  induction k with
  | zero => intro p r h; simp [next_string_lead] at h
  | succ k ih =>
    intro p r h k' hk
    obtain ⟨j, rfl⟩ : ∃ j, k' = j + 1 := ⟨k' - 1, by omega⟩
    simp only [next_string_lead] at h ⊢
    by_cases hc : (next_char p false false).1 ≠ 255 ∧
        ((next_char p false false).1 = 32 ∨ (next_char p false false).1 = 0)
    · rw [if_pos hc] at h ⊢
      exact ih _ _ h j (by omega)
    · rw [if_neg hc] at h ⊢
      exact h

theorem next_string_main_mono : ∀ (k : Nat) (p : PARSE_BLOCK) (c : Nat) (iq : Bool) (qc : Nat)
    (r : Scan), next_string_main k p c iq qc = some r →
    ∀ k', k ≤ k' → next_string_main k' p c iq qc = some r := by
  intro k
  induction k with
  | zero => intro p c iq qc r h; simp [next_string_main] at h
  | succ k ih =>
    intro p c iq qc r h k' hk
    obtain ⟨j, rfl⟩ : ∃ j, k' = j + 1 := ⟨k' - 1, by omega⟩
    cases hT : next_string_test p c iq qc with
    | ret rc p1 => simp only [next_string_main, hT] at h ⊢; exact h
    | brk c1 p1 => simp only [next_string_main, hT] at h ⊢; exact h
    | go c1 iq1 qc1 p1 =>
      simp only [next_string_main, hT] at h ⊢
      by_cases hc : p1.str_wrk.length ≥ p1.str_wrk_len - 1
      · rw [if_pos hc] at h ⊢; exact h
      · rw [if_neg hc] at h ⊢; exact ih _ _ _ _ _ h j (by omega)

theorem next_string_trail_mono : ∀ (k : Nat) (p : PARSE_BLOCK) (c : Nat)
    (r : Scan), next_string_trail k p c = some r →
    ∀ k', k ≤ k' → next_string_trail k' p c = some r := by
  intro k
  induction k with
  | zero => intro p c r h; simp [next_string_trail] at h
  | succ k ih =>
    intro p c r h k' hk
    obtain ⟨j, rfl⟩ : ∃ j, k' = j + 1 := ⟨k' - 1, by omega⟩
    simp only [next_string_trail] at h ⊢
    split at h
    · rename_i hc
      rw [if_pos hc]
      split at h
      · rename_i h1; rw [if_pos h1]; exact h
      · rename_i h1
        rw [if_neg h1]
        split at h
        · rename_i h2; rw [if_pos h2]; exact h
        · rename_i h2
          rw [if_neg h2]
          split at h
          · rename_i h3; rw [if_pos h3]; exact h
          · rename_i h3
            rw [if_neg h3]
            split at h
            · rename_i h4; rw [if_pos h4]; exact h
            · rename_i h4; rw [if_neg h4]; exact ih _ _ _ h j (by omega)
    · rename_i hc
      rw [if_neg hc]; exact h

theorem next_string_mono (sf sf' : Nat) (hs : sf ≤ sf') (p : PARSE_BLOCK) (b : Bool)
    (r : Int × PARSE_BLOCK) (h : next_string sf p b = some r) : next_string sf' p b = some r := by
  unfold next_string at h ⊢
  cases h1 : next_string_lead sf { p with str_wrk := [] } with
  | none => simp [h1] at h
  | some cp =>
    obtain ⟨c, p1⟩ := cp
    simp only [h1, next_string_lead_mono _ _ _ h1 sf' hs] at h ⊢
    cases h2 : next_string_main sf p1 c false 0 with
    | none => simp [h2] at h
    | some s =>
      simp only [h2, next_string_main_mono _ _ _ _ _ _ h2 sf' hs] at h ⊢
      cases s with
      | ret rc p2 => exact h
      | go a b c d => exact h
      | brk c2 p2 =>
        simp only at h ⊢
        cases h3 : next_string_trail sf p2 c2 with
        | none => simp [h3] at h
        | some s3 =>
          simp only [h3, next_string_trail_mono _ _ _ _ h3 sf' hs] at h ⊢
          exact h

theorem parse_key_mono (sf sf' : Nat) (hs : sf ≤ sf') (p : PARSE_BLOCK) (node : Nat)
    (r : Int × PARSE_BLOCK) (h : parse_key sf p node = some r) : parse_key sf' p node = some r := by
  unfold parse_key at h ⊢
  cases h1 : next_string sf p true with
  | none => simp [h1] at h
  | some s =>
    simp only [h1, next_string_mono sf sf' hs p true s h1] at h ⊢
    exact h


theorem parse_mono_aux (k : Nat) :
    (∀ fall sf p node r, parse_value k fall sf p node = some r →
      ∀ k' sf', k ≤ k' → sf ≤ sf' → parse_value k' fall sf' p node = some r) ∧
    (∀ fall sf p anchor r, parmParseNodeLoop k fall sf p anchor = some r →
      ∀ k' sf', k ≤ k' → sf ≤ sf' → parmParseNodeLoop k' fall sf' p anchor = some r) ∧
    (∀ fall sf p anchor r, parmParseNode k fall sf p anchor = some r →
      ∀ k' sf', k ≤ k' → sf ≤ sf' → parmParseNode k' fall sf' p anchor = some r) := by
  induction k with
  | zero =>
    refine ⟨?_, ?_, ?_⟩ <;> intro fall sf p a r h <;>
      simp [parse_value, parmParseNodeLoop, parmParseNode] at h
  | succ k ih =>
    obtain ⟨ihV, ihL, ihN⟩ := ih
    refine ⟨?_, ?_, ?_⟩
    · intro fall sf p node r h k' sf' hk hs
      obtain ⟨j, rfl⟩ : ∃ j, k' = j + 1 := ⟨k' - 1, by omega⟩
      simp only [parse_value] at h ⊢
      cases h1 : next_string sf p false with
      | none => simp [h1] at h
      | some s =>
        obtain ⟨rc0, p1⟩ := s
        simp only [h1, next_string_mono sf sf' hs p false _ h1] at h ⊢
        split at h
        · rename_i c1; rw [if_pos c1]; exact h
        · rename_i c1
          rw [if_neg c1]
          split at h
          · rename_i c2; rw [if_pos c2]; exact h
          · rename_i c2
            rw [if_neg c2]
            split at h
            · rename_i c3
              rw [if_pos c3]
              split at h
              · rename_i c4; rw [if_pos c4]; exact h
              · rename_i c4
                rw [if_neg c4]
                cases h2 : parmParseNode k fall sf (newLevel p1 node) p1.anchors.length with
                | none => simp [h2] at h
                | some s2 =>
                  simp only [h2, ihN _ _ _ _ _ h2 j sf' (by omega) hs] at h ⊢
                  exact h
            · rename_i c3; rw [if_neg c3]; exact h
    · intro fall sf p anchor r h k' sf' hk hs
      obtain ⟨j, rfl⟩ : ∃ j, k' = j + 1 := ⟨k' - 1, by omega⟩
      simp only [parmParseNodeLoop] at h ⊢
      cases h1 : parse_key sf (allocNode p) p.nodes.length with
      | none => simp [h1] at h
      | some s =>
        obtain ⟨rc1, p1⟩ := s
        simp only [h1, parse_key_mono sf sf' hs _ _ _ h1] at h ⊢
        split at h
        · rename_i c1; rw [if_pos c1]; exact h
        · rename_i c1
          rw [if_neg c1]
          split at h
          · rename_i c2; rw [if_pos c2]; exact h
          · rename_i c2
            rw [if_neg c2]
            cases h2 : parse_value k fall sf p1 p.nodes.length with
            | none => simp [h2] at h
            | some s2 =>
              obtain ⟨rc, p2⟩ := s2
              simp only [h2, ihV _ _ _ _ _ h2 j sf' (by omega) hs] at h ⊢
              split at h
              · rename_i c3; rw [if_pos c3]; exact h
              · rename_i c3
                rw [if_neg c3]
                split at h
                · rename_i c4; rw [if_pos c4]; exact h
                · rename_i c4
                  rw [if_neg c4]
                  split at h
                  · rename_i c5; rw [if_pos c5]; exact h
                  · rename_i c5
                    rw [if_neg c5]
                    exact ihL _ _ _ _ _ h j sf' (by omega) hs
    · intro fall sf p anchor r h k' sf' hk hs
      obtain ⟨j, rfl⟩ : ∃ j, k' = j + 1 := ⟨k' - 1, by omega⟩
      simp only [parmParseNode] at h ⊢
      exact ihL _ _ _ _ _ h j sf' (by omega) hs

theorem parmParseFile_mono (k k' : Nat) (hk : k ≤ k') (fall : Int) (file : List Nat)
    (r : Int × Option (Pool × PRMP_HANDLE)) (h : parmParseFile k fall file = some r) :
    parmParseFile k' fall file = some r := by
  unfold parmParseFile parmParse at h ⊢
  cases h1 : parmParseNode k fall k (initParseBlock file) (initParseBlock file).top_anchor with
  | none => simp [h1] at h
  | some s =>
    simp only [h1, (parse_mono_aux k).2.2 _ _ _ _ _ h1 k' k' hk hk] at h ⊢
    exact h


theorem FallRel_refl {α : Type} (fall fall' : Int) (x : Option (Int × α)) :
    FallRel fall fall' x x := by
  cases x with
  | none => trivial
  | some r => exact ⟨rfl, Or.inl rfl⟩

theorem parse_fall_aux (fall fall' : Int) (hsign : fall < 0 ↔ fall' < 0) (k : Nat) :
    (∀ sf p node, FallRel fall fall' (parse_value k fall sf p node)
        (parse_value k fall' sf p node) ∧
      ∀ rc q, parse_value k fall sf p node = some (rc, q) → 0 ≤ rc →
        parse_value k fall' sf p node = some (rc, q)) ∧
    (∀ sf p anchor, FallRel fall fall' (parmParseNodeLoop k fall sf p anchor)
        (parmParseNodeLoop k fall' sf p anchor)) ∧
    (∀ sf p anchor, FallRel fall fall' (parmParseNode k fall sf p anchor)
        (parmParseNode k fall' sf p anchor)) := by
  induction k with
  | zero =>
    refine ⟨?_, ?_, ?_⟩
    · intro sf p node
      refine ⟨?_, ?_⟩
      · simp [parse_value, FallRel]
      · intro rc q h; simp [parse_value] at h
    · intro sf p a; simp [parmParseNodeLoop, FallRel]
    · intro sf p a; simp [parmParseNode, FallRel]
  | succ k ih =>
    obtain ⟨ihV, ihL, ihN⟩ := ih
    refine ⟨?_, ?_, ?_⟩
    · intro sf p node
      simp only [parse_value]
      cases h1 : next_string sf p false with
      | none => simp [FallRel]
      | some s =>
        obtain ⟨rc0, p1⟩ := s
        simp only
        by_cases c1 : ((toUChar rc0 : Nat) : Int) < 0
        · simp only [if_pos c1]
          exact ⟨FallRel_refl _ _ _, fun _ _ h _ => h⟩
        · simp only [if_neg c1]
          by_cases c2 : toUChar rc0 = 255
          · simp only [if_pos c2]
            exact ⟨FallRel_refl _ _ _, fun _ _ h _ => h⟩
          · simp only [if_neg c2]
            by_cases c3 : toUChar rc0 = 123
            · simp only [if_pos c3]
              by_cases c4 : p1.str_wrk.length > 0
              · simp only [if_pos c4]
                exact ⟨FallRel_refl _ _ _, fun _ _ h _ => h⟩
              · simp only [if_neg c4]
                have hN := ihN sf (newLevel p1 node) p1.anchors.length
                revert hN
                generalize parmParseNode k fall sf _ _ = x
                generalize parmParseNode k fall' sf _ _ = y
                intro hN
                cases x with
                | none =>
                  cases y with
                  | none => simp [FallRel]
                  | some b => simp [FallRel] at hN
                | some a =>
                  cases y with
                  | none => simp [FallRel] at hN
                  | some b =>
                    obtain ⟨rc, q⟩ := a
                    obtain ⟨rc', q'⟩ := b
                    simp only [FallRel] at hN
                    obtain ⟨rfl, hrc⟩ := hN
                    simp only
                    rcases hrc with rfl | ⟨rfl, rfl⟩
                    · exact ⟨FallRel_refl _ _ _, fun _ _ h _ => h⟩
                    · by_cases hf : rc < 0
                      · have hf' : rc' < 0 := hsign.mp hf
                        simp only [if_pos hf, if_pos hf']
                        refine ⟨⟨rfl, Or.inr ⟨rfl, rfl⟩⟩, ?_⟩
                        intro rc2 q2 h h0
                        simp only [Option.some.injEq, Prod.mk.injEq] at h
                        omega
                      · have hf' : ¬ rc' < 0 := fun h => hf (hsign.mpr h)
                        simp only [if_neg hf, if_neg hf']
                        exact ⟨⟨rfl, Or.inl rfl⟩, fun _ _ h _ => h⟩
            · simp only [if_neg c3]
              exact ⟨FallRel_refl _ _ _, fun _ _ h _ => h⟩
    · intro sf p anchor
      simp only [parmParseNodeLoop]
      cases h1 : parse_key sf (allocNode p) p.nodes.length with
      | none => simp [FallRel]
      | some s =>
        obtain ⟨rc1, p1⟩ := s
        simp only
        by_cases c1 : rc1 < 0
        · simp only [if_pos c1]; exact FallRel_refl _ _ _
        · simp only [if_neg c1]
          by_cases c2 : p1.is_eof = true
          · simp only [if_pos c2]; exact FallRel_refl _ _ _
          · simp only [if_neg c2]
            obtain ⟨hV, hV0⟩ := ihV sf p1 p.nodes.length
            cases hx : parse_value k fall sf p1 p.nodes.length with
            | none =>
              rw [hx] at hV
              cases hy : parse_value k fall' sf p1 p.nodes.length with
              | none => simp [FallRel]
              | some b => rw [hy] at hV; simp [FallRel] at hV
            | some a =>
              obtain ⟨rc, p2⟩ := a
              by_cases c3 : rc < 0
              · rw [hx] at hV
                cases hy : parse_value k fall' sf p1 p.nodes.length with
                | none => rw [hy] at hV; simp [FallRel] at hV
                | some b =>
                  obtain ⟨rc', p2'⟩ := b
                  rw [hy] at hV
                  simp only [FallRel] at hV
                  obtain ⟨rfl, hrc⟩ := hV
                  have c3' : rc' < 0 := by
                    rcases hrc with rfl | ⟨rfl, rfl⟩
                    · exact c3
                    · exact hsign.mp c3
                  simp only [if_pos c3, if_pos c3']
                  exact ⟨rfl, hrc⟩
              · rw [hV0 rc p2 hx (by omega)]
                simp only [if_neg c3]
                by_cases c4 : p2.is_eof = true
                · simp only [if_pos c4]; exact FallRel_refl _ _ _
                · simp only [if_neg c4]
                  by_cases c5 : rc > 0
                  · simp only [if_pos c5]
                    exact ⟨rfl, Or.inr ⟨rfl, rfl⟩⟩
                  · simp only [if_neg c5]
                    exact ihL sf _ anchor
    · intro sf p anchor
      simp only [parmParseNode]
      exact ihL sf _ anchor

theorem parmParseFile_fall_nonneg (k : Nat) (fall fall' : Int) (h : 0 ≤ fall) (h' : 0 ≤ fall')
    (file : List Nat) : parmParseFile k fall file = parmParseFile k fall' file := by
  have hsign : fall < 0 ↔ fall' < 0 := by omega
  have hN := (parse_fall_aux fall fall' hsign k).2.2 k (initParseBlock file)
    (initParseBlock file).top_anchor
  unfold parmParseFile parmParse
  revert hN
  generalize parmParseNode k fall k _ _ = x
  generalize parmParseNode k fall' k _ _ = y
  intro hN
  cases x with
  | none =>
    cases y with
    | none => rfl
    | some b => simp [FallRel] at hN
  | some a =>
    cases y with
    | none => simp [FallRel] at hN
    | some b =>
      obtain ⟨rc, q⟩ := a
      obtain ⟨rc', q'⟩ := b
      simp only [FallRel] at hN
      obtain ⟨rfl, hrc⟩ := hN
      rcases hrc with rfl | ⟨rfl, rfl⟩
      · rfl
      · have h1 : ¬ rc < 0 := by omega
        have h2 : ¬ rc' < 0 := by omega
        simp only [if_neg h1, if_neg h2]

theorem parmParseFile_fall_neg (k : Nat) (fall fall' : Int) (h : fall < 0) (h' : fall' < 0)
    (file : List Nat) (rc : Int) (t : Option (Pool × PRMP_HANDLE))
    (hrun : parmParseFile k fall' file = some (rc, t)) (hne : rc ≠ fall') :
    parmParseFile k fall file = some (rc, t) := by
  have hsign : fall < 0 ↔ fall' < 0 := by omega
  have hN := (parse_fall_aux fall fall' hsign k).2.2 k (initParseBlock file)
    (initParseBlock file).top_anchor
  unfold parmParseFile parmParse at hrun ⊢
  cases hx : parmParseNode k fall k (initParseBlock file) (initParseBlock file).top_anchor with
  | none =>
    cases hy : parmParseNode k fall' k (initParseBlock file)
        (initParseBlock file).top_anchor with
    | none => simp [hy] at hrun
    | some b => rw [hx, hy] at hN; simp [FallRel] at hN
  | some a =>
    cases hy : parmParseNode k fall' k (initParseBlock file)
        (initParseBlock file).top_anchor with
    | none => rw [hx, hy] at hN; simp [FallRel] at hN
    | some b =>
      obtain ⟨rc1, q⟩ := a
      obtain ⟨rc2, q'⟩ := b
      rw [hx, hy] at hN
      simp only [hy] at hrun
      simp only [FallRel] at hN
      obtain ⟨rfl, hrc⟩ := hN
      rcases hrc with rfl | ⟨rfl, rfl⟩
      · exact hrun
      · simp only [if_pos h'] at hrun
        simp only [Option.some.injEq, Prod.mk.injEq] at hrun
        exact absurd hrun.1.symm hne

/-- A result that holds for the two values `0` and `-1` of `fall`, and is not
the code `-1` itself, holds for every value. -/
theorem parmParseFile_fall_any (k : Nat) (file : List Nat) (rc : Int)
    (t : Option (Pool × PRMP_HANDLE)) (h0 : parmParseFile k 0 file = some (rc, t))
    (h1 : parmParseFile k (-1) file = some (rc, t)) (hne : rc ≠ -1) (fall : Int) :
    parmParseFile k fall file = some (rc, t) := by
  by_cases hf : fall < 0
  · exact parmParseFile_fall_neg k fall (-1) hf (by decide) file rc t h1 hne
  · rw [parmParseFile_fall_nonneg k fall 0 (by omega) (by decide) file]
    exact h0

/-! ## The cursor on a level -/

theorem nodes_getElem?_nodeAt (m : Pool) (i : Nat) (h : i < m.nodes.length) :
    m.nodes[i]? = some (nodeAt m i) := by
  simp [nodeAt, List.getD_eq_getElem?_getD, List.getElem?_eq_getElem h]

theorem startAtTop_of_some (h : PRMP_HANDLE) (A : Nat) (hA : h.cur_anchor = some A) :
    startAtTop h = h := by
  simp [startAtTop, hA]

theorem report_h (h : PRMP_HANDLE) (n : PRMP_NODE) (b : Bool) : (report h n b).h = h := by
  unfold report; split <;> rfl

theorem view_report (h : PRMP_HANDLE) (n : PRMP_NODE) : view (report h n true) = entry n := by
  unfold report entry view; split <;> rfl

theorem getNext_step (m : Pool) (h : PRMP_HANDLE) (A : Nat) (j : Nat) (l : List Nat)
    (hp : Ahead m h A (j :: l)) :
    parmGetNext m h = .done (report { h with cur_node := some j } (nodeAt m j) true) ∧
      Ahead m { h with cur_node := some j } A l := by
  obtain ⟨hA, hrest⟩ := hp
  cases hn : h.cur_node with
  | none =>
    rw [hn] at hrest
    obtain ⟨⟨h1, h2, h3⟩, hlt⟩ := hrest
    obtain ⟨a, ha⟩ : ∃ a, m.anchors[A]? = some a := ⟨_, List.getElem?_eq_getElem hlt⟩
    rw [ha, Option.some_bind] at h1
    refine ⟨?_, hA, h2, h3⟩
    simp only [parmGetNext, startAtTop_of_some h A hA, hA, hn, Option.some_bind, ha, h1,
      nodes_getElem?_nodeAt m j h2]
  | some i =>
    rw [hn] at hrest
    obtain ⟨hi, h1, h2, h3⟩ := hrest
    refine ⟨?_, hA, h2, h3⟩
    have hnx : (nodeAt m i).next = some j := by
      simpa [nextOf, nodes_getElem?_nodeAt m i hi] using h1
    simp only [parmGetNext, startAtTop_of_some h A hA, hn, nodes_getElem?_nodeAt m i hi, hnx,
      nodes_getElem?_nodeAt m j h2]

theorem getNext_end (m : Pool) (h : PRMP_HANDLE) (A : Nat) (hp : Ahead m h A []) :
    parmGetNext m h = .done (endAnswer h) := by
  obtain ⟨hA, hrest⟩ := hp
  cases hn : h.cur_node with
  | none =>
    rw [hn] at hrest
    obtain ⟨h1, hlt⟩ := hrest
    obtain ⟨a, ha⟩ : ∃ a, m.anchors[A]? = some a := ⟨_, List.getElem?_eq_getElem hlt⟩
    rw [ha, Option.some_bind] at h1
    simp only [IsChain] at h1
    simp only [parmGetNext, startAtTop_of_some h A hA, hA, hn, Option.some_bind, ha, h1, endAnswer]
  | some i =>
    rw [hn] at hrest
    obtain ⟨hi, h1⟩ := hrest
    simp only [IsChain] at h1
    have hnx : (nodeAt m i).next = none := by
      simpa [nextOf, nodes_getElem?_nodeAt m i hi] using h1
    simp only [parmGetNext, startAtTop_of_some h A hA, hn, nodes_getElem?_nodeAt m i hi, hnx,
      endAnswer]

theorem getNextCalls_ahead (m : Pool) (A : Nat) (l : List Nat) :
    ∀ h : PRMP_HANDLE, Ahead m h A l →
      getNextCalls m (l.length + 1) h = .done
        (l.map (fun j => report { h with cur_node := some j } (nodeAt m j) true)
          ++ [endAnswer h]) := by
  induction l with
  | nil =>
    intro h hp
    simp only [getNextCalls, getNext_end m h A hp, List.length_nil, List.map_nil, List.nil_append]
  | cons j l ih =>
    intro h hp
    obtain ⟨h1, h2⟩ := getNext_step m h A j l hp
    have := ih _ h2
    show getNextCalls m ((l.length + 1) + 1) h = _
    rw [getNextCalls.eq_2]
    simp only [h1, report_h]
    rw [this]
    rfl

theorem report_rc_ne_end (h : PRMP_HANDLE) (n : PRMP_NODE) (b : Bool)
    (ht : n.type = PRMP_STRING ∨ n.type = PRMP_NEXTLEVEL) :
    (report h n b).rc ≠ (PRMP_END : Int) := by
  unfold report
  rcases ht with ht | ht <;> simp [ht, PRMP_STRING, PRMP_NEXTLEVEL, PRMP_END]

theorem getNextUntilEnd_ahead (m : Pool) (A : Nat) (l : List Nat) :
    ∀ (h : PRMP_HANDLE) (fuel : Nat), Ahead m h A l → (∀ j ∈ l, Sound m j) → l.length < fuel →
      getNextUntilEnd fuel m h = some (.done
        (l.map (fun j => report { h with cur_node := some j } (nodeAt m j) true))) := by
  induction l with
  | nil =>
    intro h fuel hp _ hf
    obtain ⟨k, rfl⟩ : ∃ k, fuel = k + 1 := ⟨fuel - 1, by simp at hf; omega⟩
    simp [getNextUntilEnd, getNext_end m h A hp, endAnswer]
  | cons j l ih =>
    intro h fuel hp hs hf
    obtain ⟨k, rfl⟩ : ∃ k, fuel = k + 1 := ⟨fuel - 1, by simp at hf; omega⟩
    obtain ⟨h1, h2⟩ := getNext_step m h A j l hp
    have hj := (hs j (List.mem_cons_self _ _)).2
    have := ih _ k h2 (fun x hx => hs x (List.mem_cons_of_mem _ hx))
      (by simp at hf; omega)
    rw [getNextUntilEnd.eq_2]
    simp only [h1, report_h, if_neg (report_rc_ne_end _ _ _ hj)]
    rw [this]
    rfl

theorem endAnswer_of_none (h : PRMP_HANDLE) (hn : h.cur_node = none) :
    ({ rc := (PRMP_END : Int), h := h } : Answer) = endAnswer h := by
  cases h; simp_all [endAnswer]

theorem handle_of_some (h : PRMP_HANDLE) (j : Nat) (hn : h.cur_node = some j) :
    { h with cur_node := some j } = h := by
  cases h; simp_all

theorem findLoop_chain (m : Pool) (key : List Nat) (l : List Nat) :
    ∀ (h : PRMP_HANDLE) (fuel : Nat), IsChain m.nodes h.cur_node l →
      (∀ j ∈ l, (nodeAt m j).key ≠ none) → l.length < fuel →
      findLoop fuel m h key = some (.done
        (match l.dropWhile (fun j => !(hit m key j)) with
          | [] => endAnswer h
          | j :: _ => report { h with cur_node := some j } (nodeAt m j) false)) := by
  induction l with
  | nil =>
    intro h fuel hc _ hf
    obtain ⟨k, rfl⟩ : ∃ k, fuel = k + 1 := ⟨fuel - 1, by simp at hf; omega⟩
    simp only [IsChain] at hc
    simp only [findLoop, hc, List.dropWhile_nil, endAnswer_of_none h hc]
  | cons j l ih =>
    intro h fuel hc hk hf
    obtain ⟨k, rfl⟩ : ∃ k, fuel = k + 1 := ⟨fuel - 1, by simp at hf; omega⟩
    obtain ⟨h1, h2, h3⟩ := hc
    have hkj := hk j (List.mem_cons_self _ _)
    obtain ⟨nk, hnk⟩ : ∃ nk, (nodeAt m j).key = some nk := Option.ne_none_iff_exists'.mp hkj
    simp only [findLoop, h1, nodes_getElem?_nodeAt m j h2, hnk]
    by_cases hm : nk = key
    · have hh : hit m key j = true := by simp [hit, hnk, hm]
      simp only [if_pos hm, List.dropWhile_cons, hh, Bool.not_true, Bool.false_eq_true,
        if_false, handle_of_some h j h1]
    · have hh : hit m key j = false := by simp [hit, hnk, hm]
      have hnx : (nodeAt m j).next = nextOf m.nodes j := by
        simp [nextOf, nodes_getElem?_nodeAt m j h2]
      simp only [if_neg hm, List.dropWhile_cons, hh, Bool.not_false, if_true]
      rw [ih { h with cur_node := (nodeAt m j).next } k (by rw [hnx]; exact h3)
        (fun x hx => hk x (List.mem_cons_of_mem _ hx)) (by simp at hf; omega)]
      rfl

theorem IsChain_dropWhile (nodes : List PRMP_NODE) (f : Nat → Bool) (l : List Nat) :
    ∀ (p : Option Nat) (j : Nat) (rest : List Nat), IsChain nodes p l →
      l.dropWhile f = j :: rest →
      j < nodes.length ∧ IsChain nodes (nextOf nodes j) rest ∧ f j = false ∧
        rest.length < l.length ∧ l.filter (fun x => !(f x)) = j :: rest.filter (fun x => !(f x)) := by
  induction l with
  | nil => intro p j rest _ hd; simp at hd
  | cons i l ih =>
    intro p j rest hc hd
    obtain ⟨h1, h2, h3⟩ := hc
    by_cases hf : f i = true
    · rw [List.dropWhile_cons, if_pos hf] at hd
      obtain ⟨a, b, c, d, e⟩ := ih _ j rest h3 hd
      refine ⟨a, b, c, by simp; omega, ?_⟩
      simp [List.filter_cons, hf, e]
    · rw [List.dropWhile_cons, if_neg hf] at hd
      simp only [List.cons.injEq] at hd
      obtain ⟨rfl, rfl⟩ := hd
      refine ⟨h2, h3, by simpa using hf, by simp, ?_⟩
      simp [List.filter_cons, hf]

theorem filter_of_dropWhile_nil (f : Nat → Bool) (l : List Nat) (h : l.dropWhile f = []) :
    l.filter (fun x => !(f x)) = [] := by
  induction l with
  | nil => rfl
  | cons i l ih =>
    by_cases hf : f i = true
    · rw [List.dropWhile_cons, if_pos hf] at h
      simp [List.filter_cons, hf, ih h]
    · rw [List.dropWhile_cons, if_neg hf] at h
      simp at h

theorem findNextKey_ahead (m : Pool) (key : List Nat) (h : PRMP_HANDLE) (A : Nat) (l : List Nat)
    (fuel : Nat) (hp : Ahead m h A l) (hk : ∀ j ∈ l, (nodeAt m j).key ≠ none)
    (hf : l.length < fuel) :
    parmFindNextKey fuel m h key = some (.done
      (match l.dropWhile (fun j => !(hit m key j)) with
        | [] => endAnswer h
        | j :: _ => report { h with cur_node := some j } (nodeAt m j) false)) := by
  obtain ⟨hA, hrest⟩ := hp
  cases hn : h.cur_node with
  | none =>
    rw [hn] at hrest
    obtain ⟨hc, hlt⟩ := hrest
    obtain ⟨a, ha⟩ : ∃ a, m.anchors[A]? = some a := ⟨_, List.getElem?_eq_getElem hlt⟩
    rw [ha, Option.some_bind] at hc
    simp only [parmFindNextKey, startAtTop_of_some h A hA, hn, hA, Option.some_bind, ha]
    have e := findLoop_chain m key l { h with cur_node := a.first } fuel hc hk hf
    simp only [hA, endAnswer] at e ⊢
    exact e
  | some i =>
    rw [hn] at hrest
    obtain ⟨hi, hc⟩ := hrest
    have hnx : (nodeAt m i).next = nextOf m.nodes i := by
      simp [nextOf, nodes_getElem?_nodeAt m i hi]
    simp only [parmFindNextKey, startAtTop_of_some h A hA, hn, nodes_getElem?_nodeAt m i hi]
    rw [findLoop_chain m key l { h with cur_node := (nodeAt m i).next } fuel
      (by rw [hnx]; exact hc) hk hf]
    rfl

theorem findKey_level (m : Pool) (key : List Nat) (h : PRMP_HANDLE) (A : Nat) (l : List Nat)
    (fuel : Nat) (hA : (startAtTop h).cur_anchor = some A) (hl : IsLevel m A l)
    (hk : ∀ j ∈ l, (nodeAt m j).key ≠ none) (hf : l.length < fuel) :
    parmFindKey fuel m h key = some (.done
      (match l.dropWhile (fun j => !(hit m key j)) with
        | [] => endAnswer (startAtTop h)
        | j :: _ => report { startAtTop h with cur_node := some j } (nodeAt m j) false)) := by
  obtain ⟨hlt, hc⟩ := hl
  obtain ⟨a, ha⟩ : ∃ a, m.anchors[A]? = some a := ⟨_, List.getElem?_eq_getElem hlt⟩
  rw [ha, Option.some_bind] at hc
  simp only [parmFindKey, hA, Option.some_bind, ha]
  have e := findLoop_chain m key l { startAtTop h with cur_node := a.first } fuel hc hk hf
  simp only [hA, endAnswer] at e ⊢
  exact e

theorem findNextUntilEnd_ahead (m : Pool) (key : List Nat) (A : Nat) :
    ∀ (n : Nat) (l : List Nat), l.length ≤ n → ∀ (h : PRMP_HANDLE) (fuel : Nat),
      Ahead m h A l → (∀ j ∈ l, Sound m j) → l.length < fuel →
      findNextUntilEnd fuel m h key = some (.done
        ((l.filter (hit m key)).map
          (fun j => report { h with cur_node := some j } (nodeAt m j) false))) := by
  intro n
  induction n with
  | zero =>
    intro l hl h fuel hp hs hf
    obtain rfl : l = [] := List.length_eq_zero.mp (by omega)
    obtain ⟨k, rfl⟩ : ∃ k, fuel = k + 1 := ⟨fuel - 1, by simp at hf; omega⟩
    rw [findNextUntilEnd.eq_2, findNextKey_ahead m key h A [] (k + 1) hp (by simp) (by simp)]
    simp [endAnswer]
  | succ n ih =>
    intro l hl h fuel hp hs hf
    obtain ⟨k, rfl⟩ : ∃ k, fuel = k + 1 := ⟨fuel - 1, by omega⟩
    rw [findNextUntilEnd.eq_2, findNextKey_ahead m key h A l (k + 1) hp
      (fun j hj => (hs j hj).1) hf]
    have hnn : (fun x => !(!(hit m key x))) = hit m key := by funext x; simp
    cases hd : l.dropWhile (fun j => !(hit m key j)) with
    | nil =>
      have := filter_of_dropWhile_nil _ l hd
      rw [hnn] at this
      simp [this, endAnswer]
    | cons j rest =>
      obtain ⟨a, b, c, d, e⟩ := IsChain_dropWhile m.nodes (fun j => !(hit m key j)) l
        (match h.cur_node with
          | none => (m.anchors[A]?).bind (fun a => a.first)
          | some i => nextOf m.nodes i) j rest
        (by
          obtain ⟨_, hr⟩ := hp
          cases hn : h.cur_node with
          | none => rw [hn] at hr; exact hr.1
          | some i => rw [hn] at hr; exact hr.2) hd
      rw [hnn] at e
      have hjl : j ∈ l := by
        have : j ∈ l.filter (hit m key) := by rw [e]; exact List.mem_cons_self _ _
        exact (List.mem_filter.mp this).1
      have hrl : ∀ x ∈ rest, x ∈ l := by
        intro x hx
        have := List.dropWhile_suffix (fun j => !(hit m key j)) (l := l)
        rw [hd] at this
        exact this.subset (List.mem_cons_of_mem _ hx)
      have hj := (hs j hjl).2
      have hp2 : Ahead m { h with cur_node := some j } A rest := ⟨hp.1, a, b⟩
      have := ih rest (by omega) _ k hp2 (fun x hx => hs x (hrl x hx)) (by omega)
      simp only [report_h, if_neg (report_rc_ne_end _ _ _ hj)]
      rw [this, e]
      rfl

theorem findUntilEnd_level (m : Pool) (key : List Nat) (h : PRMP_HANDLE) (A : Nat) (l : List Nat)
    (fuel : Nat) (hA : (startAtTop h).cur_anchor = some A) (hl : IsLevel m A l)
    (hs : ∀ j ∈ l, Sound m j) (hf : l.length < fuel) :
    findUntilEnd fuel m h key = some (.done
      ((l.filter (hit m key)).map
        (fun j => report { startAtTop h with cur_node := some j } (nodeAt m j) false))) := by
  unfold findUntilEnd
  rw [findKey_level m key h A l fuel hA hl (fun j hj => (hs j hj).1) hf]
  have hnn : (fun x => !(!(hit m key x))) = hit m key := by funext x; simp
  cases hd : l.dropWhile (fun j => !(hit m key j)) with
  | nil =>
    have := filter_of_dropWhile_nil _ l hd
    rw [hnn] at this
    simp [this, endAnswer]
  | cons j rest =>
    obtain ⟨a, b, c, d, e⟩ := IsChain_dropWhile m.nodes (fun j => !(hit m key j)) l _ j rest hl.2 hd
    rw [hnn] at e
    have hjl : j ∈ l := by
      have : j ∈ l.filter (hit m key) := by rw [e]; exact List.mem_cons_self _ _
      exact (List.mem_filter.mp this).1
    have hrl : ∀ x ∈ rest, x ∈ l := by
      intro x hx
      have := List.dropWhile_suffix (fun j => !(hit m key j)) (l := l)
      rw [hd] at this
      exact this.subset (List.mem_cons_of_mem _ hx)
    have hj := (hs j hjl).2
    have hp2 : Ahead m { startAtTop h with cur_node := some j } A rest := ⟨hA, a, b⟩
    have := findNextUntilEnd_ahead m key A rest.length rest (le_refl _) _ fuel hp2
      (fun x hx => hs x (hrl x hx)) (by omega)
    simp only [report_h, if_neg (report_rc_ne_end _ _ _ hj)]
    rw [this, e]
    rfl

theorem toUChar_nonneg (i : Int) : ¬ ((toUChar i : Nat) : Int) < 0 := by omega

theorem reaches_error (fall : Int) (sf : Nat) (k : Nat) (p : PARSE_BLOCK) (a : Nat) (k' : Nat)
    (q : PARSE_BLOCK) (a' : Nat) (hr : Reaches fall sf k p a k' q a') (rc : Int)
    (s : PARSE_BLOCK) (hq : parmParseNodeLoop k' fall sf q a' = some (rc, s)) (hneg : rc < 0) :
    parmParseNodeLoop k fall sf p a = some (rc, s) := by
  induction hr with
  | here k p a => exact hq
  | next k p a rc1 p1 p2 k' q a' hk hrc1 he1 hv he2 _ ih =>
    rw [parmParseNodeLoop.eq_2]
    simp only [hk, hv, if_neg (not_lt.mpr hrc1), he1, he2, Bool.false_eq_true, if_false,
      lt_self_iff_false, gt_iff_lt]
    exact ih hq
  | down k p a rc1 rc0 p1 p2 k' q a' hk hrc1 he1 hs ht hl _ ih =>
    rw [parmParseNodeLoop.eq_2]
    have hv : parse_value (k + 2) fall sf p1 p.nodes.length = some (rc, s) := by
      rw [parse_value.eq_2]
      simp only [hs]
      rw [if_neg (toUChar_nonneg rc0), ht]
      simp only [hl, Nat.reduceEqDiff, if_false, if_true, gt_iff_lt, lt_self_iff_false]
      rw [parmParseNode.eq_2, ih hq]
      simp only [if_pos hneg]
    simp only [hk, hv, if_neg (not_lt.mpr hrc1), he1, Bool.false_eq_true, if_false, if_pos hneg]

theorem atKey_error (fuel : Nat) (fall : Int) (file : List Nat) (k : Nat) (q : PARSE_BLOCK)
    (a : Nat) (hat : AtKey fuel fall file k q a) (rc : Int) (s : PARSE_BLOCK)
    (hq : parmParseNodeLoop k fall fuel q a = some (rc, s)) (hneg : rc < 0) :
    parmParseFile fuel fall file = some (rc, none) := by
  obtain ⟨j, hj, hr⟩ := hat
  have h := reaches_error fall fuel j _ 0 k q a hr rc s hq hneg
  unfold parmParseFile parmParse
  have htop : (initParseBlock file).top_anchor = 0 := rfl
  rw [htop]
  have hn : parmParseNode fuel fall fuel (initParseBlock file) 0 = some (rc, s) := by
    rw [hj, parmParseNode.eq_2, ← hj]
    exact h
  simp only [hn, if_pos hneg]

theorem fgets_line (line rest : List Nat) (h10 : ∀ c ∈ line, c ≠ 10) :
    ∀ n, line.length < n → fgets n (line ++ 10 :: rest) = (line ++ [10], rest, false) := by
  induction line with
  | nil =>
    intro n hn
    obtain ⟨k, rfl⟩ : ∃ k, n = k + 1 := ⟨n - 1, by simp at hn; omega⟩
    simp [fgets]
  | cons c l ih =>
    intro n hn
    obtain ⟨k, rfl⟩ : ∃ k, n = k + 1 := ⟨n - 1, by simp at hn; omega⟩
    have hc : c ≠ 10 := h10 c (List.mem_cons_self _ _)
    have := ih (fun x hx => h10 x (List.mem_cons_of_mem _ hx)) k (by simp at hn; omega)
    simp [fgets, hc, this]

theorem callbackIoLoop_line (line rest : List Nat) (hg : GoodLine line) (k : Nat) :
    callbackIoLoop (k + 1) (line ++ 10 :: rest) = ((line.length : Int), line, rest) := by
  obtain ⟨hne, hlen, hc, hlast⟩ := hg
  have hf := fgets_line line rest (fun c hx => (hc c hx).2) (PRMP_STRING_WORK_SIZE - 1)
    (by simp [PRMP_STRING_WORK_SIZE]; omega)
  have hs : strlen (line ++ [10]) = line ++ [10] := by
    unfold strlen
    rw [List.takeWhile_eq_self_iff]
    intro x hx
    rcases List.mem_append.mp hx with h | h
    · simpa using (hc x h).1
    · simp at h; simp [h]
  rw [callbackIoLoop]
  have hne2 : line ++ 10 :: rest ≠ [] := by simp
  simp only [hne2, if_false, hf, hs, Bool.false_eq_true]
  have h1 : ¬ (line ++ [10]).length ≥ PRMP_STRING_WORK_SIZE := by
    simp [PRMP_STRING_WORK_SIZE]; omega
  have h2 : (line ++ [10]).getLast? = some 10 := by simp
  simp only [h1, if_false, h2, if_true, List.dropLast_concat, if_neg hlast]
  have h3 : line.length ≠ 0 := by
    intro h; exact hne (List.length_eq_zero.mp h)
  simp only [h3, if_false]

theorem next_char_inLine (p : PARSE_BLOCK) (c : Nat) (buf rest : List Nat) (iq : Bool)
    (hc : c ≠ 35 ∨ iq = true) :
    next_char (inLine p (c :: buf) rest) false iq = (c, inLine p buf rest) := by
  have h : ¬ (c = 35 ∧ iq = false) := by
    rintro ⟨h1, h2⟩
    rcases hc with h | h
    · exact h h1
    · rw [h] at h2; exact Bool.noConfusion h2
  simp [next_char, next_char_line, inLine, h]

theorem next_char_lineEnd (p : PARSE_BLOCK) (rest : List Nat) (iq : Bool) :
    next_char (inLine p [] rest) false iq = (32, offLine { p with buf := [] } rest) := by
  simp [next_char, next_char_line, inLine, offLine]

theorem next_char_offLine (p : PARSE_BLOCK) (c : Nat) (line rest : List Nat) (iq : Bool)
    (hg : GoodLine (c :: line)) (hc : c ≠ 35 ∨ iq = true) :
    next_char (offLine p (c :: line ++ 10 :: rest)) false iq = (c, inLine p line rest) := by
  have h : ¬ (c = 35 ∧ iq = false) := by
    rintro ⟨h1, h2⟩
    rcases hc with h | h
    · exact h h1
    · rw [h] at h2; exact Bool.noConfusion h2
  have hcb : callbackIo (offLine p (c :: line ++ 10 :: rest))
      = (((c :: line).length : Int), c :: line, rest) := by
    unfold callbackIo
    exact callbackIoLoop_line (c :: line) rest hg _
  simp only [offLine] at hcb ⊢
  simp only [next_char, hcb]
  simp [next_char_line, inLine, h]
  have h1 : ¬ ((line.length : Int) + 1 < 0) := by omega
  have h2 : ¬ ((line.length : Int) + 1 = 0) := by omega
  rw [if_neg h1, if_neg h2]

theorem next_char_offLine_eof (p : PARSE_BLOCK) (la iq : Bool) :
    next_char (offLine p []) la iq = (255, { offLine p [] with is_eof := true }) := by
  simp [next_char, offLine, callbackIo, callbackIoLoop]

theorem main_plain_step (k : Nat) (p : PARSE_BLOCK) (c d : Nat) (buf rest : List Nat) (qc : Nat)
    (hc : Plain c) (hd : d ≠ 35) (hroom : p.str_wrk.length < p.str_wrk_len - 1) :
    next_string_main (k + 1) (inLine p (d :: buf) rest) c false qc
      = next_string_main k (inLine { p with str_wrk := p.str_wrk ++ [c] } buf rest) d false qc := by
  obtain ⟨h1, h2, h3, h4, h5, h6⟩ := hc
  have ht : next_string_test (inLine p (d :: buf) rest) c false qc
      = .go c false qc (inLine p (d :: buf) rest) := by
    simp [next_string_test, inLine, h1, h2, h3, h4, h5, h6]
  rw [next_string_main, ht]
  have hr : ¬ (inLine p (d :: buf) rest).str_wrk.length ≥ (inLine p (d :: buf) rest).str_wrk_len - 1 := by
    simp only [inLine]; omega
  simp only [hr, if_false]
  have hn := next_char_inLine { p with str_wrk := p.str_wrk ++ [c] } d buf rest false (Or.inl hd)
  have he : ({ inLine p (d :: buf) rest with
      str_wrk := (inLine p (d :: buf) rest).str_wrk ++ [c] } : PARSE_BLOCK)
      = inLine { p with str_wrk := p.str_wrk ++ [c] } (d :: buf) rest := rfl
  rw [he, hn]

theorem main_plain (ks : List Nat) : ∀ (k : Nat) (p : PARSE_BLOCK) (c t : Nat) (more rest : List Nat)
    (qc : Nat), Plain c → (∀ x ∈ ks, Plain x ∧ x ≠ 35) → t ≠ 35 →
    p.str_wrk.length + ks.length < p.str_wrk_len - 1 →
    next_string_main (ks.length + 1 + k) (inLine p (ks ++ t :: more) rest) c false qc
      = next_string_main k (inLine { p with str_wrk := p.str_wrk ++ c :: ks } more rest)
          t false qc := by
  induction ks with
  | nil =>
    intro k p c t more rest qc hc _ ht hroom
    have := main_plain_step k p c t more rest qc hc ht (by simpa using hroom)
    simpa [Nat.add_comm] using this
  | cons x ks ih =>
    intro k p c t more rest qc hc hks ht hroom
    have hx := hks x (List.mem_cons_self _ _)
    have h1 := main_plain_step (ks.length + 1 + k) p c x (ks ++ t :: more) rest qc hc hx.2
      (by simp at hroom; omega)
    have h2 := ih k { p with str_wrk := p.str_wrk ++ [c] } x t more rest qc hx.1
      (fun y hy => hks y (List.mem_cons_of_mem _ hy)) ht (by simp at hroom ⊢; omega)
    have e1 : (x :: ks).length + 1 + k = (ks.length + 1 + k) + 1 := by simp; omega
    rw [e1, List.cons_append, h1, h2]
    simp

theorem main_stop (k : Nat) (p : PARSE_BLOCK) (t : Nat) (buf rest : List Nat) (qc : Nat)
    (ht : t = 32 ∨ t = 58 ∨ t = 123 ∨ t = 125) :
    next_string_main (k + 1) (inLine p buf rest) t false qc = some (.brk t (inLine p buf rest)) := by
  have h34 : ¬ (t = 34 ∨ t = 39) := by omega
  have hT : next_string_test (inLine p buf rest) t false qc = .brk t (inLine p buf rest) := by
    simp [next_string_test, inLine, h34, ht]
  rw [next_string_main, hT]

theorem main_quote_after_plain (k : Nat) (p : PARSE_BLOCK) (t : Nat) (buf rest : List Nat)
    (qc : Nat) (ht : t = 34 ∨ t = 39) (hs : p.str_wrk ≠ []) :
    next_string_main (k + 1) (inLine p buf rest) t false qc
      = some (.ret (-2) (inLine p buf rest)) := by
  have hl : 0 < p.str_wrk.length := List.length_pos.mpr hs
  have hT : next_string_test (inLine p buf rest) t false qc = .ret (-2) (inLine p buf rest) := by
    simp [next_string_test, inLine, ht, hl]
  rw [next_string_main, hT]

theorem main_quoted_step (k : Nat) (p : PARSE_BLOCK) (c d q : Nat) (buf rest : List Nat)
    (hc : c ≠ q) (hroom : p.str_wrk.length < p.str_wrk_len - 1) :
    next_string_main (k + 1) (inLine p (d :: buf) rest) c true q
      = next_string_main k (inLine { p with str_wrk := p.str_wrk ++ [c] } buf rest) d true q := by
  have ht : next_string_test (inLine p (d :: buf) rest) c true q
      = .go c true q (inLine p (d :: buf) rest) := by
    simp [next_string_test, inLine, hc]
  rw [next_string_main, ht]
  have hr : ¬ (inLine p (d :: buf) rest).str_wrk.length ≥ (inLine p (d :: buf) rest).str_wrk_len - 1 := by
    simp only [inLine]; omega
  simp only [hr, if_false]
  have hn := next_char_inLine { p with str_wrk := p.str_wrk ++ [c] } d buf rest true (Or.inr rfl)
  have he : ({ inLine p (d :: buf) rest with
      str_wrk := (inLine p (d :: buf) rest).str_wrk ++ [c] } : PARSE_BLOCK)
      = inLine { p with str_wrk := p.str_wrk ++ [c] } (d :: buf) rest := rfl
  rw [he, hn]

theorem main_quoted (vs : List Nat) : ∀ (k : Nat) (p : PARSE_BLOCK) (c q : Nat) (more rest : List Nat),
    c ≠ q → (∀ x ∈ vs, x ≠ q) → p.str_wrk.length + vs.length < p.str_wrk_len - 1 →
    next_string_main (vs.length + 1 + k) (inLine p (vs ++ q :: more) rest) c true q
      = next_string_main k (inLine { p with str_wrk := p.str_wrk ++ c :: vs } more rest)
          q true q := by
  induction vs with
  | nil =>
    intro k p c q more rest hc _ hroom
    have := main_quoted_step k p c q q more rest hc (by simpa using hroom)
    simpa [Nat.add_comm] using this
  | cons x vs ih =>
    intro k p c q more rest hc hvs hroom
    have hx := hvs x (List.mem_cons_self _ _)
    have h1 := main_quoted_step (vs.length + 1 + k) p c x q (vs ++ q :: more) rest hc
      (by simp at hroom; omega)
    have h2 := ih k { p with str_wrk := p.str_wrk ++ [c] } x q more rest hx
      (fun y hy => hvs y (List.mem_cons_of_mem _ hy)) (by simp at hroom ⊢; omega)
    have e1 : (x :: vs).length + 1 + k = (vs.length + 1 + k) + 1 := by simp; omega
    rw [e1, List.cons_append, h1, h2]
    simp

theorem main_quote_close (k : Nat) (p : PARSE_BLOCK) (q : Nat) (buf rest : List Nat) :
    next_string_main (k + 1) (inLine p buf rest) q true q = some (.brk q (inLine p buf rest)) := by
  have hT : next_string_test (inLine p buf rest) q true q = .brk q (inLine p buf rest) := by
    simp [next_string_test, inLine]
  rw [next_string_main, hT]

theorem main_quote_open (k : Nat) (p : PARSE_BLOCK) (q d d' : Nat) (buf rest : List Nat) (qc : Nat)
    (hq : q = 34 ∨ q = 39) (hs : p.str_wrk = []) (hd : d ≠ 255) (hroom : 0 < p.str_wrk_len - 1) :
    next_string_main (k + 1) (inLine p (d :: d' :: buf) rest) q false qc
      = next_string_main k (inLine { p with str_wrk := [d] } buf rest) d' true q := by
  have hn := next_char_inLine p d (d' :: buf) rest true (Or.inr rfl)
  have ht : next_string_test (inLine p (d :: d' :: buf) rest) q false qc
      = .go d true q (inLine p (d' :: buf) rest) := by
    unfold next_string_test
    have e1 : (inLine p (d :: d' :: buf) rest).is_eof = false := rfl
    have e2 : (inLine p (d :: d' :: buf) rest).str_wrk = [] := hs
    simp only [e1, e2, hn, hq, hd]
    simp
  rw [next_string_main, ht]
  have hr : ¬ (inLine p (d' :: buf) rest).str_wrk.length ≥ (inLine p (d' :: buf) rest).str_wrk_len - 1 := by
    simp only [inLine, hs]; simp; omega
  simp only [hr, if_false]
  have hn2 := next_char_inLine { p with str_wrk := [d] } d' buf rest true (Or.inr rfl)
  have he : ({ inLine p (d' :: buf) rest with
      str_wrk := (inLine p (d' :: buf) rest).str_wrk ++ [d] } : PARSE_BLOCK)
      = inLine { p with str_wrk := [d] } (d' :: buf) rest := by
    simp [inLine, hs]
  rw [he, hn2]

theorem lead_inLine_stop (k : Nat) (p : PARSE_BLOCK) (c : Nat) (buf rest : List Nat)
    (h32 : c ≠ 32) (h0 : c ≠ 0) (h35 : c ≠ 35) :
    next_string_lead (k + 1) (inLine p (c :: buf) rest) = some (c, inLine p buf rest) := by
  rw [next_string_lead, next_char_inLine p c buf rest false (Or.inl h35)]
  simp [h32, h0]

theorem lead_inLine_space (k : Nat) (p : PARSE_BLOCK) (buf rest : List Nat) :
    next_string_lead (k + 1) (inLine p (32 :: buf) rest)
      = next_string_lead k (inLine p buf rest) := by
  rw [next_string_lead, next_char_inLine p 32 buf rest false (Or.inl (by decide))]
  simp

theorem lead_lineEnd (k : Nat) (p : PARSE_BLOCK) (rest : List Nat) :
    next_string_lead (k + 1) (inLine p [] rest)
      = next_string_lead k (offLine { p with buf := [] } rest) := by
  rw [next_string_lead, next_char_lineEnd p rest false]
  simp

theorem lead_offLine_stop (k : Nat) (p : PARSE_BLOCK) (c : Nat) (line rest : List Nat)
    (hg : GoodLine (c :: line)) (h32 : c ≠ 32) (h0 : c ≠ 0) (h35 : c ≠ 35) :
    next_string_lead (k + 1) (offLine p (c :: line ++ 10 :: rest))
      = some (c, inLine p line rest) := by
  rw [next_string_lead, next_char_offLine p c line rest false hg (Or.inl h35)]
  simp [h32, h0]

theorem lead_offLine_eof (k : Nat) (p : PARSE_BLOCK) :
    next_string_lead (k + 1) (offLine p []) = some (255, { offLine p [] with is_eof := true }) := by
  rw [next_string_lead, next_char_offLine_eof p false false]
  simp

theorem trail_not_space (k : Nat) (p : PARSE_BLOCK) (c : Nat) (hc : c ≠ 32) :
    next_string_trail (k + 1) p c = some (.brk c p) := by
  rw [next_string_trail]
  simp [hc]

theorem trail_eof (k : Nat) (p : PARSE_BLOCK) (c : Nat) (he : p.is_eof = true) :
    next_string_trail (k + 1) p c = some (.brk c p) := by
  rw [next_string_trail]
  simp [he]

theorem BareByte.plain {c : Nat} (h : BareByte c) : Plain c ∧ c ≠ 35 := by
  obtain ⟨_, _, h32, h34, h35, h39, h58, h123, h125⟩ := h
  exact ⟨⟨h32, h34, h39, h58, h123, h125⟩, h35⟩

/-- The key token `c :: ks` followed by a colon, read where a line begins. -/
theorem next_string_key_offLine (sf : Nat) (p : PARSE_BLOCK) (c : Nat) (ks tail rest : List Nat)
    (b : Bool) (hc : BareByte c) (hks : ∀ x ∈ ks, BareByte x)
    (hg : GoodLine (c :: ks ++ 58 :: tail)) (hlen : p.str_wrk_len = PRMP_STRING_WORK_SIZE)
    (hsf : ks.length + 3 ≤ sf) (hroom : ks.length < 510) :
    next_string sf (offLine p (c :: ks ++ 58 :: tail ++ 10 :: rest)) b
      = some (58, inLine { p with str_wrk := c :: ks } tail rest) := by
  obtain ⟨j, rfl⟩ : ∃ j, sf = ks.length + 1 + (j + 1) := ⟨sf - ks.length - 2, by omega⟩
  unfold next_string
  have e0 : ({ offLine p (c :: ks ++ 58 :: tail ++ 10 :: rest) with str_wrk := [] } : PARSE_BLOCK)
      = offLine { p with str_wrk := [] } (c :: (ks ++ 58 :: tail) ++ 10 :: rest) := by
    simp [offLine]
  have hl := lead_offLine_stop (ks.length + 1 + j) { p with str_wrk := [] } c (ks ++ 58 :: tail)
    rest (by simpa using hg) hc.2.2.1 hc.1 hc.2.2.2.2.1
  have hm := main_plain ks (j + 1) { p with str_wrk := [] } c 58 tail rest 0 hc.plain.1
    (fun x hx => (hks x hx).plain) (by decide)
    (by simp [hlen, PRMP_STRING_WORK_SIZE]; omega)
  have hs := main_stop j { p with str_wrk := [] ++ c :: ks } 58 tail rest 0 (by decide)
  have ht := trail_not_space (ks.length + 1 + j)
    (inLine { p with str_wrk := [] ++ c :: ks } tail rest) 58 (by decide)
  rw [e0, show ks.length + 1 + (j + 1) = (ks.length + 1 + j) + 1 from by omega, hl]
  simp only
  rw [show (ks.length + 1 + j) + 1 = ks.length + 1 + (j + 1) from by omega, hm, hs]
  simp only
  rw [show ks.length + 1 + (j + 1) = (ks.length + 1 + j) + 1 from by omega, ht]
  simp

theorem lead_boundary_stop (k : Nat) (b : Bool) (p : PARSE_BLOCK) (c : Nat) (line rest : List Nat)
    (hg : GoodLine (c :: line)) (h32 : c ≠ 32) (h0 : c ≠ 0) (h35 : c ≠ 35) :
    next_string_lead (k + 2) (boundary b p (c :: line ++ 10 :: rest))
      = some (c, inLine p line rest) := by
  cases b with
  | false => exact lead_offLine_stop (k + 1) p c line rest hg h32 h0 h35
  | true =>
    show next_string_lead (k + 1 + 1) (inLine p [] (c :: line ++ 10 :: rest)) = _
    rw [lead_lineEnd, lead_offLine_stop k _ c line rest hg h32 h0 h35]
    rfl

theorem lead_boundary_eof (k : Nat) (b : Bool) (p : PARSE_BLOCK) :
    ∃ z, next_string_lead (k + 2) (boundary b p []) = some (255, z) ∧ z.is_eof = true ∧
      z.str_wrk = p.str_wrk ∧ z.nodes = p.nodes ∧ z.anchors = p.anchors ∧
      z.top_anchor = p.top_anchor ∧ z.current_anchor = p.current_anchor := by
  cases b with
  | false => exact ⟨_, lead_offLine_eof (k + 1) p, rfl, rfl, rfl, rfl, rfl, rfl⟩
  | true =>
    refine ⟨{ offLine { p with buf := [] } [] with is_eof := true }, ?_, rfl, rfl, rfl, rfl, rfl, rfl⟩
    show next_string_lead (k + 1 + 1) (inLine p [] []) = _
    rw [lead_lineEnd, lead_offLine_eof k]

/-- The key token `c :: ks` followed by a colon, read where a new line is due. -/
theorem next_string_key (sf : Nat) (bd : Bool) (p : PARSE_BLOCK) (c : Nat)
    (ks tail rest : List Nat) (b : Bool) (hc : BareByte c) (hks : ∀ x ∈ ks, BareByte x)
    (hg : GoodLine (c :: ks ++ 58 :: tail)) (hlen : p.str_wrk_len = PRMP_STRING_WORK_SIZE)
    (hsf : ks.length + 4 ≤ sf) (hroom : ks.length < 510) :
    next_string sf (boundary bd p (c :: ks ++ 58 :: tail ++ 10 :: rest)) b
      = some (58, inLine { p with str_wrk := c :: ks } tail rest) := by
  obtain ⟨j, rfl⟩ : ∃ j, sf = ks.length + 1 + (j + 2) := ⟨sf - ks.length - 3, by omega⟩
  unfold next_string
  have e0 : ({ boundary bd p (c :: ks ++ 58 :: tail ++ 10 :: rest) with str_wrk := [] } : PARSE_BLOCK)
      = boundary bd { p with str_wrk := [] } (c :: (ks ++ 58 :: tail) ++ 10 :: rest) := by
    cases bd <;> simp [boundary, offLine, inLine]
  have hl := lead_boundary_stop (ks.length + 1 + j) bd { p with str_wrk := [] } c (ks ++ 58 :: tail)
    rest (by simpa using hg) hc.2.2.1 hc.1 hc.2.2.2.2.1
  have hm := main_plain ks (j + 2) { p with str_wrk := [] } c 58 tail rest 0 hc.plain.1
    (fun x hx => (hks x hx).plain) (by decide)
    (by simp [hlen, PRMP_STRING_WORK_SIZE]; omega)
  have hs := main_stop (j + 1) { p with str_wrk := [] ++ c :: ks } 58 tail rest 0 (by decide)
  have ht := trail_not_space (ks.length + 1 + j + 1)
    (inLine { p with str_wrk := [] ++ c :: ks } tail rest) 58 (by decide)
  rw [e0, show ks.length + 1 + (j + 2) = (ks.length + 1 + j) + 2 from by omega, hl]
  simp only
  rw [show (ks.length + 1 + j) + 2 = ks.length + 1 + (j + 2) from by omega, hm, hs]
  simp only
  rw [show ks.length + 1 + (j + 2) = (ks.length + 1 + j + 1) + 1 from by omega, ht]
  simp

theorem main_quote_open_ne (k : Nat) (p : PARSE_BLOCK) (q d : Nat) (buf rest : List Nat)
    (qc : Nat) (hq : q = 34 ∨ q = 39) (hs : p.str_wrk = []) (hd : d ≠ 255) (hdq : d ≠ q) :
    next_string_main (k + 1) (inLine p (d :: buf) rest) q false qc
      = next_string_main (k + 1) (inLine p buf rest) d true q := by
  have hn := next_char_inLine p d buf rest true (Or.inr rfl)
  have ht1 : next_string_test (inLine p (d :: buf) rest) q false qc
      = .go d true q (inLine p buf rest) := by
    unfold next_string_test
    have e1 : (inLine p (d :: buf) rest).is_eof = false := rfl
    have e2 : (inLine p (d :: buf) rest).str_wrk = [] := hs
    simp only [e1, e2, hn, hq, hd]
    simp
  have ht2 : next_string_test (inLine p buf rest) d true q = .go d true q (inLine p buf rest) := by
    simp [next_string_test, inLine, hdq]
  rw [next_string_main, ht1]
  conv_rhs => rw [next_string_main, ht2]

/-- The value token `d :: vs` in quotes `q`, read after a blank inside a line. -/
theorem next_string_quoted (sf : Nat) (p : PARSE_BLOCK) (q d : Nat) (vs tail rest : List Nat)
    (b : Bool) (hq : q = 34 ∨ q = 39) (hd : d ≠ q) (hd255 : d ≠ 255) (hvs : ∀ x ∈ vs, x ≠ q)
    (hlen : p.str_wrk_len = PRMP_STRING_WORK_SIZE) (hsf : vs.length + 4 ≤ sf)
    (hroom : vs.length < 510) :
    next_string sf (inLine p (32 :: q :: d :: vs ++ q :: tail) rest) b
      = some (32, inLine { p with str_wrk := d :: vs } tail rest) := by
  obtain ⟨j, rfl⟩ : ∃ j, sf = vs.length + 1 + (j + 2) := ⟨sf - vs.length - 3, by omega⟩
  unfold next_string
  have e0 : ({ inLine p (32 :: q :: d :: vs ++ q :: tail) rest with str_wrk := [] } : PARSE_BLOCK)
      = inLine { p with str_wrk := [] } (32 :: q :: (d :: vs ++ q :: tail)) rest := by
    simp [inLine]
  have hq32 : q ≠ 32 := by omega
  have hq0 : q ≠ 0 := by omega
  have hq35 : q ≠ 35 := by omega
  have hl : next_string_lead (vs.length + 1 + j + 2)
      (inLine { p with str_wrk := [] } (32 :: q :: (d :: vs ++ q :: tail)) rest)
      = some (q, inLine { p with str_wrk := [] } (d :: vs ++ q :: tail) rest) := by
    rw [show vs.length + 1 + j + 2 = (vs.length + 1 + j + 1) + 1 from rfl, lead_inLine_space,
      lead_inLine_stop _ _ q _ _ hq32 hq0 hq35]
  have ho := main_quote_open_ne (vs.length + 1 + j + 1) { p with str_wrk := [] } q d
    (vs ++ q :: tail) rest 0 hq rfl hd255 hd
  have hm := main_quoted vs (j + 2) { p with str_wrk := [] } d q tail rest hd hvs
    (by simp [hlen, PRMP_STRING_WORK_SIZE]; omega)
  have hs := main_quote_close (j + 1) { p with str_wrk := [] ++ d :: vs } q tail rest
  have hq' : ¬ (q = 58 ∨ q = 123 ∨ q = 125 ∨ q = 255) := by omega
  have ht := trail_not_space (vs.length + 1 + j + 1)
    (inLine { p with str_wrk := [] ++ d :: vs } tail rest) q hq32
  rw [e0, show vs.length + 1 + (j + 2) = vs.length + 1 + j + 2 from by omega, hl]
  simp only
  rw [show vs.length + 1 + j + 2 = (vs.length + 1 + j + 1) + 1 from rfl, List.cons_append, ho,
    show (vs.length + 1 + j + 1) + 1 = vs.length + 1 + (j + 2) from by omega, hm, hs]
  simp only
  rw [show vs.length + 1 + (j + 2) = (vs.length + 1 + j + 1) + 1 from by omega, ht]
  simp [hq']

theorem parse_key_colon (sf : Nat) (p q : PARSE_BLOCK) (node : Nat)
    (h : next_string sf p true = some (58, q)) (hs : q.str_wrk ≠ []) :
    parse_key sf p node = some (0, storeKey q node) := by
  have hl : q.str_wrk.length ≠ 0 := fun h0 => hs (List.length_eq_zero.mp h0)
  unfold parse_key
  simp only [h]
  have e : toUChar 58 = 58 := by decide
  simp [e, hl]

theorem parse_value_scalar (k : Nat) (fall : Int) (sf : Nat) (p q : PARSE_BLOCK) (node : Nat)
    (h : next_string sf p false = some (32, q)) (hs : q.str_wrk ≠ []) :
    parse_value (k + 1) fall sf p node = some (0, storeString q node) := by
  have hl : ¬ q.str_wrk.length ≤ 0 := by
    intro h0
    exact hs (List.length_eq_zero.mp (by omega))
  rw [parse_value]
  simp only [h]
  have e : toUChar 32 = 32 := by decide
  simp [e, hl]

theorem linkNode_inLine (p : PARSE_BLOCK) (buf rest : List Nat) (a j : Nat) :
    linkNode (inLine p buf rest) a j = inLine (linkNode p a j) buf rest := by
  unfold linkNode
  simp only [inLine]
  cases h : p.anchors[a]? with
  | none => simp
  | some x =>
    simp only
    by_cases hf : x.first = none
    · simp [hf]
    · simp [hf]

theorem goodLine_quoted (c d : Nat) (ks vs : List Nat) (hc : BareByte c)
    (hks : ∀ x ∈ ks, BareByte x) (hd : QuotedByte d) (hvs : ∀ x ∈ vs, QuotedByte x)
    (hline : ks.length + vs.length + 6 ≤ 510) :
    GoodLine (c :: ks ++ 58 :: (32 :: 34 :: d :: vs ++ [34])) := by
  refine ⟨by simp, by simp; omega, ?_, ?_⟩
  · intro x hx
    simp only [List.cons_append, List.mem_cons, List.mem_append, List.mem_singleton,
      List.not_mem_nil, or_false] at hx
    rcases hx with rfl | hx | rfl | rfl | rfl | rfl | hx | rfl
    · exact ⟨hc.1, hc.2.1⟩
    · exact ⟨(hks x hx).1, (hks x hx).2.1⟩
    · decide
    · decide
    · decide
    · exact ⟨hd.2.2.2.1, hd.2.1⟩
    · exact ⟨(hvs x hx).2.2.2.1, (hvs x hx).2.1⟩
    · decide
  · have : c :: ks ++ 58 :: (32 :: 34 :: d :: vs ++ [34])
        = (c :: ks ++ 58 :: 32 :: 34 :: d :: vs) ++ [34] := by simp
    rw [this, List.getLast?_concat]
    decide

/-- One turn of the entry loop over a line `key: "value"`. -/
theorem loop_quoted_line (n : Nat) (fall : Int) (sf : Nat) (bd : Bool) (p : PARSE_BLOCK)
    (c d : Nat) (ks vs rest : List Nat) (hc : BareByte c) (hks : ∀ x ∈ ks, BareByte x)
    (hd : QuotedByte d) (hvs : ∀ x ∈ vs, QuotedByte x)
    (hline : ks.length + vs.length + 6 ≤ 510)
    (hlen : p.str_wrk_len = PRMP_STRING_WORK_SIZE)
    (hsf : ks.length + 4 ≤ sf ∧ vs.length + 4 ≤ sf) :
    parmParseNodeLoop (n + 2) fall sf
        (boundary bd p (c :: ks ++ 58 :: (32 :: 34 :: d :: vs ++ [34]) ++ 10 :: rest)) 0
      = parmParseNodeLoop (n + 1) fall sf
          (boundary true (entryDone p (c :: ks) (d :: vs)) rest) 0 := by
  have hg := goodLine_quoted c d ks vs hc hks hd hvs hline
  have ea : allocNode (boundary bd p (c :: ks ++ 58 :: (32 :: 34 :: d :: vs ++ [34]) ++ 10 :: rest))
      = boundary bd (allocNode p) (c :: ks ++ 58 :: (32 :: 34 :: d :: vs ++ [34]) ++ 10 :: rest) := by
    cases bd <;> rfl
  have hnl : (boundary bd p (c :: ks ++ 58 :: (32 :: 34 :: d :: vs ++ [34]) ++ 10 :: rest)).nodes.length
      = p.nodes.length := by
    cases bd <;> rfl
  have hk := next_string_key sf bd (allocNode p) c ks (32 :: 34 :: d :: vs ++ [34]) rest true hc hks
    hg hlen hsf.1 (by omega)
  have hpk := parse_key_colon sf _ _ p.nodes.length hk (List.cons_ne_nil _ _)
  have hv := next_string_quoted sf (storeKey { allocNode p with str_wrk := c :: ks } p.nodes.length)
    34 d vs [] rest false (Or.inl rfl) hd.1 hd.2.2.2.2 (fun x hx => (hvs x hx).1) hlen hsf.2
    (by omega)
  have hpv := parse_value_scalar n fall sf _ _ p.nodes.length hv (List.cons_ne_nil _ _)
  rw [parmParseNodeLoop, ea, hnl, hpk]
  simp only [lt_self_iff_false, if_false]
  have e1 : storeKey (inLine { allocNode p with str_wrk := c :: ks }
        (32 :: 34 :: d :: vs ++ [34]) rest) p.nodes.length
      = inLine (storeKey { allocNode p with str_wrk := c :: ks } p.nodes.length)
          (32 :: 34 :: d :: vs ++ 34 :: []) rest := rfl
  rw [e1, hpv]
  have e2 : (inLine (storeKey { allocNode p with str_wrk := c :: ks } p.nodes.length)
          (32 :: 34 :: d :: vs ++ 34 :: []) rest).is_eof = false := rfl
  have e3 : (storeString (inLine { storeKey { allocNode p with str_wrk := c :: ks } p.nodes.length
          with str_wrk := d :: vs } [] rest) p.nodes.length).is_eof = false := rfl
  simp only [e2, e3, Bool.false_eq_true, if_false, lt_self_iff_false, gt_iff_lt]
  have e4 : linkNode (storeString (inLine { storeKey { allocNode p with str_wrk := c :: ks }
          p.nodes.length with str_wrk := d :: vs } [] rest) p.nodes.length) 0 p.nodes.length
      = boundary true (entryDone p (c :: ks) (d :: vs)) rest := by
    have : storeString (inLine { storeKey { allocNode p with str_wrk := c :: ks }
          p.nodes.length with str_wrk := d :: vs } [] rest) p.nodes.length
        = inLine (storeString { storeKey { allocNode p with str_wrk := c :: ks }
          p.nodes.length with str_wrk := d :: vs } p.nodes.length) [] rest := rfl
    rw [this, linkNode_inLine]
    rfl
  rw [e4]

theorem setNode_append_length (l : List PRMP_NODE) (x : PRMP_NODE) (f : PRMP_NODE → PRMP_NODE) :
    setNode (l ++ [x]) l.length f = l ++ [f x] := by
  simp [setNode]

theorem entryDone_str_wrk_len (p : PARSE_BLOCK) (k v : List Nat) :
    (entryDone p k v).str_wrk_len = p.str_wrk_len := by
  unfold entryDone linkNode
  simp only
  split
  · rfl
  · split <;> rfl

theorem entryDone_top_anchor (p : PARSE_BLOCK) (k v : List Nat) :
    (entryDone p k v).top_anchor = p.top_anchor := by
  unfold entryDone linkNode
  simp only
  split
  · rfl
  · split <;> rfl

theorem entryDone_pool (p : PARSE_BLOCK) (k v : List Nat) (a : PRMP_ANCHOR)
    (ha : p.anchors = [a]) :
    (entryDone p k v).anchors
        = [if a.first = none then { a with first := some p.nodes.length, last := some p.nodes.length }
           else { a with last := some p.nodes.length }] ∧
    (entryDone p k v).nodes
        = if a.first = none then p.nodes ++ [freshScalar k v]
          else match a.last with
            | some l => setNode (p.nodes ++ [freshScalar k v]) l
                (fun n => { n with next := some p.nodes.length })
            | none => p.nodes ++ [freshScalar k v] := by
  have hn : (storeString { storeKey { allocNode p with str_wrk := k } p.nodes.length with
      str_wrk := v } p.nodes.length).nodes = p.nodes ++ [freshScalar k v] := by
    simp only [storeString, storeKey, allocNode, setNode_append_length]
    rfl
  have han : (storeString { storeKey { allocNode p with str_wrk := k } p.nodes.length with
      str_wrk := v } p.nodes.length).anchors = [a] := ha
  unfold entryDone linkNode
  simp only [han, hn, List.getElem?_cons_zero]
  by_cases hf : a.first = none
  · simp [hf]
  · simp [hf]

theorem loop_eof (n : Nat) (fall : Int) (sf : Nat) (bd : Bool) (p : PARSE_BLOCK) (hsf : 2 ≤ sf) :
    ∃ z, parmParseNodeLoop (n + 1) fall sf (boundary bd p []) 0 = some (0, z) ∧
      z.nodes = p.nodes ++ [({} : PRMP_NODE)] ∧ z.anchors = p.anchors ∧ z.top_anchor = p.top_anchor := by
  obtain ⟨j, rfl⟩ : ∃ j, sf = j + 2 := ⟨sf - 2, by omega⟩
  have ea : ({ allocNode (boundary bd p []) with str_wrk := [] } : PARSE_BLOCK)
      = boundary bd { allocNode p with str_wrk := [] } [] := by
    cases bd <;> rfl
  obtain ⟨z, hz, hze, _, hzn, hza, hzt, _⟩ := lead_boundary_eof j bd { allocNode p with str_wrk := [] }
  have hm : next_string_main (j + 2) z 255 false 0 = some (.brk 255 z) := by
    rw [next_string_main]
    simp [next_string_test, hze]
  have ht := trail_eof (j + 1) z 255 hze
  have hns : next_string (j + 2) (allocNode (boundary bd p [])) true = some (255, z) := by
    unfold next_string
    rw [ea, hz]
    simp only [hm, ht]
    simp
  have hpk : parse_key (j + 2) (allocNode (boundary bd p [])) (boundary bd p []).nodes.length
      = some (255, z) := by
    unfold parse_key
    simp only [hns]
    have e : toUChar 255 = 255 := by decide
    simp [e]
  refine ⟨z, ?_, hzn, hza, hzt⟩
  rw [parmParseNodeLoop]
  simp only [hpk, hze]
  simp

theorem loop_quoted_doc (pairs : List (List Nat × List Nat)) :
    ∀ (n : Nat) (fall : Int) (sf : Nat) (bd : Bool) (p : PARSE_BLOCK),
      (∀ kv ∈ pairs, GoodPair kv) → p.str_wrk_len = PRMP_STRING_WORK_SIZE → 514 ≤ sf →
      ∃ z, parmParseNodeLoop (pairs.length + 1 + n) fall sf (boundary bd p (quotedDoc pairs)) 0
          = some (0, z) ∧
        z.nodes = (pairs.foldl (fun q kv => entryDone q kv.1 kv.2) p).nodes ++ [({} : PRMP_NODE)] ∧
        z.anchors = (pairs.foldl (fun q kv => entryDone q kv.1 kv.2) p).anchors ∧
        z.top_anchor = p.top_anchor := by
  induction pairs with
  | nil =>
    intro n fall sf bd p _ _ hsf
    obtain ⟨z, h1, h2, h3, h4⟩ := loop_eof n fall sf bd p (by omega)
    exact ⟨z, by simpa [quotedDoc, Nat.add_comm] using h1, h2, h3, h4⟩
  | cons kv rest ih =>
    intro n fall sf bd p hg hlen hsf
    obtain ⟨k, v⟩ := kv
    obtain ⟨hk0, hk, hv0, hv, hl⟩ := hg (k, v) (List.mem_cons_self _ _)
    simp only at hk0 hk hv0 hv hl
    obtain ⟨c, ks, rfl⟩ := List.exists_cons_of_ne_nil hk0
    obtain ⟨d, vs, rfl⟩ := List.exists_cons_of_ne_nil hv0
    have hstep := loop_quoted_line (rest.length + n) fall sf bd p c d ks vs (quotedDoc rest)
      (hk c (List.mem_cons_self _ _)) (fun x hx => hk x (List.mem_cons_of_mem _ hx))
      (hv d (List.mem_cons_self _ _)) (fun x hx => hv x (List.mem_cons_of_mem _ hx))
      (by simp at hl; omega) hlen (by simp at hl; omega)
    obtain ⟨z, h1, h2, h3, h4⟩ := ih n fall sf true (entryDone p (c :: ks) (d :: vs))
      (fun x hx => hg x (List.mem_cons_of_mem _ hx))
      (by rw [entryDone_str_wrk_len]; exact hlen) hsf
    refine ⟨z, ?_, by simpa using h2, by simpa using h3, by rw [h4, entryDone_top_anchor]⟩
    have e1 : quotedDoc ((c :: ks, d :: vs) :: rest)
        = c :: ks ++ 58 :: (32 :: 34 :: d :: vs ++ [34]) ++ 10 :: quotedDoc rest := by
      simp [quotedDoc]
    have e2 : ((c :: ks, d :: vs) :: rest).length + 1 + n = (rest.length + n) + 2 := by
      simp; omega
    rw [e1, e2, hstep, show rest.length + n + 1 = rest.length + 1 + n from by omega]
    exact h1

theorem entryDone_scalar (done : List (List Nat × List Nat)) (p : PARSE_BLOCK) (k v : List Nat)
    (hn : p.nodes = scalarNodes done) (ha : p.anchors = [levelAnchor done.length]) :
    (entryDone p k v).nodes = scalarNodes (done ++ [(k, v)]) ∧
      (entryDone p k v).anchors = [levelAnchor (done.length + 1)] := by
  have hlen : p.nodes.length = done.length := by rw [hn]; simp [scalarNodes]
  obtain ⟨h1, h2⟩ := entryDone_pool p k v (levelAnchor done.length) ha
  rw [h1, h2, hlen]
  by_cases h0 : done.length = 0
  · have hd : done = [] := List.length_eq_zero.mp h0
    subst hd
    simp [levelAnchor, hn, scalarNodes, scalarNode, freshScalar]
  · have hf : ¬ (levelAnchor done.length).first = none := by simp [levelAnchor, h0]
    have hl : (levelAnchor done.length).last = some (done.length - 1) := by simp [levelAnchor, h0]
    simp only [hf, if_false, hl]
    refine ⟨?_, by simp [levelAnchor, h0]⟩
    unfold scalarNodes
    symm
    rw [List.mapIdx_eq_iff]
    intro i
    have hlast : ∃ x, done[done.length - 1]? = some x :=
      ⟨_, List.getElem?_eq_getElem (by omega)⟩
    obtain ⟨x, hx⟩ := hlast
    have hL : (p.nodes ++ [freshScalar k v])[done.length - 1]?
        = some (scalarNode done.length (done.length - 1) x) := by
      rw [List.getElem?_append_left (by omega), hn]
      simp [scalarNodes, hx]
    simp only [setNode, hL, List.length_append, List.length_singleton]
    rw [List.getElem?_set]
    by_cases hi : done.length - 1 = i
    · subst hi
      have hlt : done.length - 1 < (p.nodes ++ [freshScalar k v]).length := by simp; omega
      simp only [if_true, hlt]
      rw [List.getElem?_append_left (by omega), hx]
      simp only [Option.map_some', scalarNode, Option.some.injEq, PRMP_NODE.mk.injEq, and_true,
        true_and]
      have e1 : done.length - 1 + 1 < done.length + 1 := by omega
      have e2 : done.length - 1 + 1 = done.length := by omega
      simp [e1, e2]
    · simp only [hi, if_false]
      by_cases hlt : i < done.length
      · rw [List.getElem?_append_left (by omega), List.getElem?_append_left hlt, hn]
        have hx2 : ∃ y, done[i]? = some y := ⟨_, List.getElem?_eq_getElem hlt⟩
        obtain ⟨y, hy⟩ := hx2
        simp only [scalarNodes, List.getElem?_mapIdx, hy, Option.map_some', scalarNode,
          Option.some.injEq, PRMP_NODE.mk.injEq, and_true]
        have e1 : i + 1 < done.length := by omega
        have e2 : i + 1 < done.length + 1 := by omega
        simp [e1, e2]
      · by_cases heq : i = done.length
        · subst heq
          rw [List.getElem?_append_right (by omega), List.getElem?_append_right (le_refl _)]
          simp [hlen, scalarNode, freshScalar]
        · rw [List.getElem?_eq_none (by simp; omega), List.getElem?_eq_none (by simp; omega)]
          rfl

theorem foldl_entryDone_scalar (pairs : List (List Nat × List Nat)) (p : PARSE_BLOCK)
    (hn : p.nodes = []) (ha : p.anchors = [{}]) :
    (pairs.foldl (fun q kv => entryDone q kv.1 kv.2) p).nodes = scalarNodes pairs ∧
      (pairs.foldl (fun q kv => entryDone q kv.1 kv.2) p).anchors
        = [levelAnchor pairs.length] := by
  induction pairs using List.reverseRecOn with
  | nil => exact ⟨by simpa [scalarNodes] using hn, by simpa [levelAnchor] using ha⟩
  | append_singleton done kv ih =>
    obtain ⟨k, v⟩ := kv
    rw [List.foldl_append]
    simp only [List.foldl_cons, List.foldl_nil, List.length_append, List.length_singleton]
    exact entryDone_scalar done _ k v ih.1 ih.2

theorem isChain_append (nodes extra : List PRMP_NODE) (l : List Nat) :
    ∀ p, IsChain nodes p l → IsChain (nodes ++ extra) p l := by
  induction l with
  | nil => intro p h; exact h
  | cons i l ih =>
    intro p h
    obtain ⟨h1, h2, h3⟩ := h
    refine ⟨h1, by simp; omega, ?_⟩
    have : nextOf (nodes ++ extra) i = nextOf nodes i := by
      simp [nextOf, List.getElem?_append_left h2]
    rw [this]
    exact ih _ h3

theorem isChain_scalarNodes (pairs : List (List Nat × List Nat)) :
    ∀ (k s : Nat), s + k = pairs.length →
      IsChain (scalarNodes pairs) (if s < pairs.length then some s else none)
        (List.range' s k) := by
  intro k
  induction k with
  | zero =>
    intro s hs
    have : ¬ s < pairs.length := by omega
    simp [IsChain, this]
  | succ k ih =>
    intro s hs
    have hlt : s < pairs.length := by omega
    rw [List.range'_succ]
    refine ⟨by simp [hlt], by simp [scalarNodes]; omega, ?_⟩
    have hx : ∃ y, pairs[s]? = some y := ⟨_, List.getElem?_eq_getElem hlt⟩
    obtain ⟨y, hy⟩ := hx
    have hnx : nextOf (scalarNodes pairs) s
        = if s + 1 < pairs.length then some (s + 1) else none := by
      simp [nextOf, scalarNodes, hy, scalarNode]
    rw [hnx]
    exact ih (s + 1) (by omega)

/-- Every file of lines `key: "value"` parses, for every value read after a
run off the end and every sufficient fuel, and the pool is `quotedPool`. -/
theorem parse_quotedDoc (pairs : List (List Nat × List Nat)) (fuel : Nat) (fall : Int)
    (hg : ∀ kv ∈ pairs, GoodPair kv) (hfuel : pairs.length + 514 ≤ fuel) :
    parmParseFile fuel fall (quotedDoc pairs)
      = some (0, some (quotedPool pairs, { anchor := some 0 })) := by
  obtain ⟨n, rfl⟩ : ∃ n, fuel = (pairs.length + 1 + n) + 1 := ⟨fuel - pairs.length - 2, by omega⟩
  obtain ⟨z, h1, h2, h3, h4⟩ := loop_quoted_doc pairs n fall (pairs.length + 1 + n + 1) false
    (rootStart (quotedDoc pairs)) hg rfl (by omega)
  obtain ⟨h5, h6⟩ := foldl_entryDone_scalar pairs (rootStart (quotedDoc pairs)) rfl rfl
  have hn : parmParseNode (pairs.length + 1 + n + 1) fall (pairs.length + 1 + n + 1)
      (initParseBlock (quotedDoc pairs)) 0 = some (0, z) := by
    rw [parmParseNode]
    exact h1
  unfold parmParseFile parmParse
  have ht : (initParseBlock (quotedDoc pairs)).top_anchor = 0 := rfl
  rw [ht, hn]
  simp only [lt_self_iff_false, if_false]
  rw [h2, h3, h4, h5, h6]
  rfl

theorem quotedPool_level (pairs : List (List Nat × List Nat)) :
    IsLevel (quotedPool pairs) 0 (List.range pairs.length) ∧
      (List.range pairs.length).map (fun i => entry (nodeAt (quotedPool pairs) i))
        = pairs.map (fun kv => ((PRMP_STRING : Int), some kv.1, some kv.2)) := by
  refine ⟨⟨by simp [quotedPool], ?_⟩, ?_⟩
  · have h := isChain_scalarNodes pairs pairs.length 0 (by simp)
    rw [← List.range_eq_range'] at h
    have h2 := isChain_append (scalarNodes pairs) [{}] _ _ h
    simpa [quotedPool, levelAnchor, Nat.pos_iff_ne_zero, eq_comm] using h2
  · apply List.ext_getElem?
    intro i
    by_cases hi : i < pairs.length
    · have hy : pairs[i]? = some pairs[i] := List.getElem?_eq_getElem hi
      have hnode : nodeAt (quotedPool pairs) i = scalarNode pairs.length i pairs[i] := by
        simp [nodeAt, quotedPool, List.getD_eq_getElem?_getD, scalarNodes,
          List.getElem?_append_left, hi]
      simp [List.getElem?_range hi, hy, hnode, entry, scalarNode]
    · simp [List.getElem?_eq_none, Nat.le_of_not_lt hi]

theorem parse_any_fuel_fall (n : Nat) (file : List Nat) (rc : Int)
    (t : Option (Pool × PRMP_HANDLE)) (h0 : parmParseFile n 0 file = some (rc, t))
    (h1 : parmParseFile n (-1) file = some (rc, t)) (hne : rc ≠ -1) (fuel : Nat) (fall : Int)
    (hf : n ≤ fuel) : parmParseFile fuel fall file = some (rc, t) :=
  parmParseFile_mono n fuel hf fall file _ (parmParseFile_fall_any n file rc t h0 h1 hne fall)

theorem bytes_to : bytes "to" = [116, 111] := by decide

theorem bytes_to_open : bytes "to: \"" = [116, 111, 58, 32, 34] := by decide

theorem bytes_close : bytes "\"\n" = [34, 10] := by decide

theorem fgets_length : ∀ (n : Nat) (fs : List Nat), (fgets n fs).1.length ≤ n := by
  intro n
  induction n with
  | zero => intro fs; simp [fgets]
  | succ k ih =>
    intro fs
    cases fs with
    | nil => simp [fgets]
    | cons c fs =>
      by_cases hc : c = 10
      · simp [fgets, hc]
      · have := ih fs
        simp only [fgets, hc, if_false, List.length_cons]
        omega

theorem fgets_piece (piece more : List Nat) (h10 : ∀ c ∈ piece, c ≠ 10) :
    fgets piece.length (piece ++ more) = (piece, more, false) := by
  induction piece with
  | nil => simp [fgets]
  | cons c l ih =>
    have hc : c ≠ 10 := h10 c (List.mem_cons_self _ _)
    have := ih (fun x hx => h10 x (List.mem_cons_of_mem _ hx))
    simp [fgets, hc, this]

theorem callbackIoLoop_code : ∀ (k : Nat) (fs : List Nat),
    (callbackIoLoop k fs).1 = -4 ∨
      (1 ≤ (callbackIoLoop k fs).1 ∧ (callbackIoLoop k fs).1 ≤ 511 ∧
        (callbackIoLoop k fs).1 = ((callbackIoLoop k fs).2.1.length : Int)) := by
  intro k
  induction k with
  | zero => intro fs; simp [callbackIoLoop]
  | succ k ih =>
    intro fs
    rw [callbackIoLoop]
    have e : PRMP_STRING_WORK_SIZE - 1 = 511 := rfl
    have hl := fgets_length 511 fs
    rw [e]
    generalize fgets 511 fs = r at hl
    obtain ⟨line, rest, eof⟩ := r
    simp only at hl ⊢
    by_cases h0 : fs = []
    · simp [h0]
    · rw [if_neg h0]
      cases eof
      · simp only [Bool.false_eq_true, if_false]
        have hs : (strlen line).length ≤ line.length := (List.takeWhile_sublist _).length_le
        have h2 : ¬ (strlen line).length ≥ PRMP_STRING_WORK_SIZE := by
          simp only [PRMP_STRING_WORK_SIZE]; omega
        rw [if_neg h2]
        generalize strlen line = s0 at hs h2
        have hs1 : (if s0.getLast? = some 10 then s0.dropLast else s0).length ≤ s0.length := by
          split <;> simp
        generalize (if s0.getLast? = some 10 then s0.dropLast else s0) = s1 at hs1
        have hs2 : (if s1.getLast? = some 13 then s1.dropLast else s1).length ≤ s1.length := by
          split <;> simp
        generalize (if s1.getLast? = some 13 then s1.dropLast else s1) = s2 at hs2
        by_cases h3 : s2.length = 0
        · rw [if_pos h3]; exact ih rest
        · rw [if_neg h3]
          right
          refine ⟨?_, ?_, rfl⟩
          · show (1 : Int) ≤ (s2.length : Int)
            omega
          · show (s2.length : Int) ≤ 511
            omega
      · simp

theorem main_quoted_run (vs : List Nat) : ∀ (k : Nat) (p : PARSE_BLOCK) (c q t : Nat)
    (more rest : List Nat),
    c ≠ q → (∀ x ∈ vs, x ≠ q) → p.str_wrk.length + vs.length < p.str_wrk_len - 1 →
    next_string_main (vs.length + 1 + k) (inLine p (vs ++ t :: more) rest) c true q
      = next_string_main k (inLine { p with str_wrk := p.str_wrk ++ c :: vs } more rest)
          t true q := by
  induction vs with
  | nil =>
    intro k p c q t more rest hc _ hroom
    have := main_quoted_step k p c t q more rest hc (by simpa using hroom)
    simpa [Nat.add_comm] using this
  | cons x vs ih =>
    intro k p c q t more rest hc hvs hroom
    have hx := hvs x (List.mem_cons_self _ _)
    have h1 := main_quoted_step (vs.length + 1 + k) p c x q (vs ++ t :: more) rest hc
      (by simp at hroom; omega)
    have h2 := ih k { p with str_wrk := p.str_wrk ++ [c] } x q t more rest hx
      (fun y hy => hvs y (List.mem_cons_of_mem _ hy)) (by simp at hroom ⊢; omega)
    have e1 : (x :: vs).length + 1 + k = (vs.length + 1 + k) + 1 := by simp; omega
    rw [e1, List.cons_append, h1, h2]
    simp

theorem main_quoted_lineEnd (k : Nat) (p : PARSE_BLOCK) (c q : Nat) (rest : List Nat)
    (hc : c ≠ q) (hroom : p.str_wrk.length < p.str_wrk_len - 1) :
    next_string_main (k + 1) (inLine p [] rest) c true q
      = next_string_main k (offLine { p with str_wrk := p.str_wrk ++ [c], buf := [] } rest)
          32 true q := by
  have ht : next_string_test (inLine p [] rest) c true q = .go c true q (inLine p [] rest) := by
    simp [next_string_test, inLine, hc]
  rw [next_string_main, ht]
  have hr : ¬ (inLine p [] rest).str_wrk.length ≥ (inLine p [] rest).str_wrk_len - 1 := by
    simp only [inLine]; omega
  simp only [hr, if_false]
  have hn := next_char_lineEnd { p with str_wrk := p.str_wrk ++ [c] } rest true
  have he : ({ inLine p [] rest with str_wrk := (inLine p [] rest).str_wrk ++ [c] } : PARSE_BLOCK)
      = inLine { p with str_wrk := p.str_wrk ++ [c] } [] rest := rfl
  rw [he, hn]

theorem main_quoted_offLine (k : Nat) (p : PARSE_BLOCK) (c q d : Nat) (line rest : List Nat)
    (hc : c ≠ q) (hroom : p.str_wrk.length < p.str_wrk_len - 1) (hg : GoodLine (d :: line)) :
    next_string_main (k + 1) (offLine p (d :: line ++ 10 :: rest)) c true q
      = next_string_main k (inLine { p with str_wrk := p.str_wrk ++ [c] } line rest) d true q := by
  have ht : next_string_test (offLine p (d :: line ++ 10 :: rest)) c true q
      = .go c true q (offLine p (d :: line ++ 10 :: rest)) := by
    simp [next_string_test, offLine, hc]
  rw [next_string_main, ht]
  have hr : ¬ (offLine p (d :: line ++ 10 :: rest)).str_wrk.length
      ≥ (offLine p (d :: line ++ 10 :: rest)).str_wrk_len - 1 := by
    simp only [offLine]; omega
  simp only [hr, if_false]
  have hn := next_char_offLine { p with str_wrk := p.str_wrk ++ [c] } d line rest true hg
    (Or.inr rfl)
  have he : ({ offLine p (d :: line ++ 10 :: rest) with
      str_wrk := (offLine p (d :: line ++ 10 :: rest)).str_wrk ++ [c] } : PARSE_BLOCK)
      = offLine { p with str_wrk := p.str_wrk ++ [c] } (d :: line ++ 10 :: rest) := rfl
  rw [he, hn]

theorem main_overflow (k : Nat) (p : PARSE_BLOCK) (c q : Nat) (he : p.is_eof = false)
    (hc : c ≠ q) (hfull : p.str_wrk.length ≥ p.str_wrk_len - 1) :
    next_string_main (k + 1) p c true q = some (.ret (-1) p) := by
  have ht : next_string_test p c true q = .go c true q p := by
    simp [next_string_test, he, hc]
  rw [next_string_main, ht]
  simp only [hfull, if_true]

theorem goodLine_letters (c n : Nat) (h0 : c ≠ 0) (h10 : c ≠ 10) (h13 : c ≠ 13) (hn : n ≤ 509) :
    GoodLine (c :: List.replicate n 97) := by
  refine ⟨by simp, by simp; omega, ?_, ?_⟩
  · intro x hx
    rcases List.mem_cons.mp hx with h | h
    · rw [h]; exact ⟨h0, h10⟩
    · rw [(List.mem_replicate.mp h).2]; decide
  · intro h
    have hm := List.mem_of_mem_getLast? h
    rcases List.mem_cons.mp hm with h1 | h1
    · exact h13 h1.symm
    · exact absurd (List.mem_replicate.mp h1).2 (by decide)

theorem main_three_lines (j : Nat) (p : PARSE_BLOCK) (t3 rest : List Nat)
    (hs : p.str_wrk = []) (hlen : p.str_wrk_len = PRMP_STRING_WORK_SIZE)
    (hg3 : GoodLine (List.replicate 200 97 ++ t3)) :
    next_string_main (j + 512)
        (inLine p (List.replicate 200 97)
          (List.replicate 200 97 ++ 10 :: (List.replicate 200 97 ++ t3 ++ 10 :: rest)))
        34 false 0
      = some (.ret (-1)
          (inLine { p with str_wrk := overflowed } (List.replicate 90 97 ++ t3) rest)) := by
  have hl : p.str_wrk_len = 512 := hlen
  have eA : List.replicate 200 97 = 97 :: 97 :: (List.replicate 197 97 ++ 97 :: []) := by decide!
  have eB : List.replicate 200 97 = 97 :: (List.replicate 198 97 ++ 97 :: []) := by decide!
  have eC : List.replicate 200 97 = 97 :: (List.replicate 108 97 ++ 97 :: List.replicate 90 97) := by
    decide!
  have eD : List.replicate 200 97 = 97 :: List.replicate 199 97 := by decide!
  have g7 : 97 :: ((List.replicate 108 97 ++ 97 :: List.replicate 90 97) ++ t3)
      = List.replicate 200 97 ++ t3 := by rw [eC]; rfl
  have g8 : List.replicate 108 97 ++ 97 :: (List.replicate 90 97 ++ t3)
      = (List.replicate 108 97 ++ 97 :: List.replicate 90 97) ++ t3 := by
    rw [List.append_assoc]; rfl
  have hX : (((((([97] ++ 97 :: List.replicate 197 97) ++ [97]) ++ [32])
        ++ 97 :: List.replicate 198 97) ++ [97]) ++ [32]) ++ 97 :: List.replicate 108 97
      = overflowed := by decide!
  obtain ⟨w2, hw2⟩ : ∃ w, w = [97] ++ 97 :: List.replicate 197 97 := ⟨_, rfl⟩
  obtain ⟨w5, hw5⟩ : ∃ w, w = ((w2 ++ [97]) ++ [32]) ++ 97 :: List.replicate 198 97 := ⟨_, rfl⟩
  obtain ⟨w8, hw8⟩ : ∃ w, w = ((w5 ++ [97]) ++ [32]) ++ 97 :: List.replicate 108 97 := ⟨_, rfl⟩
  have l2 : w2.length = 199 := by
    rw [hw2]; simp only [List.length_append, List.length_cons, List.length_replicate,
      List.length_singleton, List.length_nil]
  have l5 : w5.length = 400 := by
    rw [hw5]; simp only [List.length_append, List.length_cons, List.length_replicate,
      List.length_singleton, List.length_nil, l2]
  have l8 : w8.length = 511 := by
    rw [hw8]; simp only [List.length_append, List.length_cons, List.length_replicate,
      List.length_singleton, List.length_nil, l5]
  have hX8 : w8 = overflowed := by rw [hw8, hw5, hw2]; exact hX
  -- the opening quote and the first line
  have s1 := main_quote_open (j + 511) p 34 97 97 (List.replicate 197 97 ++ 97 :: [])
    (List.replicate 200 97 ++ 10 :: (List.replicate 200 97 ++ t3 ++ 10 :: rest)) 0
    (Or.inl rfl) hs (by decide) (by omega)
  have s2 := main_quoted_run (List.replicate 197 97) (j + 313) { p with str_wrk := [97] }
    97 34 97 [] (List.replicate 200 97 ++ 10 :: (List.replicate 200 97 ++ t3 ++ 10 :: rest))
    (by decide) (fun x hx => by rw [(List.mem_replicate.mp hx).2]; decide)
    (by simp only [List.length_replicate, List.length_singleton, List.length_cons,
          List.length_nil, hl] ; omega)
  have s3 := main_quoted_lineEnd (j + 312) { p with str_wrk := w2 } 97 34
    (List.replicate 200 97 ++ 10 :: (List.replicate 200 97 ++ t3 ++ 10 :: rest))
    (by decide) (by show w2.length < p.str_wrk_len - 1; omega)
  -- the second line
  have s4 := main_quoted_offLine (j + 311) { p with str_wrk := w2 ++ [97], buf := [] } 32 34 97
    (List.replicate 198 97 ++ 97 :: []) (List.replicate 200 97 ++ t3 ++ 10 :: rest)
    (by decide)
    (by show (w2 ++ [97]).length < p.str_wrk_len - 1; simp only [List.length_append,
          List.length_singleton, List.length_cons, List.length_nil] ; omega)
    (by rw [← eB, eD]; exact goodLine_letters 97 199 (by decide) (by decide) (by decide) (by omega))
  have s5 := main_quoted_run (List.replicate 198 97) (j + 112)
    { p with str_wrk := (w2 ++ [97]) ++ [32], buf := [] }
    97 34 97 [] (List.replicate 200 97 ++ t3 ++ 10 :: rest)
    (by decide) (fun x hx => by rw [(List.mem_replicate.mp hx).2]; decide)
    (by simp only [List.length_append, List.length_replicate, List.length_singleton,
          List.length_cons, List.length_nil, l2, hl] ; omega)
  have s6 := main_quoted_lineEnd (j + 111) { p with str_wrk := w5, buf := [] } 97 34
    (List.replicate 200 97 ++ t3 ++ 10 :: rest)
    (by decide) (by show w5.length < p.str_wrk_len - 1; omega)
  -- the third line, up to the byte that does not fit
  have s7 := main_quoted_offLine (j + 110) { p with str_wrk := w5 ++ [97], buf := [] } 32 34 97
    ((List.replicate 108 97 ++ 97 :: List.replicate 90 97) ++ t3) rest
    (by decide)
    (by show (w5 ++ [97]).length < p.str_wrk_len - 1; simp only [List.length_append,
          List.length_singleton, List.length_cons, List.length_nil] ; omega)
    (by rw [g7]; exact hg3)
  have s8 := main_quoted_run (List.replicate 108 97) (j + 1)
    { p with str_wrk := (w5 ++ [97]) ++ [32], buf := [] }
    97 34 97 (List.replicate 90 97 ++ t3) rest
    (by decide) (fun x hx => by rw [(List.mem_replicate.mp hx).2]; decide)
    (by simp only [List.length_append, List.length_replicate, List.length_singleton,
          List.length_cons, List.length_nil, l5, hl] ; omega)
  have s9 := main_overflow j
    (inLine { p with str_wrk := w8, buf := [] } (List.replicate 90 97 ++ t3) rest) 97 34 rfl
    (by decide) (by show w8.length ≥ p.str_wrk_len - 1; omega)
  rw [List.length_replicate, show 197 + 1 + (j + 313) = j + 511 from by omega] at s2
  rw [List.length_replicate, show 198 + 1 + (j + 112) = j + 311 from by omega] at s5
  rw [List.length_replicate, show 108 + 1 + (j + 1) = j + 110 from by omega, g8] at s8
  rw [← eA] at s1
  rw [← eB] at s4
  rw [g7] at s7
  rw [hw8, hw5, hw2] at s9
  rw [hw5, hw2] at s6 s7 s8
  rw [hw2] at s3 s4 s5
  refine (s1.trans (s2.trans (s3.trans (s4.trans (s5.trans (s6.trans (s7.trans
    (s8.trans s9)))))))).trans ?_
  show some (Scan.ret (-1) (inLine { p with str_wrk :=
      (((((([97] ++ 97 :: List.replicate 197 97) ++ [97]) ++ [32])
        ++ 97 :: List.replicate 198 97) ++ [97]) ++ [32]) ++ 97 :: List.replicate 108 97 }
      (List.replicate 90 97 ++ t3) rest)) = _
  rw [hX]

theorem next_string_three_lines (sf : Nat) (p : PARSE_BLOCK) (t3 rest : List Nat) (b : Bool)
    (hlen : p.str_wrk_len = PRMP_STRING_WORK_SIZE)
    (hg3 : GoodLine (List.replicate 200 97 ++ t3)) (hsf : 513 ≤ sf) :
    next_string sf (offLine p (34 :: List.replicate 200 97 ++ 10 ::
        (List.replicate 200 97 ++ 10 :: (List.replicate 200 97 ++ t3 ++ 10 :: rest)))) b
      = some (-1, inLine { p with str_wrk := overflowed } (List.replicate 90 97 ++ t3) rest) := by
  obtain ⟨j, rfl⟩ : ∃ j, sf = j + 512 := ⟨sf - 512, by omega⟩
  unfold next_string
  have hl := lead_offLine_stop (j + 511) { p with str_wrk := [] } 34 (List.replicate 200 97)
    (List.replicate 200 97 ++ 10 :: (List.replicate 200 97 ++ t3 ++ 10 :: rest))
    (goodLine_letters 34 200 (by decide) (by decide) (by decide) (by omega))
    (by decide) (by decide) (by decide)
  have hm := main_three_lines j { p with str_wrk := [] } t3 rest rfl hlen hg3
  have e0 : ({ offLine p (34 :: List.replicate 200 97 ++ 10 ::
        (List.replicate 200 97 ++ 10 :: (List.replicate 200 97 ++ t3 ++ 10 :: rest))) with
        str_wrk := [] } : PARSE_BLOCK)
      = offLine { p with str_wrk := [] } (34 :: List.replicate 200 97 ++ 10 ::
        (List.replicate 200 97 ++ 10 :: (List.replicate 200 97 ++ t3 ++ 10 :: rest))) := rfl
  rw [e0, show j + 512 = (j + 511) + 1 from by omega, hl]
  simp only
  rw [show (j + 511) + 1 = j + 512 from by omega, hm]

theorem parse_key_three_lines (sf : Nat) (p : PARSE_BLOCK) (t3 rest : List Nat) (node : Nat)
    (hlen : p.str_wrk_len = PRMP_STRING_WORK_SIZE)
    (hg3 : GoodLine (List.replicate 200 97 ++ t3)) (hsf : 513 ≤ sf) :
    parse_key sf (offLine p (34 :: List.replicate 200 97 ++ 10 ::
        (List.replicate 200 97 ++ 10 :: (List.replicate 200 97 ++ t3 ++ 10 :: rest)))) node
      = some (255, inLine { p with str_wrk := overflowed } (List.replicate 90 97 ++ t3) rest) := by
  unfold parse_key
  rw [next_string_three_lines sf p t3 rest true hlen hg3 hsf]
  simp only
  rw [if_neg (toUChar_nonneg (-1))]
  have h255 : toUChar (-1) = 255 := by decide
  simp [h255]

theorem parmParseFile_loop (k : Nat) (fall : Int) (file : List Nat) :
    parmParseFile (k + 1) fall file
      = parmParseResult (parmParseNodeLoop k fall (k + 1) (rootStart file) 0) := by
  unfold parmParseFile parmParse
  rw [parmParseNode]
  rfl

theorem loop_entry (k : Nat) (fall : Int) (sf : Nat) (p : PARSE_BLOCK) (a : Nat) (rc1 : Int)
    (p1 p2 : PARSE_BLOCK)
    (hk : parse_key sf (allocNode p) p.nodes.length = some (rc1, p1)) (h0 : 0 ≤ rc1)
    (he : p1.is_eof = false)
    (hv : parse_value k fall sf p1 p.nodes.length = some (0, p2)) (he2 : p2.is_eof = false) :
    parmParseNodeLoop (k + 1) fall sf p a
      = parmParseNodeLoop k fall sf (linkNode p2 a p.nodes.length) a := by
  rw [parmParseNodeLoop.eq_2]
  simp only [hk, hv]
  rw [if_neg (by omega), he, he2]
  simp

theorem oversizedKeyDoc_eq : oversizedKeyDoc = 34 :: List.replicate 200 97 ++ 10 ::
    (List.replicate 200 97 ++ 10 :: (List.replicate 200 97 ++ bytes "\": \"v\"" ++ 10 :: [])) := by
  decide!

theorem oversizedKeyDoc_key :
    parse_key 600 (allocNode (rootStart oversizedKeyDoc)) (rootStart oversizedKeyDoc).nodes.length
      = some (255,
          afterOverflow oversizedKeyDoc (List.replicate 90 97 ++ bytes "\": \"v\"") []) := by
  have hg : GoodLine (List.replicate 200 97 ++ bytes "\": \"v\"") := by
    unfold GoodLine
    decide!
  have h := parse_key_three_lines 600 (allocNode (rootStart oversizedKeyDoc)) (bytes "\": \"v\"") []
    (rootStart oversizedKeyDoc).nodes.length rfl hg (by decide)
  rw [← oversizedKeyDoc_eq] at h
  exact h

theorem oversizedKeyDoc_loop_zero :
    parmParseNodeLoop 599 0 600 (rootStart oversizedKeyDoc) 0
      = parmParseNodeLoop 598 0 600 (linkNode (got (parse_value 598 0 600
          (afterOverflow oversizedKeyDoc (List.replicate 90 97 ++ bytes "\": \"v\"") [])
          (rootStart oversizedKeyDoc).nodes.length)).2 0 (rootStart oversizedKeyDoc).nodes.length) 0 :=
  loop_entry 598 0 600 (rootStart oversizedKeyDoc) 0 255 _ _ oversizedKeyDoc_key (by decide)
    rfl (by decide!) (by decide!)

theorem oversizedKeyDoc_zero :
    parmParseFile 600 0 oversizedKeyDoc
      = some (0, some (oversizedKeyPool, { anchor := some 0 })) := by
  rw [parmParseFile_loop 599 0 oversizedKeyDoc, oversizedKeyDoc_loop_zero]
  decide!

theorem oversizedKeyDoc_loop_neg :
    parmParseNodeLoop 599 (-1) 600 (rootStart oversizedKeyDoc) 0
      = parmParseNodeLoop 598 (-1) 600 (linkNode (got (parse_value 598 (-1) 600
          (afterOverflow oversizedKeyDoc (List.replicate 90 97 ++ bytes "\": \"v\"") [])
          (rootStart oversizedKeyDoc).nodes.length)).2 0 (rootStart oversizedKeyDoc).nodes.length) 0 :=
  loop_entry 598 (-1) 600 (rootStart oversizedKeyDoc) 0 255 _ _ oversizedKeyDoc_key (by decide)
    rfl (by decide!) (by decide!)

theorem oversizedKeyDoc_neg :
    parmParseFile 600 (-1) oversizedKeyDoc
      = some (0, some (oversizedKeyPool, { anchor := some 0 })) := by
  rw [parmParseFile_loop 599 (-1) oversizedKeyDoc, oversizedKeyDoc_loop_neg]
  decide!

theorem unterminatedDoc_eq : unterminatedDoc = 34 :: List.replicate 200 97 ++ 10 ::
    (List.replicate 200 97 ++ 10 :: (List.replicate 200 97 ++ [] ++ 10 :: bytes "b: 'y'\n")) := by
  decide!

theorem unterminatedDoc_key :
    parse_key 600 (allocNode (rootStart unterminatedDoc)) (rootStart unterminatedDoc).nodes.length
      = some (255,
          afterOverflow unterminatedDoc (List.replicate 90 97 ++ []) (bytes "b: 'y'\n")) := by
  have hg : GoodLine (List.replicate 200 97 ++ []) := by
    unfold GoodLine
    decide!
  have h := parse_key_three_lines 600 (allocNode (rootStart unterminatedDoc)) []
    (bytes "b: 'y'\n") (rootStart unterminatedDoc).nodes.length rfl hg (by decide)
  rw [← unterminatedDoc_eq] at h
  exact h

theorem unterminatedDoc_loop_zero :
    parmParseNodeLoop 599 0 600 (rootStart unterminatedDoc) 0
      = parmParseNodeLoop 598 0 600 (linkNode (got (parse_value 598 0 600
          (afterOverflow unterminatedDoc (List.replicate 90 97 ++ []) (bytes "b: 'y'\n"))
          (rootStart unterminatedDoc).nodes.length)).2 0 (rootStart unterminatedDoc).nodes.length) 0 :=
  loop_entry 598 0 600 (rootStart unterminatedDoc) 0 255 _ _ unterminatedDoc_key (by decide)
    rfl (by decide!) (by decide!)

theorem unterminatedDoc_zero :
    parmParseFile 600 0 unterminatedDoc
      = some (0, some (unterminatedPool, { anchor := some 0 })) := by
  rw [parmParseFile_loop 599 0 unterminatedDoc, unterminatedDoc_loop_zero]
  decide!

theorem unterminatedDoc_loop_neg :
    parmParseNodeLoop 599 (-1) 600 (rootStart unterminatedDoc) 0
      = parmParseNodeLoop 598 (-1) 600 (linkNode (got (parse_value 598 (-1) 600
          (afterOverflow unterminatedDoc (List.replicate 90 97 ++ []) (bytes "b: 'y'\n"))
          (rootStart unterminatedDoc).nodes.length)).2 0 (rootStart unterminatedDoc).nodes.length) 0 :=
  loop_entry 598 (-1) 600 (rootStart unterminatedDoc) 0 255 _ _ unterminatedDoc_key (by decide)
    rfl (by decide!) (by decide!)

theorem unterminatedDoc_neg :
    parmParseFile 600 (-1) unterminatedDoc
      = some (0, some (unterminatedPool, { anchor := some 0 })) := by
  rw [parmParseFile_loop 599 (-1) unterminatedDoc, unterminatedDoc_loop_neg]
  decide!

theorem loop_last (k : Nat) (fall : Int) (sf : Nat) (p : PARSE_BLOCK) (a : Nat) (rc1 rc : Int)
    (p1 p2 : PARSE_BLOCK)
    (hk : parse_key sf (allocNode p) p.nodes.length = some (rc1, p1)) (h0 : 0 ≤ rc1)
    (he : p1.is_eof = false)
    (hv : parse_value k fall sf p1 p.nodes.length = some (rc, p2)) (hrc : 0 < rc)
    (he2 : p2.is_eof = false) :
    parmParseNodeLoop (k + 1) fall sf p a
      = some (fall, { linkNode p2 a p.nodes.length with
          current_anchor := ((linkNode p2 a p.nodes.length).anchors[a]?).bind (fun x => x.up) }) := by
  have n1 : ¬ rc1 < 0 := by omega
  have n2 : ¬ rc < 0 := by omega
  rw [parmParseNodeLoop.eq_2]
  simp only [hk, hv, n1, n2, he, he2, hrc, if_false, if_true, Bool.false_eq_true]

theorem parmParseResult_nonneg (rc : Int) (z : PARSE_BLOCK) (h : 0 ≤ rc) :
    parmParseResult (some (rc, z))
      = some (0, some ({ anchors := z.anchors, nodes := z.nodes },
          { anchor := some z.top_anchor })) := by
  have n1 : ¬ rc < 0 := by omega
  simp only [parmParseResult, n1, if_false]

theorem parse_value_three_lines (k : Nat) (fall : Int) (sf : Nat) (p : PARSE_BLOCK)
    (t3 rest : List Nat) (node : Nat) (hlen : p.str_wrk_len = PRMP_STRING_WORK_SIZE)
    (hg3 : GoodLine (List.replicate 200 97 ++ t3)) (hsf : 514 ≤ sf) :
    parse_value (k + 1) fall sf (inLine p (32 :: 34 :: List.replicate 200 97)
        (List.replicate 200 97 ++ 10 :: (List.replicate 200 97 ++ t3 ++ 10 :: rest))) node
      = some (255, inLine { p with str_wrk := overflowed } (List.replicate 90 97 ++ t3) rest) := by
  obtain ⟨j, rfl⟩ : ∃ j, sf = j + 512 + 2 := ⟨sf - 514, by omega⟩
  have hs := lead_inLine_space (j + 512 + 1) { p with str_wrk := [] }
    (34 :: List.replicate 200 97)
    (List.replicate 200 97 ++ 10 :: (List.replicate 200 97 ++ t3 ++ 10 :: rest))
  have hl := lead_inLine_stop (j + 512) { p with str_wrk := [] } 34 (List.replicate 200 97)
    (List.replicate 200 97 ++ 10 :: (List.replicate 200 97 ++ t3 ++ 10 :: rest))
    (by decide) (by decide) (by decide)
  have hm := main_three_lines (j + 2) { p with str_wrk := [] } t3 rest rfl hlen hg3
  have hlex : next_string (j + 512 + 2) (inLine p (32 :: 34 :: List.replicate 200 97)
      (List.replicate 200 97 ++ 10 :: (List.replicate 200 97 ++ t3 ++ 10 :: rest))) false
      = some (-1, inLine { p with str_wrk := overflowed } (List.replicate 90 97 ++ t3) rest) := by
    unfold next_string
    have e0 : ({ inLine p (32 :: 34 :: List.replicate 200 97)
        (List.replicate 200 97 ++ 10 :: (List.replicate 200 97 ++ t3 ++ 10 :: rest)) with
        str_wrk := [] } : PARSE_BLOCK)
        = inLine { p with str_wrk := [] } (32 :: 34 :: List.replicate 200 97)
        (List.replicate 200 97 ++ 10 :: (List.replicate 200 97 ++ t3 ++ 10 :: rest)) := rfl
    rw [e0, hs, hl]
    simp only
    rw [show j + 512 + 2 = j + 2 + 512 from by omega, hm]
  rw [parse_value, hlex]
  simp only
  rw [if_neg (toUChar_nonneg (-1))]
  have h255 : toUChar (-1) = 255 := by decide
  simp [h255]

theorem oversizedValueDoc_key :
    parse_key 600 (allocNode (rootStart oversizedValueDoc)) (rootStart oversizedValueDoc).nodes.length
      = some (0, (afterFirstKey 600 oversizedValueDoc).2) := by
  decide!

theorem oversizedValueDoc_afterKey :
    inLine (afterFirstKey 600 oversizedValueDoc).2 (32 :: 34 :: List.replicate 200 97)
        (List.replicate 200 97 ++ 10 :: (List.replicate 200 97 ++ bytes "\"" ++ 10 :: []))
      = (afterFirstKey 600 oversizedValueDoc).2 := by
  decide!

theorem oversizedValueDoc_value (fall : Int) :
    parse_value 598 fall 600 (afterFirstKey 600 oversizedValueDoc).2
        (rootStart oversizedValueDoc).nodes.length
      = some (255, inLine { (afterFirstKey 600 oversizedValueDoc).2 with str_wrk := overflowed }
          (List.replicate 90 97 ++ bytes "\"") []) := by
  have hg : GoodLine (List.replicate 200 97 ++ bytes "\"") := by
    unfold GoodLine
    decide!
  have h := parse_value_three_lines 597 fall 600 (afterFirstKey 600 oversizedValueDoc).2
    (bytes "\"") [] (rootStart oversizedValueDoc).nodes.length (by decide!) hg (by decide)
  rw [oversizedValueDoc_afterKey] at h
  exact h

theorem oversizedValueDoc_nonneg (fall : Int) (hfall : 0 ≤ fall) :
    parmParseFile 600 fall oversizedValueDoc
      = some (0, some (oversizedValuePool, { anchor := some 0 })) := by
  rw [parmParseFile_loop 599 fall oversizedValueDoc,
    loop_last 598 fall 600 (rootStart oversizedValueDoc) 0 0 255 _ _ oversizedValueDoc_key
      (by decide) (by decide!) (oversizedValueDoc_value fall) (by decide) rfl]
  rw [parmParseResult_nonneg _ _ hfall]
  have ha : (linkNode (inLine { (afterFirstKey 600 oversizedValueDoc).2 with
      str_wrk := overflowed } (List.replicate 90 97 ++ bytes "\"") []) 0
      (rootStart oversizedValueDoc).nodes.length).anchors = oversizedValuePool.anchors := by
    decide!
  have hb : (linkNode (inLine { (afterFirstKey 600 oversizedValueDoc).2 with
      str_wrk := overflowed } (List.replicate 90 97 ++ bytes "\"") []) 0
      (rootStart oversizedValueDoc).nodes.length).nodes = oversizedValuePool.nodes := by
    decide!
  have hc : (linkNode (inLine { (afterFirstKey 600 oversizedValueDoc).2 with
      str_wrk := overflowed } (List.replicate 90 97 ++ bytes "\"") []) 0
      (rootStart oversizedValueDoc).nodes.length).top_anchor = 0 := by
    decide!
  rw [ha, hb, hc]

theorem SamePool.same (p : PARSE_BLOCK) : SamePool p p := ⟨rfl, rfl, rfl, rfl⟩

theorem SamePool.chain {p q r : PARSE_BLOCK} (h1 : SamePool p q) (h2 : SamePool q r) :
    SamePool p r :=
  ⟨h2.1.trans h1.1, h2.2.1.trans h1.2.1, h2.2.2.1.trans h1.2.2.1, h2.2.2.2.trans h1.2.2.2⟩

theorem next_char_line_frame (p : PARSE_BLOCK) (la iq : Bool) :
    SamePool p (next_char_line p la iq).2 := by
  unfold next_char_line
  split
  · exact ⟨rfl, rfl, rfl, rfl⟩
  · cases la <;> exact ⟨rfl, rfl, rfl, rfl⟩

theorem next_char_frame (p : PARSE_BLOCK) (la iq : Bool) : SamePool p (next_char p la iq).2 := by
  unfold next_char
  split
  · split
    · cases la <;> exact ⟨rfl, rfl, rfl, rfl⟩
    · split
      · exact ⟨rfl, rfl, rfl, rfl⟩
      · simp only
        split
        · exact ⟨rfl, rfl, rfl, rfl⟩
        · split
          · exact ⟨rfl, rfl, rfl, rfl⟩
          · exact SamePool.chain ⟨rfl, rfl, rfl, rfl⟩ (next_char_line_frame _ la iq)
  · exact next_char_line_frame p la iq

theorem next_string_lead_frame : ∀ (k : Nat) (p : PARSE_BLOCK) (r : Nat × PARSE_BLOCK),
    next_string_lead k p = some r → SamePool p r.2 := by
  intro k
  induction k with
  | zero => intro p r h; simp [next_string_lead] at h
  | succ k ih =>
    intro p r h
    rw [next_string_lead] at h
    split at h
    · exact (next_char_frame p false false).chain (ih _ _ h)
    · cases h
      exact next_char_frame p false false

theorem next_string_test_frame (p : PARSE_BLOCK) (c : Nat) (iq : Bool) (qc : Nat) :
    SamePool p (Scan.block (next_string_test p c iq qc)) := by
  unfold next_string_test
  split
  · split <;> exact SamePool.same p
  · split
    · split <;> exact SamePool.same p
    · split
      · split
        · exact SamePool.same p
        · dsimp only
          split <;> exact next_char_frame p false true
      · split <;> exact SamePool.same p

theorem next_string_main_frame : ∀ (k : Nat) (p : PARSE_BLOCK) (c : Nat) (iq : Bool) (qc : Nat)
    (s : Scan), next_string_main k p c iq qc = some s → SamePool p (Scan.block s) := by
  intro k
  induction k with
  | zero => intro p c iq qc s h; simp [next_string_main] at h
  | succ k ih =>
    intro p c iq qc s h
    rw [next_string_main] at h
    have ht := next_string_test_frame p c iq qc
    cases hT : next_string_test p c iq qc with
    | ret rc q =>
      rw [hT] at h ht
      cases h
      exact ht
    | brk c1 q =>
      rw [hT] at h ht
      cases h
      exact ht
    | go c1 iq1 qc1 p1 =>
      rw [hT] at h ht
      simp only at h
      split at h
      · cases h
        exact ht
      · have h2 := ih _ _ _ _ _ h
        have h3 : SamePool p (next_char { p1 with str_wrk := p1.str_wrk ++ [c1] } false iq1).2 :=
          (ht.chain ⟨rfl, rfl, rfl, rfl⟩).chain (next_char_frame _ false iq1)
        exact h3.chain h2

theorem next_string_trail_frame : ∀ (k : Nat) (p : PARSE_BLOCK) (c : Nat) (s : Scan),
    next_string_trail k p c = some s → SamePool p (Scan.block s) := by
  intro k
  induction k with
  | zero => intro p c s h; simp [next_string_trail] at h
  | succ k ih =>
    intro p c s h
    rw [next_string_trail] at h
    split at h
    · have f1 := next_char_frame p true false
      have f2 := next_char_frame (next_char p true false).2 false false
      dsimp only at h
      split at h
      · cases h; exact f1
      · split at h
        · split at h
          · cases h; exact f1.chain f2
          · cases h; exact f1.chain f2
        · split at h
          · cases h; exact f1
          · split at h
            · cases h; exact f1.chain f2
            · exact (f1.chain f2).chain (ih _ _ _ h)
    · cases h
      exact SamePool.same p

theorem next_string_frame (sf : Nat) (p : PARSE_BLOCK) (b : Bool) (r : Int × PARSE_BLOCK)
    (h : next_string sf p b = some r) : SamePool p r.2 := by
  unfold next_string at h
  cases h1 : next_string_lead sf { p with str_wrk := [] } with
  | none => simp [h1] at h
  | some x =>
    obtain ⟨c, p1⟩ := x
    have f1 : SamePool p p1 :=
      SamePool.chain ⟨rfl, rfl, rfl, rfl⟩ (next_string_lead_frame _ _ _ h1)
    simp only [h1] at h
    cases h2 : next_string_main sf p1 c false 0 with
    | none => simp [h2] at h
    | some s =>
      have f2 := next_string_main_frame _ _ _ _ _ _ h2
      simp only [h2] at h
      cases s with
      | ret rc q => cases h; exact f1.chain f2
      | go c2 iq2 qc2 q => simp at h
      | brk c2 p2 =>
        simp only at h
        cases h3 : next_string_trail sf p2 c2 with
        | none => simp [h3] at h
        | some s3 =>
          have f3 := next_string_trail_frame _ _ _ _ h3
          simp only [h3] at h
          cases s3 with
          | ret rc q => cases h; exact (f1.chain f2).chain f3
          | go c4 iq4 qc4 q => simp at h
          | brk c3 p3 =>
            simp only at h
            split at h <;> cases h <;> exact (f1.chain f2).chain f3

theorem setNode_length (nodes : List PRMP_NODE) (i : Nat) (f : PRMP_NODE → PRMP_NODE) :
    (setNode nodes i f).length = nodes.length := by
  unfold setNode
  split <;> simp

theorem setNode_getElem? (nodes : List PRMP_NODE) (i : Nat) (f : PRMP_NODE → PRMP_NODE) (j : Nat) :
    (setNode nodes i f)[j]? = if j = i then (nodes[i]?).map f else nodes[j]? := by
  unfold setNode
  cases h : nodes[i]? with
  | none =>
    by_cases hj : j = i
    · simp [hj, h]
    · simp [hj]
  | some n =>
    by_cases hj : j = i
    · subst hj
      have hi : j < nodes.length := by
        rcases Nat.lt_or_ge j nodes.length with h1 | h1
        · exact h1
        · rw [List.getElem?_eq_none h1] at h; cases h
      simp [List.getElem?_set, hi]
    · simp [List.getElem?_set, hj, Ne.symm hj]

theorem upOf_append (anchors extra : List PRMP_ANCHOR) (L : Nat) (h : L < anchors.length) :
    upOf (anchors ++ extra) L = upOf anchors L := by
  unfold upOf
  rw [List.getElem?_append_left h]

theorem upOf_set (anchors : List PRMP_ANCHOR) (a : Nat) (x y : PRMP_ANCHOR)
    (hx : anchors[a]? = some x) (hy : y.up = x.up) (L : Nat) :
    upOf (anchors.set a y) L = upOf anchors L := by
  unfold upOf
  by_cases h : L = a
  · subst h
    have hi : L < anchors.length := by
      rcases Nat.lt_or_ge L anchors.length with h1 | h1
      · exact h1
      · rw [List.getElem?_eq_none h1] at hx; cases hx
    simp [List.getElem?_set, hi, hx, hy]
  · simp [List.getElem?_set, h, Ne.symm h]

theorem own_append (own extra : List Nat) (i : Nat) (x : Nat) (h : own[i]? = some x) :
    (own ++ extra)[i]? = some x := by
  have hi : i < own.length := by
    rcases Nat.lt_or_ge i own.length with h1 | h1
    · exact h1
    · rw [List.getElem?_eq_none h1] at h; cases h
  rw [List.getElem?_append_left hi, h]

theorem own_initial {own own1 : List Nat} (hp : own <+: own1) (i : Nat) (x : Nat)
    (h : own[i]? = some x) : own1[i]? = some x := by
  obtain ⟨t, rfl⟩ := hp
  exact own_append own t i x h

theorem own_some (own : List Nat) (i : Nat) (h : i < own.length) : ∃ x, own[i]? = some x :=
  ⟨own[i], List.getElem?_eq_getElem h⟩

theorem Owned_setNode (anchors : List PRMP_ANCHOR) (nodes : List PRMP_NODE) (own : List Nat)
    (i : Nat) (f : PRMP_NODE → PRMP_NODE) (h : Owned anchors nodes own)
    (hnext : ∀ n j, nodes[i]? = some n → (f n).next = some j → own[j]? = own[i]?)
    (hlvl : ∀ n, nodes[i]? = some n → (f n).type = PRMP_NEXTLEVEL →
      ∃ L, (f n).nextlevel = some L ∧ L < anchors.length ∧ upOf anchors L = own[i]?) :
    Owned anchors (setNode nodes i f) own := by
  obtain ⟨h1, h2, h3⟩ := h
  refine ⟨by rw [setNode_length]; exact h1, h2, ?_⟩
  intro k n hk
  rw [setNode_getElem?] at hk
  by_cases hki : k = i
  · subst hki
    rw [if_pos rfl] at hk
    cases hn : nodes[k]? with
    | none => rw [hn] at hk; cases hk
    | some n0 =>
      rw [hn] at hk
      simp only [Option.map_some', Option.some.injEq] at hk
      subst hk
      exact ⟨fun j hj => hnext n0 j hn hj, fun ht => hlvl n0 hn ht⟩
  · rw [if_neg hki] at hk
    exact h3 k n hk

theorem Owned_anchors (anchors anchors1 : List PRMP_ANCHOR) (nodes : List PRMP_NODE)
    (own : List Nat) (h : Owned anchors nodes own) (hlen : anchors.length ≤ anchors1.length)
    (hup : ∀ L, L < anchors.length → upOf anchors1 L = upOf anchors L)
    (hfl : ∀ (A : Nat) (a : PRMP_ANCHOR), anchors1[A]? = some a →
      (∀ j, a.first = some j → own[j]? = some A) ∧ (∀ j, a.last = some j → own[j]? = some A)) :
    Owned anchors1 nodes own := by
  obtain ⟨h1, _, h3⟩ := h
  refine ⟨h1, hfl, ?_⟩
  intro i n hi
  refine ⟨(h3 i n hi).1, fun ht => ?_⟩
  obtain ⟨L, hL1, hL2, hL3⟩ := (h3 i n hi).2 ht
  exact ⟨L, hL1, by omega, by rw [hup L hL2]; exact hL3⟩

theorem Owned_alloc (anchors : List PRMP_ANCHOR) (nodes : List PRMP_NODE) (own : List Nat)
    (a : Nat) (h : Owned anchors nodes own) :
    Owned anchors (nodes ++ [({} : PRMP_NODE)]) (own ++ [a]) := by
  obtain ⟨h1, h2, h3⟩ := h
  refine ⟨by simp [h1], ?_, ?_⟩
  · intro A x hx
    exact ⟨fun j hj => own_append own [a] j A ((h2 A x hx).1 j hj),
      fun j hj => own_append own [a] j A ((h2 A x hx).2 j hj)⟩
  · intro i n hi
    rcases Nat.lt_or_ge i nodes.length with hlt | hge
    · rw [List.getElem?_append_left hlt] at hi
      obtain ⟨x, hx⟩ := own_some own i (by omega)
      have e1 : (own ++ [a])[i]? = own[i]? := by rw [own_append own [a] i x hx, hx]
      refine ⟨fun j hj => ?_, fun ht => ?_⟩
      · have := (h3 i n hi).1 j hj
        rw [hx] at this
        rw [e1, hx]
        exact own_append own [a] j x this
      · obtain ⟨L, hL1, hL2, hL3⟩ := (h3 i n hi).2 ht
        exact ⟨L, hL1, hL2, by rw [e1]; exact hL3⟩
    · rw [List.getElem?_append_right hge] at hi
      have hz : i - nodes.length = 0 := by
        rcases Nat.eq_zero_or_pos (i - nodes.length) with h0 | h0
        · exact h0
        · rw [List.getElem?_eq_none (by simp; omega)] at hi; cases hi
      rw [hz] at hi
      simp only [List.getElem?_cons_zero, Option.some.injEq] at hi
      subst hi
      exact ⟨fun j hj => (by cases hj), fun ht => (by cases ht)⟩

theorem Stable.self (p : PARSE_BLOCK) : Stable p p := ⟨Nat.le_refl _, fun _ _ => rfl, rfl⟩

theorem Stable.extend {p q r : PARSE_BLOCK} (h1 : Stable p q) (h2 : Stable q r) : Stable p r :=
  ⟨Nat.le_trans h1.1 h2.1,
    fun A hA => (h2.2.1 A (Nat.lt_of_lt_of_le hA h1.1)).trans (h1.2.1 A hA),
    h2.2.2.trans h1.2.2⟩

theorem SamePool.stable {p q : PARSE_BLOCK} (h : SamePool p q) : Stable p q :=
  ⟨by rw [h.1], fun A _ => by rw [h.1], h.2.2.2⟩

theorem parse_key_owned (sf : Nat) (p : PARSE_BLOCK) (node : Nat) (rc : Int) (p1 : PARSE_BLOCK)
    (own : List Nat) (h : parse_key sf p node = some (rc, p1))
    (hO : Owned p.anchors p.nodes own) :
    Owned p1.anchors p1.nodes own ∧ p1.anchors = p.anchors ∧
      p1.current_anchor = p.current_anchor ∧ p1.top_anchor = p.top_anchor := by
  unfold parse_key at h
  cases h1 : next_string sf p true with
  | none => simp [h1] at h
  | some x =>
    obtain ⟨rc0, q⟩ := x
    obtain ⟨f1, f2, f3, f4⟩ := next_string_frame sf p true _ h1
    simp only at f1 f2 f3 f4
    have hq : Owned q.anchors q.nodes own := by rw [f1, f2]; exact hO
    have hs : Owned (storeKey q node).anchors (storeKey q node).nodes own := by
      unfold storeKey
      exact Owned_setNode q.anchors q.nodes own node _ hq
        (fun n j hn hj => (hq.2.2 node n hn).1 j hj)
        (fun n hn ht => (hq.2.2 node n hn).2 ht)
    simp only [h1] at h
    split at h
    · cases h; exact ⟨hq, f1, f3, f4⟩
    · split at h
      · cases h; exact ⟨hq, f1, f3, f4⟩
      · split at h
        · cases h; exact ⟨hq, f1, f3, f4⟩
        · split at h
          · cases h; exact ⟨hq, f1, f3, f4⟩
          · cases h; exact ⟨hs, f1, f3, f4⟩

theorem storeString_owned (p : PARSE_BLOCK) (node : Nat) (own : List Nat)
    (hO : Owned p.anchors p.nodes own) :
    Owned (storeString p node).anchors (storeString p node).nodes own := by
  unfold storeString
  exact Owned_setNode p.anchors p.nodes own node _ hO
    (fun n j hn hj => (hO.2.2 node n hn).1 j hj)
    (fun n _ ht => by simp [PRMP_STRING, PRMP_NEXTLEVEL] at ht)

theorem newLevel_owned (p : PARSE_BLOCK) (node : Nat) (own : List Nat)
    (hO : Owned p.anchors p.nodes own) (hn : own[node]? = p.current_anchor) :
    Owned (newLevel p node).anchors (newLevel p node).nodes own ∧
      upOf (newLevel p node).anchors p.anchors.length = p.current_anchor ∧
      Stable p (newLevel p node) ∧ (newLevel p node).is_eof = p.is_eof := by
  have hA : Owned (p.anchors ++ [{ up := p.current_anchor }]) p.nodes own := by
    refine Owned_anchors p.anchors _ p.nodes own hO (by simp) (fun L hL => upOf_append _ _ L hL) ?_
    intro A a ha
    rcases Nat.lt_or_ge A p.anchors.length with hlt | hge
    · rw [List.getElem?_append_left hlt] at ha
      exact hO.2.1 A a ha
    · rw [List.getElem?_append_right hge] at ha
      have hz : A - p.anchors.length = 0 := by
        rcases Nat.eq_zero_or_pos (A - p.anchors.length) with h0 | h0
        · exact h0
        · rw [List.getElem?_eq_none (by simp; omega)] at ha; cases ha
      rw [hz] at ha
      simp only [List.getElem?_cons_zero, Option.some.injEq] at ha
      subst ha
      exact ⟨fun j hj => (by cases hj), fun j hj => (by cases hj)⟩
  have hU : upOf (p.anchors ++ [{ up := p.current_anchor }]) p.anchors.length
      = p.current_anchor := by
    unfold upOf
    rw [List.getElem?_append_right (Nat.le_refl _)]
    simp
  refine ⟨?_, hU, ⟨by simp [newLevel], fun L hL => ?_, rfl⟩, rfl⟩
  · unfold newLevel
    exact Owned_setNode _ p.nodes own node _ hA
      (fun n j hn1 hj => (hO.2.2 node n hn1).1 j hj)
      (fun n _ _ => ⟨p.anchors.length, rfl, by simp, by rw [hU, hn]⟩)
  · simp only [newLevel]
    exact upOf_append _ _ L hL

theorem linkNode_owned (p : PARSE_BLOCK) (a node : Nat) (own : List Nat)
    (hO : Owned p.anchors p.nodes own) (hn : own[node]? = some a) :
    Owned (linkNode p a node).anchors (linkNode p a node).nodes own ∧
      Stable p (linkNode p a node) ∧
      (linkNode p a node).current_anchor = p.current_anchor ∧
      (linkNode p a node).is_eof = p.is_eof := by
  unfold linkNode
  cases hx : p.anchors[a]? with
  | none => exact ⟨hO, Stable.self p, rfl, rfl⟩
  | some x =>
    simp only
    have hfl : ∀ (y : PRMP_ANCHOR), y.up = x.up →
        (∀ j, y.first = some j → own[j]? = some a) → (∀ j, y.last = some j → own[j]? = some a) →
        ∀ (A : Nat) (z : PRMP_ANCHOR), (p.anchors.set a y)[A]? = some z →
          (∀ j, z.first = some j → own[j]? = some A) ∧ (∀ j, z.last = some j → own[j]? = some A) := by
      intro y _ hf hl A z hz
      by_cases hA : A = a
      · subst hA
        have hi : A < p.anchors.length := by
          rcases Nat.lt_or_ge A p.anchors.length with h1 | h1
          · exact h1
          · rw [List.getElem?_eq_none h1] at hx; cases hx
        simp [List.getElem?_set, hi] at hz
        subst hz
        exact ⟨hf, hl⟩
      · simp [List.getElem?_set, Ne.symm hA] at hz
        exact hO.2.1 A z hz
    have hst : ∀ (y : PRMP_ANCHOR) (q : PARSE_BLOCK), y.up = x.up →
        q.anchors = p.anchors.set a y → q.top_anchor = p.top_anchor → Stable p q := by
      intro y q hy hq ht
      exact ⟨by rw [hq]; simp, fun L _ => by rw [hq]; exact upOf_set p.anchors a x y hx hy L, ht⟩
    split
    · refine ⟨?_, hst { x with first := some node, last := some node } _ rfl rfl rfl, rfl, rfl⟩
      exact Owned_anchors p.anchors _ p.nodes own hO (by simp)
        (fun L _ => upOf_set p.anchors a x { x with first := some node, last := some node } hx rfl L)
        (hfl _ rfl (fun j hj => by cases hj; exact hn) (fun j hj => by cases hj; exact hn))
    · refine ⟨?_, hst { x with last := some node } _ rfl rfl rfl, rfl, rfl⟩
      have hN : Owned p.anchors (match x.last with
          | some l => setNode p.nodes l (fun n => { n with next := some node })
          | none => p.nodes) own := by
        cases hl : x.last with
        | none => exact hO
        | some l =>
          simp only
          have hol : own[l]? = some a := (hO.2.1 a x hx).2 l hl
          exact Owned_setNode p.anchors p.nodes own l _ hO
            (fun n j _ hj => by cases hj; rw [hn, hol])
            (fun n hn1 ht => (hO.2.2 l n hn1).2 ht)
      exact Owned_anchors p.anchors _ _ own hN (by simp)
        (fun L _ => upOf_set p.anchors a x { x with last := some node } hx rfl L)
        (hfl _ rfl (fun j hj => (hO.2.1 a x hx).1 j hj) (fun j hj => by cases hj; exact hn))

theorem parse_owned_aux (k : Nat) :
    (∀ fall sf p node rc p1 own a, parse_value k fall sf p node = some (rc, p1) →
      Owned p.anchors p.nodes own → p.current_anchor = some a → own[node]? = some a →
      ∃ own1, own <+: own1 ∧ Owned p1.anchors p1.nodes own1 ∧ Stable p p1 ∧
        (0 ≤ rc → p1.is_eof = false → p1.current_anchor = some a)) ∧
    (∀ fall sf p a rc p1 own, parmParseNodeLoop k fall sf p a = some (rc, p1) →
      Owned p.anchors p.nodes own → p.current_anchor = some a → a < p.anchors.length →
      ∃ own1, own <+: own1 ∧ Owned p1.anchors p1.nodes own1 ∧ Stable p p1 ∧
        (0 ≤ rc → p1.is_eof = false → p1.current_anchor = upOf p.anchors a)) ∧
    (∀ fall sf p a rc p1 own, parmParseNode k fall sf p a = some (rc, p1) →
      Owned p.anchors p.nodes own → a < p.anchors.length →
      ∃ own1, own <+: own1 ∧ Owned p1.anchors p1.nodes own1 ∧ Stable p p1 ∧
        (0 ≤ rc → p1.is_eof = false → p1.current_anchor = upOf p.anchors a)) := by
  induction k with
  | zero =>
    refine ⟨?_, ?_, ?_⟩
    · intro fall sf p node rc p1 own a h
      simp [parse_value] at h
    · intro fall sf p a rc p1 own h
      simp [parmParseNodeLoop] at h
    · intro fall sf p a rc p1 own h
      simp [parmParseNode] at h
  | succ k ih =>
    obtain ⟨ihV, ihL, ihN⟩ := ih
    refine ⟨?_, ?_, ?_⟩
    · intro fall sf p node rc p1 own a h hO hc hn
      simp only [parse_value] at h
      cases h1 : next_string sf p false with
      | none => simp [h1] at h
      | some x =>
        obtain ⟨rc0, q⟩ := x
        have fr := next_string_frame sf p false _ h1
        obtain ⟨f1, f2, f3, f4⟩ := fr
        simp only at f1 f2 f3 f4
        have hq : Owned q.anchors q.nodes own := by rw [f1, f2]; exact hO
        have hqc : q.current_anchor = some a := by rw [f3]; exact hc
        have hst : Stable p q := SamePool.stable ⟨f1, f2, f3, f4⟩
        simp only [h1] at h
        split at h
        · cases h; exact ⟨own, List.prefix_refl _, hq, hst, fun _ _ => hqc⟩
        · split at h
          · cases h; exact ⟨own, List.prefix_refl _, hq, hst, fun _ _ => hqc⟩
          · split at h
            · split at h
              · cases h; exact ⟨own, List.prefix_refl _, hq, hst, fun _ _ => hqc⟩
              · obtain ⟨n1, n2, n3, n4⟩ := newLevel_owned q node own hq (by rw [hn, hqc])
                cases h2 : parmParseNode k fall sf (newLevel q node) q.anchors.length with
                | none => simp [h2] at h
                | some y =>
                  obtain ⟨rc2, p3⟩ := y
                  obtain ⟨own1, o1, o2, o3, o4⟩ := ihN fall sf _ _ rc2 p3 own h2 n1
                    (by simp [newLevel])
                  rw [n2, hqc] at o4
                  simp only [h2] at h
                  split at h
                  · cases h
                    exact ⟨own1, o1, o2, hst.extend (n3.extend o3), fun h0 _ => absurd h0 (by omega)⟩
                  · rename_i hrc
                    cases h
                    exact ⟨own1, o1, o2, hst.extend (n3.extend o3), fun _ he => o4 (by omega) he⟩
            · have hs := storeString_owned q node own hq
              have hst2 : Stable p (storeString q node) :=
                hst.extend (SamePool.stable ⟨rfl, rfl, rfl, rfl⟩ |>.extend
                  ⟨by simp [storeString], fun _ _ => rfl, rfl⟩)
              split at h
              · cases h; exact ⟨own, List.prefix_refl _, hq, hst, fun _ _ => hqc⟩
              · split at h
                · cases h; exact ⟨own, List.prefix_refl _, hs, hst2, fun _ _ => hqc⟩
                · cases h; exact ⟨own, List.prefix_refl _, hs, hst2, fun _ _ => hqc⟩
    · intro fall sf p a rc p1 own h hO hc ha
      simp only [parmParseNodeLoop] at h
      have hO1 : Owned (allocNode p).anchors (allocNode p).nodes (own ++ [a]) :=
        Owned_alloc p.anchors p.nodes own a hO
      have hnode : (own ++ [a])[p.nodes.length]? = some a := by
        rw [← hO.1, List.getElem?_append_right (Nat.le_refl _)]
        simp
      have hpre : own <+: own ++ [a] := List.prefix_append _ _
      cases h1 : parse_key sf (allocNode p) p.nodes.length with
      | none => simp [h1] at h
      | some x =>
        obtain ⟨rc1, q⟩ := x
        obtain ⟨k1, k2, k3, k4⟩ := parse_key_owned sf _ _ rc1 q _ h1 hO1
        have hst : Stable p q := ⟨by rw [k2]; simp [allocNode], fun A _ => by rw [k2]; rfl, k4⟩
        have hqc : q.current_anchor = some a := by rw [k3]; exact hc
        simp only [h1] at h
        split at h
        · cases h
          exact ⟨_, hpre, k1, hst, fun h0 _ => absurd h0 (by omega)⟩
        · split at h
          · rename_i he
            cases h
            exact ⟨_, hpre, k1, hst, fun _ h0 => by rw [he] at h0; cases h0⟩
          · cases h2 : parse_value k fall sf q p.nodes.length with
            | none => simp [h2] at h
            | some y =>
              obtain ⟨rc2, p2⟩ := y
              obtain ⟨own2, v1, v2, v3, v4⟩ := ihV fall sf q _ rc2 p2 _ a h2 k1 hqc hnode
              simp only [h2] at h
              split at h
              · cases h
                exact ⟨own2, hpre.trans v1, v2, hst.extend v3, fun h0 _ => absurd h0 (by omega)⟩
              · rename_i hrc
                split at h
                · rename_i he
                  cases h
                  exact ⟨own2, hpre.trans v1, v2, hst.extend v3,
                    fun h0 _ => absurd h0 (by omega)⟩
                · rename_i he
                  have he2 : p2.is_eof = false := by
                    cases hb : p2.is_eof with
                    | false => rfl
                    | true => exact absurd hb he
                  have hc2 : p2.current_anchor = some a := v4 (by omega) he2
                  obtain ⟨l1, l2, l3, l4⟩ := linkNode_owned p2 a p.nodes.length own2 v2
                    (own_initial v1 _ _ hnode)
                  have hst3 : Stable p (linkNode p2 a p.nodes.length) := (hst.extend v3).extend l2
                  split at h
                  · cases h
                    refine ⟨own2, hpre.trans v1, l1, ⟨hst3.1, hst3.2.1, hst3.2.2⟩, fun _ _ => ?_⟩
                    exact hst3.2.1 a ha
                  · obtain ⟨own3, r1, r2, r3, r4⟩ := ihL fall sf _ a rc p1 own2 h l1
                      (by rw [l3]; exact hc2) (Nat.lt_of_lt_of_le ha hst3.1)
                    refine ⟨own3, (hpre.trans v1).trans r1, r2, hst3.extend r3, fun h0 he0 => ?_⟩
                    rw [r4 h0 he0]
                    exact hst3.2.1 a ha
    · intro fall sf p a rc p1 own h hO ha
      simp only [parmParseNode] at h
      obtain ⟨own1, r1, r2, r3, r4⟩ := ihL fall sf _ a rc p1 own h hO rfl ha
      exact ⟨own1, r1, r2, ⟨r3.1, r3.2.1, r3.2.2⟩, r4⟩

theorem parse_tree_owned (fuel : Nat) (fall : Int) (file : List Nat) (rc : Int) (m : Pool)
    (h : PRMP_HANDLE) (hp : parmParseFile fuel fall file = some (rc, some (m, h))) :
    ∃ own, Owned m.anchors m.nodes own ∧ upOf m.anchors 0 = none ∧ h = { anchor := some 0 } := by
  unfold parmParseFile parmParse at hp
  cases h1 : parmParseNode fuel fall fuel (initParseBlock file) (initParseBlock file).top_anchor with
  | none => simp [h1] at hp
  | some x =>
    obtain ⟨rc1, p1⟩ := x
    have hO : Owned (initParseBlock file).anchors (initParseBlock file).nodes [] := by
      refine ⟨rfl, ?_, ?_⟩
      · intro A a ha
        cases A with
        | zero =>
          simp [initParseBlock] at ha
          subst ha
          exact ⟨fun j hj => (by cases hj), fun j hj => (by cases hj)⟩
        | succ n => simp [initParseBlock] at ha
      · intro i n hi
        simp [initParseBlock] at hi
    obtain ⟨own1, _, o2, o3, _⟩ := (parse_owned_aux fuel).2.2 fall fuel _ _ rc1 p1 [] h1 hO
      (by simp [initParseBlock])
    simp only [h1] at hp
    split at hp
    · cases hp
    · simp only [Option.some.injEq, Prod.mk.injEq] at hp
      obtain ⟨_, hm, hh⟩ := hp
      subst hm
      subst hh
      refine ⟨own1, o2, ?_, ?_⟩
      · have := o3.2.1 0 (by simp [initParseBlock])
        rw [this]
        rfl
      · rw [o3.2.2]
        rfl

theorem isChain_own (anchors : List PRMP_ANCHOR) (nodes : List PRMP_NODE) (own : List Nat)
    (hO : Owned anchors nodes own) (A : Nat) (l : List Nat) :
    ∀ (p : Option Nat), IsChain nodes p l → (∀ j, p = some j → own[j]? = some A) →
      ∀ i ∈ l, own[i]? = some A := by
  induction l with
  | nil => intro p _ _ i hi; cases hi
  | cons j l ih =>
    intro p hc hp i hi
    obtain ⟨h1, h2, h3⟩ := hc
    have hj : own[j]? = some A := hp j h1
    rcases List.mem_cons.mp hi with rfl | hmem
    · exact hj
    · refine ih (nextOf nodes j) h3 ?_ i hmem
      intro j1 hj1
      obtain ⟨n, hn⟩ : ∃ n, nodes[j]? = some n := ⟨_, List.getElem?_eq_getElem h2⟩
      have : n.next = some j1 := by simpa [nextOf, hn] using hj1
      rw [(hO.2.2 j n hn).1 j1 this, hj]

theorem isChain_split (nodes : List PRMP_NODE) (i : Nat) (after : List Nat) :
    ∀ (before : List Nat) (p : Option Nat), IsChain nodes p (before ++ i :: after) →
      i < nodes.length ∧ IsChain nodes (nextOf nodes i) after := by
  intro before
  induction before with
  | nil => intro p h; exact ⟨h.2.1, h.2.2⟩
  | cons b before ih => intro p h; exact ih _ h.2.2

theorem joinLines_cons (l : List Nat) (ls : List (List Nat)) :
    joinLines (l :: ls) = l ++ 10 :: joinLines ls := by
  simp [joinLines]

theorem joinLines_append (a b : List (List Nat)) :
    joinLines (a ++ b) = joinLines a ++ joinLines b := by
  simp [joinLines]

theorem joinLines_length (ls : List (List Nat)) : ls.length ≤ (joinLines ls).length := by
  induction ls with
  | nil => simp
  | cons l ls ih => rw [joinLines_cons]; simp; omega

theorem fgets_isLine (l rest : List Nat) (h : IsLine l) :
    fgets (PRMP_STRING_WORK_SIZE - 1) (l ++ 10 :: rest) = (l ++ [10], rest, false) :=
  fgets_line l rest h.2 _ (by have := h.1; simp [PRMP_STRING_WORK_SIZE]; omega)

theorem callbackIoLoop_isLine (l rest : List Nat) (h : IsLine l) (k : Nat) :
    callbackIoLoop (k + 1) (l ++ 10 :: rest)
      = if cook l = [] then callbackIoLoop k rest else (((cook l).length : Int), cook l, rest) := by
  rw [callbackIoLoop]
  have hne : l ++ 10 :: rest ≠ [] := by simp
  have hs : (strlen (l ++ [10])).length ≤ (l ++ [10]).length := (List.takeWhile_sublist _).length_le
  have h1 : ¬ (strlen (l ++ [10])).length ≥ PRMP_STRING_WORK_SIZE := by
    have := h.1
    simp [PRMP_STRING_WORK_SIZE] at hs ⊢
    omega
  simp only [hne, if_false, fgets_isLine l rest h, Bool.false_eq_true, h1]
  unfold cook
  simp only [List.length_eq_zero]

theorem callbackIoLoop_lines : ∀ (ls : List (List Nat)) (k : Nat), (∀ l ∈ ls, IsLine l) →
    ls.length < k → callbackIoLoop k (joinLines ls) = deliver ls := by
  intro ls
  induction ls with
  | nil =>
    intro k _ hk
    obtain ⟨j, rfl⟩ : ∃ j, k = j + 1 := ⟨k - 1, by simp at hk; omega⟩
    simp [callbackIoLoop, joinLines, deliver, nextLine]
  | cons l ls ih =>
    intro k hl hk
    obtain ⟨j, rfl⟩ : ∃ j, k = j + 1 := ⟨k - 1, by simp at hk; omega⟩
    rw [joinLines_cons, callbackIoLoop_isLine l _ (hl l (List.mem_cons_self _ _))]
    by_cases hc : cook l = []
    · rw [if_pos hc, ih j (fun x hx => hl x (List.mem_cons_of_mem _ hx)) (by simp at hk; omega)]
      simp [deliver, nextLine, hc]
    · rw [if_neg hc]
      simp [deliver, nextLine, hc]

theorem callbackIo_lines (p : PARSE_BLOCK) (ls : List (List Nat)) (hfs : p.fs = joinLines ls)
    (hl : ∀ l ∈ ls, IsLine l) : callbackIo p = deliver ls := by
  unfold callbackIo
  rw [hfs]
  exact callbackIoLoop_lines ls _ hl (by have := joinLines_length ls; omega)

theorem cook_length (l : List Nat) (h : IsLine l) : (cook l).length ≤ 510 := by
  have hp : strlen (l ++ [10]) <+: l ++ [10] := List.takeWhile_prefix _
  have hA : (strlen (l ++ [10])).length ≤ l.length + 1 := by
    have := hp.length_le
    simpa using this
  have hB : (strlen (l ++ [10])).length = l.length + 1 →
      (strlen (l ++ [10])).getLast? = some 10 := by
    intro he
    have : strlen (l ++ [10]) = l ++ [10] := hp.eq_of_length (by simpa using he)
    rw [this]
    simp
  have hl := h.1
  unfold cook
  generalize strlen (l ++ [10]) = s0 at hA hB
  have hd : ∀ t : List Nat, t.dropLast.length = t.length - 1 := fun t => by simp
  have h1 : (if s0.getLast? = some 10 then s0.dropLast else s0).length ≤ l.length := by
    by_cases hc : s0.getLast? = some 10
    · rw [if_pos hc, hd]
      omega
    · rw [if_neg hc]
      rcases Nat.lt_or_ge s0.length (l.length + 1) with h2 | h2
      · omega
      · exact absurd (hB (by omega)) hc
  dsimp only
  generalize (if s0.getLast? = some 10 then s0.dropLast else s0) = s1 at h1
  by_cases hc : s1.getLast? = some 13
  · rw [if_pos hc, hd]; omega
  · rw [if_neg hc]; omega

theorem next_char_in (p : PARSE_BLOCK) (d : Nat) (cs fs : List Nat) (la iq : Bool)
    (h : d ≠ 35 ∨ iq = true) :
    next_char (inLine p (d :: cs) fs) la iq
      = (d, if la then inLine p (d :: cs) fs else inLine p cs fs) := by
  have h1 : ¬ (d = 35 ∧ iq = false) := by
    rintro ⟨h1, h2⟩
    rcases h with h | h
    · exact h h1
    · rw [h] at h2; exact Bool.noConfusion h2
  cases la <;> simp [next_char, next_char_line, inLine, h1]

theorem next_char_in_comment (p : PARSE_BLOCK) (cs fs : List Nat) (la : Bool) :
    next_char (inLine p (35 :: cs) fs) la false
      = (32, offL { p with buf := 35 :: cs } (if la then 1 else cs.length + 1) fs) := by
  cases la <;> simp [next_char, next_char_line, inLine, offL]

theorem next_char_in_end (p : PARSE_BLOCK) (fs : List Nat) (la iq : Bool) :
    next_char (inLine p [] fs) la iq
      = (32, offL { p with buf := [] } (if la then 1 else 0) fs) := by
  cases la <;> simp [next_char, next_char_line, inLine, offL]

theorem next_char_off_one (p : PARSE_BLOCK) (fs : List Nat) (la iq : Bool) :
    next_char (offL p 1 fs) la iq = (32, if la then offL p 1 fs else offL p 0 fs) := by
  cases la <;> simp [next_char, offL]

theorem next_char_off_read (p : PARSE_BLOCK) (n : Nat) (ls : List (List Nat)) (la iq : Bool)
    (hn : n ≠ 1) (hl : ∀ l ∈ ls, IsLine l) :
    next_char (offL p n (joinLines ls)) la iq
      = match nextLine ls with
        | none => (255, { p with fs := [], len := n, is_eof := true, have_line := false })
        | some (c, rest) => next_char (inLine p c (joinLines rest)) la iq := by
  have hcb : callbackIo (offL p n (joinLines ls)) = deliver ls :=
    callbackIo_lines _ ls rfl hl
  simp only [offL] at hcb ⊢
  unfold next_char
  simp only [hn, if_false, hcb, Bool.false_eq_true, if_true]
  unfold deliver
  cases hnl : nextLine ls with
  | none => simp
  | some x =>
    obtain ⟨c, rest⟩ := x
    have hc : c ≠ [] := by
      clear hcb
      induction ls with
      | nil => simp [nextLine] at hnl
      | cons l ls ih =>
        simp only [nextLine] at hnl
        split at hnl
        · exact ih (fun x hx => hl x (List.mem_cons_of_mem _ hx)) hnl
        · rename_i hne
          cases hnl
          exact hne
    have hpos : 0 < c.length := List.length_pos.mpr hc
    have h1 : ¬ ((c.length : Int) < 0) := by omega
    have h2 : ¬ ((c.length : Int) = 0) := by omega
    simp only [h1, h2, if_false, inLine, Int.toNat_ofNat]
    simp

theorem nextLine_append_none : ∀ (s X : List (List Nat)), nextLine s = none →
    nextLine (s ++ X) = nextLine X := by
  intro s
  induction s with
  | nil => intro X _; rfl
  | cons l s ih =>
    intro X h
    simp only [nextLine] at h
    split at h
    · rename_i hc
      simp only [List.cons_append, nextLine, hc, if_true]
      exact ih X h
    · cases h

theorem nextLine_append_some : ∀ (s X : List (List Nat)) (c : List Nat) (s2 : List (List Nat)),
    nextLine s = some (c, s2) → nextLine (s ++ X) = some (c, s2 ++ X) := by
  intro s
  induction s with
  | nil => intro X c s2 h; simp [nextLine] at h
  | cons l s ih =>
    intro X c s2 h
    simp only [nextLine] at h
    split at h
    · rename_i hc
      simp only [List.cons_append, nextLine, hc, if_true]
      exact ih X c s2 h
    · rename_i hc
      cases h
      simp only [List.cons_append, nextLine, hc, if_false]
      rfl

theorem nextLine_good : ∀ (s : List (List Nat)) (c : List Nat) (s2 : List (List Nat)),
    GoodLines s → nextLine s = some (c, s2) →
    GoodLines s2 ∧ c ≠ [] ∧ c.length ≤ 510 ∧ scanQ .out c = true := by
  intro s
  induction s with
  | nil => intro c s2 _ h; simp [nextLine] at h
  | cons l s ih =>
    intro c s2 hg h
    have hs : GoodLines s := fun x hx => hg x (List.mem_cons_of_mem _ hx)
    simp only [nextLine] at h
    split at h
    · exact ih c s2 hs h
    · rename_i hc
      cases h
      have hl := hg l (List.mem_cons_self _ _)
      exact ⟨hs, hc, cook_length l hl.1, hl.2⟩

theorem cook_comment (cmt : List Nat) (h : IsComment cmt) : ∃ t, cook cmt = 35 :: t := by
  obtain ⟨_, hh⟩ := h
  cases cmt with
  | nil => simp at hh
  | cons c t =>
    simp only [List.head?_cons, Option.some.injEq] at hh
    subst hh
    have e : strlen (35 :: t ++ [10]) = 35 :: strlen (t ++ [10]) := by
      simp [strlen, List.takeWhile]
    have hd : ∀ (x : List Nat) (y : Nat), x ≠ [] → (35 :: x).getLast? = x.getLast? ∧
        (35 :: x).dropLast = 35 :: x.dropLast := by
      intro x y hx
      cases x with
      | nil => exact absurd rfl hx
      | cons a x => simp [List.getLast?_cons_cons]
    have h1 : ∀ (x : List Nat) (v : Nat), v ≠ 35 →
        ∃ y, (if (35 :: x).getLast? = some v then (35 :: x).dropLast else 35 :: x) = 35 :: y := by
      intro x v hv
      by_cases hc : (35 :: x).getLast? = some v
      · rw [if_pos hc]
        cases x with
        | nil => simp at hc; exact absurd hc.symm hv
        | cons a x => exact ⟨(a :: x).dropLast, by simp⟩
      · rw [if_neg hc]; exact ⟨x, rfl⟩
    unfold cook
    rw [e]
    dsimp only
    obtain ⟨y, hy⟩ := h1 (strlen (t ++ [10])) 10 (by decide)
    rw [hy]
    exact h1 y 13 (by decide)

theorem goodLines_isLine (s post : List (List Nat)) (hs : GoodLines s)
    (hpost : ∀ l ∈ post, IsLine l) : ∀ l ∈ s ++ post, IsLine l := by
  intro l hl
  rcases List.mem_append.mp hl with h | h
  · exact (hs l h).1
  · exact hpost l h

theorem goodLines_isLine_comment (s post : List (List Nat)) (cmt : List Nat) (hs : GoodLines s)
    (hpost : ∀ l ∈ post, IsLine l) (hcmt : IsComment cmt) : ∀ l ∈ s ++ cmt :: post, IsLine l := by
  intro l hl
  rcases List.mem_append.mp hl with h | h
  · exact (hs l h).1
  · rcases List.mem_cons.mp h with h1 | h1
    · rw [h1]; exact hcmt.1
    · exact hpost l h1

theorem next_char_near (post : List (List Nat)) (cmt : List Nat)
    (hpost : ∀ l ∈ post, IsLine l) (hcmt : IsComment cmt) (q r : PARSE_BLOCK) (la : Bool)
    (h : Near post cmt q r) :
    (∃ p s d cs, GoodLines s ∧ p.str_wrk_len = PRMP_STRING_WORK_SIZE ∧ p.str_wrk = q.str_wrk ∧
        (d :: cs).length ≤ 510 ∧ scanQ .out (d :: cs) = true ∧ d ≠ 35 ∧
        next_char q la false
          = (d, inLine p (if la then d :: cs else cs) (joinLines (s ++ post))) ∧
        next_char r la false
          = (d, inLine p (if la then d :: cs else cs) (joinLines (s ++ cmt :: post)))) ∨
    (∃ p s n, GoodLines s ∧ p.str_wrk_len = PRMP_STRING_WORK_SIZE ∧ p.str_wrk = q.str_wrk ∧
        (la = true → n = 1) ∧
        next_char q la false = (32, offL p n (joinLines (s ++ post))) ∧
        next_char r la false = (32, offL p n (joinLines (s ++ cmt :: post)))) ∨
    (∃ p n0 t, p.str_wrk_len = PRMP_STRING_WORK_SIZE ∧ p.str_wrk = q.str_wrk ∧ n0 ≠ 1 ∧
        next_char r la false
          = (32, offL { p with buf := 35 :: t } (if la then 1 else t.length + 1) (joinLines post)) ∧
        ∀ la2 iq, next_char q la2 iq = next_char (offL p n0 (joinLines post)) la2 iq) := by
  -- a line that is in the buffer, or was just read
  have hin : ∀ (p : PARSE_BLOCK) (s : List (List Nat)) (b : List Nat), GoodLines s →
      p.str_wrk_len = PRMP_STRING_WORK_SIZE → p.str_wrk = q.str_wrk → b ≠ [] → b.length ≤ 510 →
      scanQ .out b = true →
      (∃ p1 s1 d cs, GoodLines s1 ∧ p1.str_wrk_len = PRMP_STRING_WORK_SIZE ∧
          p1.str_wrk = q.str_wrk ∧ (d :: cs).length ≤ 510 ∧ scanQ .out (d :: cs) = true ∧ d ≠ 35 ∧
          next_char (inLine p b (joinLines (s ++ post))) la false
            = (d, inLine p1 (if la then d :: cs else cs) (joinLines (s1 ++ post))) ∧
          next_char (inLine p b (joinLines (s ++ cmt :: post))) la false
            = (d, inLine p1 (if la then d :: cs else cs) (joinLines (s1 ++ cmt :: post)))) ∨
      (∃ p1 s1 n, GoodLines s1 ∧ p1.str_wrk_len = PRMP_STRING_WORK_SIZE ∧
          p1.str_wrk = q.str_wrk ∧ (la = true → n = 1) ∧
          next_char (inLine p b (joinLines (s ++ post))) la false
            = (32, offL p1 n (joinLines (s1 ++ post))) ∧
          next_char (inLine p b (joinLines (s ++ cmt :: post))) la false
            = (32, offL p1 n (joinLines (s1 ++ cmt :: post)))) := by
    intro p s b hs hp hw hb hlen hscan
    cases b with
    | nil => exact absurd rfl hb
    | cons d cs =>
      by_cases hd : d = 35
      · subst hd
        right
        refine ⟨{ p with buf := 35 :: cs }, s, _, hs, hp, hw, ?_, next_char_in_comment p cs _ la,
          next_char_in_comment p cs _ la⟩
        intro hla
        simp [hla]
      · left
        refine ⟨p, s, d, cs, hs, hp, hw, hlen, hscan, hd, ?_, ?_⟩
        · rw [next_char_in p d cs _ la false (Or.inl hd)]
          cases la <;> rfl
        · rw [next_char_in p d cs _ la false (Or.inl hd)]
          cases la <;> rfl
  cases h with
  | mid p s b hs hp hlen hscan =>
    cases b with
    | nil =>
      right; left
      refine ⟨{ p with buf := [] }, s, _, hs, hp, rfl, ?_, next_char_in_end p _ la false,
        next_char_in_end p _ la false⟩
      intro hla
      simp [hla]
    | cons d cs =>
      rcases hin p s (d :: cs) hs hp rfl (by simp) hlen hscan with h1 | h1
      · exact Or.inl h1
      · exact Or.inr (Or.inl h1)
  | off p s n hs hp =>
    by_cases hn : n = 1
    · subst hn
      right; left
      cases la with
      | true =>
        exact ⟨p, s, 1, hs, hp, rfl, fun _ => rfl, next_char_off_one p _ true false,
          next_char_off_one p _ true false⟩
      | false =>
        exact ⟨p, s, 0, hs, hp, rfl, fun h => (by cases h), next_char_off_one p _ false false,
          next_char_off_one p _ false false⟩
    · have e1 := fun la2 iq => next_char_off_read p n (s ++ post) la2 iq hn
        (goodLines_isLine s post hs hpost)
      have e2 := next_char_off_read p n (s ++ cmt :: post) la false hn
        (goodLines_isLine_comment s post cmt hs hpost hcmt)
      cases hnl : nextLine s with
      | none =>
        right; right
        obtain ⟨t, ht⟩ := cook_comment cmt hcmt
        have hc : nextLine (s ++ cmt :: post) = some (cook cmt, post) := by
          rw [nextLine_append_none s _ hnl]
          simp [nextLine, ht]
        refine ⟨p, n, t, hp, rfl, hn, ?_, ?_⟩
        · rw [e2, hc]
          simp only
          rw [ht]
          exact next_char_in_comment p t _ la
        · intro la2 iq
          rw [e1 la2 iq, nextLine_append_none s _ hnl,
            next_char_off_read p n post la2 iq hn hpost]
      | some x =>
        obtain ⟨c, s2⟩ := x
        obtain ⟨g1, g2, g3, g4⟩ := nextLine_good s c s2 hs hnl
        rw [e1 la false, nextLine_append_some s post c s2 hnl]
        rw [e2, nextLine_append_some s (cmt :: post) c s2 hnl]
        simp only
        rcases hin p s2 c g1 hp rfl g2 g3 g4 with h1 | h1
        · exact Or.inl h1
        · exact Or.inr (Or.inl h1)

theorem next_char_lag (p : PARSE_BLOCK) (B : List Nat) (n0 m : Nat) (ls : List (List Nat))
    (la iq : Bool) (hn0 : n0 ≠ 1) (hm : m ≠ 1) (hl : ∀ l ∈ ls, IsLine l) :
    (∃ e, e.is_eof = true ∧ next_char (offL p n0 (joinLines ls)) la iq = (255, e) ∧
        next_char (offL { p with buf := B } m (joinLines ls)) la iq
          = (255, { e with buf := B, len := m })) ∨
    next_char (offL { p with buf := B } m (joinLines ls)) la iq
      = next_char (offL p n0 (joinLines ls)) la iq := by
  rw [next_char_off_read p n0 ls la iq hn0 hl,
    next_char_off_read { p with buf := B } m ls la iq hm hl]
  cases hnl : nextLine ls with
  | none =>
    left
    exact ⟨_, rfl, rfl, rfl⟩
  | some x =>
    right
    rfl

theorem scanQ_out_skip (c : Nat) (cs : List Nat)
    (h : c = 32 ∨ c = 0 ∨ c = 58 ∨ c = 123 ∨ c = 125) :
    scanQ .out (c :: cs) = scanQ .out cs := by
  have h35 : c ≠ 35 := by omega
  have hq : ¬ (c = 34 ∨ c = 39) := by omega
  cases cs <;> simp only [scanQ, h35, hq, h, if_false, if_true]

theorem scanQ_out_bare (c : Nat) (cs : List Nat) (h35 : c ≠ 35) (hq : ¬ (c = 34 ∨ c = 39))
    (h : ¬ (c = 32 ∨ c = 0 ∨ c = 58 ∨ c = 123 ∨ c = 125)) :
    scanQ .out (c :: cs) = scanQ .bare cs := by
  cases cs <;> simp only [scanQ, h35, hq, h, if_false]

theorem scanQ_out_quote (c d : Nat) (ds : List Nat) (hq : c = 34 ∨ c = 39) :
    scanQ .out (c :: d :: ds) = if d = 255 then scanQ .out ds else scanQ (.inq c) ds := by
  have h35 : c ≠ 35 := by omega
  simp only [scanQ, h35, hq, if_false, if_true]

theorem scanQ_out_quote_end (c : Nat) (hq : c = 34 ∨ c = 39) : scanQ .out [c] = false := by
  have h35 : c ≠ 35 := by omega
  simp only [scanQ, h35, hq, if_false, if_true]

theorem scanQ_bare_sep (c : Nat) (cs : List Nat)
    (h : c = 34 ∨ c = 39 ∨ c = 32 ∨ c = 58 ∨ c = 123 ∨ c = 125) :
    scanQ .bare (c :: cs) = scanQ .out cs := by
  have h35 : c ≠ 35 := by omega
  rw [scanQ]
  simp only [h35, h, if_false, if_true]

theorem scanQ_bare_bare (c : Nat) (cs : List Nat) (h35 : c ≠ 35)
    (h : ¬ (c = 34 ∨ c = 39 ∨ c = 32 ∨ c = 58 ∨ c = 123 ∨ c = 125)) :
    scanQ .bare (c :: cs) = scanQ .bare cs := by
  rw [scanQ]
  simp only [h35, h, if_false]

theorem scanQ_inq_close (q : Nat) (cs : List Nat) : scanQ (.inq q) (q :: cs) = scanQ .out cs := by
  rw [scanQ]
  simp only [if_true]

theorem scanQ_inq_go (q c : Nat) (cs : List Nat) (h : c ≠ q) :
    scanQ (.inq q) (c :: cs) = scanQ (.inq q) cs := by
  rw [scanQ]
  simp only [h, if_false]

theorem lead_lag (p : PARSE_BLOCK) (B : List Nat) (n0 m : Nat) (ls : List (List Nat))
    (hn0 : n0 ≠ 1) (hm : m ≠ 1) (hl : ∀ l ∈ ls, IsLine l) (k j : Nat) (hkj : k ≤ j) (c : Nat)
    (q1 : PARSE_BLOCK) (w : List Nat) (post : List (List Nat)) (cmt : List Nat)
    (h : next_string_lead (k + 1) (offL p n0 (joinLines ls)) = some (c, q1)) :
    ∃ r1, next_string_lead (j + 1) (offL { p with buf := B } m (joinLines ls)) = some (c, r1) ∧
      LeadOut post cmt w c q1 r1 := by
  rw [next_string_lead] at h ⊢
  rcases next_char_lag p B n0 m ls false false hn0 hm hl with ⟨e, he, h1, h2⟩ | h1
  · rw [h1] at h
    rw [h2]
    simp only [ne_eq, not_true_eq_false, false_and, if_false, Option.some.injEq,
      Prod.mk.injEq] at h ⊢
    obtain ⟨rfl, rfl⟩ := h
    exact ⟨_, ⟨rfl, rfl⟩, LeadOut.eof e B m rfl he⟩
  · rw [h1]
    split at h
    · rename_i hc
      rw [if_pos hc]
      exact ⟨q1, next_string_lead_mono k _ _ h j hkj, LeadOut.same q1⟩
    · rename_i hc
      rw [if_neg hc, h]
      exact ⟨q1, rfl, LeadOut.same q1⟩

theorem lead_near (post : List (List Nat)) (cmt : List Nat) (hpost : ∀ l ∈ post, IsLine l)
    (hcmt : IsComment cmt) : ∀ (k : Nat) (q r : PARSE_BLOCK) (c : Nat) (q1 : PARSE_BLOCK),
    Near post cmt q r → next_string_lead k q = some (c, q1) →
    ∃ r1, next_string_lead (k + 2) r = some (c, r1) ∧ LeadOut post cmt q.str_wrk c q1 r1 := by
  intro k
  induction k with
  | zero => intro q r c q1 _ h; simp [next_string_lead] at h
  | succ k ih =>
    intro q r c q1 hN h
    rcases next_char_near post cmt hpost hcmt q r false hN with
      ⟨p, s, d, cs, hs, hp, hw, hlen, hscan, hd, e1, e2⟩ | ⟨p, s, n, hs, hp, hw, _, e1, e2⟩ |
      ⟨p, n0, t, hp, hw, hn0, e2, e1⟩
    · rw [next_string_lead, e1] at h
      rw [next_string_lead, e2]
      simp only [Bool.false_eq_true, if_false] at h ⊢
      split at h
      · rename_i hc
        rw [if_pos hc]
        have hsc : scanQ .out cs = true := by
          rcases hc.2 with h32 | h0
          · rw [scanQ_out_skip d cs (Or.inl h32)] at hscan; exact hscan
          · rw [scanQ_out_skip d cs (Or.inr (Or.inl h0))] at hscan; exact hscan
        have hN2 : Near post cmt (inLine p cs (joinLines (s ++ post)))
            (inLine p cs (joinLines (s ++ cmt :: post))) :=
          Near.mid p s cs hs hp (by simp at hlen; omega) hsc
        obtain ⟨r1, g1, g2⟩ := ih _ _ c q1 hN2 h
        have hw2 : (inLine p cs (joinLines (s ++ post))).str_wrk = q.str_wrk := hw
        rw [hw2] at g2
        exact ⟨r1, g1, g2⟩
      · rename_i hc
        rw [if_neg hc]
        simp only [Option.some.injEq, Prod.mk.injEq] at h
        obtain ⟨rfl, rfl⟩ := h
        have h32 : d ≠ 32 := by
          intro h32; subst h32; exact hc ⟨by decide, Or.inl rfl⟩
        have h0 : d ≠ 0 := by
          intro h0; subst h0; exact hc ⟨by decide, Or.inr rfl⟩
        exact ⟨_, rfl, LeadOut.near p s cs hs hp hw hlen hscan hd h32 h0⟩
    · rw [next_string_lead, e1] at h
      rw [next_string_lead, e2]
      simp only [ne_eq, Nat.reduceEqDiff, not_false_eq_true, true_or, and_self, if_true] at h ⊢
      obtain ⟨r1, g1, g2⟩ := ih _ _ c q1 (Near.off p s n hs hp) h
      have hw2 : (offL p n (joinLines (s ++ post))).str_wrk = q.str_wrk := hw
      rw [hw2] at g2
      exact ⟨r1, g1, g2⟩
    · have hq : next_string_lead (k + 1) q
          = next_string_lead (k + 1) (offL p n0 (joinLines post)) := by
        rw [next_string_lead, next_string_lead, e1 false false]
      rw [hq] at h
      rw [next_string_lead, e2]
      simp only [ne_eq, Nat.reduceEqDiff, not_false_eq_true, true_or, and_self, if_true,
        Bool.false_eq_true, if_false]
      by_cases ht : t.length + 1 = 1
      · rw [ht, next_string_lead, next_char_off_one]
        simp only [ne_eq, Nat.reduceEqDiff, not_false_eq_true, true_or, and_self, if_true,
          Bool.false_eq_true, if_false]
        exact lead_lag p (35 :: t) n0 0 post hn0 (by decide) hpost k k (Nat.le_refl _) c q1
          q.str_wrk post cmt h
      · exact lead_lag p (35 :: t) n0 (t.length + 1) post hn0 ht hpost k (k + 1) (by omega) c q1
          q.str_wrk post cmt h

theorem main_off_blank (k : Nat) (p : PARSE_BLOCK) (n : Nat) (fs : List Nat) (qc : Nat) :
    next_string_main (k + 1) (offL p n fs) 32 false qc = some (.brk 32 (offL p n fs)) := by
  have hT : next_string_test (offL p n fs) 32 false qc = .brk 32 (offL p n fs) := by
    simp [next_string_test, offL]
  rw [next_string_main, hT]

theorem main_store (k : Nat) (P : PARSE_BLOCK) (c : Nat) (iq : Bool) (qc : Nat) (c1 : Nat)
    (iq1 : Bool) (qc1 : Nat) (P1 : PARSE_BLOCK)
    (ht : next_string_test P c iq qc = .go c1 iq1 qc1 P1)
    (hroom : P1.str_wrk.length < P1.str_wrk_len - 1) :
    next_string_main (k + 1) P c iq qc
      = next_string_main k (next_char { P1 with str_wrk := P1.str_wrk ++ [c1] } false iq1).2
          (next_char { P1 with str_wrk := P1.str_wrk ++ [c1] } false iq1).1 iq1 qc1 := by
  rw [next_string_main, ht]
  have hr : ¬ P1.str_wrk.length ≥ P1.str_wrk_len - 1 := by omega
  simp only [hr, if_false]

theorem main_near (post : List (List Nat)) (cmt : List Nat) : ∀ (k : Nat) (p : PARSE_BLOCK)
    (s : List (List Nat)) (b : List Nat) (c : Nat) (iq : Bool) (qc : Nat) (r : Scan),
    GoodLines s → p.str_wrk_len = PRMP_STRING_WORK_SIZE →
    p.str_wrk.length + b.length + 1 ≤ 510 →
    scanQ (placeOf iq qc p.str_wrk) (c :: b) = true →
    (iq = false → c ≠ 35 ∧ (p.str_wrk = [] → c ≠ 0)) →
    next_string_main k (inLine p b (joinLines (s ++ post))) c iq qc = some r →
    ∃ r1, next_string_main k (inLine p b (joinLines (s ++ cmt :: post))) c iq qc = some r1 ∧
      ScanNear post cmt r r1 := by
  intro k
  induction k with
  | zero => intro p s b c iq qc r _ _ _ _ _ h; simp [next_string_main] at h
  | succ k ih =>
    intro p s b c iq qc r hs hp hbound hscan hc h
    have hW : p.str_wrk_len = 512 := hp
    -- the step after a byte was stored, the same for every rest of the file
    have hstep : ∀ (w : List Nat) (c0 : Nat) (iq0 : Bool) (qc0 : Nat) (b0 : List Nat),
        w ≠ [] → w.length + b0.length ≤ 510 →
        (∀ d cs, b0 = d :: cs → (d ≠ 35 ∨ iq0 = true) →
          scanQ (placeOf iq0 qc0 w) (d :: cs) = true) →
        (iq0 = true → b0 ≠ []) →
        next_string_main k (next_char (inLine { p with str_wrk := w } b0
            (joinLines (s ++ post))) false iq0).2
          (next_char (inLine { p with str_wrk := w } b0 (joinLines (s ++ post))) false iq0).1
          iq0 qc0 = some r →
        ∃ r1, next_string_main k (next_char (inLine { p with str_wrk := w } b0
            (joinLines (s ++ cmt :: post))) false iq0).2
          (next_char (inLine { p with str_wrk := w } b0 (joinLines (s ++ cmt :: post))) false
            iq0).1 iq0 qc0 = some r1 ∧ ScanNear post cmt r r1 := by
      intro w c0 iq0 qc0 b0 hw hb0 hsc hne h0
      cases b0 with
      | nil =>
        have hiq : iq0 = false := by
          cases iq0 with
          | false => rfl
          | true => exact absurd rfl (hne rfl)
        subst hiq
        rw [next_char_in_end] at h0 ⊢
        simp only [Bool.false_eq_true, if_false] at h0 ⊢
        cases k with
        | zero => simp [next_string_main] at h0
        | succ k =>
          rw [main_off_blank] at h0 ⊢
          cases h0
          exact ⟨_, rfl, ScanNear.brk 32 _ _ (Near.off _ s 0 hs hp)⟩
      | cons d cs =>
        by_cases hd : d ≠ 35 ∨ iq0 = true
        · rw [next_char_in _ d cs _ false iq0 hd] at h0 ⊢
          simp only [Bool.false_eq_true, if_false] at h0 ⊢
          refine ih { p with str_wrk := w } s cs d iq0 qc0 r hs hp
            (by simp at hb0 ⊢; omega) (hsc d cs rfl hd) ?_ h0
          intro hiq
          refine ⟨?_, fun hw0 => absurd hw0 hw⟩
          rcases hd with hd | hd
          · exact hd
          · rw [hiq] at hd; cases hd
        · have hd35 : d = 35 := by
            by_contra hne35; exact hd (Or.inl hne35)
          have hiq : iq0 = false := by
            cases iq0 with
            | false => rfl
            | true => exact absurd (Or.inr rfl) hd
          subst hd35
          subst hiq
          rw [next_char_in_comment] at h0 ⊢
          simp only [Bool.false_eq_true, if_false] at h0 ⊢
          cases k with
          | zero => simp [next_string_main] at h0
          | succ k =>
            rw [main_off_blank] at h0 ⊢
            cases h0
            exact ⟨_, rfl, ScanNear.brk 32 _ _ (Near.off _ s _ hs hp)⟩
    cases iq with
    | true =>
      simp only [placeOf, if_true] at hscan
      by_cases hcq : c = qc
      · subst hcq
        rw [main_quote_close] at h ⊢
        cases h
        rw [scanQ_inq_close] at hscan
        exact ⟨_, rfl, ScanNear.brk c _ _ (Near.mid p s b hs hp (by omega) hscan)⟩
      · rw [scanQ_inq_go qc c b hcq] at hscan
        have ht : ∀ fs, next_string_test (inLine p b fs) c true qc
            = .go c true qc (inLine p b fs) := by
          intro fs
          simp [next_string_test, inLine, hcq]
        rw [main_store k _ c true qc c true qc _ (ht _) (by simp only [inLine]; omega)] at h ⊢
        refine hstep (p.str_wrk ++ [c]) c true qc b (by simp) (by simp; omega) ?_ ?_ h
        · intro d cs hb _
          subst hb
          simpa [placeOf] using hscan
        · intro _ hb
          subst hb
          simp [scanQ] at hscan
    | false =>
      obtain ⟨hc35, hc0⟩ := hc rfl
      by_cases hq : c = 34 ∨ c = 39
      · by_cases hw : p.str_wrk = []
        · -- an opening quote
          simp only [placeOf, Bool.false_eq_true, if_false, hw, if_true] at hscan
          cases b with
          | nil => rw [scanQ_out_quote_end c hq] at hscan; cases hscan
          | cons d ds =>
            rw [scanQ_out_quote c d ds hq] at hscan
            have hn : ∀ fs, next_char (inLine p (d :: ds) fs) false true = (d, inLine p ds fs) :=
              fun fs => by rw [next_char_in p d ds fs false true (Or.inr rfl)]; rfl
            by_cases hd : d = 255
            · have ht : ∀ fs, next_string_test (inLine p (d :: ds) fs) c false qc
                  = .ret 255 (inLine p ds fs) := by
                intro fs
                unfold next_string_test
                have e1 : (inLine p (d :: ds) fs).is_eof = false := rfl
                have e2 : (inLine p (d :: ds) fs).str_wrk = [] := hw
                rw [hn fs]
                simp only [e1, e2]
                simp [hq, hd]
              rw [next_string_main, ht] at h ⊢
              cases h
              rw [if_pos hd] at hscan
              exact ⟨_, rfl, ScanNear.ret 255 _ _
                (Near.mid p s ds hs hp (by simp at hbound; omega) hscan)⟩
            · have ht : ∀ fs, next_string_test (inLine p (d :: ds) fs) c false qc
                  = .go d true c (inLine p ds fs) := by
                intro fs
                unfold next_string_test
                have e1 : (inLine p (d :: ds) fs).is_eof = false := rfl
                have e2 : (inLine p (d :: ds) fs).str_wrk = [] := hw
                simp only [e1, e2, hn fs, hq, hd]
                simp
              rw [if_neg hd] at hscan
              rw [main_store k _ c false qc d true c _ (ht _)
                (by simp only [inLine, hw, hW]; simp)] at h ⊢
              have e3 : ∀ fs, ({ inLine p ds fs with
                  str_wrk := (inLine p ds fs).str_wrk ++ [d] } : PARSE_BLOCK)
                  = inLine { p with str_wrk := p.str_wrk ++ [d] } ds fs := fun _ => rfl
              rw [e3] at h ⊢
              refine hstep (p.str_wrk ++ [d]) d true c ds (by simp) ?_ ?_ ?_ h
              · simp only [hw, List.nil_append, List.length_singleton]
                simp at hbound
                omega
              · intro e es hb _
                subst hb
                simpa [placeOf] using hscan
              · intro _ hb
                subst hb
                simp [scanQ] at hscan
        · -- a quote after bare bytes
          simp only [placeOf, Bool.false_eq_true, if_false, hw] at hscan
          rw [scanQ_bare_sep c b (by omega)] at hscan
          rw [main_quote_after_plain k p c b _ qc hq hw] at h
          rw [main_quote_after_plain k p c b _ qc hq hw]
          cases h
          exact ⟨_, rfl, ScanNear.ret (-2) _ _ (Near.mid p s b hs hp (by omega) hscan)⟩
      · by_cases hsep : c = 32 ∨ c = 58 ∨ c = 123 ∨ c = 125
        · rw [main_stop k p c b _ qc hsep] at h
          rw [main_stop k p c b _ qc hsep]
          cases h
          have hsc : scanQ .out b = true := by
            by_cases hw : p.str_wrk = []
            · simp only [placeOf, Bool.false_eq_true, if_false, hw, if_true] at hscan
              rw [scanQ_out_skip c b (by omega)] at hscan
              exact hscan
            · simp only [placeOf, Bool.false_eq_true, if_false, hw] at hscan
              rw [scanQ_bare_sep c b (by omega)] at hscan
              exact hscan
          exact ⟨_, rfl, ScanNear.brk c _ _ (Near.mid p s b hs hp (by omega) hsc)⟩
        · -- a bare byte
          have ht : ∀ fs, next_string_test (inLine p b fs) c false qc
              = .go c false qc (inLine p b fs) := by
            intro fs
            simp [next_string_test, inLine, hq, hsep]
          have hsc : scanQ .bare b = true := by
            by_cases hw : p.str_wrk = []
            · simp only [placeOf, Bool.false_eq_true, if_false, hw, if_true] at hscan
              rw [scanQ_out_bare c b hc35 hq (by have := hc0 hw; omega)] at hscan
              exact hscan
            · simp only [placeOf, Bool.false_eq_true, if_false, hw] at hscan
              rw [scanQ_bare_bare c b hc35 (by omega)] at hscan
              exact hscan
          rw [main_store k _ c false qc c false qc _ (ht _) (by simp only [inLine]; omega)] at h ⊢
          refine hstep (p.str_wrk ++ [c]) c false qc b (by simp) (by simp; omega) ?_ ?_ h
          · intro d cs hb _
            subst hb
            simpa [placeOf] using hsc
          · intro hf
            cases hf

theorem near_is_eof (post : List (List Nat)) (cmt : List Nat) (q r : PARSE_BLOCK)
    (h : Near post cmt q r) : q.is_eof = false ∧ r.is_eof = false := by
  cases h <;> exact ⟨rfl, rfl⟩

theorem trail_step (k : Nat) (p : PARSE_BLOCK) (d : Nat) (p1 : PARSE_BLOCK)
    (hp : p.is_eof = false) (h : next_char p true false = (d, p1)) :
    next_string_trail (k + 1) p 32 =
      if d = 255 then some (.ret 255 p1)
      else if d = 58 ∨ d = 123 ∨ d = 125 then
        (if (next_char p1 false false).1 = 255 then some (.ret 255 (next_char p1 false false).2)
         else some (.brk (next_char p1 false false).1 (next_char p1 false false).2))
      else if d ≠ 32 then some (.brk d p1)
      else if (next_char p1 false false).1 = 255 then
        some (.ret 255 (next_char p1 false false).2)
      else next_string_trail k (next_char p1 false false).2 (next_char p1 false false).1 := by
  rw [next_string_trail]
  simp only [hp, h, and_self, if_true]

theorem trail_other (k : Nat) (p : PARSE_BLOCK) (c : Nat) (hc : c ≠ 32) :
    next_string_trail (k + 1) p c = some (.brk c p) := by
  rw [next_string_trail]
  simp only [hc, false_and, if_false]

theorem trail_congr (k : Nat) (q r : PARSE_BLOCK) (hq : q.is_eof = false)
    (hr : r.is_eof = false) (hN : ∀ la iq, next_char q la iq = next_char r la iq) :
    next_string_trail k q 32 = next_string_trail k r 32 := by
  cases k with
  | zero => rfl
  | succ k => simp only [next_string_trail, hq, hr, hN, and_self, if_true]

theorem trail_lag (post : List (List Nat)) (cmt : List Nat) (p : PARSE_BLOCK) (B : List Nat)
    (n0 m : Nat) (ls : List (List Nat)) (hn0 : n0 ≠ 1) (hm : m ≠ 1) (hl : ∀ l ∈ ls, IsLine l)
    (k j : Nat) (hkj : k ≤ j) (res : Scan)
    (h : next_string_trail (k + 1) (offL p n0 (joinLines ls)) 32 = some res) :
    ∃ res1, next_string_trail (j + 1) (offL { p with buf := B } m (joinLines ls)) 32
        = some res1 ∧ ScanRel post cmt res res1 := by
  rcases next_char_lag p B n0 m ls true false hn0 hm hl with ⟨e, he, h1, h2⟩ | h1
  · rw [trail_step k _ 255 e rfl h1] at h
    rw [trail_step j _ 255 _ rfl h2]
    simp only [if_true] at h ⊢
    cases h
    exact ⟨_, rfl, ScanRel.eof e B m he⟩
  · have hx : ∀ i, next_string_trail (i + 1) (offL { p with buf := B } m (joinLines ls)) 32
        = next_string_trail (i + 1) (offL p n0 (joinLines ls)) 32 := by
      intro i
      rw [trail_step i (offL { p with buf := B } m (joinLines ls))
          (next_char (offL { p with buf := B } m (joinLines ls)) true false).1
          (next_char (offL { p with buf := B } m (joinLines ls)) true false).2 rfl rfl,
        trail_step i (offL p n0 (joinLines ls))
          (next_char (offL p n0 (joinLines ls)) true false).1
          (next_char (offL p n0 (joinLines ls)) true false).2 rfl rfl, h1]
    rw [hx j]
    exact ⟨res, next_string_trail_mono _ _ _ _ h _ (by omega), ScanRel.same res⟩

theorem trail_near (post : List (List Nat)) (cmt : List Nat) (hpost : ∀ l ∈ post, IsLine l)
    (hcmt : IsComment cmt) : ∀ (k : Nat) (q r : PARSE_BLOCK) (c : Nat) (res : Scan),
    Near post cmt q r → next_string_trail k q c = some res →
    ∃ res1, next_string_trail (k + 1) r c = some res1 ∧ ScanRel post cmt res res1 := by
  intro k
  induction k with
  | zero => intro q r c res _ h; simp [next_string_trail] at h
  | succ k ih =>
    intro q r c res hN h
    obtain ⟨hqe, hre⟩ := near_is_eof post cmt q r hN
    by_cases hc : c = 32
    · subst hc
      rcases next_char_near post cmt hpost hcmt q r true hN with
        ⟨p, s, d, cs, hs, hp, hw, hlen, hscan, hd, e1, e2⟩ | ⟨p, s, n, hs, hp, hw, hn, e1, e2⟩ |
        ⟨p, n0, t, hp, hw, hn0, e2, e1⟩
      · simp only [if_true] at e1 e2
        rw [trail_step k q d _ hqe e1] at h
        rw [trail_step (k + 1) r d _ hre e2]
        have hn : ∀ fs, next_char (inLine p (d :: cs) fs) false false = (d, inLine p cs fs) :=
          fun fs => by rw [next_char_in p d cs fs false false (Or.inl hd)]; rfl
        rw [hn] at h
        rw [hn]
        simp only at h ⊢
        have hcs : cs.length ≤ 510 := by simp at hlen; omega
        by_cases h255 : d = 255
        · rw [if_pos h255] at h ⊢
          cases h
          exact ⟨_, rfl, ScanRel.ret 255 _ _
            (Near.mid p s (d :: cs) hs hp hlen hscan)⟩
        · rw [if_neg h255] at h ⊢
          by_cases hsep : d = 58 ∨ d = 123 ∨ d = 125
          · rw [if_pos hsep, if_neg h255] at h ⊢
            cases h
            rw [scanQ_out_skip d cs (by omega)] at hscan
            exact ⟨_, rfl, ScanRel.brk d _ _ (Near.mid p s cs hs hp hcs hscan)⟩
          · rw [if_neg hsep] at h ⊢
            by_cases h32 : d = 32
            · have h32n : ¬ d ≠ 32 := fun hx => hx h32
              rw [if_neg h32n, if_neg h255] at h ⊢
              rw [scanQ_out_skip d cs (by omega)] at hscan
              exact ih _ _ d res (Near.mid p s cs hs hp hcs hscan) h
            · rw [if_pos h32] at h ⊢
              cases h
              exact ⟨_, rfl, ScanRel.brk d _ _
                (Near.mid p s (d :: cs) hs hp hlen hscan)⟩
      · obtain rfl := hn rfl
        rw [trail_step k q 32 _ hqe e1] at h
        rw [trail_step (k + 1) r 32 _ hre e2]
        rw [next_char_off_one] at h
        rw [next_char_off_one]
        simp at h ⊢
        exact ih _ _ 32 res (Near.off p s 0 hs hp) h
      · simp only [if_true] at e2
        rw [trail_step (k + 1) r 32 _ hre e2]
        rw [next_char_off_one]
        simp
        rw [trail_congr (k + 1) q (offL p n0 (joinLines post)) hqe rfl e1] at h
        exact trail_lag post cmt p (35 :: t) n0 0 post hn0 (by omega) hpost k k (le_refl k) res h
    · rw [trail_other k q c hc] at h
      rw [trail_other (k + 1) r c hc]
      cases h
      exact ⟨_, rfl, ScanRel.brk c _ _ hN⟩

theorem near_str_wrk (post : List (List Nat)) (cmt : List Nat) (q r : PARSE_BLOCK)
    (w : List Nat) (h : Near post cmt q r) :
    Near post cmt { q with str_wrk := w } { r with str_wrk := w } := by
  cases h with
  | mid p s b hs hp hb hsc => exact Near.mid { p with str_wrk := w } s b hs hp hb hsc
  | off p s n hs hp => exact Near.off { p with str_wrk := w } s n hs hp

theorem next_string_near (post : List (List Nat)) (cmt : List Nat)
    (hpost : ∀ l ∈ post, IsLine l) (hcmt : IsComment cmt) (sf : Nat) (q r : PARSE_BLOCK)
    (flag : Bool) (rc : Int) (q1 : PARSE_BLOCK) (hN : Near post cmt q r)
    (h : next_string sf q flag = some (rc, q1)) :
    ∃ r1, next_string (sf + 2) r flag = some (rc, r1) ∧ StrOut post cmt rc q1 r1 := by
  unfold next_string at h ⊢
  cases h1 : next_string_lead sf { q with str_wrk := [] } with
  | none => simp [h1] at h
  | some cp =>
    obtain ⟨c, p1⟩ := cp
    obtain ⟨r1, hr1, hL⟩ := lead_near post cmt hpost hcmt sf _ _ c p1
      (near_str_wrk post cmt q r [] hN) h1
    simp only [h1] at h
    simp only [hr1]
    cases hL with
    | near p s b hs hp hw hlen hscan h35 h32 h0 =>
      cases h2 : next_string_main sf (inLine p b (joinLines (s ++ post))) c false 0 with
      | none => simp [h2] at h
      | some x =>
        obtain ⟨x1, hx1, hS⟩ := main_near post cmt sf p s b c false 0 x hs hp
          (by rw [hw]; simp at hlen ⊢; omega)
          (by simpa [placeOf, hw] using hscan) (fun _ => ⟨h35, fun _ => h0⟩) h2
        simp only [h2] at h
        simp only [next_string_main_mono _ _ _ _ _ _ hx1 (sf + 2) (by omega)]
        cases hS with
        | ret rc0 a b0 hab =>
          simp only [Option.some.injEq, Prod.mk.injEq] at h
          obtain ⟨rfl, rfl⟩ := h
          exact ⟨_, rfl, StrOut.near _ _ _ hab⟩
        | brk c2 a b0 hab =>
          simp only at h ⊢
          cases h3 : next_string_trail sf a c2 with
          | none => simp [h3] at h
          | some y =>
            obtain ⟨y1, hy1, hT⟩ := trail_near post cmt hpost hcmt sf a b0 c2 y hab h3
            simp only [h3] at h
            simp only [next_string_trail_mono _ _ _ _ hy1 (sf + 2) (by omega)]
            cases hT with
            | ret rc0 a1 b1 hab1 =>
              simp only [Option.some.injEq, Prod.mk.injEq] at h
              obtain ⟨rfl, rfl⟩ := h
              exact ⟨_, rfl, StrOut.near _ _ _ hab1⟩
            | brk c3 a1 b1 hab1 =>
              simp only at h ⊢
              split at h
              · rename_i hc3
                rw [if_pos hc3]
                simp only [Option.some.injEq, Prod.mk.injEq] at h
                obtain ⟨rfl, rfl⟩ := h
                exact ⟨_, rfl, StrOut.near _ _ _ hab1⟩
              · rename_i hc3
                rw [if_neg hc3]
                simp only [Option.some.injEq, Prod.mk.injEq] at h
                obtain ⟨rfl, rfl⟩ := h
                exact ⟨_, rfl, StrOut.near _ _ _ hab1⟩
            | same y0 =>
              exact ⟨q1, h, StrOut.same _ q1⟩
            | eof a1 B n he =>
              simp only [Option.some.injEq, Prod.mk.injEq] at h
              obtain ⟨rfl, rfl⟩ := h
              exact ⟨_, rfl, StrOut.eof _ B n he⟩
    | same =>
      cases h2 : next_string_main sf p1 c false 0 with
      | none => simp [h2] at h
      | some x =>
        simp only [h2] at h
        simp only [next_string_main_mono _ _ _ _ _ _ h2 (sf + 2) (by omega)]
        cases x with
        | ret rc0 a =>
          exact ⟨q1, h, StrOut.same _ q1⟩
        | go a1 a2 a3 a4 => simp at h
        | brk c2 a =>
          simp only at h ⊢
          cases h3 : next_string_trail sf a c2 with
          | none => simp [h3] at h
          | some y =>
            simp only [h3] at h
            simp only [next_string_trail_mono _ _ _ _ h3 (sf + 2) (by omega)]
            exact ⟨q1, h, StrOut.same _ q1⟩
    | eof q0 B n hc he =>
      subst hc
      cases sf with
      | zero => simp [next_string_lead] at h1
      | succ sf =>
        have hT : ∀ P : PARSE_BLOCK, P.is_eof = true →
            next_string_test P 255 false 0 = .brk 255 P := by
          intro P hP
          simp [next_string_test, hP]
        have hM : ∀ (i : Nat) (P : PARSE_BLOCK), P.is_eof = true →
            next_string_main (i + 1) P 255 false 0 = some (.brk 255 P) := by
          intro i P hP
          rw [next_string_main, hT P hP]
        rw [hM sf p1 he] at h
        have e : sf + 1 + 2 = sf + 2 + 1 := rfl
        rw [e, hM (sf + 2) { p1 with buf := B, len := n } he]
        simp only at h ⊢
        rw [trail_other sf p1 255 (by omega)] at h
        rw [trail_other (sf + 2) _ 255 (by omega)]
        simp only [or_true, if_true, Option.some.injEq, Prod.mk.injEq] at h ⊢
        obtain ⟨rfl, rfl⟩ := h
        exact ⟨_, ⟨rfl, rfl⟩, StrOut.eof _ B n he⟩

theorem poolOp_allocNode : PoolOp allocNode :=
  ⟨fun _ _ _ => rfl, fun _ _ _ => rfl, fun _ => rfl, fun _ _ _ => rfl, fun _ => rfl⟩

theorem poolOp_storeKey (node : Nat) : PoolOp (fun p => storeKey p node) :=
  ⟨fun _ _ _ => rfl, fun _ _ _ => rfl, fun _ => rfl, fun _ _ _ => rfl, fun _ => rfl⟩

theorem poolOp_storeString (node : Nat) : PoolOp (fun p => storeString p node) :=
  ⟨fun _ _ _ => rfl, fun _ _ _ => rfl, fun _ => rfl, fun _ _ _ => rfl, fun _ => rfl⟩

theorem poolOp_newLevel (node : Nat) : PoolOp (fun p => newLevel p node) :=
  ⟨fun _ _ _ => rfl, fun _ _ _ => rfl, fun _ => rfl, fun _ _ _ => rfl, fun _ => rfl⟩

theorem poolOp_current (a : Option Nat) :
    PoolOp (fun p => { p with current_anchor := a }) :=
  ⟨fun _ _ _ => rfl, fun _ _ _ => rfl, fun _ => rfl, fun _ _ _ => rfl, fun _ => rfl⟩

theorem poolOp_up (anchor : Nat) :
    PoolOp (fun p => { p with current_anchor := (p.anchors[anchor]?).bind (fun a => a.up) }) :=
  ⟨fun _ _ _ => rfl, fun _ _ _ => rfl, fun _ => rfl, fun _ _ _ => rfl, fun _ => rfl⟩

theorem poolOp_linkNode (anchor node : Nat) : PoolOp (fun p => linkNode p anchor node) := by
  refine ⟨?_, ?_, ?_, ?_, ?_⟩
  · intro p b fs
    show linkNode (inLine p b fs) anchor node = inLine (linkNode p anchor node) b fs
    unfold linkNode
    have e : (inLine p b fs).anchors = p.anchors := rfl
    rw [e]
    cases p.anchors[anchor]? with
    | none => rfl
    | some a => by_cases ha : a.first = none <;> simp only [ha, if_true, if_false] <;> rfl
  · intro p n fs
    show linkNode (offL p n fs) anchor node = offL (linkNode p anchor node) n fs
    unfold linkNode
    have e : (offL p n fs).anchors = p.anchors := rfl
    rw [e]
    cases p.anchors[anchor]? with
    | none => rfl
    | some a => by_cases ha : a.first = none <;> simp only [ha, if_true, if_false] <;> rfl
  · intro p
    show (linkNode p anchor node).str_wrk_len = p.str_wrk_len
    unfold linkNode
    cases p.anchors[anchor]? with
    | none => rfl
    | some a => by_cases ha : a.first = none <;> simp only [ha, if_true, if_false]
  · intro p B n
    show linkNode { p with buf := B, len := n } anchor node
      = { linkNode p anchor node with buf := B, len := n }
    unfold linkNode
    have e : ({ p with buf := B, len := n } : PARSE_BLOCK).anchors = p.anchors := rfl
    rw [e]
    cases p.anchors[anchor]? with
    | none => rfl
    | some a => by_cases ha : a.first = none <;> simp only [ha, if_true, if_false]
  · intro p
    show (linkNode p anchor node).is_eof = p.is_eof
    unfold linkNode
    cases p.anchors[anchor]? with
    | none => rfl
    | some a => by_cases ha : a.first = none <;> simp only [ha, if_true, if_false]

theorem near_map (post : List (List Nat)) (cmt : List Nat) (f : PARSE_BLOCK → PARSE_BLOCK)
    (hf : PoolOp f) (q r : PARSE_BLOCK) (h : Near post cmt q r) : Near post cmt (f q) (f r) := by
  obtain ⟨h1, h2, h3, _, _⟩ := hf
  cases h with
  | mid p s b hs hp hb hsc =>
    rw [h1, h1]
    exact Near.mid (f p) s b hs (by rw [h3]; exact hp) hb hsc
  | off p s n hs hp =>
    rw [h2, h2]
    exact Near.off (f p) s n hs (by rw [h3]; exact hp)

theorem rel_map (post : List (List Nat)) (cmt : List Nat) (f : PARSE_BLOCK → PARSE_BLOCK)
    (hf : PoolOp f) (q r : PARSE_BLOCK) (h : Rel post cmt q r) : Rel post cmt (f q) (f r) := by
  cases h
  case near hN => exact Rel.near _ _ (near_map post cmt f hf q r hN)
  case same => exact Rel.same _
  case eof B n he =>
    rw [hf.2.2.2.1 q B n]
    exact Rel.eof (f q) B n (by rw [hf.2.2.2.2]; exact he)

theorem in_map (post : List (List Nat)) (cmt : List Nat) (f : PARSE_BLOCK → PARSE_BLOCK)
    (hf : PoolOp f) (q r : PARSE_BLOCK) (h : Near post cmt q r ∨ r = q) :
    Near post cmt (f q) (f r) ∨ f r = f q := by
  rcases h with h | h
  · exact Or.inl (near_map post cmt f hf q r h)
  · exact Or.inr (by rw [h])

theorem in_rel (post : List (List Nat)) (cmt : List Nat) (q r : PARSE_BLOCK)
    (h : Near post cmt q r ∨ r = q) : Rel post cmt q r := by
  rcases h with h | h
  · exact Rel.near _ _ h
  · rw [h]; exact Rel.same _

theorem near_fields (post : List (List Nat)) (cmt : List Nat) (q r : PARSE_BLOCK)
    (h : Near post cmt q r) :
    r.anchors = q.anchors ∧ r.nodes = q.nodes ∧ r.str_wrk = q.str_wrk ∧ r.is_eof = q.is_eof ∧
      r.top_anchor = q.top_anchor := by
  cases h <;> exact ⟨rfl, rfl, rfl, rfl, rfl⟩

theorem rel_fields (post : List (List Nat)) (cmt : List Nat) (q r : PARSE_BLOCK)
    (h : Rel post cmt q r) :
    r.anchors = q.anchors ∧ r.nodes = q.nodes ∧ r.str_wrk = q.str_wrk ∧ r.is_eof = q.is_eof ∧
      r.top_anchor = q.top_anchor := by
  cases h
  case near hN => exact near_fields post cmt q r hN
  case same => exact ⟨rfl, rfl, rfl, rfl, rfl⟩
  case eof B n he => exact ⟨rfl, rfl, rfl, rfl, rfl⟩

theorem rel_in (post : List (List Nat)) (cmt : List Nat) (q r : PARSE_BLOCK)
    (h : Rel post cmt q r) (he : ¬ q.is_eof = true) : Near post cmt q r ∨ r = q := by
  cases h
  case near hN => exact Or.inl hN
  case same => exact Or.inr rfl
  case eof B n he1 => exact absurd he1 he

theorem strOut_rel (post : List (List Nat)) (cmt : List Nat) (rc : Int) (q r : PARSE_BLOCK)
    (h : StrOut post cmt rc q r) : Rel post cmt q r := by
  cases h
  case near hN => exact Rel.near _ _ hN
  case same => exact Rel.same _
  case eof B n he => exact Rel.eof _ B n he

theorem strOut_in (post : List (List Nat)) (cmt : List Nat) (rc : Int) (q r : PARSE_BLOCK)
    (h : StrOut post cmt rc q r) (hrc : ¬ toUChar rc = 255) : Near post cmt q r ∨ r = q := by
  cases h
  case near hN => exact Or.inl hN
  case same => exact Or.inr rfl
  case eof B n he => exact absurd (by decide) hrc

theorem parse_key_near (post : List (List Nat)) (cmt : List Nat)
    (hpost : ∀ l ∈ post, IsLine l) (hcmt : IsComment cmt) (sf : Nat) (q r : PARSE_BLOCK)
    (node : Nat) (rc : Int) (q1 : PARSE_BLOCK) (hN : Near post cmt q r ∨ r = q)
    (h : parse_key sf q node = some (rc, q1)) :
    ∃ r1, parse_key (sf + 2) r node = some (rc, r1) ∧ Rel post cmt q1 r1 := by
  rcases hN with hN | hN
  · unfold parse_key at h ⊢
    cases h1 : next_string sf q true with
    | none => simp [h1] at h
    | some x =>
      obtain ⟨rc0, p1⟩ := x
      obtain ⟨r1, hr1, hS⟩ := next_string_near post cmt hpost hcmt sf q r true rc0 p1 hN h1
      have hR := strOut_rel post cmt rc0 p1 r1 hS
      obtain ⟨_, _, hw, _, _⟩ := rel_fields post cmt p1 r1 hR
      simp only [h1] at h
      simp only [hr1, hw]
      split at h
      · rename_i c1
        rw [if_pos c1]
        cases h
        exact ⟨_, rfl, hR⟩
      · rename_i c1
        rw [if_neg c1]
        split at h
        · rename_i c2
          rw [if_pos c2]
          cases h
          exact ⟨_, rfl, hR⟩
        · rename_i c2
          rw [if_neg c2]
          split at h
          · rename_i c3
            rw [if_pos c3]
            cases h
            exact ⟨_, rfl, hR⟩
          · rename_i c3
            rw [if_neg c3]
            split at h
            · rename_i c4
              rw [if_pos c4]
              cases h
              exact ⟨_, rfl, hR⟩
            · rename_i c4
              rw [if_neg c4]
              cases h
              exact ⟨_, rfl, rel_map post cmt _ (poolOp_storeKey node) p1 r1 hR⟩
  · subst hN
    exact ⟨q1, parse_key_mono sf (sf + 2) (by omega) r node _ h, Rel.same q1⟩

theorem parse_near_aux (post : List (List Nat)) (cmt : List Nat)
    (hpost : ∀ l ∈ post, IsLine l) (hcmt : IsComment cmt) (k : Nat) :
    (∀ fall sf q r node rc q1, (Near post cmt q r ∨ r = q) →
      parse_value k fall sf q node = some (rc, q1) →
      ∃ r1, parse_value k fall (sf + 2) r node = some (rc, r1) ∧ Rel post cmt q1 r1) ∧
    (∀ fall sf q r anchor rc q1, (Near post cmt q r ∨ r = q) →
      parmParseNodeLoop k fall sf q anchor = some (rc, q1) →
      ∃ r1, parmParseNodeLoop k fall (sf + 2) r anchor = some (rc, r1) ∧ Rel post cmt q1 r1) ∧
    (∀ fall sf q r anchor rc q1, (Near post cmt q r ∨ r = q) →
      parmParseNode k fall sf q anchor = some (rc, q1) →
      ∃ r1, parmParseNode k fall (sf + 2) r anchor = some (rc, r1) ∧ Rel post cmt q1 r1) := by
  induction k with
  | zero =>
    refine ⟨?_, ?_, ?_⟩ <;> intro fall sf q r a rc q1 _ h <;>
      simp [parse_value, parmParseNodeLoop, parmParseNode] at h
  | succ k ih =>
    obtain ⟨ihV, ihL, ihN⟩ := ih
    refine ⟨?_, ?_, ?_⟩
    · intro fall sf q r node rc q1 hIn h
      rcases hIn with hN | hN
      · simp only [parse_value] at h ⊢
        cases h1 : next_string sf q false with
        | none => simp [h1] at h
        | some x =>
          obtain ⟨rc0, p1⟩ := x
          obtain ⟨r1, hr1, hS⟩ := next_string_near post cmt hpost hcmt sf q r false rc0 p1 hN h1
          have hR := strOut_rel post cmt rc0 p1 r1 hS
          obtain ⟨ha, _, hw, _, _⟩ := rel_fields post cmt p1 r1 hR
          simp only [h1] at h
          simp only [hr1, hw, ha]
          split at h
          · rename_i c1
            rw [if_pos c1]
            cases h
            exact ⟨_, rfl, hR⟩
          · rename_i c1
            rw [if_neg c1]
            split at h
            · rename_i c2
              rw [if_pos c2]
              cases h
              exact ⟨_, rfl, hR⟩
            · rename_i c2
              rw [if_neg c2]
              split at h
              · rename_i c3
                rw [if_pos c3]
                split at h
                · rename_i c4
                  rw [if_pos c4]
                  cases h
                  exact ⟨_, rfl, hR⟩
                · rename_i c4
                  rw [if_neg c4]
                  cases h2 : parmParseNode k fall sf (newLevel p1 node) p1.anchors.length with
                  | none => simp [h2] at h
                  | some y =>
                    obtain ⟨rc2, p3⟩ := y
                    obtain ⟨r3, hr3, hR3⟩ := ihN fall sf _ _ p1.anchors.length rc2 p3
                      (in_map post cmt _ (poolOp_newLevel node) p1 r1
                        (strOut_in post cmt rc0 p1 r1 hS c2)) h2
                    simp only [h2] at h
                    simp only [hr3]
                    split at h
                    · rename_i c5
                      rw [if_pos c5]
                      cases h
                      exact ⟨_, rfl, hR3⟩
                    · rename_i c5
                      rw [if_neg c5]
                      cases h
                      exact ⟨_, rfl, hR3⟩
              · rename_i c3
                rw [if_neg c3]
                split at h
                · rename_i c4
                  rw [if_pos c4]
                  cases h
                  exact ⟨_, rfl, hR⟩
                · rename_i c4
                  rw [if_neg c4]
                  split at h
                  · rename_i c5
                    rw [if_pos c5]
                    cases h
                    exact ⟨_, rfl, rel_map post cmt _ (poolOp_storeString node) p1 r1 hR⟩
                  · rename_i c5
                    rw [if_neg c5]
                    cases h
                    exact ⟨_, rfl, rel_map post cmt _ (poolOp_storeString node) p1 r1 hR⟩
      · subst hN
        exact ⟨q1, (parse_mono_aux (k + 1)).1 fall sf r node _ h (k + 1) (sf + 2) (le_refl _)
          (by omega), Rel.same q1⟩
    · intro fall sf q r anchor rc q1 hIn h
      rcases hIn with hN | hN
      · obtain ⟨_, hn, _, _, _⟩ := near_fields post cmt q r hN
        simp only [parmParseNodeLoop] at h ⊢
        rw [hn]
        cases h1 : parse_key sf (allocNode q) q.nodes.length with
        | none => simp [h1] at h
        | some x =>
          obtain ⟨rc1, p1⟩ := x
          obtain ⟨r1, hr1, hR⟩ := parse_key_near post cmt hpost hcmt sf _ _ q.nodes.length rc1 p1
            (Or.inl (near_map post cmt _ poolOp_allocNode q r hN)) h1
          obtain ⟨_, _, _, he, _⟩ := rel_fields post cmt p1 r1 hR
          simp only [h1] at h
          simp only [hr1, he]
          split at h
          · rename_i c1
            rw [if_pos c1]
            cases h
            exact ⟨_, rfl, hR⟩
          · rename_i c1
            rw [if_neg c1]
            split at h
            · rename_i c2
              rw [if_pos c2]
              cases h
              exact ⟨_, rfl, hR⟩
            · rename_i c2
              rw [if_neg c2]
              cases h2 : parse_value k fall sf p1 q.nodes.length with
              | none => simp [h2] at h
              | some y =>
                obtain ⟨rc2, p2⟩ := y
                obtain ⟨r2, hr2, hR2⟩ := ihV fall sf p1 r1 q.nodes.length rc2 p2
                  (rel_in post cmt p1 r1 hR c2) h2
                obtain ⟨_, _, _, he2, _⟩ := rel_fields post cmt p2 r2 hR2
                simp only [h2] at h
                simp only [hr2, he2]
                split at h
                · rename_i c3
                  rw [if_pos c3]
                  cases h
                  exact ⟨_, rfl, hR2⟩
                · rename_i c3
                  rw [if_neg c3]
                  split at h
                  · rename_i c4
                    rw [if_pos c4]
                    cases h
                    exact ⟨_, rfl, hR2⟩
                  · rename_i c4
                    rw [if_neg c4]
                    have hIn3 := in_map post cmt _ (poolOp_linkNode anchor q.nodes.length) p2 r2
                      (rel_in post cmt p2 r2 hR2 c4)
                    split at h
                    · rename_i c5
                      rw [if_pos c5]
                      cases h
                      exact ⟨_, rfl, rel_map post cmt _ (poolOp_up anchor) _ _
                        (in_rel post cmt _ _ hIn3)⟩
                    · rename_i c5
                      rw [if_neg c5]
                      exact ihL fall sf _ _ anchor rc q1 hIn3 h
      · subst hN
        exact ⟨q1, (parse_mono_aux (k + 1)).2.1 fall sf r anchor _ h (k + 1) (sf + 2) (le_refl _)
          (by omega), Rel.same q1⟩
    · intro fall sf q r anchor rc q1 hIn h
      simp only [parmParseNode] at h ⊢
      exact ihL fall sf _ _ anchor rc q1
        (in_map post cmt _ (poolOp_current (some anchor)) q r hIn) h

theorem isChain_mem_lt (nodes : List PRMP_NODE) (l : List Nat) :
    ∀ (p : Option Nat), IsChain nodes p l → ∀ i ∈ l, i < nodes.length := by
  induction l with
  | nil => intro p _ i hi; cases hi
  | cons j l ih =>
    intro p hc i hi
    rcases List.mem_cons.mp hi with rfl | hmem
    · exact hc.2.1
    · exact ih _ hc.2.2 i hmem

theorem level_member_own (m : Pool) (own : List Nat) (hO : Owned m.anchors m.nodes own)
    (A : Nat) (l : List Nat) (hl : IsLevel m A l) (i : Nat) (hi : i ∈ l) :
    own[i]? = some A ∧ i < m.nodes.length := by
  obtain ⟨hAlt, hchain⟩ := hl
  obtain ⟨x, hx⟩ : ∃ x, m.anchors[A]? = some x := ⟨_, List.getElem?_eq_getElem hAlt⟩
  refine ⟨?_, isChain_mem_lt m.nodes l _ hchain i hi⟩
  refine isChain_own m.anchors m.nodes own hO A l _ hchain ?_ i hi
  intro j hj
  rw [hx, Option.some_bind] at hj
  exact (hO.2.1 A x hx).1 j hj

theorem level_child_up (m : Pool) (own : List Nat) (hO : Owned m.anchors m.nodes own)
    (A : Nat) (l : List Nat) (hl : IsLevel m A l) (i : Nat) (hi : i ∈ l)
    (hty : (nodeAt m i).type = PRMP_NEXTLEVEL) :
    ∃ C, (nodeAt m i).nextlevel = some C ∧ C < m.anchors.length ∧
      upOf m.anchors C = some A := by
  obtain ⟨hown, hilt⟩ := level_member_own m own hO A l hl i hi
  obtain ⟨L, hL1, hL2, hL3⟩ := (hO.2.2 i _ (nodes_getElem?_nodeAt m i hilt)).2 hty
  exact ⟨L, hL1, hL2, by rw [hL3, hown]⟩

theorem startAtTop_idem (h : PRMP_HANDLE) : startAtTop (startAtTop h) = startAtTop h := by
  unfold startAtTop
  by_cases hc : h.cur_anchor = none
  · simp only [hc, if_true]
    split <;> rfl
  · simp only [hc, if_false]

theorem getNext_startAtTop (m : Pool) (h : PRMP_HANDLE) :
    parmGetNext m (startAtTop h) = parmGetNext m h := by
  simp only [parmGetNext, startAtTop_idem]

theorem findNextKey_startAtTop (fuel : Nat) (m : Pool) (h : PRMP_HANDLE) (key : List Nat) :
    parmFindNextKey fuel m (startAtTop h) key = parmFindNextKey fuel m h key := by
  simp only [parmFindNextKey, startAtTop_idem]

theorem inLevel_ahead (m : Pool) (h : PRMP_HANDLE) (A : Nat) (l rest : List Nat)
    (hA : h.cur_anchor = some A) (hl : IsLevel m A l) (hc : InLevel h l rest) :
    Ahead m h A rest ∧ (∀ j ∈ rest, j ∈ l) ∧ rest.length ≤ l.length := by
  rcases hc with ⟨hn, rfl⟩ | ⟨i, before, hn, rfl⟩
  · exact ⟨⟨hA, by rw [hn]; exact ⟨hl.2, hl.1⟩⟩, fun j hj => hj, le_refl _⟩
  · refine ⟨⟨hA, ?_⟩, fun j hj => by simp [hj], by simp; omega⟩
    rw [hn]
    exact isChain_split m.nodes i rest before _ hl.2

theorem dropWhile_not_find {α : Type} (f : Nat → Bool) (x : α) (y : Nat → α) (l : List Nat) :
    (match l.dropWhile (fun j => !(f j)) with
      | [] => x
      | j :: _ => y j)
    = (match l.find? f with
      | none => x
      | some j => y j) := by
  induction l with
  | nil => rfl
  | cons i l ih =>
    by_cases hf : f i = true
    · simp [List.dropWhile_cons, List.find?_cons, hf]
    · have hf0 : f i = false := by simpa using hf
      simp only [List.dropWhile_cons, List.find?_cons, hf0, Bool.not_false, if_true]
      exact ih

theorem parse_tree_ok (fuel : Nat) (fall : Int) (file : List Nat) (rc : Int) (m : Pool)
    (h : PRMP_HANDLE) (hp : parmParseFile fuel fall file = some (rc, some (m, h))) :
    ∃ own, TreeOK m own ∧ h = { anchor := some 0 } := by
  obtain ⟨_, _, hroot, hh⟩ := parse_tree_owned fuel fall file rc m h hp
  unfold parmParseFile parmParse at hp
  cases h1 : parmParseNode fuel fall fuel (initParseBlock file) (initParseBlock file).top_anchor with
  | none => simp [h1] at hp
  | some x =>
    obtain ⟨rc1, p1⟩ := x
    have hO : Owned (initParseBlock file).anchors (initParseBlock file).nodes [] := by
      refine ⟨rfl, ?_, ?_⟩
      · intro A a ha
        cases A with
        | zero =>
          simp [initParseBlock] at ha
          subst ha
          exact ⟨fun j hj => (by cases hj), fun j hj => (by cases hj)⟩
        | succ n => simp [initParseBlock] at ha
      · intro i n hi
        simp [initParseBlock] at hi
    obtain ⟨own1, _, o2, o3, _⟩ := (parse_owned_aux fuel).2.2 fall fuel _ _ rc1 p1 [] h1 hO
      (by simp [initParseBlock])
    simp only [h1] at hp
    split at hp
    · cases hp
    · simp only [Option.some.injEq, Prod.mk.injEq] at hp
      obtain ⟨_, hm, _⟩ := hp
      subst hm
      exact ⟨own1, ⟨o2, hroot, Nat.lt_of_lt_of_le (by simp [initParseBlock]) o3.1⟩, hh⟩

theorem own_lt (m : Pool) (own : List Nat) (hO : Owned m.anchors m.nodes own) (i A : Nat)
    (h : own[i]? = some A) : i < m.nodes.length := by
  rw [← hO.1]
  by_contra hc
  rw [List.getElem?_eq_none (by omega)] at h
  cases h

theorem stackOK_lt (m : Pool) (own : List Nat) (st : List (Option Nat)) (d A : Nat)
    (h : StackOK m own st d A) : A < m.anchors.length := by
  cases d with
  | zero => exact h.1
  | succ d => exact h.1

theorem stackOK_atDepth (m : Pool) (own : List Nat) (st : List (Option Nat)) :
    ∀ (d A : Nat), StackOK m own st d A → atDepth m.anchors d A = true := by
  intro d
  induction d with
  | zero =>
    intro A h
    simp [atDepth, h.1, h.2]
  | succ d ih =>
    intro A h
    obtain ⟨_, U, i, hU, _, _, hrec⟩ := h
    simp only [atDepth, hU]
    exact ih U hrec

theorem stackOK_set (m : Pool) (own : List Nat) (st : List (Option Nat)) (k : Nat)
    (x : Option Nat) : ∀ (d A : Nat), d ≤ k → StackOK m own st d A →
    StackOK m own (st.set k x) d A := by
  intro d
  induction d with
  | zero => intro A _ h; exact h
  | succ d ih =>
    intro A hk h
    obtain ⟨hA, U, i, hU, hs, ho, hrec⟩ := h
    refine ⟨hA, U, i, hU, ?_, ho, ih U (by omega) hrec⟩
    rw [List.getElem?_set_ne (by omega)]
    exact hs

theorem cursorOK_startAtTop (m : Pool) (own : List Nat) (hT : TreeOK m own) (h : PRMP_HANDLE)
    (hc : CursorOK m own h) :
    CursorOK m own (startAtTop h) ∧ ∃ A, (startAtTop h).cur_anchor = some A := by
  obtain ⟨h1, h2, h3, h4⟩ := hc
  unfold startAtTop
  cases hca : h.cur_anchor with
  | none =>
    rw [hca] at h4
    simp only [if_true]
    refine ⟨⟨h1, h2, h3, ?_⟩, 0, h1⟩
    simp only [h1, h4.2]
    exact ⟨⟨hT.2.2, hT.2.1⟩, fun i hi => by cases hi⟩
  | some A =>
    rw [if_neg (by simp)]
    exact ⟨⟨h1, h2, h3, h4⟩, A, hca⟩

theorem cursorOK_move (m : Pool) (own : List Nat) (h : PRMP_HANDLE) (A : Nat) (x : Option Nat)
    (hc : CursorOK m own h) (hA : h.cur_anchor = some A)
    (hx : ∀ i, x = some i → own[i]? = some A) : CursorOK m own { h with cur_node := x } := by
  obtain ⟨h1, h2, h3, h4⟩ := hc
  refine ⟨h1, h2, h3, ?_⟩
  rw [hA] at h4
  simp only [hA]
  exact ⟨h4.1, hx⟩

theorem getNext_ok (m : Pool) (own : List Nat) (hT : TreeOK m own) (h : PRMP_HANDLE)
    (hc : CursorOK m own h) : ∃ a, parmGetNext m h = .done a ∧ CursorOK m own a.h := by
  obtain ⟨hc1, A, hA⟩ := cursorOK_startAtTop m own hT h hc
  have hS : StackOK m own (startAtTop h).node_stack (startAtTop h).node_stack_index A ∧
      ∀ i, (startAtTop h).cur_node = some i → own[i]? = some A := by
    have := hc1.2.2.2
    rw [hA] at this
    exact this
  obtain ⟨x, hx⟩ : ∃ x, m.anchors[A]? = some x :=
    ⟨_, List.getElem?_eq_getElem (stackOK_lt m own _ _ A hS.1)⟩
  have hmv : ∀ x : Option Nat, (∀ i, x = some i → own[i]? = some A) →
      CursorOK m own { startAtTop h with cur_anchor := some A, cur_node := x } := by
    intro x hx
    have := cursorOK_move m own _ A x hc1 hA hx
    rw [hA] at this
    exact this
  unfold parmGetNext
  simp only
  cases hn : (startAtTop h).cur_node with
  | none =>
    simp only [hA, Option.some_bind, hx]
    cases hj : x.first with
    | none =>
      exact ⟨_, rfl, hmv none (fun i hi => by cases hi)⟩
    | some j =>
      have hjo : own[j]? = some A := (hT.1.2.1 A x hx).1 j hj
      simp only [nodes_getElem?_nodeAt m j (own_lt m own hT.1 j A hjo)]
      refine ⟨_, rfl, ?_⟩
      rw [report_h]
      exact hmv (some j) (fun i hi => by cases hi; exact hjo)
  | some i =>
    have hi := hS.2 i hn
    have hil := own_lt m own hT.1 i A hi
    simp only [nodes_getElem?_nodeAt m i hil]
    cases hj : (nodeAt m i).next with
    | none =>
      exact ⟨_, rfl, cursorOK_move m own _ A none hc1 hA (fun i hi => by cases hi)⟩
    | some j =>
      have hjo : own[j]? = some A := by
        rw [(hT.1.2.2 i _ (nodes_getElem?_nodeAt m i hil)).1 j hj]
        exact hi
      simp only [nodes_getElem?_nodeAt m j (own_lt m own hT.1 j A hjo)]
      refine ⟨_, rfl, ?_⟩
      rw [report_h]
      exact cursorOK_move m own _ A (some j) hc1 hA (fun i hi => by cases hi; exact hjo)

theorem cursorOK_setBegin (m : Pool) (own : List Nat) (h : PRMP_HANDLE)
    (hc : CursorOK m own h) : CursorOK m own (parmSetBegin h) :=
  ⟨hc.1, hc.2.1, Nat.zero_le _, rfl, rfl⟩

theorem cursorOK_move2 (m : Pool) (own : List Nat) (h : PRMP_HANDLE) (A : Nat) (x : Option Nat)
    (hc : CursorOK m own h) (hA : h.cur_anchor = some A)
    (hx : ∀ i, x = some i → own[i]? = some A) :
    CursorOK m own { h with cur_anchor := some A, cur_node := x } := by
  have := cursorOK_move m own h A x hc hA hx
  rw [hA] at this
  exact this

theorem cursorOK_node (m : Pool) (own : List Nat) (hT : TreeOK m own) (h : PRMP_HANDLE)
    (hc : CursorOK m own h) (i : Nat) (hi : h.cur_node = some i) :
    ∃ A, h.cur_anchor = some A ∧ StackOK m own h.node_stack h.node_stack_index A ∧
      own[i]? = some A ∧ m.nodes[i]? = some (nodeAt m i) := by
  obtain ⟨_, _, _, h4⟩ := hc
  cases hca : h.cur_anchor with
  | none =>
    rw [hca] at h4
    rw [h4.1] at hi
    cases hi
  | some A =>
    rw [hca] at h4
    exact ⟨A, rfl, h4.1, h4.2 i hi,
      nodes_getElem?_nodeAt m i (own_lt m own hT.1 i A (h4.2 i hi))⟩

theorem levelDown_ok (m : Pool) (own : List Nat) (hT : TreeOK m own) (h : PRMP_HANDLE)
    (hc : CursorOK m own h) : ∃ r, parmLevelDown m h = .done r ∧ CursorOK m own r.2 := by
  unfold parmLevelDown
  cases hn : h.cur_node with
  | none => exact ⟨_, rfl, hc⟩
  | some i =>
    obtain ⟨A, hA, hS, hown, hnode⟩ := cursorOK_node m own hT h hc i hn
    simp only [hnode]
    by_cases hg : (nodeAt m i).type = PRMP_NEXTLEVEL ∧ h.node_stack_index < PRMP_MAX_LEVELS
    · rw [if_pos hg]
      refine ⟨_, rfl, ?_⟩
      obtain ⟨L, hL1, hL2, hL3⟩ := (hT.1.2.2 i _ hnode).2 hg.1
      refine ⟨hc.1, by simp only [List.length_set]; exact hc.2.1, hg.2, ?_⟩
      simp only [hL1]
      refine ⟨⟨hL2, A, i, by rw [hL3, hown], ?_, hown,
        stackOK_set m own _ _ _ _ A (le_refl _) hS⟩, fun j hj => by cases hj⟩
      rw [List.getElem?_set_self (by rw [hc.2.1]; exact hg.2)]
    · rw [if_neg hg]
      exact ⟨_, rfl, hc⟩

theorem levelUp_ok (m : Pool) (own : List Nat) (h : PRMP_HANDLE) (hc : CursorOK m own h) :
    (h.cur_anchor = none ∧ parmLevelUp m h = .fault) ∨
      ∃ r, parmLevelUp m h = .done r ∧ CursorOK m own r.2 := by
  unfold parmLevelUp
  cases hca : h.cur_anchor with
  | none => exact Or.inl ⟨rfl, rfl⟩
  | some A =>
    right
    have h4 := hc.2.2.2
    rw [hca] at h4
    obtain ⟨x, hx⟩ : ∃ x, m.anchors[A]? = some x :=
      ⟨_, List.getElem?_eq_getElem (stackOK_lt m own _ _ A h4.1)⟩
    simp only [Option.some_bind, hx]
    by_cases hg : x.up ≠ none ∧ h.node_stack_index > 0
    · rw [if_pos hg]
      obtain ⟨d, hd⟩ : ∃ d, h.node_stack_index = d + 1 := ⟨h.node_stack_index - 1, by omega⟩
      have hS := h4.1
      rw [hd] at hS
      obtain ⟨_, U, i, hU, hs, ho, hrec⟩ := hS
      have hup : x.up = some U := by simpa [upOf, hx] using hU
      have hidx : h.node_stack_index - 1 = d := by omega
      simp only [hidx, hs, hup]
      have hle : d ≤ PRMP_MAX_LEVELS := by have := hc.2.2.1; omega
      exact ⟨_, rfl, hc.1, hc.2.1, hle, hrec, fun j hj => by cases hj; exact ho⟩
    · rw [if_neg hg]
      refine ⟨_, rfl, hc.1, hc.2.1, hc.2.2.1, ?_⟩
      simp only [hca]
      exact h4

theorem findLoop_ok (m : Pool) (own : List Nat) (hT : TreeOK m own) (key : List Nat) :
    ∀ (k : Nat) (h : PRMP_HANDLE) (a : Answer), CursorOK m own h → h.cur_anchor ≠ none →
      findLoop k m h key = some (.done a) → CursorOK m own a.h := by
  intro k
  induction k with
  | zero => intro h a _ _ hf; simp [findLoop] at hf
  | succ k ih =>
    intro h a hc hne hf
    unfold findLoop at hf
    cases hn : h.cur_node with
    | none =>
      simp only [hn] at hf
      cases hf
      exact hc
    | some i =>
      obtain ⟨A, hA, hS, hown, hnode⟩ := cursorOK_node m own hT h hc i hn
      simp only [hn, hnode] at hf
      cases hk : (nodeAt m i).key with
      | none => simp [hk] at hf
      | some nk =>
        simp only [hk] at hf
        split at hf
        · simp only [Option.some.injEq, Outcome.done.injEq] at hf
          subst hf
          rw [report_h]
          exact hc
        · refine ih { h with cur_node := (nodeAt m i).next } a
            (cursorOK_move m own h A (nodeAt m i).next hc hA (fun j hj => ?_)) hne hf
          rw [(hT.1.2.2 i _ hnode).1 j hj]
          exact hown

theorem findKey_ok (m : Pool) (own : List Nat) (hT : TreeOK m own) (key : List Nat) (k : Nat)
    (h : PRMP_HANDLE) (a : Answer) (hc : CursorOK m own h)
    (hf : parmFindKey k m h key = some (.done a)) : CursorOK m own a.h := by
  obtain ⟨hc1, A, hA⟩ := cursorOK_startAtTop m own hT h hc
  have h4 := hc1.2.2.2
  rw [hA] at h4
  obtain ⟨x, hx⟩ : ∃ x, m.anchors[A]? = some x :=
    ⟨_, List.getElem?_eq_getElem (stackOK_lt m own _ _ A h4.1)⟩
  unfold parmFindKey at hf
  simp only [hA, Option.some_bind, hx] at hf
  exact findLoop_ok m own hT key k _ a
    (cursorOK_move2 m own _ A x.first hc1 hA (fun j hj => (hT.1.2.1 A x hx).1 j hj))
    (by simp) hf

theorem findNextKey_ok (m : Pool) (own : List Nat) (hT : TreeOK m own) (key : List Nat)
    (k : Nat) (h : PRMP_HANDLE) (a : Answer) (hc : CursorOK m own h)
    (hf : parmFindNextKey k m h key = some (.done a)) : CursorOK m own a.h := by
  obtain ⟨hc1, A, hA⟩ := cursorOK_startAtTop m own hT h hc
  have h4 := hc1.2.2.2
  rw [hA] at h4
  obtain ⟨x, hx⟩ : ∃ x, m.anchors[A]? = some x :=
    ⟨_, List.getElem?_eq_getElem (stackOK_lt m own _ _ A h4.1)⟩
  have hne : (startAtTop h).cur_anchor ≠ none := by rw [hA]; simp
  unfold parmFindNextKey at hf
  cases hn : (startAtTop h).cur_node with
  | none =>
    simp only [hn, hA, Option.some_bind, hx] at hf
    exact findLoop_ok m own hT key k _ a
      (cursorOK_move2 m own _ A x.first hc1 hA (fun j hj => (hT.1.2.1 A x hx).1 j hj))
      (by simp) hf
  | some i =>
    obtain ⟨_, _, _, hown, hnode⟩ := cursorOK_node m own hT _ hc1 i hn
    have hown1 : own[i]? = some A := h4.2 i hn
    simp only [hn, hnode] at hf
    refine findLoop_ok m own hT key k { startAtTop h with cur_node := (nodeAt m i).next } a
      (cursorOK_move m own _ A (nodeAt m i).next hc1 hA (fun j hj => ?_)) hne hf
    rw [(hT.1.2.2 i _ hnode).1 j hj]
    exact hown1

theorem runOps_ok (fuel : Nat) (m : Pool) (own : List Nat) (hT : TreeOK m own) :
    ∀ (ops : List CursorOp) (h h1 : PRMP_HANDLE), CursorOK m own h →
      runOps fuel m ops h = some (.done h1) → CursorOK m own h1 := by
  intro ops
  induction ops with
  | nil =>
    intro h h1 hc hr
    simp only [runOps, Option.some.injEq, Outcome.done.injEq] at hr
    subst hr
    exact hc
  | cons op ops ih =>
    intro h h1 hc hr
    unfold runOps at hr
    have hstep : ∀ h2, applyOp fuel m h op = some (.done h2) → CursorOK m own h2 := by
      intro h2 ha
      cases op with
      | setBegin =>
        simp only [applyOp, Option.some.injEq, Outcome.done.injEq] at ha
        subst ha
        exact cursorOK_setBegin m own h hc
      | getNext =>
        obtain ⟨a, e, hok⟩ := getNext_ok m own hT h hc
        simp only [applyOp, e, cursorAfter, Option.some.injEq, Outcome.done.injEq] at ha
        subst ha
        exact hok
      | levelDown =>
        obtain ⟨r, e, hok⟩ := levelDown_ok m own hT h hc
        simp only [applyOp, e, cursorAfter, Option.some.injEq, Outcome.done.injEq] at ha
        subst ha
        exact hok
      | levelUp =>
        rcases levelUp_ok m own h hc with ⟨_, e⟩ | ⟨r, e, hok⟩
        · simp [applyOp, e, cursorAfter] at ha
        · simp only [applyOp, e, cursorAfter, Option.some.injEq, Outcome.done.injEq] at ha
          subst ha
          exact hok
      | findKey key =>
        simp only [applyOp] at ha
        cases hf : parmFindKey fuel m h key with
        | none => simp [hf] at ha
        | some o =>
          cases o with
          | fault => simp [hf, cursorAfter] at ha
          | done a =>
            simp only [hf, Option.map_some', cursorAfter, Option.some.injEq,
              Outcome.done.injEq] at ha
            subst ha
            exact findKey_ok m own hT key fuel h a hc hf
      | findNextKey key =>
        simp only [applyOp] at ha
        cases hf : parmFindNextKey fuel m h key with
        | none => simp [hf] at ha
        | some o =>
          cases o with
          | fault => simp [hf, cursorAfter] at ha
          | done a =>
            simp only [hf, Option.map_some', cursorAfter, Option.some.injEq,
              Outcome.done.injEq] at ha
            subst ha
            exact findNextKey_ok m own hT key fuel h a hc hf
    cases ha : applyOp fuel m h op with
    | none => simp [ha] at hr
    | some o =>
      cases o with
      | fault => simp [ha] at hr
      | done h2 =>
        simp only [ha] at hr
        exact ih h2 h1 (hstep h2 ha) hr

theorem stackAccess_range (m : Pool) (h : PRMP_HANDLE)
    (hidx : h.node_stack_index ≤ PRMP_MAX_LEVELS) (op : CursorOp) (i : Int)
    (ha : stackAccess m h op = some i) : 0 ≤ i ∧ i ≤ 4 := by
  have h5 : PRMP_MAX_LEVELS = 5 := rfl
  cases op with
  | setBegin => simp [stackAccess] at ha
  | getNext => simp [stackAccess] at ha
  | findKey key => simp [stackAccess] at ha
  | findNextKey key => simp [stackAccess] at ha
  | levelDown =>
    simp only [stackAccess] at ha
    split at ha
    · cases ha
    · split at ha
      · rename_i hg
        simp only [Option.some.injEq] at ha
        omega
      · cases ha
  | levelUp =>
    simp only [stackAccess] at ha
    split at ha
    · cases ha
    · split at ha
      · rename_i hg
        simp only [Option.some.injEq] at ha
        omega
      · cases ha

theorem weigh_nil (w : Nat → Nat) : weigh w [] = 0 := rfl

theorem weigh_cons (w : Nat → Nat) (c : Nat) (l : List Nat) :
    weigh w (c :: l) = w c + weigh w l := by
  simp [weigh]

theorem weigh_append (w : Nat → Nat) (a b : List Nat) :
    weigh w (a ++ b) = weigh w a + weigh w b := by
  simp [weigh]

theorem weigh_one (l : List Nat) : weigh (fun _ => 1) l = l.length := by
  induction l with
  | nil => rfl
  | cons c l ih => rw [weigh_cons, ih, List.length_cons]; omega

theorem weigh_brace (l : List Nat) : weigh braceWeight l = l.count 123 := by
  induction l with
  | nil => rfl
  | cons c l ih =>
    rw [weigh_cons, ih, List.count_cons]
    by_cases hc : c = 123
    · simp [braceWeight, hc]; omega
    · simp [braceWeight, hc]

theorem weigh_sublist (w : Nat → Nat) (a b : List Nat) (h : a.Sublist b) :
    weigh w a ≤ weigh w b := by
  induction h with
  | slnil => exact le_refl _
  | cons c _ ih => rw [weigh_cons]; omega
  | cons₂ c _ ih => rw [weigh_cons, weigh_cons]; omega

theorem fgets_split : ∀ (n : Nat) (fs : List Nat), (fgets n fs).1 ++ (fgets n fs).2.1 = fs := by
  intro n
  induction n with
  | zero => intro fs; simp [fgets]
  | succ k ih =>
    intro fs
    cases fs with
    | nil => simp [fgets]
    | cons c fs =>
      by_cases hc : c = 10
      · simp [fgets, hc]
      · simp [fgets, hc, ih fs]

theorem callbackIoLoop_weigh (w : Nat → Nat) : ∀ (k : Nat) (fs : List Nat),
    weigh w (callbackIoLoop k fs).2.2 ≤ weigh w fs ∧
      (0 < (callbackIoLoop k fs).1 →
        weigh w (callbackIoLoop k fs).2.1 + weigh w (callbackIoLoop k fs).2.2 ≤ weigh w fs) := by
  intro k
  induction k with
  | zero => intro fs; simp [callbackIoLoop]
  | succ k ih =>
    intro fs
    rw [callbackIoLoop]
    by_cases hfs : fs = []
    · simp [hfs]
    · rw [if_neg hfs]
      have hsplit := fgets_split (PRMP_STRING_WORK_SIZE - 1) fs
      generalize fgets (PRMP_STRING_WORK_SIZE - 1) fs = r at hsplit
      obtain ⟨line, rest, eof⟩ := r
      simp only at hsplit ⊢
      have hw : weigh w line + weigh w rest = weigh w fs := by
        rw [← hsplit, weigh_append]
      cases eof with
      | true => simp only [if_true]; exact ⟨by omega, fun hlt => by simp at hlt⟩
      | false =>
        simp only [Bool.false_eq_true, if_false]
        by_cases h512 : (strlen line).length ≥ PRMP_STRING_WORK_SIZE
        · rw [if_pos h512]
          exact ⟨by show weigh w rest ≤ _; omega, fun hlt => by simp at hlt⟩
        · rw [if_neg h512]
          have h0 : weigh w (strlen line) ≤ weigh w line :=
            weigh_sublist w _ _ (List.takeWhile_sublist _)
          have h2 : ∀ (s : List Nat) (x : Nat),
              weigh w (if s.getLast? = some x then s.dropLast else s) ≤ weigh w s := by
            intro s x
            split
            · exact weigh_sublist w _ _ (List.dropLast_sublist _)
            · exact le_refl _
          have h3 := h2 (strlen line) 10
          have h4 := h2 (if (strlen line).getLast? = some 10 then (strlen line).dropLast
            else strlen line) 13
          generalize (if (if (strlen line).getLast? = some 10 then (strlen line).dropLast
            else strlen line).getLast? = some 13 then
              (if (strlen line).getLast? = some 10 then (strlen line).dropLast
                else strlen line).dropLast
            else (if (strlen line).getLast? = some 10 then (strlen line).dropLast
              else strlen line)) = s2 at h4 ⊢
          by_cases hz : s2.length = 0
          · rw [if_pos hz]
            obtain ⟨i1, i2⟩ := ih rest
            exact ⟨by omega, fun hlt => by have := i2 hlt; omega⟩
          · rw [if_neg hz]
            exact ⟨by show weigh w rest ≤ _; omega,
              fun _ => by show weigh w s2 + weigh w rest ≤ _; omega⟩

theorem callbackIo_read (p : PARSE_BLOCK) :
    (∀ w, weigh w (callbackIo p).2.2 ≤ weigh w p.fs) ∧
      (callbackIo p).2.2.length ≤ p.fs.length ∧
      (¬ (callbackIo p).1 < 0 → ¬ (callbackIo p).1 = 0 →
        (callbackIo p).1.toNat = (callbackIo p).2.1.length ∧ 1 ≤ (callbackIo p).2.1.length ∧
        (callbackIo p).2.1.length + (callbackIo p).2.2.length ≤ p.fs.length ∧
        ∀ w, weigh w (callbackIo p).2.1 + weigh w (callbackIo p).2.2 ≤ weigh w p.fs) := by
  unfold callbackIo
  have hw := fun w => callbackIoLoop_weigh w (p.fs.length + 1) p.fs
  have hc := callbackIoLoop_code (p.fs.length + 1) p.fs
  generalize callbackIoLoop (p.fs.length + 1) p.fs = r at hw hc
  refine ⟨fun w => (hw w).1, ?_, ?_⟩
  · have := (hw (fun _ => 1)).1
    rw [weigh_one, weigh_one] at this
    exact this
  · intro h1 h2
    rcases hc with hc | ⟨c1, _, c3⟩
    · omega
    · have hpos : 0 < r.1 := by omega
      have hl := (hw (fun _ => 1)).2 hpos
      rw [weigh_one, weigh_one, weigh_one] at hl
      refine ⟨by omega, by omega, hl, fun w => (hw w).2 hpos⟩

theorem steps_refl (p : PARSE_BLOCK) : Steps p p := ⟨le_refl _, fun _ => le_refl _, fun h => h⟩

theorem steps_trans (p q r : PARSE_BLOCK) (h1 : Steps p q) (h2 : Steps q r) : Steps p r :=
  ⟨le_trans h2.1 h1.1, fun w => le_trans (h2.2.1 w) (h1.2.1 w), fun h => h2.2.2 (h1.2.2 h)⟩

theorem next_char_line_takes (q : PARSE_BLOCK) (in_quotes : Bool) (hq : q.have_line = true) :
    budget (next_char_line q false in_quotes).2 < budget q ∧
      (next_char_line q false in_quotes).2.is_eof = q.is_eof ∧
      ∀ w, (((next_char_line q false in_quotes).1 = 32 ∨ (next_char_line q false in_quotes).1 = 0) →
          w (next_char_line q false in_quotes).1 = 0) →
        unread w (next_char_line q false in_quotes).2 + w (next_char_line q false in_quotes).1
          ≤ unread w q := by
  unfold next_char_line
  by_cases hc : q.len = 0 ∨ (q.buf.headD 0 = 35 ∧ in_quotes = false)
  · rw [if_pos hc]
    refine ⟨?_, rfl, ?_⟩
    · simp only [budget, hq, if_true, Bool.false_eq_true, if_false]
      split <;> omega
    · intro w hw
      have h32 : w 32 = 0 := hw (Or.inl rfl)
      simp only [unread, hq, if_true, Bool.false_eq_true, if_false, h32]
      omega
  · rw [if_neg hc]
    simp only [Bool.false_eq_true, if_false]
    refine ⟨?_, trivial, ?_⟩
    · simp only [budget, hq, if_true]
      omega
    · intro w hw
      simp only [unread, hq, if_true]
      cases hb : q.buf with
      | nil =>
        have h0 : w 0 = 0 := by
          have := hw (Or.inr (by rw [hb]; rfl))
          rw [hb] at this
          exact this
        simp [weigh_nil, h0]
      | cons c t =>
        simp only [List.headD_cons, List.tail_cons, weigh_cons]
        omega

theorem next_char_line_steps (q : PARSE_BLOCK) (lookahead in_quotes : Bool)
    (hq : q.have_line = true) : Steps q (next_char_line q lookahead in_quotes).2 := by
  cases lookahead with
  | false =>
    obtain ⟨h1, h2, h3⟩ := next_char_line_takes q in_quotes hq
    refine ⟨by omega, fun w => ?_, fun h => by rw [h2]; exact h⟩
    -- the weight that forgets the byte delivered
    unfold next_char_line
    by_cases hc : q.len = 0 ∨ (q.buf.headD 0 = 35 ∧ in_quotes = false)
    · rw [if_pos hc]
      simp only [unread, hq, if_true, Bool.false_eq_true, if_false]
      omega
    · rw [if_neg hc]
      simp only [Bool.false_eq_true, if_false, unread, hq, if_true]
      have := weigh_sublist w _ _ (List.tail_sublist q.buf)
      omega
  | true =>
    unfold next_char_line
    by_cases hc : q.len = 0 ∨ (q.buf.headD 0 = 35 ∧ in_quotes = false)
    · rw [if_pos hc]
      refine ⟨?_, fun w => ?_, fun h => h⟩
      · simp only [budget, hq, if_true, Bool.false_eq_true, if_false]
        omega
      · simp only [unread, hq, if_true, Bool.false_eq_true, if_false]
        omega
    · rw [if_neg hc]
      exact steps_refl q

theorem next_char_read (p : PARSE_BLOCK) (hl : p.have_line = false)
    (h1 : ¬ (callbackIo p).1 < 0) (h2 : ¬ (callbackIo p).1 = 0) :
    Steps p { p with fs := (callbackIo p).2.2, have_line := true, buf := (callbackIo p).2.1,
                     len := (callbackIo p).1.toNat } := by
  obtain ⟨_, _, hr⟩ := callbackIo_read p
  obtain ⟨r1, r2, r3, r4⟩ := hr h1 h2
  refine ⟨?_, fun w => ?_, fun h => h⟩
  · simp only [budget, hl, if_true, Bool.false_eq_true, if_false]
    rw [r1]
    omega
  · simp only [unread, hl, if_true, Bool.false_eq_true, if_false]
    have := r4 w
    omega

theorem next_char_steps (p : PARSE_BLOCK) (lookahead in_quotes : Bool) :
    Steps p (next_char p lookahead in_quotes).2 := by
  unfold next_char
  by_cases hl : p.have_line = false
  · rw [if_pos hl]
    by_cases h1 : p.len = 1
    · rw [if_pos h1]
      cases lookahead with
      | true => exact steps_refl p
      | false =>
        refine ⟨?_, fun w => ?_, fun h => h⟩
        · simp [budget, hl, h1]
        · simp [unread, hl]
    · rw [if_neg h1]
      by_cases he : p.is_eof = true
      · rw [if_pos he]
        exact steps_refl p
      · rw [if_neg he]
        obtain ⟨c1, c2, _⟩ := callbackIo_read p
        have hfail : Steps p { p with fs := (callbackIo p).2.2, is_eof := true } := by
          refine ⟨?_, fun w => ?_, fun _ => rfl⟩
          · simp only [budget, hl, Bool.false_eq_true, if_false]
            omega
          · simp only [unread, hl, Bool.false_eq_true, if_false]
            have := c1 w
            omega
        simp only
        by_cases hr : (callbackIo p).1 < 0
        · rw [if_pos hr]
          exact hfail
        · rw [if_neg hr]
          by_cases hz : (callbackIo p).1 = 0
          · rw [if_pos hz]
            exact hfail
          · rw [if_neg hz]
            exact steps_trans _ _ _ (next_char_read p hl hr hz)
              (next_char_line_steps _ lookahead in_quotes rfl)
  · rw [if_neg hl]
    exact next_char_line_steps p lookahead in_quotes (by simpa using hl)

theorem next_char_takes (p : PARSE_BLOCK) (in_quotes : Bool) :
    ((next_char p false in_quotes).1 = 255 ∧ (next_char p false in_quotes).2.is_eof = true) ∨
      (budget (next_char p false in_quotes).2 < budget p ∧
        ∀ w, (((next_char p false in_quotes).1 = 32 ∨ (next_char p false in_quotes).1 = 0) →
            w (next_char p false in_quotes).1 = 0) →
          unread w (next_char p false in_quotes).2 + w (next_char p false in_quotes).1
            ≤ unread w p) := by
  unfold next_char
  by_cases hl : p.have_line = false
  · rw [if_pos hl]
    by_cases h1 : p.len = 1
    · rw [if_pos h1]
      right
      simp only [Bool.false_eq_true, if_false]
      refine ⟨by simp [budget, hl, h1], fun w hw => ?_⟩
      have h32 : w 32 = 0 := hw (by simp)
      simp [unread, hl, h32]
    · rw [if_neg h1]
      by_cases he : p.is_eof = true
      · rw [if_pos he]
        exact Or.inl ⟨rfl, he⟩
      · rw [if_neg he]
        simp only
        by_cases hr : (callbackIo p).1 < 0
        · rw [if_pos hr]
          exact Or.inl ⟨rfl, rfl⟩
        · rw [if_neg hr]
          by_cases hz : (callbackIo p).1 = 0
          · rw [if_pos hz]
            exact Or.inl ⟨rfl, rfl⟩
          · rw [if_neg hz]
            right
            obtain ⟨s1, s2, _⟩ := next_char_read p hl hr hz
            obtain ⟨t1, _, t3⟩ := next_char_line_takes
              { p with fs := (callbackIo p).2.2, have_line := true, buf := (callbackIo p).2.1,
                       len := (callbackIo p).1.toNat } in_quotes rfl
            exact ⟨by omega, fun w hw => by have := t3 w hw; have := s2 w; omega⟩
  · rw [if_neg hl]
    right
    obtain ⟨t1, _, t3⟩ := next_char_line_takes p in_quotes (by simpa using hl)
    exact ⟨t1, t3⟩

theorem lead_total : ∀ (k : Nat) (p : PARSE_BLOCK), budget p + 1 ≤ k →
    ∃ c q, next_string_lead k p = some (c, q) ∧ Steps p q ∧
      ((c = 255 ∧ q.is_eof = true) ∨
        (budget q < budget p ∧ c ≠ 32 ∧ c ≠ 0 ∧ ∀ w, unread w q + w c ≤ unread w p)) := by
  intro k
  induction k with
  | zero => intro p h; omega
  | succ k ih =>
    intro p hk
    rw [next_string_lead]
    have hs := next_char_steps p false false
    have ht := next_char_takes p false
    generalize next_char p false false = r at hs ht
    obtain ⟨c, q⟩ := r
    simp only at hs ht ⊢
    by_cases hb : c ≠ 255 ∧ (c = 32 ∨ c = 0)
    · rw [if_pos hb]
      rcases ht with ⟨h255, _⟩ | ⟨hlt, _⟩
      · exact absurd h255 hb.1
      · obtain ⟨c1, q1, e, s1, d1⟩ := ih q (by omega)
        refine ⟨c1, q1, e, steps_trans _ _ _ hs s1, ?_⟩
        rcases d1 with d1 | ⟨d1, d2, d3, d4⟩
        · exact Or.inl d1
        · exact Or.inr ⟨by omega, d2, d3, fun w => le_trans (d4 w) (hs.2.1 w)⟩
    · rw [if_neg hb]
      refine ⟨c, q, rfl, hs, ?_⟩
      rcases ht with h | ⟨hlt, hw⟩
      · exact Or.inl h
      · have h32 : c ≠ 32 := fun h => hb ⟨by omega, Or.inl h⟩
        have h0 : c ≠ 0 := fun h => hb ⟨by omega, Or.inr h⟩
        exact Or.inr ⟨hlt, h32, h0,
          fun w => hw w (fun h => h.elim (fun a => absurd a h32) (fun a => absurd a h0))⟩

theorem test_facts (p : PARSE_BLOCK) (c : Nat) (in_quotes : Bool) (quote_char : Nat) :
    match next_string_test p c in_quotes quote_char with
    | .ret rc q => Steps p q ∧ (rc = -2 ∨ rc = -1 ∨ rc = 255)
    | .brk c2 q => q = p ∧ c2 = c
    | .go _ _ _ q => Steps p q := by
  unfold next_string_test
  by_cases he : p.is_eof = true
  · rw [if_pos he]
    cases in_quotes with
    | true => exact ⟨steps_refl p, Or.inl rfl⟩
    | false => exact ⟨rfl, rfl⟩
  · rw [if_neg he]
    cases in_quotes with
    | true =>
      simp only [if_true]
      by_cases hq : c = quote_char
      · rw [if_pos hq]; exact ⟨rfl, rfl⟩
      · rw [if_neg hq]; exact steps_refl p
    | false =>
      simp only [Bool.false_eq_true, if_false]
      by_cases hq : c = 34 ∨ c = 39
      · rw [if_pos hq]
        by_cases hw : p.str_wrk.length > 0
        · rw [if_pos hw]; exact ⟨steps_refl p, Or.inl rfl⟩
        · rw [if_neg hw]
          by_cases h255 : (next_char p false true).1 = 255
          · rw [if_pos h255]; exact ⟨next_char_steps p false true, Or.inr (Or.inr rfl)⟩
          · rw [if_neg h255]; exact next_char_steps p false true
      · rw [if_neg hq]
        by_cases hsep : c = 32 ∨ c = 58 ∨ c = 123 ∨ c = 125
        · rw [if_pos hsep]; exact ⟨rfl, rfl⟩
        · rw [if_neg hsep]; exact steps_refl p

theorem main_eof (k : Nat) (p : PARSE_BLOCK) (c : Nat) (in_quotes : Bool) (quote_char : Nat)
    (he : p.is_eof = true) :
    next_string_main (k + 1) p c in_quotes quote_char
      = some (if in_quotes then .ret (-2) p else .brk c p) := by
  have ht : next_string_test p c in_quotes quote_char
      = if in_quotes then .ret (-2) p else .brk c p := by
    unfold next_string_test
    rw [if_pos he]
  rw [next_string_main, ht]
  cases in_quotes <;> rfl

theorem scanOut_of_steps (p q : PARSE_BLOCK) (c d : Nat) (s : Scan) (hs : Steps p q)
    (hb : unread braceWeight q + braceWeight d ≤ unread braceWeight p + braceWeight c)
    (h : ScanOut q d s) : ScanOut p c s := by
  cases s with
  | ret rc r => exact ⟨steps_trans _ _ _ hs h.1, h.2⟩
  | brk c2 r => exact ⟨steps_trans _ _ _ hs h.1, le_trans h.2 hb⟩
  | go a b e r => exact h

theorem brace_taken (p : PARSE_BLOCK) (in_quotes : Bool) (q : PARSE_BLOCK) (c : Nat)
    (hs : Steps p q) :
    unread braceWeight (next_char q false in_quotes).2
        + braceWeight (next_char q false in_quotes).1
      ≤ unread braceWeight p + braceWeight c := by
  have h1 := next_char_steps q false in_quotes
  have h2 := hs.2.1 braceWeight
  rcases next_char_takes q in_quotes with ⟨h255, _⟩ | ⟨_, hw⟩
  · rw [h255]
    have := h1.2.1 braceWeight
    have h0 : braceWeight 255 = 0 := rfl
    rw [h0]
    omega
  · have := hw braceWeight (fun h => by rcases h with h | h <;> rw [h] <;> rfl)
    omega

theorem main_total : ∀ (k : Nat) (p : PARSE_BLOCK) (c : Nat) (in_quotes : Bool)
    (quote_char : Nat), budget p + 2 ≤ k →
    ∃ s, next_string_main k p c in_quotes quote_char = some s ∧ ScanOut p c s := by
  intro k
  induction k with
  | zero => intro p c iq qc h; omega
  | succ k ih =>
    intro p c iq qc hk
    rw [next_string_main]
    have ht := test_facts p c iq qc
    cases hT : next_string_test p c iq qc with
    | ret rc q =>
      rw [hT] at ht
      exact ⟨_, rfl, ht⟩
    | brk c2 q =>
      rw [hT] at ht
      obtain ⟨rfl, rfl⟩ := ht
      exact ⟨_, rfl, steps_refl _, le_refl _⟩
    | go c1 iq1 qc1 p1 =>
      rw [hT] at ht
      simp only
      by_cases ho : p1.str_wrk.length ≥ p1.str_wrk_len - 1
      · rw [if_pos ho]
        exact ⟨_, rfl, ht, Or.inr (Or.inl rfl)⟩
      · rw [if_neg ho]
        have hp2 : Steps p { p1 with str_wrk := p1.str_wrk ++ [c1] } := ht
        have hs := next_char_steps { p1 with str_wrk := p1.str_wrk ++ [c1] } false iq1
        have hb := brace_taken p iq1 { p1 with str_wrk := p1.str_wrk ++ [c1] } c hp2
        have hbud : budget { p1 with str_wrk := p1.str_wrk ++ [c1] } ≤ budget p := ht.1
        rcases next_char_takes { p1 with str_wrk := p1.str_wrk ++ [c1] } iq1 with
          ⟨h255, he⟩ | ⟨hlt, _⟩
        · obtain ⟨j, rfl⟩ : ∃ j, k = j + 1 := ⟨k - 1, by omega⟩
          rw [main_eof j _ _ iq1 qc1 he]
          refine ⟨_, rfl, ?_⟩
          cases iq1 with
          | true => exact ⟨steps_trans _ _ _ hp2 hs, Or.inl rfl⟩
          | false => exact ⟨steps_trans _ _ _ hp2 hs, hb⟩
        · have hlt1 : budget (next_char { p1 with str_wrk := p1.str_wrk ++ [c1] } false iq1).2
              < budget p1 := hlt
          have hle1 : budget p1 ≤ budget p := ht.1
          obtain ⟨s, e, hout⟩ := ih
            (next_char { p1 with str_wrk := p1.str_wrk ++ [c1] } false iq1).2
            (next_char { p1 with str_wrk := p1.str_wrk ++ [c1] } false iq1).1 iq1 qc1
            (by omega)
          exact ⟨s, e, scanOut_of_steps _ _ _ _ s (steps_trans _ _ _ hp2 hs) hb hout⟩

theorem trail_total : ∀ (k : Nat) (p : PARSE_BLOCK) (c : Nat), budget p + 1 ≤ k →
    ∃ s, next_string_trail k p c = some s ∧ ScanOut p c s := by
  intro k
  induction k with
  | zero => intro p c h; omega
  | succ k ih =>
    intro p c hk
    rw [next_string_trail]
    by_cases hc : c = 32 ∧ p.is_eof = false
    · rw [if_pos hc]
      have hs := next_char_steps p true false
      generalize next_char p true false = r at hs
      obtain ⟨d, q⟩ := r
      simp only at hs ⊢
      have hs2 := next_char_steps q false false
      have hb := brace_taken p false q c hs
      have ht := next_char_takes q false
      by_cases h255 : d = 255
      · rw [if_pos h255]
        exact ⟨_, rfl, hs, Or.inr (Or.inr rfl)⟩
      · rw [if_neg h255]
        by_cases hsep : d = 58 ∨ d = 123 ∨ d = 125
        · rw [if_pos hsep]
          by_cases h2 : (next_char q false false).1 = 255
          · rw [if_pos h2]
            exact ⟨_, rfl, steps_trans _ _ _ hs hs2, Or.inr (Or.inr rfl)⟩
          · rw [if_neg h2]
            exact ⟨_, rfl, steps_trans _ _ _ hs hs2, hb⟩
        · rw [if_neg hsep]
          by_cases h32 : d ≠ 32
          · rw [if_pos h32]
            refine ⟨_, rfl, hs, ?_⟩
            have hd : braceWeight d = 0 := by
              unfold braceWeight
              rw [if_neg (by omega)]
            have := hs.2.1 braceWeight
            omega
          · rw [if_neg h32]
            by_cases h2 : (next_char q false false).1 = 255
            · rw [if_pos h2]
              exact ⟨_, rfl, steps_trans _ _ _ hs hs2, Or.inr (Or.inr rfl)⟩
            · rw [if_neg h2]
              rcases ht with ⟨e255, _⟩ | ⟨hlt, _⟩
              · exact absurd e255 h2
              · have hq : budget q ≤ budget p := hs.1
                obtain ⟨s, e, hout⟩ := ih (next_char q false false).2
                  (next_char q false false).1 (by omega)
                exact ⟨s, e, scanOut_of_steps _ _ _ _ s (steps_trans _ _ _ hs hs2) hb hout⟩
    · rw [if_neg hc]
      exact ⟨_, rfl, steps_refl p, le_refl _⟩

theorem brace_of_code (c3 : Nat) :
    braceWeight (toUChar (if c3 = 58 ∨ c3 = 123 ∨ c3 = 125 ∨ c3 = 255 then (c3 : Int) else 32))
      ≤ braceWeight c3 := by
  by_cases h : c3 = 58 ∨ c3 = 123 ∨ c3 = 125 ∨ c3 = 255
  · rw [if_pos h]
    rcases h with h | h | h | h <;> subst h <;> decide
  · rw [if_neg h]
    exact Nat.zero_le _

theorem brace_of_ret (rc : Int) (h : rc = -2 ∨ rc = -1 ∨ rc = 255) :
    braceWeight (toUChar rc) = 0 := by
  rcases h with h | h | h <;> subst h <;> decide

theorem next_string_total (sf : Nat) (p : PARSE_BLOCK) (b : Bool) (hk : budget p + 2 ≤ sf) :
    ∃ rc q, next_string sf p b = some (rc, q) ∧ Steps p q ∧
      ((rc = 255 ∧ q.is_eof = true) ∨ budget q < budget p) ∧
      (q.is_eof = true ∨ unread (fun _ => 1) q < unread (fun _ => 1) p) ∧
      unread braceWeight q + braceWeight (toUChar rc) ≤ unread braceWeight p := by
  have hb0 : budget { p with str_wrk := [] } = budget p := rfl
  have hu0 : ∀ w, unread w { p with str_wrk := [] } = unread w p := fun _ => rfl
  obtain ⟨c, p1, e1, s1, d1⟩ := lead_total sf { p with str_wrk := [] } (by rw [hb0]; omega)
  have hs1 : Steps p p1 := ⟨by rw [← hb0]; exact s1.1, fun w => by rw [← hu0 w]; exact s1.2.1 w,
    fun h => s1.2.2 h⟩
  unfold next_string
  rw [e1]
  simp only
  rcases d1 with ⟨h255, he⟩ | ⟨hlt, h32, h0, hw⟩
  · obtain ⟨j, rfl⟩ : ∃ j, sf = j + 1 := ⟨sf - 1, by omega⟩
    subst h255
    rw [main_eof j p1 255 false 0 he]
    simp only [Bool.false_eq_true, if_false]
    rw [trail_other j p1 255 (by omega)]
    simp only [or_true, if_true]
    refine ⟨_, _, rfl, hs1, Or.inl ⟨rfl, he⟩, Or.inl he, ?_⟩
    have := hs1.2.1 braceWeight
    have h0 : braceWeight (toUChar ((255 : Nat) : Int)) = 0 := by decide
    omega
  · have hone := hw (fun _ => 1)
    rw [hu0] at hone
    have hbr := hw braceWeight
    rw [hu0] at hbr
    rw [hb0] at hlt
    obtain ⟨s, e2, out2⟩ := main_total sf p1 c false 0 (by omega)
    rw [e2]
    cases s with
    | go a1 a2 a3 a4 => exact absurd out2 (fun h => h)
    | ret rc q =>
      obtain ⟨sq, hrc⟩ := out2
      have := sq.1
      have := sq.2.1 (fun _ => 1)
      have := sq.2.1 braceWeight
      have := brace_of_ret rc hrc
      exact ⟨rc, q, rfl, steps_trans _ _ _ hs1 sq, Or.inr (by omega), Or.inr (by omega),
        by omega⟩
    | brk c2 p2 =>
      obtain ⟨s2, hb2⟩ := out2
      simp only
      obtain ⟨s3, e3, out3⟩ := trail_total sf p2 c2 (by have := s2.1; omega)
      rw [e3]
      cases s3 with
      | go a1 a2 a3 a4 => exact absurd out3 (fun h => h)
      | ret rc q =>
        obtain ⟨sq, hrc⟩ := out3
        have := s2.1
        have := sq.1
        have := s2.2.1 (fun _ => 1)
        have := sq.2.1 (fun _ => 1)
        have := s2.2.1 braceWeight
        have := sq.2.1 braceWeight
        have := brace_of_ret rc hrc
        exact ⟨rc, q, rfl, steps_trans _ _ _ hs1 (steps_trans _ _ _ s2 sq), Or.inr (by omega),
          Or.inr (by omega), by omega⟩
      | brk c3 q =>
        obtain ⟨sq, hb3⟩ := out3
        have := s2.1
        have := sq.1
        have := s2.2.1 (fun _ => 1)
        have := sq.2.1 (fun _ => 1)
        have hcode := brace_of_code c3
        simp only
        by_cases hc3 : c3 = 58 ∨ c3 = 123 ∨ c3 = 125 ∨ c3 = 255
        · rw [if_pos hc3] at hcode ⊢
          exact ⟨_, q, rfl, steps_trans _ _ _ hs1 (steps_trans _ _ _ s2 sq), Or.inr (by omega),
            Or.inr (by omega), by omega⟩
        · rw [if_neg hc3] at hcode ⊢
          exact ⟨_, q, rfl, steps_trans _ _ _ hs1 (steps_trans _ _ _ s2 sq), Or.inr (by omega),
            Or.inr (by omega), by omega⟩

theorem sameInput_steps (p q : PARSE_BLOCK) (h : SameInput p q) :
    Steps p q ∧ budget q = budget p ∧ ∀ w, unread w q = unread w p := by
  obtain ⟨h1, h2, h3, h4, h5⟩ := h
  have hb : budget q = budget p := by simp only [budget, h1, h3, h4]
  have hu : ∀ w, unread w q = unread w p := fun w => by simp only [unread, h1, h2, h4]
  exact ⟨⟨by omega, fun w => by rw [hu w], fun he => by rw [h5]; exact he⟩, hb, hu⟩

theorem linkNode_sameInput (p : PARSE_BLOCK) (anchor node : Nat) :
    SameInput p (linkNode p anchor node) ∧
      (linkNode p anchor node).anchors.length = p.anchors.length := by
  unfold linkNode
  cases p.anchors[anchor]? with
  | none => exact ⟨⟨rfl, rfl, rfl, rfl, rfl⟩, rfl⟩
  | some a =>
    by_cases ha : a.first = none
    · simp only [ha, if_true]
      exact ⟨⟨rfl, rfl, rfl, rfl, rfl⟩, by simp⟩
    · simp only [ha, if_false]
      exact ⟨⟨rfl, rfl, rfl, rfl, rfl⟩, by simp⟩

theorem parse_key_total (sf : Nat) (p : PARSE_BLOCK) (node : Nat) (hk : budget p + 2 ≤ sf) :
    ∃ rc q, parse_key sf p node = some (rc, q) ∧ Steps p q ∧
      (q.is_eof = true ∨ budget q < budget p) ∧
      q.anchors.length + unread braceWeight q ≤ p.anchors.length + unread braceWeight p := by
  obtain ⟨rc0, p1, e, s1, d1, _, hbr⟩ := next_string_total sf p true hk
  have hf := (next_string_frame sf p true _ e).1
  simp only at hf
  have hd : p1.is_eof = true ∨ budget p1 < budget p := by
    rcases d1 with ⟨_, he⟩ | hlt
    · exact Or.inl he
    · exact Or.inr hlt
  have hj : p1.anchors.length + unread braceWeight p1
      ≤ p.anchors.length + unread braceWeight p := by
    rw [hf]
    omega
  have hstore : SameInput p1 (storeKey p1 node) := ⟨rfl, rfl, rfl, rfl, rfl⟩
  obtain ⟨k1, k2, k3⟩ := sameInput_steps _ _ hstore
  have hjs : (storeKey p1 node).anchors.length + unread braceWeight (storeKey p1 node)
      ≤ p.anchors.length + unread braceWeight p := by
    rw [k3 braceWeight]
    exact hj
  have hds : (storeKey p1 node).is_eof = true ∨ budget (storeKey p1 node) < budget p := by
    rw [k2]
    exact hd
  unfold parse_key
  rw [e]
  simp only
  split
  · exact ⟨_, _, rfl, s1, hd, hj⟩
  · split
    · exact ⟨_, _, rfl, s1, hd, hj⟩
    · split
      · exact ⟨_, _, rfl, s1, hd, hj⟩
      · split
        · exact ⟨_, _, rfl, s1, hd, hj⟩
        · exact ⟨_, _, rfl, steps_trans _ _ _ s1 k1, hds, hjs⟩

theorem parse_total_aux (k : Nat) :
    (∀ fall sf p node, budget p + 2 ≤ sf → 3 * budget p + 2 ≤ k →
      ∃ rc q, parse_value k fall sf p node = some (rc, q) ∧ Steps p q ∧
        q.anchors.length + unread braceWeight q ≤ p.anchors.length + unread braceWeight p) ∧
    (∀ fall sf p anchor, budget p + 2 ≤ sf → 3 * budget p + 1 ≤ k →
      ∃ rc q, parmParseNodeLoop k fall sf p anchor = some (rc, q) ∧ Steps p q ∧
        q.anchors.length + unread braceWeight q ≤ p.anchors.length + unread braceWeight p) ∧
    (∀ fall sf p anchor, budget p + 2 ≤ sf → 3 * budget p + 2 ≤ k →
      ∃ rc q, parmParseNode k fall sf p anchor = some (rc, q) ∧ Steps p q ∧
        q.anchors.length + unread braceWeight q ≤ p.anchors.length + unread braceWeight p) := by
  induction k with
  | zero =>
    refine ⟨?_, ?_, ?_⟩ <;> intro fall sf p a _ h <;> omega
  | succ k ih =>
    obtain ⟨ihV, ihL, ihN⟩ := ih
    refine ⟨?_, ?_, ?_⟩
    · intro fall sf p node hsf hk
      obtain ⟨rc0, p1, e, s1, d1, _, hbr⟩ := next_string_total sf p false hsf
      have hf := (next_string_frame sf p false _ e).1
      simp only at hf
      have hj : p1.anchors.length + unread braceWeight p1
          ≤ p.anchors.length + unread braceWeight p := by
        rw [hf]
        omega
      obtain ⟨k1, k2, k3⟩ := sameInput_steps p1 (storeString p1 node) ⟨rfl, rfl, rfl, rfl, rfl⟩
      have hjs : (storeString p1 node).anchors.length + unread braceWeight (storeString p1 node)
          ≤ p.anchors.length + unread braceWeight p := by
        rw [k3 braceWeight]
        exact hj
      simp only [parse_value]
      rw [e]
      simp only
      split
      · exact ⟨_, _, rfl, s1, hj⟩
      · split
        · exact ⟨_, _, rfl, s1, hj⟩
        · rename_i h255
          split
          · rename_i h123
            split
            · exact ⟨_, _, rfl, s1, hj⟩
            · have hlt : budget p1 < budget p := by
                rcases d1 with ⟨hrc, _⟩ | hlt
                · rw [hrc] at h255
                  exact absurd (by decide) h255
                · exact hlt
              obtain ⟨n1, n2, n3⟩ := sameInput_steps p1 (newLevel p1 node)
                ⟨rfl, rfl, rfl, rfl, rfl⟩
              obtain ⟨rc, p3, e3, s3, j3⟩ := ihN fall sf (newLevel p1 node) p1.anchors.length
                (by rw [n2]; have := s1.1; omega) (by rw [n2]; omega)
              rw [e3]
              have hbw : braceWeight (toUChar rc0) = 1 := by rw [h123]; rfl
              have hlen : (newLevel p1 node).anchors.length = p1.anchors.length + 1 := by
                simp [newLevel]
              have hj3 : p3.anchors.length + unread braceWeight p3
                  ≤ p.anchors.length + unread braceWeight p := by
                rw [n3 braceWeight, hlen, hf] at j3
                omega
              simp only
              split
              · exact ⟨_, _, rfl, steps_trans _ _ _ s1 (steps_trans _ _ _ n1 s3), hj3⟩
              · exact ⟨_, _, rfl, steps_trans _ _ _ s1 (steps_trans _ _ _ n1 s3), hj3⟩
          · split
            · exact ⟨_, _, rfl, s1, hj⟩
            · split
              · exact ⟨_, _, rfl, steps_trans _ _ _ s1 k1, hjs⟩
              · exact ⟨_, _, rfl, steps_trans _ _ _ s1 k1, hjs⟩
    · intro fall sf p anchor hsf hk
      obtain ⟨a1, a2, a3⟩ := sameInput_steps p (allocNode p) ⟨rfl, rfl, rfl, rfl, rfl⟩
      obtain ⟨rc1, p1, e1, s1, d1, j1⟩ := parse_key_total sf (allocNode p) p.nodes.length
        (by rw [a2]; exact hsf)
      have hj1 : p1.anchors.length + unread braceWeight p1
          ≤ p.anchors.length + unread braceWeight p := by
        rw [a3 braceWeight] at j1
        exact j1
      have hs1 : Steps p p1 := steps_trans _ _ _ a1 s1
      simp only [parmParseNodeLoop]
      rw [e1]
      simp only
      split
      · exact ⟨_, _, rfl, hs1, hj1⟩
      · split
        · exact ⟨_, _, rfl, hs1, hj1⟩
        · rename_i hne
          have hlt : budget p1 < budget p := by
            rcases d1 with he | hlt
            · exact absurd he hne
            · rw [a2] at hlt
              exact hlt
          obtain ⟨rc, p2, e2, s2, j2⟩ := ihV fall sf p1 p.nodes.length (by omega) (by omega)
          rw [e2]
          have hs2 : Steps p p2 := steps_trans _ _ _ hs1 s2
          simp only
          split
          · exact ⟨_, _, rfl, hs2, by omega⟩
          · split
            · exact ⟨_, _, rfl, hs2, by omega⟩
            · obtain ⟨l0, l4⟩ := linkNode_sameInput p2 anchor p.nodes.length
              obtain ⟨l1, l2, l3⟩ := sameInput_steps _ _ l0
              have hs3 : Steps p (linkNode p2 anchor p.nodes.length) := steps_trans _ _ _ hs2 l1
              have hj3 : (linkNode p2 anchor p.nodes.length).anchors.length
                  + unread braceWeight (linkNode p2 anchor p.nodes.length)
                  ≤ p.anchors.length + unread braceWeight p := by
                rw [l4, l3 braceWeight]
                omega
              split
              · exact ⟨_, _, rfl,
                  steps_trans _ _ _ hs3 (sameInput_steps _ _ ⟨rfl, rfl, rfl, rfl, rfl⟩).1, hj3⟩
              · have hb3 : budget (linkNode p2 anchor p.nodes.length) = budget p2 := l2
                have := s2.1
                obtain ⟨rc3, q, e3, s3, j3⟩ := ihL fall sf (linkNode p2 anchor p.nodes.length)
                  anchor (by omega) (by omega)
                exact ⟨rc3, q, e3, steps_trans _ _ _ hs3 s3, by omega⟩
    · intro fall sf p anchor hsf hk
      obtain ⟨c1, c2, c3⟩ := sameInput_steps p { p with current_anchor := some anchor }
        ⟨rfl, rfl, rfl, rfl, rfl⟩
      obtain ⟨rc, q, e, s, j⟩ := ihL fall sf { p with current_anchor := some anchor } anchor
        (by rw [c2]; exact hsf) (by rw [c2]; omega)
      simp only [parmParseNode]
      refine ⟨rc, q, e, steps_trans _ _ _ c1 s, ?_⟩
      rw [c3 braceWeight] at j
      exact j

/-- C1 (fails on the code): on the example document of the specification
`parmParseFile` returns the syntax error code -2 and stores no handle, for
every value read after a run off the end and every sufficient fuel: the right
brace on its own line after the quoted value reaches `parse_key` as an empty
token whose terminator is not a colon. -/
theorem C1_example_document_rejected (fuel : Nat) (fall : Int) (hfuel : 16 ≤ fuel) :
    parmParseFile fuel fall exampleDoc = some (-2, none) := by
  have h0 : parmParseFile 16 0 exampleDoc = some (-2, none) := by decide!
  have h1 : parmParseFile 16 (-1) exampleDoc = some (-2, none) := by decide!
  exact parmParseFile_mono 16 fuel hfuel fall exampleDoc _
    (parmParseFile_fall_any 16 exampleDoc (-2) none h0 h1 (by decide) fall)

theorem C1_example_document_rejected_witness :
    16 ≤ 16 ∧ parmParseFile 16 0 exampleDoc = some (-2, none) :=
  ⟨by decide, C1_example_document_rejected 16 0 (by decide)⟩

/-- C4: in a level whose entries are strings or nested levels with keys,
`parmFindKey(k)` followed by `parmFindNextKey(k)` until `PRMP_END` stops, one
after the other and in level order, at exactly the entries whose key is `k`,
with the return code (and value) of each: the answers of `parmGetNext` over
that level, filtered by the key. -/
theorem C4_find_visits_matching_entries (m : Pool) (h : PRMP_HANDLE) (key : List Nat) (A : Nat)
    (l : List Nat) (fuel : Nat) (hA : (startAtTop h).cur_anchor = some A) (hl : IsLevel m A l)
    (hs : ∀ j ∈ l, Sound m j) (hf : l.length < fuel) :
    ∃ xs ys, findUntilEnd fuel m h key = some (.done xs) ∧
      getNextUntilEnd fuel m { startAtTop h with cur_node := none } = some (.done ys) ∧
      ys.map (fun a => a.h.cur_node) = l.map some ∧
      xs.map (fun a => a.h.cur_node)
        = (l.filter (fun j => decide ((nodeAt m j).key = some key))).map some ∧
      xs.map (fun a => (a.rc, a.value))
        = (l.filter (fun j => decide ((nodeAt m j).key = some key))).map
            (fun j => ((entry (nodeAt m j)).1, (entry (nodeAt m j)).2.2)) ∧
      xs.map place = (ys.filter (fun a => decide (a.key = some key))).map place := by
  have hp : Ahead m { startAtTop h with cur_node := none } A l := ⟨hA, hl.2, hl.1⟩
  refine ⟨_, _, findUntilEnd_level m key h A l fuel hA hl hs hf,
    getNextUntilEnd_ahead m A l _ fuel hp hs hf, ?_, ?_, ?_, ?_⟩
  · simp [List.map_map, Function.comp_def, report_h]
  · have hh : hit m key = fun j => decide ((nodeAt m j).key = some key) := rfl
    simp [List.map_map, Function.comp_def, report_h, hh]
  · simp only [List.map_map, Function.comp_def]
    apply List.map_congr_left
    intro j _
    simp only [report, entry]
    split <;> rfl
  · rw [List.filter_map, List.map_map, List.map_map]
    have : ((fun a : Answer => decide (a.key = some key)) ∘
        fun j => report { startAtTop h with cur_node := some j } (nodeAt m j) true)
        = hit m key := by
      funext j
      simp only [Function.comp_def, hit, report]
      split <;> simp
    rw [this]
    apply List.map_congr_left
    intro j _
    simp only [Function.comp_def, place, report]
    split <;> rfl

theorem C4_find_visits_matching_entries_witness :
    ∃ xs ys, findUntilEnd 5 sampleTree (parmSetBegin sampleHandle) (bytes "download")
        = some (.done xs) ∧
      getNextUntilEnd 5 sampleTree
        { startAtTop (parmSetBegin sampleHandle) with cur_node := none } = some (.done ys) ∧
      ys.map (fun a => a.h.cur_node) = [0, 1, 4, 7].map some ∧
      xs.map (fun a => a.h.cur_node)
        = ([0, 1, 4, 7].filter
            (fun j => decide ((nodeAt sampleTree j).key = some (bytes "download")))).map some ∧
      xs.map (fun a => (a.rc, a.value))
        = ([0, 1, 4, 7].filter
            (fun j => decide ((nodeAt sampleTree j).key = some (bytes "download")))).map
            (fun j => ((entry (nodeAt sampleTree j)).1, (entry (nodeAt sampleTree j)).2.2)) ∧
      xs.map place = (ys.filter (fun a => decide (a.key = some (bytes "download")))).map place :=
  C4_find_visits_matching_entries sampleTree (parmSetBegin sampleHandle) (bytes "download") 0
    [0, 1, 4, 7] 5 (by decide!) (by decide!) (by decide!) (by decide)

/-- C3 (fails on the code): a document of lines `key: value` with bare values,
the last line newline-terminated and followed by the end of input, is rejected
with the syntax error code -2 and no handle: the lookahead after the last bare
value meets the end of input, `next_string` returns 255 and `parse_value`
returns before it stores the value. -/
theorem C3_bare_value_before_end_of_input_rejected (fuel : Nat) (fall : Int) (hfuel : 8 ≤ fuel) :
    parmParseFile fuel fall bareDoc = some (-2, none) := by
  have h0 : parmParseFile 8 0 bareDoc = some (-2, none) := by decide!
  have h1 : parmParseFile 8 (-1) bareDoc = some (-2, none) := by decide!
  exact parmParseFile_mono 8 fuel hfuel fall bareDoc _
    (parmParseFile_fall_any 8 bareDoc (-2) none h0 h1 (by decide) fall)

theorem C3_bare_value_before_end_of_input_rejected_witness :
    8 ≤ 8 ∧ parmParseFile 8 0 bareDoc = some (-2, none) :=
  ⟨by decide, C3_bare_value_before_end_of_input_rejected 8 0 (by decide)⟩

/-- C7: with a cursor whose current entry, if any, is a node of the tree and
whose stack has its 5 slots, `parmLevelDown` returns -1 and leaves the cursor
as it was exactly when there is no current entry, the current entry is not a
nested level, or the stack index has reached `PRMP_MAX_LEVELS`; otherwise it
returns 0, stores the current entry in the stack slot at the index, raises the
index by one, makes the child level the current level and clears the current
entry.  A document nested six deep parses (when the value read after a run off
the end of `parmParseNode` is not negative), five descents succeed and the
sixth, on a nested entry, returns -1. -/
theorem C7_levelDown_guard_and_depth_limit (m : Pool) (h : PRMP_HANDLE)
    (hv : ∀ i, h.cur_node = some i → i < m.nodes.length)
    (hlen : h.node_stack.length = PRMP_MAX_LEVELS) :
    (parmLevelDown m h = .done (-1, h) ↔
      (h.cur_node = none ∨
        (∃ i, h.cur_node = some i ∧ (nodeAt m i).type ≠ PRMP_NEXTLEVEL) ∨
        PRMP_MAX_LEVELS ≤ h.node_stack_index)) ∧
    (¬ (h.cur_node = none ∨
        (∃ i, h.cur_node = some i ∧ (nodeAt m i).type ≠ PRMP_NEXTLEVEL) ∨
        PRMP_MAX_LEVELS ≤ h.node_stack_index) →
      ∃ i h1, h.cur_node = some i ∧ parmLevelDown m h = .done (0, h1) ∧
        h1.cur_anchor = (nodeAt m i).nextlevel ∧ h1.cur_node = none ∧
        h1.node_stack_index = h.node_stack_index + 1 ∧
        h1.node_stack = h.node_stack.set h.node_stack_index (some i) ∧
        h1.node_stack[h.node_stack_index]? = some (some i) ∧ h1.anchor = h.anchor) ∧
    (∀ fuel fall, 30 ≤ fuel → 0 ≤ fall →
      sixDescents (parmParseFile fuel fall deepDoc)
        = some (0, .done [(2, 0), (2, 0), (2, 0), (2, 0), (2, 0), (2, -1)])) := by
  refine ⟨?_, ?_, ?_⟩
  · cases hn : h.cur_node with
    | none => simp [parmLevelDown, hn]
    | some i =>
      have hi := hv i hn
      simp only [parmLevelDown, hn, nodes_getElem?_nodeAt m i hi]
      by_cases hc : (nodeAt m i).type = PRMP_NEXTLEVEL ∧ h.node_stack_index < PRMP_MAX_LEVELS
      · rw [if_pos hc]
        constructor
        · intro hh
          simp only [Outcome.done.injEq, Prod.mk.injEq] at hh
          omega
        · rintro (hh | ⟨j, hj, hjt⟩ | hh)
          · simp at hh
          · simp only [Option.some.injEq] at hj
            subst hj
            exact absurd hc.1 hjt
          · omega
      · rw [if_neg hc]
        simp only [true_iff]
        by_cases ht : (nodeAt m i).type = PRMP_NEXTLEVEL
        · right; right
          have : ¬ h.node_stack_index < PRMP_MAX_LEVELS := fun hh => hc ⟨ht, hh⟩
          omega
        · right; left
          exact ⟨i, rfl, ht⟩
  · intro hnb
    cases hn : h.cur_node with
    | none => exact absurd (Or.inl hn) hnb
    | some i =>
      have hi := hv i hn
      have ht : (nodeAt m i).type = PRMP_NEXTLEVEL := by
        by_contra hc
        exact hnb (Or.inr (Or.inl ⟨i, hn, hc⟩))
      have hidx : h.node_stack_index < PRMP_MAX_LEVELS := by
        by_contra hc
        exact hnb (Or.inr (Or.inr (by omega)))
      refine ⟨i, { h with
          cur_anchor := (nodeAt m i).nextlevel
          node_stack := h.node_stack.set h.node_stack_index (some i)
          node_stack_index := h.node_stack_index + 1
          cur_node := none }, rfl, ?_, rfl, rfl, rfl, rfl, ?_, rfl⟩
      · simp only [parmLevelDown, hn, nodes_getElem?_nodeAt m i hi, if_pos (And.intro ht hidx)]
      · simp only [List.getElem?_set_self (by omega : h.node_stack_index < h.node_stack.length)]
  · intro fuel fall hfuel hfall
    have h0 : sixDescents (parmParseFile 30 0 deepDoc)
        = some (0, .done [(2, 0), (2, 0), (2, 0), (2, 0), (2, 0), (2, -1)]) := by decide!
    rw [parmParseFile_fall_nonneg fuel fall 0 hfall (by decide) deepDoc]
    cases hr : parmParseFile 30 0 deepDoc with
    | none => rw [hr] at h0; simp [sixDescents] at h0
    | some r => rw [parmParseFile_mono 30 fuel hfuel 0 deepDoc r hr, ← hr]; exact h0

theorem C7_levelDown_guard_and_depth_limit_witness :
    (∀ i, ({ sampleHandle with cur_node := some 1 } : PRMP_HANDLE).cur_node = some i →
        i < sampleTree.nodes.length) ∧
    sampleHandle.node_stack.length = PRMP_MAX_LEVELS ∧
    sixDescents (parmParseFile 30 0 deepDoc)
      = some (0, .done [(2, 0), (2, 0), (2, 0), (2, 0), (2, 0), (2, -1)]) :=
  ⟨by intro i hi; cases hi; decide!, by decide!,
    (C7_levelDown_guard_and_depth_limit sampleTree { sampleHandle with cur_node := some 1 }
      (by intro i hi; cases hi; decide!) (by decide!)).2.2 30 0 (by decide) (by decide)⟩

/-- C8 (fails on the code): right after `parmSetBegin` the current level is
NULL, and `parmLevelUp` reads `cur_anchor->up` without the guard that
`parmGetNext`, `parmFindKey` and `parmFindNextKey` have: the call faults
instead of returning -1. -/
theorem C8_levelUp_after_setBegin_faults (m : Pool) (h : PRMP_HANDLE) :
    parmLevelUp m (parmSetBegin h) = .fault := by
  simp [parmLevelUp, parmSetBegin]

/-- C2: a file of lines `key: "value"` (keys bare and not empty, values not
empty and free of double quotes, line terminators, NUL and 0xFF, every line at
most 510 bytes and ended by a newline) parses with return code 0, and the top
level holds exactly the string entries `(key, value)` of the lines, in file
order, duplicates included. -/
theorem C2_quoted_lines_kept_in_file_order (pairs : List (List Nat × List Nat)) (fuel : Nat)
    (fall : Int) (hg : ∀ kv ∈ pairs, GoodPair kv) (hfuel : pairs.length + 514 ≤ fuel) :
    ∃ m h, parmParseFile fuel fall (quotedDoc pairs) = some (0, some (m, h)) ∧
      h.anchor = some 0 ∧ IsLevel m 0 (List.range pairs.length) ∧
      (List.range pairs.length).map (fun i => entry (nodeAt m i))
        = pairs.map (fun kv => ((PRMP_STRING : Int), some kv.1, some kv.2)) :=
  ⟨_, _, parse_quotedDoc pairs fuel fall hg hfuel, rfl, (quotedPool_level pairs).1,
    (quotedPool_level pairs).2⟩

theorem C2_quoted_lines_kept_in_file_order_witness :
    ∃ m h, parmParseFile 517 0
        (quotedDoc [(bytes "a", bytes "x y"), (bytes "a", bytes "x y"), (bytes "b", bytes "#:")])
          = some (0, some (m, h)) ∧
      h.anchor = some 0 ∧ IsLevel m 0 (List.range 3) ∧
      (List.range 3).map (fun i => entry (nodeAt m i))
        = [(bytes "a", bytes "x y"), (bytes "a", bytes "x y"), (bytes "b", bytes "#:")].map
            (fun kv => ((PRMP_STRING : Int), some kv.1, some kv.2)) :=
  C2_quoted_lines_kept_in_file_order
    [(bytes "a", bytes "x y"), (bytes "a", bytes "x y"), (bytes "b", bytes "#:")] 517 0
    (by decide!) (by decide)

/-- C13: the one-line file `to: "s"`, ended by a newline, with `s` not empty,
at most 500 bytes and free of double quotes, line terminators, NUL and 0xFF,
parses with return code 0, and its one top-level entry is a string entry with
key `to` and value exactly `s`. -/
theorem C13_quoted_value_kept_verbatim (s : List Nat) (fuel : Nat) (fall : Int) (hs : s ≠ [])
    (hlen : s.length ≤ 500) (hq : ∀ x ∈ s, QuotedByte x) (hfuel : 515 ≤ fuel) :
    ∃ m h, parmParseFile fuel fall (bytes "to: \"" ++ s ++ bytes "\"\n") = some (0, some (m, h)) ∧
      IsLevel m 0 [0] ∧
      entry (nodeAt m 0) = ((PRMP_STRING : Int), some (bytes "to"), some s) := by
  have hg : ∀ kv ∈ [(bytes "to", s)], GoodPair kv := by
    intro kv hkv
    simp only [List.mem_singleton] at hkv
    subst hkv
    refine ⟨by rw [bytes_to]; simp, ?_, hs, hq, by rw [bytes_to]; simp; omega⟩
    rw [bytes_to]
    intro x hx
    simp only [List.mem_cons, List.mem_singleton, List.not_mem_nil, or_false] at hx
    rcases hx with rfl | rfl <;> decide
  have hdoc : bytes "to: \"" ++ s ++ bytes "\"\n" = quotedDoc [(bytes "to", s)] := by
    simp [quotedDoc, bytes_to, bytes_to_open, bytes_close]
  have hp := parse_quotedDoc [(bytes "to", s)] fuel fall hg (by simpa using hfuel)
  have hl := quotedPool_level [(bytes "to", s)]
  refine ⟨_, _, by rw [hdoc]; exact hp, by simpa using hl.1, ?_⟩
  have := hl.2
  simp only [List.length_singleton, List.range_succ, List.range_zero, List.nil_append,
    List.map_cons, List.map_nil, List.cons.injEq, and_true] at this
  exact this

theorem C13_quoted_value_kept_verbatim_witness :
    ∃ m h, parmParseFile 515 0 (bytes "to: \"" ++ bytes "C:/Users/x " ++ bytes "\"\n")
        = some (0, some (m, h)) ∧
      IsLevel m 0 [0] ∧
      entry (nodeAt m 0) = ((PRMP_STRING : Int), some (bytes "to"), some (bytes "C:/Users/x ")) :=
  C13_quoted_value_kept_verbatim (bytes "C:/Users/x ") 515 0 (by decide!) (by decide!)
    (by decide!) (by decide)

/-- C11 (fails on the code): when a key is looked for, in any level, and
`next_string` delivers an empty token ended by a right brace, `parse_key`
returns -2 at its test `term_char != ':'`, before its test `str_len == 0`, and
`parmParseFile` returns -2 and stores no handle: the level is not closed. -/
theorem C11_closing_brace_in_key_position_rejected (fuel : Nat) (fall : Int) (file : List Nat)
    (k : Nat) (q : PARSE_BLOCK) (a : Nat) (rc : Int) (q1 : PARSE_BLOCK)
    (hat : AtKey fuel fall file (k + 1) q a)
    (hlex : next_string fuel (allocNode q) true = some (rc, q1))
    (_hempty : q1.str_wrk = []) (hbrace : toUChar rc = 125) :
    parmParseFile fuel fall file = some (-2, none) := by
  apply atKey_error fuel fall file (k + 1) q a hat (-2) q1 _ (by decide)
  rw [parmParseNodeLoop.eq_2]
  have hk : parse_key fuel (allocNode q) q.nodes.length = some (-2, q1) := by
    unfold parse_key
    simp only [hlex]
    rw [if_neg (toUChar_nonneg rc), hbrace]
    simp
  simp only [hk]
  simp

theorem C11_closing_brace_in_key_position_rejected_witness :
    parmParseFile 8 0 emptyBlockDoc = some (-2, none) :=
  C11_closing_brace_in_key_position_rejected 8 0 emptyBlockDoc 3
    (firstLevelStart 8 emptyBlockDoc) (afterFirstValueToken 8 emptyBlockDoc).2.anchors.length
    (got (next_string 8 (allocNode (firstLevelStart 8 emptyBlockDoc)) true)).1
    (got (next_string 8 (allocNode (firstLevelStart 8 emptyBlockDoc)) true)).2
    ⟨7, rfl, Reaches.down 4 (rootStart emptyBlockDoc) 0 (afterFirstKey 8 emptyBlockDoc).1
      (afterFirstValueToken 8 emptyBlockDoc).1 (afterFirstKey 8 emptyBlockDoc).2
      (afterFirstValueToken 8 emptyBlockDoc).2 4 _ _
      (by decide!) (by decide!) (by decide!) (by decide!) (by decide!) (by decide!)
      (Reaches.here _ _ _)⟩
    (by decide!) (by decide!) (by decide!)

/-- C12 (fails on the code): a key in quotes is rejected with -2, with or
without a blank before the colon and with either quote character: after the
closing quote `next_string` never looks for the colon and returns a blank. -/
theorem C12_quoted_key_rejected (fuel : Nat) (fall : Int) (hfuel : 12 ≤ fuel) :
    parmParseFile fuel fall quotedKeyDoc = some (-2, none) ∧
      parmParseFile fuel fall singleQuotedKeyDoc = some (-2, none) ∧
      (next_string 12 (allocNode (rootStart quotedKeyDoc)) true).map
          (fun r => (r.1, r.2.str_wrk)) = some (32, bytes "my key") :=
  ⟨parse_any_fuel_fall 12 quotedKeyDoc (-2) none (by decide!) (by decide!) (by decide) fuel fall
      hfuel,
    parse_any_fuel_fall 12 singleQuotedKeyDoc (-2) none (by decide!) (by decide!) (by decide)
      fuel fall hfuel,
    by decide!⟩

theorem C12_quoted_key_rejected_witness :
    parmParseFile 12 0 quotedKeyDoc = some (-2, none) :=
  (C12_quoted_key_rejected 12 0 (by decide)).1

/-- C18 (fails on the code): an empty string in double quotes is not read as
an empty value: the second quote is stored as the first byte of the value and
the text up to the next double quote follows it; the file parses with return
code 0 and the entry has the value `" ` (a double quote and a blank). -/
theorem C18_empty_quoted_string_accepted (fuel : Nat) (fall : Int) (hfuel : 8 ≤ fuel) :
    ∃ m h, parmParseFile fuel fall emptyQuotedDoc = some (0, some (m, h)) ∧
      IsLevel m 0 [0] ∧
      entry (nodeAt m 0) = ((PRMP_STRING : Int), some (bytes "k"), some [34, 32]) := by
  have h0 : parmParseFile 8 0 emptyQuotedDoc = some (0, some
      (treeOf (parmParseFile 8 0 emptyQuotedDoc),
        handleOf (parmParseFile 8 0 emptyQuotedDoc))) := by decide!
  have h1 : parmParseFile 8 (-1) emptyQuotedDoc = some (0, some
      (treeOf (parmParseFile 8 0 emptyQuotedDoc),
        handleOf (parmParseFile 8 0 emptyQuotedDoc))) := by decide!
  exact ⟨_, _, parse_any_fuel_fall 8 emptyQuotedDoc 0 _ h0 h1 (by decide) fuel fall hfuel,
    by decide!, by decide!⟩

theorem C18_empty_quoted_string_accepted_witness :
    ∃ m h, parmParseFile 8 0 emptyQuotedDoc = some (0, some (m, h)) ∧
      IsLevel m 0 [0] ∧
      entry (nodeAt m 0) = ((PRMP_STRING : Int), some (bytes "k"), some [34, 32]) :=
  C18_empty_quoted_string_accepted 8 0 (by decide)

/-- C20 (fails on the code): a colon that no key precedes makes `parse_key`
return the colon with the comment `Let higher level deal with it`, and
`parmParseNode` goes on: the file parses with return code 0 and the top level
holds a string entry whose key is NULL. -/
theorem C20_entry_without_key_stored (fuel : Nat) (fall : Int) (hfuel : 8 ≤ fuel) :
    ∃ m h, parmParseFile fuel fall noKeyDoc = some (0, some (m, h)) ∧
      IsLevel m 0 [0] ∧
      entry (nodeAt m 0) = ((PRMP_STRING : Int), none, some (bytes "v")) := by
  have h0 : parmParseFile 8 0 noKeyDoc = some (0, some
      (treeOf (parmParseFile 8 0 noKeyDoc), handleOf (parmParseFile 8 0 noKeyDoc))) := by decide!
  have h1 : parmParseFile 8 (-1) noKeyDoc = some (0, some
      (treeOf (parmParseFile 8 0 noKeyDoc), handleOf (parmParseFile 8 0 noKeyDoc))) := by decide!
  exact ⟨_, _, parse_any_fuel_fall 8 noKeyDoc 0 _ h0 h1 (by decide) fuel fall hfuel,
    by decide!, by decide!⟩

theorem C20_entry_without_key_stored_witness :
    ∃ m h, parmParseFile 8 0 noKeyDoc = some (0, some (m, h)) ∧
      IsLevel m 0 [0] ∧
      entry (nodeAt m 0) = ((PRMP_STRING : Int), none, some (bytes "v")) :=
  C20_entry_without_key_stored 8 0 (by decide)

/-- C16 as stated fails: a file whose only line has 606 bytes before its
newline parses with return code 0 and a handle is stored. -/
theorem C16_long_line_accepted :
    (longLineDoc.takeWhile (fun c => c ≠ 10)).length = 606 ∧
      (parmParseFile 700 0 longLineDoc).map (fun r => (r.1, r.2.isSome)) = some (0, true) := by
  decide!

/-- C16 (amended): `callbackIo` never reports the line-too-long failure: it
returns -4 or the length of the line it delivers, between 1 and 511; and a
line that starts with 511 bytes other than NUL and newline, not ending in a
carriage return, is delivered as a first line of 511 bytes, the rest of the
physical line being left to the next call. -/
theorem C16_long_line_read_in_pieces (p : PARSE_BLOCK) :
    ((callbackIo p).1 = -4 ∨
      (1 ≤ (callbackIo p).1 ∧ (callbackIo p).1 ≤ 511 ∧
        (callbackIo p).1 = ((callbackIo p).2.1.length : Int))) ∧
    ∀ (piece more : List Nat), p.fs = piece ++ more → piece.length = 511 →
      (∀ c ∈ piece, c ≠ 0 ∧ c ≠ 10) → piece.getLast? ≠ some 13 →
      callbackIo p = (511, piece, more) := by
  refine ⟨callbackIoLoop_code _ _, ?_⟩
  intro piece more hfs hlen hc hlast
  unfold callbackIo
  rw [hfs, callbackIoLoop]
  have hne : piece ++ more ≠ [] := by
    cases piece with
    | nil => simp at hlen
    | cons x l => simp
  have hf : fgets (PRMP_STRING_WORK_SIZE - 1) (piece ++ more) = (piece, more, false) := by
    have := fgets_piece piece more (fun c hx => (hc c hx).2)
    rw [hlen] at this
    exact this
  have hs : strlen piece = piece := by
    unfold strlen
    rw [List.takeWhile_eq_self_iff]
    intro x hx
    simpa using (hc x hx).1
  have h10 : piece.getLast? ≠ some 10 := by
    intro h
    exact (hc 10 (List.mem_of_mem_getLast? h)).2 rfl
  simp only [hne, if_false, hf, hs, Bool.false_eq_true, hlen]
  simp [PRMP_STRING_WORK_SIZE, h10, hlast, hlen]

theorem C16_long_line_read_in_pieces_witness :
    callbackIo (initParseBlock longLineDoc)
      = (511, longLinePiece, List.replicate 95 32 ++ [10]) :=
  (C16_long_line_read_in_pieces (initParseBlock longLineDoc)).2 longLinePiece
    (List.replicate 95 32 ++ [10]) (by decide!) (by decide!) (by decide!) (by decide!)

/-- C15 (fails on the code): a key in double quotes of 602 bytes over three
lines outgrows the work buffer and `next_string` returns -1, but `parse_key`
stores the -1 in an `unsigned char` and reads it as the end-of-file mark 255:
the file parses with return code 0 and a tree of two string entries without a
key (the rest of the oversized token, and `v`).  A value of 602 bytes leaves
an entry of type 0 in the tree, when the value read after the run off the end
of `parmParseNode` is not negative. -/
theorem C15_oversized_token_accepted (fuel : Nat) (fall : Int) (hfuel : 600 ≤ fuel) :
    (next_string fuel (allocNode (rootStart oversizedKeyDoc)) true).map (fun r => r.1)
        = some (-1) ∧
      parmParseFile fuel fall oversizedKeyDoc
        = some (0, some (oversizedKeyPool, { anchor := some 0 })) ∧
      IsLevel oversizedKeyPool 0 [0, 1] ∧
      entry (nodeAt oversizedKeyPool 0) = ((PRMP_STRING : Int), none, some (List.replicate 90 97)) ∧
      entry (nodeAt oversizedKeyPool 1) = ((PRMP_STRING : Int), none, some (bytes "v")) ∧
      (0 ≤ fall → parmParseFile fuel fall oversizedValueDoc
          = some (0, some (oversizedValuePool, { anchor := some 0 })) ∧
        IsLevel oversizedValuePool 0 [0] ∧
        entry (nodeAt oversizedValuePool 0) = (0, some (bytes "k"), none)) := by
  refine ⟨?_, parse_any_fuel_fall 600 oversizedKeyDoc 0 _ oversizedKeyDoc_zero
    oversizedKeyDoc_neg (by decide) fuel fall hfuel, by decide!, by decide!, by decide!,
    fun hfall => ⟨parmParseFile_mono 600 fuel hfuel fall oversizedValueDoc _
      (oversizedValueDoc_nonneg fall hfall), by decide!, by decide!⟩⟩
  have hg : GoodLine (List.replicate 200 97 ++ bytes "\": \"v\"") := by
    unfold GoodLine
    decide!
  have h := next_string_three_lines fuel (allocNode (rootStart oversizedKeyDoc))
    (bytes "\": \"v\"") [] true rfl hg (by omega)
  rw [← oversizedKeyDoc_eq] at h
  have e : allocNode (rootStart oversizedKeyDoc)
      = offLine (allocNode (rootStart oversizedKeyDoc)) oversizedKeyDoc := rfl
  rw [e, h]
  rfl

theorem C15_oversized_token_accepted_witness :
    parmParseFile 600 0 oversizedKeyDoc
      = some (0, some (oversizedKeyPool, { anchor := some 0 })) :=
  (C15_oversized_token_accepted 600 0 (by decide)).2.1

/-- C17 (fails on the code): a double quote that is never closed, followed by
more than 511 bytes, does not make the parse fail: `next_string` returns -1
for the token that outgrew the buffer, `parse_key` reads the -1 as the
end-of-file mark 255, and the file parses with return code 0; the tree holds
the rest of the line as a value without a key and the entry `b: 'y'`. -/
theorem C17_long_unterminated_quote_accepted (fuel : Nat) (fall : Int) (hfuel : 600 ≤ fuel) :
    34 ∉ unterminatedDoc.tail ∧
      parmParseFile fuel fall unterminatedDoc
        = some (0, some (unterminatedPool, { anchor := some 0 })) ∧
      IsLevel unterminatedPool 0 [0, 1] ∧
      entry (nodeAt unterminatedPool 0) = ((PRMP_STRING : Int), none, some (List.replicate 90 97)) ∧
      entry (nodeAt unterminatedPool 1)
        = ((PRMP_STRING : Int), some (bytes "b"), some (bytes "y")) :=
  ⟨by decide!, parse_any_fuel_fall 600 unterminatedDoc 0 _ unterminatedDoc_zero
    unterminatedDoc_neg (by decide) fuel fall hfuel, by decide!, by decide!, by decide!⟩

theorem C17_long_unterminated_quote_accepted_witness :
    parmParseFile 600 0 unterminatedDoc
      = some (0, some (unterminatedPool, { anchor := some 0 })) :=
  (C17_long_unterminated_quote_accepted 600 0 (by decide)).2.1

/-- C5: in the tree of a successful parse, for a cursor whose current entry
`i` lies in the current level `A`, is a nested level, and whose stack index is
below 5 (the stack having its 5 slots): `parmLevelDown` returns 0,
`parmLevelUp` right after it returns 0 and gives back the cursor with the same
current level, current entry and stack index (only the stack slot at the index
now holds the entry), and the next `parmGetNext` reports the entry that follows
`i` in its level, or `PRMP_END` when `i` is the last one. -/
theorem C5_levelDown_levelUp_round_trip (fuel : Nat) (fall : Int) (file : List Nat) (m : Pool)
    (h0 h : PRMP_HANDLE) (A i : Nat) (before after : List Nat)
    (hparse : parmParseFile fuel fall file = some (0, some (m, h0)))
    (hA : h.cur_anchor = some A) (hi : h.cur_node = some i)
    (hl : IsLevel m A (before ++ i :: after))
    (hty : (nodeAt m i).type = PRMP_NEXTLEVEL)
    (hidx : h.node_stack_index < PRMP_MAX_LEVELS)
    (hlen : h.node_stack.length = PRMP_MAX_LEVELS) :
    ∃ h1 h2 a, parmLevelDown m h = .done (0, h1) ∧ parmLevelUp m h1 = .done (0, h2) ∧
      h2 = { h with node_stack := h.node_stack.set h.node_stack_index (some i) } ∧
      h2.cur_anchor = h.cur_anchor ∧ h2.cur_node = h.cur_node ∧
      h2.node_stack_index = h.node_stack_index ∧
      parmGetNext m h2 = .done a ∧ a.h.cur_node = after.head? ∧ view a = following m after := by
  obtain ⟨own, hO, _, _⟩ := parse_tree_owned fuel fall file 0 m h0 hparse
  obtain ⟨hAlt, hchain⟩ := hl
  obtain ⟨x, hx⟩ : ∃ x, m.anchors[A]? = some x := ⟨_, List.getElem?_eq_getElem hAlt⟩
  obtain ⟨hilt, hnext⟩ := isChain_split m.nodes i after before _ hchain
  have hown : own[i]? = some A := by
    refine isChain_own m.anchors m.nodes own hO A _ _ hchain ?_ i (by simp)
    intro j hj
    rw [hx, Option.some_bind] at hj
    exact (hO.2.1 A x hx).1 j hj
  have hn : m.nodes[i]? = some (nodeAt m i) := nodes_getElem?_nodeAt m i hilt
  obtain ⟨L, hL1, hL2, hL3⟩ := (hO.2.2 i _ hn).2 hty
  rw [hown] at hL3
  obtain ⟨y, hy⟩ : ∃ y, m.anchors[L]? = some y := ⟨_, List.getElem?_eq_getElem hL2⟩
  have hyup : y.up = some A := by simpa [upOf, hy] using hL3
  have hdown : parmLevelDown m h = .done (0, { h with
      cur_anchor := some L
      node_stack := h.node_stack.set h.node_stack_index (some i)
      node_stack_index := h.node_stack_index + 1
      cur_node := none }) := by
    simp only [parmLevelDown, hi, hn, hty, hidx, and_self, if_true, hL1]
  have hslot : (h.node_stack.set h.node_stack_index (some i))[h.node_stack_index]?
      = some (some i) := by
    rw [List.getElem?_set]
    simp [hlen, hidx]
  have hup : parmLevelUp m { h with
      cur_anchor := some L
      node_stack := h.node_stack.set h.node_stack_index (some i)
      node_stack_index := h.node_stack_index + 1
      cur_node := none }
      = .done (0, { h with node_stack := h.node_stack.set h.node_stack_index (some i) }) := by
    simp only [parmLevelUp, Option.some_bind, hy, hyup, Nat.add_sub_cancel, hslot]
    simp [hA, hi]
  have hahead : Ahead m { h with node_stack := h.node_stack.set h.node_stack_index (some i) } A
      after := ⟨hA, by simp only [hi]; exact ⟨hilt, hnext⟩⟩
  cases after with
  | nil =>
    exact ⟨_, _, _, hdown, hup, rfl, rfl, rfl, rfl, getNext_end m _ A hahead, rfl, rfl⟩
  | cons j rest =>
    exact ⟨_, _, _, hdown, hup, rfl, rfl, rfl, rfl, (getNext_step m _ A j rest hahead).1,
      (by rw [report_h]; rfl), (by rw [view_report]; rfl)⟩

theorem C5_levelDown_levelUp_round_trip_witness :
    ∃ h1 h2 a, parmLevelDown sampleTree nestedCursor = .done (0, h1) ∧
      parmLevelUp sampleTree h1 = .done (0, h2) ∧
      h2 = { nestedCursor with
        node_stack := nestedCursor.node_stack.set nestedCursor.node_stack_index (some 1) } ∧
      h2.cur_anchor = nestedCursor.cur_anchor ∧ h2.cur_node = nestedCursor.cur_node ∧
      h2.node_stack_index = nestedCursor.node_stack_index ∧
      parmGetNext sampleTree h2 = .done a ∧ a.h.cur_node = [4, 7].head? ∧
      view a = following sampleTree [4, 7] :=
  C5_levelDown_levelUp_round_trip 40 0 sampleDoc sampleTree sampleHandle nestedCursor 0 1 [0]
    [4, 7] (by decide!) rfl rfl (by decide!) (by decide!) (by decide!) (by decide!)

/-- C19 as stated fails: a comment line of 600 bytes before the line `k: "v"`
is read in two pieces and the second piece is scanned as text, so the return
code changes from 0 to -2; and a file whose last line `k: "v"` has no newline
parses to the empty tree (that line is dropped), while with the comment line
`#c` after it the entry `k` is in the tree. -/
theorem C19_comment_line_changes_result :
    (parmParseFile 200 0 (joinLines [oneEntryLine])).map (fun r => (r.1, r.2.isSome))
        = some (0, true) ∧
      parmParseFile 200 0 (joinLines [longCommentLine, oneEntryLine]) = some (-2, none) ∧
      (parmParseFile 20 0 oneEntryLine).map (fun r => (r.1, r.2.map (fun t => t.1.nodes.length)))
        = some (0, some 1) ∧
      (parmParseFile 20 0 (oneEntryLine ++ [10] ++ bytes "#c" ++ [10])).map
          (fun r => (r.1, r.2.map (fun t => t.1.nodes.length))) = some (0, some 2) := by
  decide!

/-- C19 (amended): take a file made of lines that end with a newline and
have at most 510 bytes before it, where none of the lines `pre` leaves the
scanner inside a quoted token, and a comment line `cmt` of at most 510 bytes
whose first byte is `#`.  If `parmParseFile` returns a result on the file,
it returns the same result (return code, tree and handle) on the file with the
comment line put in after the lines `pre`: before the first line, between two
lines, or after the last line. -/
theorem C19_comment_line_keeps_result (fuel : Nat) (fall : Int) (pre post : List (List Nat))
    (cmt : List Nat) (r : Int × Option (Pool × PRMP_HANDLE))
    (hpre : GoodLines pre) (hpost : ∀ l ∈ post, IsLine l) (hcmt : IsComment cmt)
    (h : parmParseFile fuel fall (joinLines (pre ++ post)) = some r) :
    parmParseFile (fuel + 2) fall (joinLines (pre ++ cmt :: post)) = some r := by
  unfold parmParseFile parmParse at h ⊢
  have e0 : ∀ file, initParseBlock file = offL (initParseBlock []) 0 file := fun _ => rfl
  have e1 : ∀ file, (initParseBlock file).top_anchor = 0 := fun _ => rfl
  rw [e1] at h ⊢
  cases h1 : parmParseNode fuel fall fuel (initParseBlock (joinLines (pre ++ post))) 0 with
  | none => simp [h1] at h
  | some x =>
    obtain ⟨rc, p1⟩ := x
    have hN : Near post cmt (initParseBlock (joinLines (pre ++ post)))
        (initParseBlock (joinLines (pre ++ cmt :: post))) := by
      rw [e0 (joinLines (pre ++ post)), e0 (joinLines (pre ++ cmt :: post))]
      exact Near.off (initParseBlock []) pre 0 hpre rfl
    obtain ⟨r1, hr1, hR⟩ := (parse_near_aux post cmt hpost hcmt fuel).2.2 fall fuel _ _ 0 rc p1
      (Or.inl hN) h1
    have hr2 := (parse_mono_aux fuel).2.2 _ _ _ _ _ hr1 (fuel + 2) (fuel + 2) (by omega)
      (le_refl _)
    obtain ⟨ha, hn, _, _, ht⟩ := rel_fields post cmt p1 r1 hR
    simp only [h1] at h
    simp only [hr2, ha, hn, ht]
    exact h

theorem C19_comment_line_keeps_result_witness :
    ∃ r, parmParseFile 20 0 (joinLines ([firstLine] ++ [secondLine])) = some r ∧ r.1 = 0 ∧
      parmParseFile (20 + 2) 0 (joinLines ([firstLine] ++ shortCommentLine :: [secondLine]))
        = some r ∧
      GoodLines [firstLine] ∧ IsComment shortCommentLine := by
  have hline : ∀ l ∈ [secondLine], IsLine l := by
    intro l hl
    rw [List.mem_singleton] at hl
    subst hl
    exact ⟨by decide, by decide⟩
  have hclosed : scanQ .out (cook firstLine) = true := by decide!
  have hpre : GoodLines [firstLine] := by
    intro l hl
    rw [List.mem_singleton] at hl
    subst hl
    exact ⟨⟨by decide, by decide⟩, hclosed⟩
  have hcmt : IsComment shortCommentLine := ⟨⟨by decide, by decide⟩, by decide⟩
  have hs : (parmParseFile 20 0 (joinLines ([firstLine] ++ [secondLine]))).map (fun r => r.1)
      = some 0 := by decide!
  obtain ⟨r, hr, h0⟩ := Option.map_eq_some'.mp hs
  exact ⟨r, hr, h0, C19_comment_line_keeps_result 20 0 [firstLine] [secondLine]
    shortCommentLine r hpre hline hcmt hr, hpre, hcmt⟩

/-- C21: in the tree of every successful parse the handle points to the root
level 0, whose `up` is NULL, and for every level `L` of the pool and every
nested entry `e` in the chain of `L`, the child level of `e` is a level of the
pool other than the root whose `up` is `L`. -/
theorem C21_up_is_the_holding_level (fuel : Nat) (fall : Int) (file : List Nat) (m : Pool)
    (h : PRMP_HANDLE) (hparse : parmParseFile fuel fall file = some (0, some (m, h))) :
    h.anchor = some 0 ∧ upOf m.anchors 0 = none ∧
      ∀ (L : Nat) (l : List Nat) (e : Nat), IsLevel m L l → e ∈ l →
        (nodeAt m e).type = PRMP_NEXTLEVEL →
        ∃ C, (nodeAt m e).nextlevel = some C ∧ C < m.anchors.length ∧ C ≠ 0 ∧
          upOf m.anchors C = some L := by
  obtain ⟨own, hO, hroot, hh⟩ := parse_tree_owned fuel fall file 0 m h hparse
  refine ⟨by rw [hh], hroot, ?_⟩
  intro L l e hl he hty
  obtain ⟨C, h1, h2, h3⟩ := level_child_up m own hO L l hl e he hty
  refine ⟨C, h1, h2, ?_, h3⟩
  intro hC
  rw [hC, hroot] at h3
  cases h3

theorem C21_up_is_the_holding_level_witness :
    (sampleHandle.anchor = some 0 ∧ upOf sampleTree.anchors 0 = none ∧
      ∀ (L : Nat) (l : List Nat) (e : Nat), IsLevel sampleTree L l → e ∈ l →
        (nodeAt sampleTree e).type = PRMP_NEXTLEVEL →
        ∃ C, (nodeAt sampleTree e).nextlevel = some C ∧ C < sampleTree.anchors.length ∧ C ≠ 0 ∧
          upOf sampleTree.anchors C = some L) ∧
      IsLevel sampleTree 0 [0, 1, 4, 7] ∧ (nodeAt sampleTree 4).type = PRMP_NEXTLEVEL ∧
      (nodeAt sampleTree 4).nextlevel = some 2 ∧ upOf sampleTree.anchors 2 = some 0 :=
  ⟨C21_up_is_the_holding_level 40 0 sampleDoc sampleTree sampleHandle (by decide!),
    by decide!, by decide!, by decide!, by decide!⟩

/-- C22: for every scanner state and either value of `in_quotes`, a call of
`next_char` with `lookahead` set leaves a state on which the next call, with
`lookahead` set or not, delivers the same character; a second look ahead also
leaves the state as the first one left it. -/
theorem C22_peek_keeps_next_character (p : PARSE_BLOCK) (in_quotes : Bool) :
    (next_char (next_char p true in_quotes).2 false in_quotes).1
        = (next_char p true in_quotes).1 ∧
      next_char (next_char p true in_quotes).2 true in_quotes = next_char p true in_quotes := by
  have hline : ∀ q : PARSE_BLOCK, q.have_line = true →
      (next_char (next_char_line q true in_quotes).2 false in_quotes).1
          = (next_char_line q true in_quotes).1 ∧
        next_char (next_char_line q true in_quotes).2 true in_quotes
          = next_char_line q true in_quotes := by
    intro q hq
    by_cases hc : q.len = 0 ∨ (q.buf.headD 0 = 35 ∧ in_quotes = false)
    · have e1 : next_char_line q true in_quotes
          = (32, { q with have_line := false, len := 1 }) := by
        unfold next_char_line
        rw [if_pos hc]
        rfl
      rw [e1]
      constructor <;> simp [next_char]
    · have e1 : ∀ q1 : PARSE_BLOCK, q1 = q → next_char_line q1 true in_quotes = (q.buf.headD 0, q) := by
        intro q1 hq1
        subst hq1
        unfold next_char_line
        rw [if_neg hc]
        rfl
      have e2 : next_char_line q false in_quotes
          = (q.buf.headD 0, { q with buf := q.buf.tail, len := q.len - 1 }) := by
        unfold next_char_line
        rw [if_neg hc]
        rfl
      have e3 : ∀ la, next_char q la in_quotes = next_char_line q la in_quotes := by
        intro la
        unfold next_char
        rw [if_neg (by rw [hq]; simp)]
      rw [e1 q rfl]
      exact ⟨by rw [e3, e2], by rw [e3, e1 q rfl]⟩
  by_cases hl : p.have_line = true
  · have e : next_char p true in_quotes = next_char_line p true in_quotes := by
      simp [next_char, hl]
    rw [e]
    exact hline p hl
  · have hl0 : p.have_line = false := by simpa using hl
    by_cases h1 : p.len = 1
    · simp [next_char, hl0, h1]
    · by_cases he : p.is_eof = true
      · simp [next_char, hl0, h1, he]
      · by_cases hr : (callbackIo p).1 < 0
        · simp [next_char, hl0, h1, he, hr]
        · by_cases hz : (callbackIo p).1 = 0
          · simp [next_char, hl0, h1, he, hz]
          · have e : next_char p true in_quotes = next_char_line
                { p with fs := (callbackIo p).2.2, have_line := true, buf := (callbackIo p).2.1,
                         len := (callbackIo p).1.toNat } true in_quotes := by
              simp [next_char, hl0, h1, he, hr, hz]
            rw [e]
            exact hline _ rfl

/-- C25: take a level whose entries `f :: t` are strings or nested levels with
keys, and a cursor that stands in this level (before the first entry or on one
of the entries).  If `parmGetNext` returns `PRMP_END`, the cursor is left in
the same level and the next `parmGetNext` answers the first entry `f`.  If
`parmFindKey` or `parmFindNextKey` returns `PRMP_END`, the cursor is left in
the same level and the next `parmFindNextKey` with a key answers the first
entry of the level that has this key, or `PRMP_END` when there is none. -/
theorem C25_exhausted_level_starts_over (m : Pool) (h : PRMP_HANDLE) (A f : Nat)
    (t rest : List Nat) (key : List Nat) (fuel : Nat)
    (hA : (startAtTop h).cur_anchor = some A) (hl : IsLevel m A (f :: t))
    (hc : InLevel (startAtTop h) (f :: t) rest)
    (hs : ∀ j ∈ f :: t, Sound m j) (hf : (f :: t).length < fuel) :
    (∀ a, parmGetNext m h = .done a → a.rc = (PRMP_END : Int) →
      a.h.cur_anchor = some A ∧
        parmGetNext m a.h = .done (report { a.h with cur_node := some f } (nodeAt m f) true)) ∧
    (∀ a key0, (parmFindKey fuel m h key0 = some (.done a) ∨
        parmFindNextKey fuel m h key0 = some (.done a)) → a.rc = (PRMP_END : Int) →
      a.h.cur_anchor = some A ∧
        parmFindNextKey fuel m a.h key = some (.done
          (match (f :: t).find? (hit m key) with
            | none => endAnswer a.h
            | some j => report { a.h with cur_node := some j } (nodeAt m j) false))) := by
  obtain ⟨hahead, hsub, hlen⟩ := inLevel_ahead m (startAtTop h) A (f :: t) rest hA hl hc
  have hk : ∀ j ∈ f :: t, (nodeAt m j).key ≠ none := fun j hj => (hs j hj).1
  -- the cursor that an exhausted level leaves behind
  have hfresh : Ahead m (endAnswer (startAtTop h)).h A (f :: t) := ⟨hA, hl.2, hl.1⟩
  have hagain : ∀ a : Answer, a = endAnswer (startAtTop h) →
      a.h.cur_anchor = some A ∧
        parmFindNextKey fuel m a.h key = some (.done
          (match (f :: t).find? (hit m key) with
            | none => endAnswer a.h
            | some j => report { a.h with cur_node := some j } (nodeAt m j) false)) := by
    intro a ha
    subst ha
    refine ⟨hA, ?_⟩
    rw [findNextKey_ahead m key _ A (f :: t) fuel hfresh hk hf]
    exact congrArg (fun x => some (Outcome.done x)) (dropWhile_not_find (hit m key) _ _ (f :: t))
  constructor
  · intro a ha hrc
    rw [← getNext_startAtTop] at ha
    cases rest with
    | nil =>
      rw [getNext_end m _ A hahead] at ha
      cases ha
      exact ⟨hA, (getNext_step m _ A f t hfresh).1⟩
    | cons j r =>
      rw [(getNext_step m _ A j r hahead).1] at ha
      cases ha
      exact absurd hrc (report_rc_ne_end _ _ _ (hs j (hsub j (by simp))).2)
  · intro a key0 ha hrc
    rcases ha with ha | ha
    · rw [findKey_level m key0 h A (f :: t) fuel hA hl hk hf] at ha
      cases hd : (f :: t).dropWhile (fun j => !(hit m key0 j)) with
      | nil =>
        rw [hd] at ha
        simp only [Option.some.injEq, Outcome.done.injEq] at ha
        exact hagain a ha.symm
      | cons j r =>
        rw [hd] at ha
        simp only [Option.some.injEq, Outcome.done.injEq] at ha
        subst ha
        have hj : j ∈ f :: t := (List.dropWhile_sublist _).subset (by rw [hd]; simp)
        exact absurd hrc (report_rc_ne_end _ _ _ (hs j hj).2)
    · rw [← findNextKey_startAtTop,
        findNextKey_ahead m key0 _ A rest fuel hahead (fun j hj => hk j (hsub j hj))
          (by omega)] at ha
      cases hd : rest.dropWhile (fun j => !(hit m key0 j)) with
      | nil =>
        rw [hd] at ha
        simp only [Option.some.injEq, Outcome.done.injEq] at ha
        exact hagain a ha.symm
      | cons j r =>
        rw [hd] at ha
        simp only [Option.some.injEq, Outcome.done.injEq] at ha
        subst ha
        have hj : j ∈ rest := (List.dropWhile_sublist _).subset (by rw [hd]; simp)
        exact absurd hrc (report_rc_ne_end _ _ _ (hs j (hsub j hj)).2)

theorem C25_exhausted_level_starts_over_witness :
    ∃ a b, parmGetNext sampleTree lastCursor = .done a ∧ a.rc = (PRMP_END : Int) ∧
      parmGetNext sampleTree a.h
        = .done (report { a.h with cur_node := some 0 } (nodeAt sampleTree 0) true) ∧
      parmFindNextKey 5 sampleTree lastCursor (bytes "download") = some (.done b) ∧
      b.rc = (PRMP_END : Int) ∧
      parmFindNextKey 5 sampleTree b.h (bytes "download") = some (.done
        (match [0, 1, 4, 7].find? (hit sampleTree (bytes "download")) with
          | none => endAnswer b.h
          | some j => report { b.h with cur_node := some j } (nodeAt sampleTree j) false)) ∧
      [0, 1, 4, 7].find? (hit sampleTree (bytes "download")) = some 1 := by
  have T := C25_exhausted_level_starts_over sampleTree lastCursor 0 0 [1, 4, 7] []
    (bytes "download") 5 (by decide!) (by decide!) (Or.inr ⟨7, [0, 1, 4], by decide!, rfl⟩)
    (by decide!) (by decide)
  have g1 : parmGetNext sampleTree lastCursor = .done (endAnswer lastCursor) := by decide!
  have f1 : parmFindNextKey 5 sampleTree lastCursor (bytes "download")
      = some (.done (endAnswer lastCursor)) := by decide!
  exact ⟨_, _, g1, rfl, (T.1 _ g1 rfl).2, f1, rfl, (T.2 _ _ (Or.inr f1) rfl).2, by decide!⟩

/-- C24: on the tree of a successful parse, start with `parmSetBegin` and let
any sequence of `parmSetBegin`, `parmGetNext`, `parmLevelDown`, `parmLevelUp`,
`parmFindKey` and `parmFindNextKey` calls return.  Then the stack still has its
5 slots and `node_stack_index` is at most `PRMP_MAX_LEVELS`; whatever call
comes next touches `node_stack` only at an index from 0 to 4; the current
level (the root level while `cur_anchor` is NULL) lies exactly
`node_stack_index` levels below the root; and the next `parmGetNext` or
`parmLevelDown` returns, as does the next `parmLevelUp` unless `cur_anchor` is
NULL. -/
theorem C24_stack_index_within_bounds (fuel0 : Nat) (fall : Int) (file : List Nat) (m : Pool)
    (h0 : PRMP_HANDLE) (fuel : Nat) (ops : List CursorOp) (h : PRMP_HANDLE)
    (hparse : parmParseFile fuel0 fall file = some (0, some (m, h0)))
    (hrun : runOps fuel m ops (parmSetBegin h0) = some (.done h)) :
    h.node_stack.length = PRMP_MAX_LEVELS ∧ h.node_stack_index ≤ PRMP_MAX_LEVELS ∧
      (∀ op i, stackAccess m h op = some i → 0 ≤ i ∧ i ≤ 4) ∧
      (∃ A, (startAtTop h).cur_anchor = some A ∧
        atDepth m.anchors h.node_stack_index A = true) ∧
      (∃ a, parmGetNext m h = .done a) ∧ (∃ r, parmLevelDown m h = .done r) ∧
      (h.cur_anchor ≠ none → ∃ r, parmLevelUp m h = .done r) := by
  obtain ⟨own, hT, hh⟩ := parse_tree_ok fuel0 fall file 0 m h0 hparse
  have hstart : CursorOK m own (parmSetBegin h0) := by
    subst hh
    exact ⟨rfl, rfl, Nat.zero_le _, rfl, rfl⟩
  have hc := runOps_ok fuel m own hT ops _ h hstart hrun
  obtain ⟨hc1, A, hA⟩ := cursorOK_startAtTop m own hT h hc
  have h4 := hc1.2.2.2
  rw [hA] at h4
  have hidx : (startAtTop h).node_stack_index = h.node_stack_index := by
    unfold startAtTop
    split <;> rfl
  refine ⟨hc.2.1, hc.2.2.1, stackAccess_range m h hc.2.2.1, ⟨A, hA, ?_⟩, ?_, ?_, ?_⟩
  · rw [← hidx]
    exact stackOK_atDepth m own _ _ A h4.1
  · obtain ⟨a, e, _⟩ := getNext_ok m own hT h hc
    exact ⟨a, e⟩
  · obtain ⟨r, e, _⟩ := levelDown_ok m own hT h hc
    exact ⟨r, e⟩
  · intro hne
    rcases levelUp_ok m own h hc with ⟨e, _⟩ | ⟨r, e, _⟩
    · exact absurd e hne
    · exact ⟨r, e⟩

theorem C24_stack_index_within_bounds_witness :
    (walkedCursor.node_stack.length = PRMP_MAX_LEVELS ∧
      walkedCursor.node_stack_index ≤ PRMP_MAX_LEVELS ∧
      (∀ op i, stackAccess sampleTree walkedCursor op = some i → 0 ≤ i ∧ i ≤ 4) ∧
      (∃ A, (startAtTop walkedCursor).cur_anchor = some A ∧
        atDepth sampleTree.anchors walkedCursor.node_stack_index A = true) ∧
      (∃ a, parmGetNext sampleTree walkedCursor = .done a) ∧
      (∃ r, parmLevelDown sampleTree walkedCursor = .done r) ∧
      (walkedCursor.cur_anchor ≠ none → ∃ r, parmLevelUp sampleTree walkedCursor = .done r)) ∧
      walkedCursor.node_stack_index = 1 ∧ walkedCursor.cur_anchor = some 2 ∧
      walkedCursor.cur_node = some 6 :=
  ⟨C24_stack_index_within_bounds 40 0 sampleDoc sampleTree sampleHandle 10 sampleOps
    walkedCursor (by decide!) (by decide!), by decide!, by decide!, by decide!⟩

/-- C23: `parmParseFile` returns on every file when the fuel is at least nine
times the length of the file plus two, whatever value is read after a run off
the end of `parmParseNode`; on the way `parmParseNode` returns, and the pool it
leaves holds at most one level more than there are left braces in the file
(every recursive call is made for a level taken from the pool after a left
brace was read).  Each loop of `next_string` returns within the budget of the
scanner state, and every call of `next_string` leaves fewer unread bytes or
the end of the input reached. -/
theorem C23_parse_terminates (file : List Nat) (fall : Int) (fuel : Nat)
    (hfuel : 9 * file.length + 2 ≤ fuel) :
    (∃ r, parmParseFile fuel fall file = some r) ∧
      (∃ rc q, parmParseNode fuel fall fuel (initParseBlock file) (initParseBlock file).top_anchor
          = some (rc, q) ∧ q.anchors.length ≤ 1 + file.count 123) ∧
      (∀ (sf : Nat) (p : PARSE_BLOCK), budget p + 2 ≤ sf →
        (∃ r, next_string_lead sf p = some r) ∧
        (∀ c in_quotes quote_char, ∃ s, next_string_main sf p c in_quotes quote_char = some s) ∧
        (∀ c, ∃ s, next_string_trail sf p c = some s) ∧
        ∀ b, ∃ rc q, next_string sf p b = some (rc, q) ∧
          (q.is_eof = true ∨ unread (fun _ => 1) q < unread (fun _ => 1) p)) := by
  have hb : budget (initParseBlock file) = 3 * file.length := by
    simp [budget, initParseBlock]
  have hu : unread braceWeight (initParseBlock file) = file.count 123 := by
    simp [unread, initParseBlock, weigh_brace]
  obtain ⟨rc, q, e, _, hj⟩ := (parse_total_aux fuel).2.2 fall fuel (initParseBlock file)
    (initParseBlock file).top_anchor (by rw [hb]; omega) (by rw [hb]; omega)
  refine ⟨?_, ⟨rc, q, e, ?_⟩, ?_⟩
  · unfold parmParseFile parmParse
    rw [e]
    simp only
    split
    · exact ⟨_, rfl⟩
    · exact ⟨_, rfl⟩
  · rw [hu] at hj
    have h1 : (initParseBlock file).anchors.length = 1 := rfl
    omega
  · intro sf p hsf
    refine ⟨?_, ?_, ?_, ?_⟩
    · obtain ⟨c, q1, e1, _⟩ := lead_total sf p (by omega)
      exact ⟨_, e1⟩
    · intro c iq qc
      obtain ⟨s, e1, _⟩ := main_total sf p c iq qc hsf
      exact ⟨s, e1⟩
    · intro c
      obtain ⟨s, e1, _⟩ := trail_total sf p c (by omega)
      exact ⟨s, e1⟩
    · intro b
      obtain ⟨rc1, q1, e1, _, _, h1, _⟩ := next_string_total sf p b hsf
      exact ⟨rc1, q1, e1, h1⟩

theorem C23_parse_terminates_witness :
    9 * openLevelsDoc.length + 2 ≤ 110 ∧ openLevelsDoc.count 123 = 2 ∧
      (parmParseNode 110 0 110 (initParseBlock openLevelsDoc)
        (initParseBlock openLevelsDoc).top_anchor).map (fun r => (r.1, r.2.anchors.length))
        = some (-2, 3) ∧
      ((∃ r, parmParseFile 110 0 openLevelsDoc = some r) ∧
      (∃ rc q, parmParseNode 110 0 110 (initParseBlock openLevelsDoc)
          (initParseBlock openLevelsDoc).top_anchor
          = some (rc, q) ∧ q.anchors.length ≤ 1 + openLevelsDoc.count 123) ∧
      (∀ (sf : Nat) (p : PARSE_BLOCK), budget p + 2 ≤ sf →
        (∃ r, next_string_lead sf p = some r) ∧
        (∀ c in_quotes quote_char, ∃ s, next_string_main sf p c in_quotes quote_char = some s) ∧
        (∀ c, ∃ s, next_string_trail sf p c = some s) ∧
        ∀ b, ∃ rc q, next_string sf p b = some (rc, q) ∧
          (q.is_eof = true ∨ unread (fun _ => 1) q < unread (fun _ => 1) p))) :=
  ⟨by decide!, by decide!, by decide!, C23_parse_terminates openLevelsDoc 0 110 (by decide!)⟩

/-- C6: after `parmSetBegin`, whatever the cursor was, the calls of
`parmGetNext` answer the entries of the root level one by one in level order,
each with its key, its type and (for a string) its value, and the call after
the last entry answers `PRMP_END`; and when `parmLevelDown` returns 0 on a
cursor whose current entry has the level `A` as its next level, that level is
the current level of the cursor it leaves, and the calls of `parmGetNext`
answer the entries of that level in the same way. -/
theorem C6_getNext_enumerates_level (m : Pool) (h : PRMP_HANDLE) (A : Nat) (l : List Nat)
    (hl : IsLevel m A l) :
    (h.anchor = some A →
      ∃ as, getNextCalls m (l.length + 1) (parmSetBegin h) = .done as ∧
        as.map view = l.map (fun j => entry (nodeAt m j)) ++ [((PRMP_END : Int), none, none)]) ∧
    (∀ i h1, h.cur_node = some i → (nodeAt m i).nextlevel = some A →
      parmLevelDown m h = .done (0, h1) →
      h1.cur_anchor = some A ∧
        ∃ as, getNextCalls m (l.length + 1) h1 = .done as ∧
          as.map view = l.map (fun j => entry (nodeAt m j)) ++ [((PRMP_END : Int), none, none)]) := by
  have key : ∀ g : PRMP_HANDLE, Ahead m g A l →
      ∃ as, getNextCalls m (l.length + 1) g = .done as ∧
        as.map view = l.map (fun j => entry (nodeAt m j)) ++ [((PRMP_END : Int), none, none)] := by
    intro g hg
    refine ⟨_, getNextCalls_ahead m A l g hg, ?_⟩
    rw [List.map_append, List.map_map]
    congr 1
    apply List.map_congr_left
    intro j _
    exact view_report _ _
  constructor
  · intro hroot
    have hst : getNextCalls m (l.length + 1) (parmSetBegin h)
        = getNextCalls m (l.length + 1) (startAtTop (parmSetBegin h)) := by
      rw [getNextCalls.eq_2, getNextCalls.eq_2]
      have : parmGetNext m (parmSetBegin h) = parmGetNext m (startAtTop (parmSetBegin h)) := by
        simp [parmGetNext, startAtTop, parmSetBegin]
      rw [this]
    rw [hst]
    apply key
    refine ⟨by simp [startAtTop, parmSetBegin, hroot], ?_⟩
    simp only [startAtTop, parmSetBegin, if_true]
    exact ⟨hl.2, hl.1⟩
  · intro i h1 hcur hnext hdown
    have hh : h1.cur_anchor = some A ∧ h1.cur_node = none := by
      unfold parmLevelDown at hdown
      rw [hcur] at hdown
      simp only at hdown
      cases hn : m.nodes[i]? with
      | none => simp [hn] at hdown
      | some n =>
        have hi : i < m.nodes.length := by
          by_contra hc
          rw [List.getElem?_eq_none (by omega)] at hn
          exact Option.noConfusion hn
        have hna : nodeAt m i = n := by
          have := nodes_getElem?_nodeAt m i hi
          rw [hn] at this
          exact (Option.some.inj this).symm
        simp only [hn] at hdown
        split at hdown
        · simp only [Outcome.done.injEq, Prod.mk.injEq, true_and] at hdown
          rw [← hdown, ← hna]
          exact ⟨hnext, rfl⟩
        · simp at hdown
    refine ⟨hh.1, key h1 ⟨hh.1, ?_⟩⟩
    rw [hh.2]
    exact ⟨hl.2, hl.1⟩

theorem C6_getNext_enumerates_level_witness :
    (IsLevel sampleTree 0 [0, 1, 4, 7] ∧ sampleHandle.anchor = some 0 ∧
      ∃ as, getNextCalls sampleTree 5 (parmSetBegin sampleHandle) = .done as ∧
        as.map view = [0, 1, 4, 7].map (fun j => entry (nodeAt sampleTree j))
          ++ [((PRMP_END : Int), none, none)]) ∧
    (IsLevel sampleTree 1 [2, 3] ∧ nestedCursor.cur_node = some 1 ∧
      (nodeAt sampleTree 1).nextlevel = some 1 ∧
      parmLevelDown sampleTree nestedCursor = .done (0, descendedCursor) ∧
      descendedCursor.cur_anchor = some 1 ∧
      ∃ as, getNextCalls sampleTree 3 descendedCursor = .done as ∧
        as.map view = [2, 3].map (fun j => entry (nodeAt sampleTree j))
          ++ [((PRMP_END : Int), none, none)]) :=
  ⟨⟨by decide!, by decide!,
    (C6_getNext_enumerates_level sampleTree sampleHandle 0 [0, 1, 4, 7] (by decide!)).1
      (by decide!)⟩,
   ⟨by decide!, by decide!, by decide!, by decide!,
    (C6_getNext_enumerates_level sampleTree nestedCursor 1 [2, 3] (by decide!)).2 1
      descendedCursor (by decide!) (by decide!) (by decide!)⟩⟩

/-- C9 (fails on the code): the file `key` (a key token followed by the end of
input instead of a colon) parses with return code 0 and an empty top level,
for every value of the fuel from 12 on: the look ahead behind the token meets
the end of input, `next_string` returns 255 with the token in the work buffer,
and `parse_key` returns at its end-of-file test before the test
`term_char != ':'`.  The same key in quotes, the same key inside a nested
level and a key followed by another token are rejected with -2. -/
theorem C9_key_before_end_of_input_dropped (fuel : Nat) (fall : Int) (hfuel : 12 ≤ fuel) :
    parmParseFile fuel fall keyOnlyDoc
        = some (0, some ({ anchors := [{}], nodes := [{}] }, { anchor := some 0 })) ∧
      parmParseFile fuel fall quotedKeyOnlyDoc = some (-2, none) ∧
      parmParseFile fuel fall nestedKeyOnlyDoc = some (-2, none) ∧
      parmParseFile fuel fall keyValueDoc = some (-2, none) := by
  refine ⟨?_, ?_, ?_, ?_⟩
  · exact parse_any_fuel_fall 12 keyOnlyDoc 0 _ (by decide!) (by decide!) (by decide) fuel fall
      hfuel
  · exact parse_any_fuel_fall 12 quotedKeyOnlyDoc (-2) none (by decide!) (by decide!) (by decide)
      fuel fall hfuel
  · exact parse_any_fuel_fall 12 nestedKeyOnlyDoc (-2) none (by decide!) (by decide!) (by decide)
      fuel fall hfuel
  · exact parse_any_fuel_fall 12 keyValueDoc (-2) none (by decide!) (by decide!) (by decide)
      fuel fall hfuel

theorem C9_key_before_end_of_input_dropped_witness :
    parmParseFile 12 0 keyOnlyDoc
        = some (0, some ({ anchors := [{}], nodes := [{}] }, { anchor := some 0 })) ∧
      parmParseFile 12 0 quotedKeyOnlyDoc = some (-2, none) ∧
      parmParseFile 12 0 nestedKeyOnlyDoc = some (-2, none) ∧
      parmParseFile 12 0 keyValueDoc = some (-2, none) :=
  C9_key_before_end_of_input_dropped 12 0 (by decide)

end ParmParser
